import Mathlib

/-! # The dependency graph builder and the find cache of kati

A shallow embedding of `DepBuilder` (dep.go): rule ingestion
(`populateRules`), rule selection (`pickRule`) and planning (`buildPlan`,
`Eval`); and, of pathutil.go, of `wildcardUnescape` and of the queries
`findInDir`, `findExtFilesUnder` and `findleaves` of the find cache, with
`walk` and the binary search of `sort.Search`.

Modelling conventions.
* Go maps that are only looked up and updated (`rules`, `suffixRules`, `done`,
  `db.vars`, `tsvs`) are functions to `Option`; a map that is iterated
  (`ruleVars[T]`) is an association list, whose order stands for the order
  in which Go happens to iterate.
* `*DepNode` pointers are indices into the list `nodes` of the builder (the
  heap); a node is allocated by appending to that list.
* A Go panic or a fatal `Error(...)` is an `Except.error`; recursion of
  `buildPlan` is bounded by a fuel argument and running out of it is the
  error `Err.outOfFuel`.
* Logging and warnings are left out.
* Slices of strings are modelled twice. In the value model (`Rule`,
  `DepBuilder`, the first part of the definitions) a slice is the list of its
  elements and `append` makes a new list: what the program computes as long
  as no call of `append` writes into an array that another slice shares. The
  memory model (`Slice`, `Memory`, `Mem.Rule`, `Mem.DepBuilder`) keeps what
  Go keeps: slice headers over backing arrays, `append` in place when the
  capacity allows, loops that read a slice element by element. The theorems
  `pickRule_view`, `buildPlan_view` and `Eval_view` show that planning in the
  memory model is planning in the value model when no pattern rule has spare
  capacity behind its prerequisites; the run of `sharedBuilder` shows that it
  is not when one has.
* The files array of the find cache is a list of `FileInfo`; strings are
  compared character by character (`strLt`); `filepath.Clean` and
  `filepath.Join` are parameters of `findInDir` and `findExtFilesUnder`, and
  the words a query writes are appended to a list. Where a run is evaluated
  on unclean names, `filepath.Clean` and `filepath.Dir` are `cleanPath` and
  `filepathDir`.
-/

namespace Kati

/-! ## Rules, variables, plan nodes -/

/-- Modelled from the spec: the `Rule` record of the rule parser, whose
declaration is not among the sources (section 3 of the spec, field names as
used in dep.go). -/
structure Rule where
  outputs : List String := []
  inputs : List String := []
  orderOnlyInputs : List String := []
  outputPatterns : List String := []
  isDoubleColon : Bool := false
  isSuffixRule : Bool := false
  cmds : List String := []
  filename : String := ""
  lineno : Int := 0
  cmdLineno : Int := 0
deriving DecidableEq, Repr

/-- Modelled from the spec: a variable value (`Var`, `TargetSpecificVar` of
var.go, not among the sources): an assignment operator and a value
expression; `value` is the string form `String()` returns. -/
structure Var where
  op : String := ""
  value : String := ""
deriving DecidableEq, Repr

/-- A variable table that is looked up and updated: `db.vars`, `tsvs`,
`DepNode.TargetSpecificVars`. -/
abbrev Vars := String → Option Var

/-- A variable table that is iterated: an entry of `ruleVars`. -/
abbrev VarList := List (String × Var)

/-- The empty table, `make(Vars)`. -/
def Vars.empty : Vars := fun _ => none

/-- The assignment `vt[name] = v`. -/
def Vars.set (vt : Vars) (name : String) (v : Var) : Vars :=
  fun k => if k = name then some v else vt k

/-- The statement `delete(vt, name)`. -/
def Vars.delete (vt : Vars) (name : String) : Vars :=
  fun k => if k = name then none else vt k

/-- Modelled from the spec: `Vars.save(name)` of var.go (not among the
sources), "save(name) → restore-closure": the closure is represented by the
value it captured, and `Vars.restore` runs it. -/
def Vars.save (vt : Vars) (name : String) : Option Var := vt name

/-- Running the closure returned by `save`: put the saved value back, or
delete the name when it was absent. -/
def Vars.restore (vt : Vars) (name : String) (saved : Option Var) : Vars :=
  match saved with
  | some v => vt.set name v
  | none => vt.delete name

/-- Modelled from the spec: `Vars.Merge` of var.go (not among the sources),
on iterated tables: every binding of `vars2` is written over `vt`. -/
def VarList.Merge (vt vars2 : VarList) : VarList :=
  vt.filter (fun kv => !(vars2.map Prod.fst).contains kv.1) ++ vars2

/-- The record `DepNode`; `Deps` holds pointers, that is indices into
`DepBuilder.nodes`. -/
structure DepNode where
  Output : String
  Cmds : List String := []
  Deps : List Nat := []
  HasRule : Bool := false
  IsOrderOnly : Bool := false
  ActualInputs : List String := []
  TargetSpecificVars : Vars := Vars.empty
  Filename : String := ""
  Lineno : Int := 0

/-- What the builder takes from outside dep.go: the filesystem test
`exists`, `filepath.Clean`, and `Var.AppendVar` with its evaluator. -/
structure World where
  fsExists : String → Bool
  clean : String → String
  appendVar : Vars → Var → Var → Var

/-- The record `DepBuilder`, with the heap `nodes` of the plan nodes
allocated so far. -/
structure DepBuilder where
  rules : String → Option Rule := fun _ => none
  ruleVars : String → Option VarList := fun _ => none
  implicitRules : List Rule := []
  suffixRules : String → Option (List Rule) := fun _ => none
  firstRule : Option Rule := none
  vars : Vars := Vars.empty
  done : String → Option Nat := fun _ => none
  nodes : List DepNode := []
  trace : List String := []
  nodeCnt : Nat := 0
  pickExplicitRuleCnt : Nat := 0
  pickImplicitRuleCnt : Nat := 0
  pickSuffixRuleCnt : Nat := 0
  pickExplicitRuleWithoutCmdCnt : Nat := 0

/-- Ways in which the builder aborts. -/
inductive Err where
  | outOfFuel
  | multiOutputPattern
  | implicitRuleOutputs
  | suffixRuleInputs
  | indexOutOfRange
  | nilRule
  | incompatibleColonKinds
  | noTargets
deriving DecidableEq, Repr

/-! ## String helpers -/

/-- The extension of a path as a character list: `filepath.Ext`, the suffix
beginning at the final dot of the final path element, scanned from the end
(the argument is the reversed path, the accumulator the suffix read so far). -/
def extRev : List Char → List Char → List Char
  | [], _ => []
  | c :: rest, acc =>
    if c = '/' then []
    else if c = '.' then c :: acc
    else extRev rest (c :: acc)

/-- Go's `filepath.Ext`. -/
def filepathExt (path : String) : String :=
  String.mk (extRev path.data.reverse [])

/-- Modelled from the spec: `stripExt` of strutil.go (not among the sources):
the path without its extension. -/
def stripExt (s : String) : String :=
  String.mk (s.data.take (s.data.length - (filepathExt s).data.length))

/-- The function `replaceSuffix`: `stripExt(s) + "." + newsuf`. -/
def replaceSuffix (s newsuf : String) : String :=
  stripExt s ++ "." ++ newsuf

/-- Split a character list at the first occurrence of a character: what is
before it and what is after it (`strings.IndexByte` and the two slices). -/
def splitFirst (c : Char) : List Char → Option (List Char × List Char)
  | [] => none
  | d :: rest =>
    if d = c then some ([], rest)
    else match splitFirst c rest with
      | some (p, s) => some (d :: p, s)
      | none => none

/-- Split a character list at its first `%`. -/
def splitPercent (l : List Char) : Option (List Char × List Char) :=
  splitFirst '%' l

/-- Modelled from the spec: the stem a pattern `prefix%suffix` matches in a
string (strutil.go is not among the sources; section 4.2.3): the middle
slice, when the string starts with the prefix, ends with the suffix and is
at least as long as both together. -/
def patternStem (pat str : String) : Option String :=
  match splitPercent pat.data with
  | none => none
  | some (p, s) =>
    if p.isPrefixOf str.data ∧ s.isSuffixOf str.data
        ∧ p.length + s.length ≤ str.data.length then
      some (String.mk ((str.data.drop p.length).take
        (str.data.length - p.length - s.length)))
    else none

/-- Modelled from the spec: `matchPattern` of strutil.go (not among the
sources; section 4.2.3). A pattern without `%`, on which the spec is silent,
matches the string equal to it. -/
def matchPattern (pat str : String) : Bool :=
  match splitPercent pat.data with
  | none => pat == str
  | some _ => (patternStem pat str).isSome

/-- Modelled from the spec: `substPattern(pat, repl, str)` of strutil.go (not
among the sources; section 4.2.3): the template `repl` with its `%` replaced
by the stem that `pat` matches in `str`. A template without `%` has nothing
to replace, and where `pat` does not match, on which the spec is silent, the
template is left as it is. -/
def substPattern (pat repl str : String) : String :=
  match patternStem pat str, splitPercent repl.data with
  | some stem, some (p, s) => String.mk p ++ stem ++ String.mk s
  | _, _ => repl

/-! ## Rule selection -/

/-- The method `DepBuilder.exists`. -/
def DepBuilder.exists (w : World) (db : DepBuilder) (target : String) : Bool :=
  if (db.rules target).isSome then true
  else
    match db.rules ".PHONY" with
    | some rule => if rule.inputs.contains target then true else w.fsExists target
    | none => w.fsExists target

/-- The method `DepBuilder.canPickImplicitRule`; indexing `outputPatterns[0]`
of a rule without patterns panics. -/
def DepBuilder.canPickImplicitRule (w : World) (db : DepBuilder) (rule : Rule)
    (output : String) : Except Err Bool :=
  match rule.outputPatterns with
  | [] => .error .indexOutOfRange
  | outputPattern :: _ =>
    if !matchPattern outputPattern output then .ok false
    else .ok (rule.inputs.all fun input =>
      db.exists w (substPattern outputPattern input output))

/-- The method `DepBuilder.mergeImplicitRuleVars`, called with `vars` not
nil. -/
def DepBuilder.mergeImplicitRuleVars (db : DepBuilder) (outputs : List String)
    (vars : Option VarList) : Except Err (Option VarList) :=
  match outputs with
  | [o] =>
    match db.ruleVars o with
    | none => .ok vars
    | some ivars =>
      match vars with
      | none => .ok (some ivars)
      | some vs => .ok (some ((VarList.Merge [] ivars).Merge vs))
  | _ => .error .implicitRuleOutputs

/-- The commands of a rule pointer, none for nil: `len(rule.cmds) > 0`. -/
def hasCmds (rule : Option Rule) : Bool :=
  match rule with
  | some r => !r.cmds.isEmpty
  | none => false

/-- The loop of `pickRule` over `db.implicitRules`: the result of the first
applicable rule, or `none` when the loop ends without returning. Value
model: the prerequisites of the synthetic rule are the list
`irule.inputs ++ r.inputs` that `append(irule.inputs, r.inputs...)` returns;
that the call may write into the array of `irule.inputs` is kept by
`Mem.DepBuilder.pickImplicit`. -/
def DepBuilder.pickImplicit (w : World) (db : DepBuilder) (rule : Option Rule)
    (vars : Option VarList) (output : String) :
    List Rule → Except Err (Option (Option Rule × Option VarList × Bool))
  | [] => .ok none
  | irule :: rest =>
    match db.canPickImplicitRule w irule output with
    | .error e => .error e
    | .ok false => DepBuilder.pickImplicit w db rule vars output rest
    | .ok true =>
      match rule with
      | some r0 =>
        .ok (some (some { r0 with
          outputPatterns := irule.outputPatterns
          inputs := irule.inputs ++ r0.inputs
          cmds := irule.cmds
          cmdLineno := irule.cmdLineno }, vars, true))
      | none =>
        match vars with
        | some _ =>
          match db.mergeImplicitRuleVars irule.outputPatterns vars with
          | .error e => .error e
          | .ok vars1 => .ok (some (some irule, vars1, true))
        | none => .ok (some (some irule, vars, true))

/-- The loop of `pickRule` over the suffix rules of the target's extension. -/
def DepBuilder.pickSuffix (w : World) (db : DepBuilder) (rule : Option Rule)
    (vars : Option VarList) (output : String) :
    List Rule → Except Err (Option (Option Rule × Option VarList × Bool))
  | [] => .ok none
  | irule :: rest =>
    match irule.inputs with
    | [inp] =>
      if !db.exists w (replaceSuffix output inp) then
        DepBuilder.pickSuffix w db rule vars output rest
      else
        match rule with
        | some r0 =>
          .ok (some (some { r0 with
            inputs := replaceSuffix output inp :: r0.inputs
            cmds := irule.cmds
            cmdLineno := irule.cmdLineno }, vars, true))
        | none =>
          match vars with
          | some _ =>
            match db.mergeImplicitRuleVars irule.outputs vars with
            | .error e => .error e
            | .ok vars1 => .ok (some (some irule, vars1, true))
          | none => .ok (some (some irule, vars, true))
    | _ => .error .suffixRuleInputs

/-- The tail of `pickRule`, from `outputSuffix := filepath.Ext(output)` on. -/
def DepBuilder.pickSuffixStep (w : World) (db : DepBuilder) (rule : Option Rule)
    (vars : Option VarList) (output : String) :
    Except Err ((Option Rule × Option VarList × Bool) × DepBuilder) :=
  match (filepathExt output).data with
  | '.' :: suffixName =>
    match db.suffixRules (String.mk suffixName) with
    | none => .ok ((rule, vars, rule.isSome), db)
    | some rules =>
      match db.pickSuffix w rule vars output rules with
      | .error e => .error e
      | .ok (some res) =>
        .ok (res, { db with pickSuffixRuleCnt := db.pickSuffixRuleCnt + 1 })
      | .ok none => .ok ((rule, vars, rule.isSome), db)
  | _ => .ok ((rule, vars, rule.isSome), db)

/-- The middle of `pickRule`: the loop over `db.implicitRules`, and the rest
of the function when no pattern rule is applicable. -/
def DepBuilder.pickImplicitStep (w : World) (db : DepBuilder) (rule : Option Rule)
    (vars : Option VarList) (output : String) :
    Except Err ((Option Rule × Option VarList × Bool) × DepBuilder) :=
  match db.pickImplicit w rule vars output db.implicitRules with
  | .error e => .error e
  | .ok (some res) =>
    .ok (res, { db with pickImplicitRuleCnt := db.pickImplicitRuleCnt + 1 })
  | .ok none => db.pickSuffixStep w rule vars output

/-- The method `DepBuilder.pickRule`: the rule, the variables, the flag, and
the builder with its counters advanced. -/
def DepBuilder.pickRule (w : World) (db : DepBuilder) (output : String) :
    Except Err ((Option Rule × Option VarList × Bool) × DepBuilder) :=
  let rule := db.rules output
  let vars := db.ruleVars output
  if hasCmds rule then
    .ok ((rule, vars, true),
      { db with pickExplicitRuleCnt := db.pickExplicitRuleCnt + 1 })
  else if rule.isSome then
    DepBuilder.pickImplicitStep w
      { db with
        pickExplicitRuleCnt := db.pickExplicitRuleCnt + 1
        pickExplicitRuleWithoutCmdCnt := db.pickExplicitRuleWithoutCmdCnt + 1 }
      rule vars output
  else db.pickImplicitStep w rule vars output

/-! ## Planning -/

/-- One closure of the list `restores`: which table it restores (`true` for
`db.vars`, `false` for `tsvs`), the name and the value `save` captured. -/
structure Restore where
  isGlobal : Bool
  name : String
  saved : Option Var

/-- One round of the loop `for name, v := range vars` of `buildPlan`, on the
pair (`db.vars`, `tsvs`). -/
def applyVar (w : World) (name : String) (tsv : Var) (st : Vars × Vars) :
    Vars × Vars :=
  let (dbvars, tsvs) := st
  if tsv.op = ":=" ∨ tsv.op = "=" then
    (dbvars.set name tsv, tsvs.set name tsv)
  else if tsv.op = "+=" then
    match dbvars name with
    | none => (dbvars.set name tsv, tsvs.set name tsv)
    | some oldVar =>
      if oldVar.value = "" then (dbvars.set name tsv, tsvs.set name tsv)
      else
        let v := w.appendVar dbvars oldVar tsv
        (dbvars.set name v, tsvs.set name v)
  else if tsv.op = "?=" then
    match dbvars name with
    | none => (dbvars.set name tsv, tsvs.set name tsv)
    | some _ => (dbvars, tsvs)
  else (dbvars, tsvs)

/-- The loop `for name, v := range vars` of `buildPlan`: the two tables after
it, and the list `restores` (given so far as `restores`). -/
def applyVars (w : World) : VarList → Vars × Vars → List Restore →
    (Vars × Vars) × List Restore
  | [], st, restores => (st, restores)
  | (name, tsv) :: rest, st, restores =>
    applyVars w rest (applyVar w name tsv st)
      (restores ++ [⟨true, name, st.1.save name⟩, ⟨false, name, st.2.save name⟩])

/-- The deferred function of `buildPlan`: run the closures in list order. -/
def runRestores : List Restore → Vars × Vars → Vars × Vars
  | [], st => st
  | r :: rest, st =>
    runRestores rest
      (if r.isGlobal then (st.1.restore r.name r.saved, st.2)
       else (st.1, st.2.restore r.name r.saved))

/-- The input a prerequisite of the selected rule stands for, in the first
loop of `buildPlan`. -/
def actualInput (rule : Rule) (output input : String) : Except Err String :=
  match rule.outputPatterns with
  | [] => if rule.isSuffixRule then .ok (replaceSuffix output input) else .ok input
  | [pat] => .ok (substPattern pat input output)
  | _ => .error .multiOutputPattern

/-- Write a node through its pointer. -/
def DepBuilder.modifyNode (db : DepBuilder) (n : Nat) (f : DepNode → DepNode) :
    DepBuilder :=
  { db with nodes := db.nodes.modify f n }

/-- The result of a call of `buildPlan`: the node pointer, the table `tsvs`
as the call leaves it, and the builder. -/
abbrev PlanResult := Except Err (Nat × Vars × DepBuilder)

/-- The loop `for _, input := range rule.inputs` of `buildPlan`, with the
recursive call as a parameter; it returns `children`, `actualInputs`, `tsvs`
and the builder. -/
def planInputs (plan : String → Vars → DepBuilder → PlanResult) (rule : Rule)
    (output : String) :
    List String → List Nat → List String → Vars → DepBuilder →
    Except Err (List Nat × List String × Vars × DepBuilder)
  | [], children, actualInputs, tsvs, db => .ok (children, actualInputs, tsvs, db)
  | input :: rest, children, actualInputs, tsvs, db =>
    match actualInput rule output input with
    | .error e => .error e
    | .ok input1 =>
      match plan input1 tsvs { db with trace := db.trace ++ [input1] } with
      | .error e => .error e
      | .ok (n, tsvs1, db1) =>
        planInputs plan rule output rest (children ++ [n])
          (actualInputs ++ [input1]) tsvs1 { db1 with trace := db1.trace.dropLast }

/-- The loop `for _, input := range rule.orderOnlyInputs` of `buildPlan`. -/
def planOrderOnly (plan : String → Vars → DepBuilder → PlanResult) :
    List String → List Nat → Vars → DepBuilder →
    Except Err (List Nat × Vars × DepBuilder)
  | [], children, tsvs, db => .ok (children, tsvs, db)
  | input :: rest, children, tsvs, db =>
    match plan input tsvs { db with trace := db.trace ++ [input] } with
    | .error e => .error e
    | .ok (n, tsvs1, db1) =>
      planOrderOnly plan rest (children ++ [n]) tsvs1
        (({ db1 with trace := db1.trace.dropLast } : DepBuilder).modifyNode n
          fun nd => { nd with IsOrderOnly := true })

/-- The assignments that complete the node at the end of `buildPlan`. -/
def finishNode (rule : Rule) (children : List Nat) (actualInputs : List String)
    (tsvs : Vars) (nd : DepNode) : DepNode :=
  { nd with
    Deps := children
    HasRule := true
    Cmds := rule.cmds
    ActualInputs := actualInputs
    TargetSpecificVars := tsvs
    Filename := rule.filename
    Lineno := if rule.cmds.isEmpty then nd.Lineno else rule.cmdLineno }

/-- The two statements `n := &DepNode{Output: output}; db.done[output] = n`
of `buildPlan`: the new node is allocated at the end of the heap. -/
def DepBuilder.newNode (db : DepBuilder) (output : String) : DepBuilder :=
  { db with
    nodes := db.nodes ++ [({ Output := output } : DepNode)]
    done := fun k => if k = output then some db.nodes.length else db.done k }

/-- The part of `buildPlan` after `pickRule` has returned a rule, for the
node `n` of `output`: the target-specific variables are applied, the
prerequisites are planned, the node is completed and the deferred function
restores the variables. The recursive call is the parameter `plan`. -/
def planRule (w : World) (plan : String → Vars → DepBuilder → PlanResult)
    (n : Nat) (rule : Rule) (vars : Option VarList) (output : String) (tsvs : Vars)
    (db : DepBuilder) : PlanResult :=
  let applied := applyVars w (vars.getD []) (db.vars, tsvs) []
  match planInputs plan rule output rule.inputs [] [] applied.1.2
      { db with vars := applied.1.1 } with
  | .error e => .error e
  | .ok (children, actualInputs, tsvs1, db1) =>
    match planOrderOnly plan rule.orderOnlyInputs children tsvs1 db1 with
    | .error e => .error e
    | .ok (children2, tsvs2, db2) =>
      let db3 := db2.modifyNode n (finishNode rule children2 actualInputs tsvs2)
      let restored := runRestores applied.2 (db3.vars, tsvs2)
      .ok (n, restored.2, { db3 with vars := restored.1 })

/-- The method `DepBuilder.buildPlan` (the argument `neededBy` is only
logged and is left out). -/
def DepBuilder.buildPlan (w : World) : Nat → String → Vars → DepBuilder → PlanResult
  | 0, _, _, _ => .error .outOfFuel
  | fuel + 1, output, tsvs, db0 =>
    let db := { db0 with nodeCnt := db0.nodeCnt + 1 }
    match db.done output with
    | some n => .ok (n, tsvs, db)
    | none =>
      match (db.newNode output).pickRule w output with
      | .error e => .error e
      | .ok ((_, _, false), db1) => .ok (db.nodes.length, tsvs, db1)
      | .ok ((none, _, true), _) => .error .nilRule
      | .ok ((some rule, vars, true), db1) =>
        planRule w (DepBuilder.buildPlan w fuel) db.nodes.length rule vars output
          tsvs db1

/-! ## Ingestion of the rules -/

/-- The method `DepBuilder.populateSuffixRule`. -/
def DepBuilder.populateSuffixRule (db : DepBuilder) (rule : Rule)
    (output : String) : Bool × DepBuilder :=
  match output.data with
  | '.' :: rest =>
    match splitFirst '.' rest with
    | none => (false, db)
    | some (inputSuffix, afterDot) =>
      if (splitFirst '.' afterDot).isSome then (false, db)
      else
        let outputSuffix := String.mk afterDot
        let r : Rule := { rule with
          inputs := [String.mk inputSuffix]
          isSuffixRule := true }
        (true, { db with
          suffixRules := fun k =>
            if k = outputSuffix then some (r :: (db.suffixRules outputSuffix).getD [])
            else db.suffixRules k })
  | _ => (false, db)

/-- The function `mergeRules`; `Error(...)` is fatal. Value model: each
field of the merged rule is the list its call of `append` returns; that the
calls may write into the arrays of `oldRule.cmds`, `rule.inputs` and
`oldRule.inputs` is kept by `Mem.mergeRules`. -/
def mergeRules (oldRule rule : Rule) (_output : String) (_isSuffixRule : Bool) :
    Except Err Rule :=
  if oldRule.isDoubleColon != rule.isDoubleColon then .error .incompatibleColonKinds
  else
    let r := rule
    let r : Rule :=
      if rule.isDoubleColon then { r with cmds := oldRule.cmds ++ r.cmds }
      else if !oldRule.cmds.isEmpty && rule.cmds.isEmpty then
        { r with cmds := oldRule.cmds }
      else r
    let r : Rule :=
      if !rule.cmds.isEmpty then
        { r with
          inputs := r.inputs ++ oldRule.inputs
          orderOnlyInputs := r.orderOnlyInputs ++ oldRule.orderOnlyInputs }
      else
        { r with
          inputs := oldRule.inputs ++ r.inputs
          orderOnlyInputs := oldRule.orderOnlyInputs ++ r.orderOnlyInputs }
    .ok { r with outputPatterns := r.outputPatterns ++ oldRule.outputPatterns }

/-- The test `strings.HasPrefix(output, ".")`. -/
def startsWithDot (s : String) : Bool :=
  match s.data with
  | '.' :: _ => true
  | _ => false

/-- The body of the loop `for _, output := range rule.outputs` of
`populateExplicitRule`. -/
def DepBuilder.populateOutput (w : World) (db : DepBuilder) (rule : Rule)
    (output : String) : Except Err DepBuilder :=
  let output := w.clean output
  let (isSuffixRule, db) := db.populateSuffixRule rule output
  match db.rules output with
  | some oldRule =>
    match mergeRules oldRule rule output isSuffixRule with
    | .error e => .error e
    | .ok r =>
      .ok { db with rules := fun k => if k = output then some r else db.rules k }
  | none =>
    .ok { db with
      rules := fun k => if k = output then some rule else db.rules k
      firstRule :=
        if db.firstRule.isNone && !startsWithDot output then some rule
        else db.firstRule }

/-- The loop `for _, output := range rule.outputs` of `populateExplicitRule`. -/
def DepBuilder.populateOutputs (w : World) (rule : Rule) :
    List String → DepBuilder → Except Err DepBuilder
  | [], db => .ok db
  | output :: rest, db =>
    match db.populateOutput w rule output with
    | .error e => .error e
    | .ok db1 => DepBuilder.populateOutputs w rule rest db1

/-- The method `DepBuilder.populateExplicitRule`. -/
def DepBuilder.populateExplicitRule (w : World) (db : DepBuilder) (rule : Rule) :
    Except Err DepBuilder :=
  if rule.outputs.isEmpty then .ok db
  else DepBuilder.populateOutputs w rule rule.outputs db

/-- The method `DepBuilder.populateImplicitRule`. -/
def DepBuilder.populateImplicitRule (db : DepBuilder) (rule : Rule) : DepBuilder :=
  { db with
    implicitRules := db.implicitRules ++
      rule.outputPatterns.map fun outputPattern =>
        { rule with outputPatterns := [outputPattern] } }

/-- The last loop of `populateRules`, which swaps `implicitRules[i]` and
`implicitRules[len-i-1]` for `i` from 0 until `i >= len/2`; the first
argument bounds the number of rounds by the length of the slice. -/
def reverseLoop : Nat → Nat → List Rule → List Rule
  | 0, _, l => l
  | k + 1, i, l =>
    if i ≥ l.length / 2 then l
    else
      let j := l.length - i - 1
      match l[i]?, l[j]? with
      | some r, some rj => reverseLoop k (i + 1) ((l.set i rj).set j r)
      | _, _ => l

/-- Modelled from the spec: the `EvalResult` record handed over by the
evaluator (its declaration is not among the sources; section 6). -/
structure EvalResult where
  rules : List Rule := []
  ruleVars : String → Option VarList := fun _ => none

/-- The two inner loops of `populateRules`, which clean the prerequisites of
a rule in place. -/
def cleanRule (w : World) (rule : Rule) : Rule :=
  { rule with
    inputs := rule.inputs.map w.clean
    orderOnlyInputs := rule.orderOnlyInputs.map w.clean }

/-- The first loop of `populateRules`, over `er.rules`. -/
def DepBuilder.populateRulesLoop (w : World) :
    List Rule → DepBuilder → Except Err DepBuilder
  | [], db => .ok db
  | rule :: rest, db =>
    let rule : Rule := cleanRule w rule
    match db.populateExplicitRule w rule with
    | .error e => .error e
    | .ok db1 =>
      DepBuilder.populateRulesLoop w rest
        (if rule.outputs.isEmpty then db1.populateImplicitRule rule else db1)

/-- The method `DepBuilder.populateRules`. -/
def DepBuilder.populateRules (w : World) (db : DepBuilder) (er : EvalResult) :
    Except Err DepBuilder :=
  match DepBuilder.populateRulesLoop w er.rules db with
  | .error e => .error e
  | .ok db1 =>
    .ok { db1 with
      implicitRules := reverseLoop db1.implicitRules.length 0 db1.implicitRules }

/-- The function `NewDepBuilder`. -/
def NewDepBuilder (w : World) (er : EvalResult) (vars : Vars) :
    Except Err DepBuilder :=
  DepBuilder.populateRules w { ruleVars := er.ruleVars, vars := vars } er

/-- The loop `for _, target := range targets` of `Eval`. -/
def DepBuilder.evalLoop (w : World) (fuel : Nat) :
    List String → List Nat → DepBuilder → Except Err (List Nat × DepBuilder)
  | [], nodes, db => .ok (nodes, db)
  | target :: rest, nodes, db =>
    match DepBuilder.buildPlan w fuel target Vars.empty
        { db with trace := [target] } with
    | .error e => .error e
    | .ok (n, _, db1) => DepBuilder.evalLoop w fuel rest (nodes ++ [n]) db1

/-- The targets `Eval` plans: the given ones, or the first output of
`db.firstRule` when none is given. -/
def DepBuilder.evalTargets (db : DepBuilder) (targets : List String) :
    Except Err (List String) :=
  if targets.isEmpty then
    match db.firstRule with
    | none => .error .noTargets
    | some r =>
      match r.outputs with
      | o :: _ => .ok [o]
      | [] => .error .indexOutOfRange
  else .ok targets

/-- The method `DepBuilder.Eval`: the root pointers and the builder. -/
def DepBuilder.Eval (w : World) (fuel : Nat) (db : DepBuilder)
    (targets : List String) : Except Err (List Nat × DepBuilder) :=
  match db.evalTargets targets with
  | .error e => .error e
  | .ok ts => DepBuilder.evalLoop w fuel ts [] db

/-- Whether an implicit rule is applicable to a target: `canPickImplicitRule`
returns true for it. -/
def DepBuilder.implicitApplicable (w : World) (db : DepBuilder) (output : String)
    (rule : Rule) : Bool :=
  match db.canPickImplicitRule w rule output with
  | .ok b => b
  | .error _ => false

/-- The suffix rules `pickRule` tries for a target: the entry of the suffix
table under the target's extension without its dot. -/
def DepBuilder.suffixCandidates (db : DepBuilder) (output : String) : List Rule :=
  match (filepathExt output).data with
  | '.' :: suffixName => (db.suffixRules (String.mk suffixName)).getD []
  | _ => []

/-- Whether a suffix rule is applicable to a target: the file it names as
input exists. -/
def DepBuilder.suffixApplicable (w : World) (db : DepBuilder) (output : String)
    (rule : Rule) : Bool :=
  match rule.inputs with
  | [inp] => db.exists w (replaceSuffix output inp)
  | _ => false

/-- The variables `mergeImplicitRuleVars` returns for a pattern or suffix
rule registered under `key`. -/
def DepBuilder.mergedVars (db : DepBuilder) (key : String) (vars : Option VarList) :
    Option VarList :=
  match db.ruleVars key with
  | none => vars
  | some ivars =>
    match vars with
    | none => some ivars
    | some vs => some (ivars.Merge vs)

/-- The rule `pickRule` returns when a pattern rule is applicable: the
pattern rule itself, or the explicit rule overlaid with it. -/
def implicitChoice (rule : Option Rule) (irule : Rule) : Rule :=
  match rule with
  | some r0 => { r0 with
      outputPatterns := irule.outputPatterns
      inputs := irule.inputs ++ r0.inputs
      cmds := irule.cmds
      cmdLineno := irule.cmdLineno }
  | none => irule

/-- The rule `pickRule` returns when a suffix rule is applicable. -/
def suffixChoice (rule : Option Rule) (irule : Rule) (output : String) : Rule :=
  match rule with
  | some r0 => { r0 with
      inputs := (irule.inputs.map (replaceSuffix output)) ++ r0.inputs
      cmds := irule.cmds
      cmdLineno := irule.cmdLineno }
  | none => irule

/-- The variables `pickRule` returns next to an implicit or suffix rule
registered under the names `keys`. -/
def DepBuilder.choiceVars (db : DepBuilder) (rule : Option Rule)
    (vars : Option VarList) (keys : List String) : Option VarList :=
  match rule, vars, keys with
  | none, some _, [key] => db.mergedVars key vars
  | _, _, _ => vars

/-- What `pickRule` selects once the explicit rule (`rule`, possibly nil) has
no commands: the first applicable pattern rule, else the first applicable
suffix rule, else the explicit rule itself. -/
def DepBuilder.selectedImplicit (w : World) (db : DepBuilder) (rule : Option Rule)
    (vars : Option VarList) (T : String) : Option Rule × Option VarList × Bool :=
  match db.implicitRules.find? (db.implicitApplicable w T) with
  | some I =>
    (some (implicitChoice rule I), db.choiceVars rule vars I.outputPatterns, true)
  | none =>
    match (db.suffixCandidates T).find? (db.suffixApplicable w T) with
    | some S =>
      (some (suffixChoice rule S T), db.choiceVars rule vars S.outputs, true)
    | none => (rule, vars, rule.isSome)

/-- What `pickRule` selects for a target, as a function of the tables: the
explicit rule with commands, else the first applicable pattern rule, else the
first applicable suffix rule, else the explicit rule without commands or
nothing. -/
def DepBuilder.selected (w : World) (db : DepBuilder) (T : String) :
    Option Rule × Option VarList × Bool :=
  if hasCmds (db.rules T) then (db.rules T, db.ruleVars T, true)
  else db.selectedImplicit w (db.rules T) (db.ruleVars T) T

/-- The tables on which `pickRule` cannot abort for a target: every pattern
rule has one output pattern, every suffix rule tried for the target has one
input, and one output name when the target has rule-scoped variables but no
explicit rule. -/
def DepBuilder.Pickable (db : DepBuilder) (T : String) : Prop :=
  (∀ r ∈ db.implicitRules, r.outputPatterns.length = 1) ∧
  (∀ r ∈ db.suffixCandidates T, r.inputs.length = 1) ∧
  (db.rules T = none → db.ruleVars T ≠ none →
    ∀ r ∈ db.suffixCandidates T, r.outputs.length = 1)

/-- Two builders that differ in their statistics counters only. -/
def DepBuilder.sameButCounters (a b : DepBuilder) : Prop :=
  a.rules = b.rules ∧ a.ruleVars = b.ruleVars ∧ a.implicitRules = b.implicitRules ∧
  a.suffixRules = b.suffixRules ∧ a.firstRule = b.firstRule ∧ a.vars = b.vars ∧
  a.done = b.done ∧ a.nodes = b.nodes ∧ a.trace = b.trace ∧ a.nodeCnt = b.nodeCnt

/-- The tables on which the implicit and suffix part of `pickRule` cannot
abort, for an explicit rule `rule` and variables `vars`. -/
def DepBuilder.PickableWith (db : DepBuilder) (rule : Option Rule)
    (vars : Option VarList) (T : String) : Prop :=
  (∀ r ∈ db.implicitRules, r.outputPatterns.length = 1) ∧
  (∀ r ∈ db.suffixCandidates T, r.inputs.length = 1) ∧
  (rule = none → vars ≠ none → ∀ r ∈ db.suffixCandidates T, r.outputs.length = 1)

instance (db : DepBuilder) (T : String) : Decidable (db.Pickable T) := by
  unfold DepBuilder.Pickable
  infer_instance

/-- A world for the examples: the files on disk are the listed names, the
names used are clean already, and `AppendVar` joins the two values with a
blank. -/
def worldOf (files : List String) : World :=
  { fsExists := fun t => files.contains t
    clean := id
    appendVar := fun _ old tsv => { op := tsv.op, value := old.value ++ " " ++ tsv.value } }

/-- The builder `NewDepBuilder` makes of a rule list and a table of
rule-scoped variables, with no global variables (the empty builder when it
fails). -/
def builderOf (w : World) (rules : List Rule) (ruleVars : List (String × VarList)) :
    DepBuilder :=
  match NewDepBuilder w { rules := rules, ruleVars := fun k => ruleVars.lookup k }
      Vars.empty with
  | .ok db => db
  | .error _ => {}

/-- The error a computation ends with, if any. -/
def errorOf {α : Type} (r : Except Err α) : Option Err :=
  match r with
  | .error e => some e
  | .ok _ => none

/-- The value a computation ends with, if any. -/
def valueOf {α : Type} (r : Except Err α) : Option α :=
  match r with
  | .error _ => none
  | .ok a => some a

/-- Example: `.c.o .s.o: ; cc -c $<` and `bar.o: CFLAGS := -O2`, with the
file `bar.c` on disk. -/
def suffixPairBuilder : DepBuilder :=
  builderOf (worldOf ["bar.c"])
    [{ outputs := [".c.o", ".s.o"], cmds := ["cc -c $<"] }]
    [("bar.o", [("CFLAGS", { op := ":=", value := "-O2" })])]

/-- Example (scenario S3): `foo.o: extra.h` and `%.o: %.c ; cc -c $<`, with
`foo.c` and `extra.h` on disk. -/
def s3Builder : DepBuilder :=
  builderOf (worldOf ["foo.c", "extra.h"])
    [{ outputs := ["foo.o"], inputs := ["extra.h"] },
     { outputPatterns := ["%.o"], inputs := ["%.c"], cmds := ["cc -c $<"] }] []

/-- The commands of the last rule of a sequence that has commands, or
`dflt` when no rule of the sequence has any. -/
def lastCmds (dflt : List String) (rs : List Rule) : List String :=
  ((rs.filter fun r => !r.cmds.isEmpty).getLast?.map fun r => r.cmds).getD dflt

/-- The commands all rules of a sequence have, in the order of the sequence. -/
def allCmds (rs : List Rule) : List String :=
  (rs.map fun r => r.cmds).flatten

/-- The pattern rules `populateRules` derives from one rule of the list: for
a rule without outputs, one rule per output pattern, with the prerequisites
cleaned. -/
def derivedImplicit (w : World) (rule : Rule) : List Rule :=
  if rule.outputs.isEmpty then
    (cleanRule w rule).outputPatterns.map fun outputPattern =>
      { cleanRule w rule with outputPatterns := [outputPattern] }
  else []

/-- Example: the pattern rule `%.o: %.c ; cc -c $<`. -/
def ruleFromC : Rule :=
  { outputPatterns := ["%.o"], inputs := ["%.c"], cmds := ["cc -c $<"] }

/-- Example: the pattern rule `%.o: %.s ; as $<`. -/
def ruleFromS : Rule :=
  { outputPatterns := ["%.o"], inputs := ["%.s"], cmds := ["as $<"] }

/-- Example: the pattern rule `%.o: %.f ; f77 -c $<`. -/
def ruleFromF : Rule :=
  { outputPatterns := ["%.o"], inputs := ["%.f"], cmds := ["f77 -c $<"] }

/-- Example: the files `foo.c`, `foo.s` and `foo.f` are on disk. -/
def threeSources : World := worldOf ["foo.c", "foo.s", "foo.f"]

/-- Node `b` is node `a`, possibly with its `IsOrderOnly` flag set since. -/
def DepNode.sameButOrderOnly (a b : DepNode) : Prop :=
  b = a ∨ b = { a with IsOrderOnly := true }

/-- The memo table `done` and the heap agree: a name is memoised to a node
with that output, and every node is memoised under its own output. -/
def DepBuilder.MemoOK (db : DepBuilder) : Prop :=
  (∀ name n, db.done name = some n → ∃ nd, db.nodes[n]? = some nd ∧ nd.Output = name) ∧
  (∀ n nd, db.nodes[n]? = some nd → db.done nd.Output = some n)

/-- Two builders with the same rule tables, memo table and heap. -/
def DepBuilder.sameGraph (a b : DepBuilder) : Prop :=
  b.rules = a.rules ∧ b.ruleVars = a.ruleVars ∧ b.implicitRules = a.implicitRules ∧
  b.suffixRules = a.suffixRules ∧ b.firstRule = a.firstRule ∧
  b.done = a.done ∧ b.nodes = a.nodes

/-- Builder `b` is a later state of builder `a`: the rule tables are the
same, memoised names stay memoised to the same node, and the nodes of `a`
are still there, changed at most in their `IsOrderOnly` flag. -/
structure DepBuilder.Extends (a b : DepBuilder) : Prop where
  rules : b.rules = a.rules
  ruleVars : b.ruleVars = a.ruleVars
  implicitRules : b.implicitRules = a.implicitRules
  suffixRules : b.suffixRules = a.suffixRules
  firstRule : b.firstRule = a.firstRule
  done_mono : ∀ name n, a.done name = some n → b.done name = some n
  old_nodes : ∀ (n : Nat) (nd : DepNode), a.nodes[n]? = some nd →
    ∃ nd1, b.nodes[n]? = some nd1 ∧ nd.sameButOrderOnly nd1

/-- The content of a completed node `n`, in terms of what `pickRule` selects
for its output: without a rule the node is bare; with a rule `HasRule` is
set, the commands are the rule's, `ActualInputs` are the substituted
prerequisites, and `Deps` holds the memoised nodes of the actual inputs
followed by those of the order-only prerequisites, the latter flagged
`IsOrderOnly`. -/
def DepBuilder.Planned (w : World) (db : DepBuilder) (n : Nat) : Prop :=
  ∃ nd, db.nodes[n]? = some nd ∧
    (∀ rule vars, db.selected w nd.Output = (rule, vars, false) →
      nd.HasRule = false ∧ nd.Cmds = [] ∧ nd.Deps = [] ∧ nd.ActualInputs = []) ∧
    (∀ rule vars, db.selected w nd.Output = (some rule, vars, true) →
      ∃ ins oos,
        List.Forall₂ (fun i a => actualInput rule nd.Output i = .ok a)
          rule.inputs nd.ActualInputs ∧
        nd.HasRule = true ∧ nd.Cmds = rule.cmds ∧ nd.Filename = rule.filename ∧
        nd.Deps = ins ++ oos ∧
        List.Forall₂ (fun name c => db.done name = some c) nd.ActualInputs ins ∧
        List.Forall₂ (fun name c => db.done name = some c ∧
            ∃ cd, db.nodes[c]? = some cd ∧ cd.IsOrderOnly = true)
          rule.orderOnlyInputs oos)

/-- What a call of `buildPlan` guarantees about the graph: the memo table
stays consistent, the result is a later state in which the target is
memoised to the returned node, and every node allocated by the call is
completed. -/
def PlanOK (w : World) (plan : String → Vars → DepBuilder → PlanResult) : Prop :=
  ∀ T tsvs db n tsvs1 db1, plan T tsvs db = .ok (n, tsvs1, db1) → db.MemoOK →
    db1.MemoOK ∧ db.Extends db1 ∧ db1.done T = some n ∧
    ∀ m, db.nodes.length ≤ m → m < db1.nodes.length → db1.Planned w m

/-- Example (scenario S6): `x: y z ; r`, `y: z ; s`, `z: ; t`. -/
def s6Builder : DepBuilder :=
  builderOf (worldOf [])
    [{ outputs := ["x"], inputs := ["y", "z"], cmds := ["r"] },
     { outputs := ["y"], inputs := ["z"], cmds := ["s"] },
     { outputs := ["z"], cmds := ["t"] }] []

/-- Example (scenario S5): the rule `a: b | c ; run`. -/
def s5Rule : Rule :=
  { outputs := ["a"], inputs := ["b"], orderOnlyInputs := ["c"], cmds := ["run"] }

/-- Example (scenario S5): the builder of the rule `a: b | c ; run`. -/
def s5Builder : DepBuilder :=
  builderOf (worldOf []) [s5Rule] []

/-- Every node of the heap is completed. -/
def DepBuilder.AllPlanned (w : World) (db : DepBuilder) : Prop :=
  ∀ m, m < db.nodes.length → db.Planned w m

/-- The edges of the plan graph: node `p` has node `c` among its `Deps`. -/
def DepBuilder.edge (db : DepBuilder) (p c : Nat) : Prop :=
  ∃ nd, db.nodes[p]? = some nd ∧ c ∈ nd.Deps

/-- Target `P` is a prerequisite of target `T` under the rule selected for
`T`: an actual input of that rule, or one of its order-only inputs. -/
def DepBuilder.prereq (w : World) (db : DepBuilder) (T P : String) : Prop :=
  ∃ rule vars, db.selected w T = (some rule, vars, true) ∧
    ((∃ i ∈ rule.inputs, actualInput rule T i = .ok P) ∨ P ∈ rule.orderOnlyInputs)

/-- Example: `a: b` and `b: a`, two rules that depend on each other. -/
def cycleBuilder : DepBuilder :=
  builderOf (worldOf [])
    [{ outputs := ["a"], inputs := ["b"] }, { outputs := ["b"], inputs := ["a"] }] []

/-- Example (scenario S3): the explicit rule `foo.o: extra.h`, without
commands. -/
def s3Explicit : Rule :=
  { outputs := ["foo.o"], inputs := ["extra.h"] }

/-- Example: `foo.o: x%y | gen` without commands and `%.o: %.c ; cc -c $<`,
with `foo.c` on disk. -/
def percentBuilder : DepBuilder :=
  builderOf (worldOf ["foo.c"])
    [{ outputs := ["foo.o"], inputs := ["x%y"], orderOnlyInputs := ["gen"] }, ruleFromC] []

/-- Example (scenario S2): the builder of `.c.o: ; cc -c $<`, with `bar.c`
on disk. -/
def s2Builder : DepBuilder :=
  builderOf (worldOf ["bar.c"]) [{ outputs := [".c.o"], cmds := ["cc -c $<"] }] []

/-- Example (scenario S2): the suffix-table entry derived from
`.c.o: ; cc -c $<`. -/
def s2Suffix : Rule :=
  { outputs := [".c.o"], inputs := ["c"], isSuffixRule := true, cmds := ["cc -c $<"] }

/-- Example: `.c.o: ; cc -c $<` followed by `.s.o: ; as $<`, with `bar.c` and
`bar.s` on disk. -/
def twoSuffixBuilder : DepBuilder :=
  builderOf (worldOf ["bar.c", "bar.s"])
    [{ outputs := [".c.o"], cmds := ["cc -c $<"] },
     { outputs := [".s.o"], cmds := ["as $<"] }] []

/-- The rule-scoped variable tables are maps: no name occurs twice in the
list that stands for one of them. -/
def DepBuilder.VarsOK (db : DepBuilder) : Prop :=
  ∀ T l, db.ruleVars T = some l → (l.map Prod.fst).Nodup

/-- The two tables after the deferred function has run for the names
`keys`: at these names the values of `saved`, elsewhere those of `st`. -/
def restoredTo (keys : List String) (saved st : Vars × Vars) : Vars × Vars :=
  (fun k => if k ∈ keys then saved.1 k else st.1 k,
   fun k => if k ∈ keys then saved.2 k else st.2 k)

/-- What a call of `buildPlan` guarantees about the variables: it leaves
`tsvs` and `db.vars` as it found them. -/
def PlanFrame (plan : String → Vars → DepBuilder → PlanResult) : Prop :=
  ∀ T tsvs db n tsvs1 db1, plan T tsvs db = .ok (n, tsvs1, db1) → db.VarsOK →
    tsvs1 = tsvs ∧ db1.vars = db.vars ∧ db1.ruleVars = db.ruleVars ∧
    db1.rules = db.rules ∧ db1.implicitRules = db.implicitRules ∧
    db1.suffixRules = db.suffixRules

/-- Example (scenario S1, with more bindings): `%.o: %.c ; cc -c $<` and the
rule-scoped variables `CFLAGS += -O2`, `OPT ?= 1`, `DBG := 0` of `foo.o`,
with `foo.c` on disk and the global variable `CFLAGS = -g`. -/
def s1Builder : DepBuilder :=
  { builderOf (worldOf ["foo.c"]) [ruleFromC]
      [("foo.o", [("CFLAGS", { op := "+=", value := "-O2" }),
                  ("OPT", { op := "?=", value := "1" }),
                  ("DBG", { op := ":=", value := "0" })])] with
    vars := Vars.empty.set "CFLAGS" { op := "=", value := "-g" } }

/-- The names a table of rule-scoped variables binds. -/
def boundNames (vars : Option VarList) : List String :=
  (vars.getD []).map Prod.fst

/-- The loop over the regular prerequisites of `buildPlan`, entered with the
table `tsvs` in the builder `db`, reaches the recursive call `buildPlan(P)`
with the table `tsvsP` in the builder `dbP`: at its first round (`here`), or
after the call of the first round has returned (`later`). -/
inductive InputsReach (plan : String → Vars → DepBuilder → PlanResult) (rule : Rule)
    (output : String) :
    List String → Vars → DepBuilder → String → Vars → DepBuilder → Prop
  | here (input : String) (rest : List String) (tsvs : Vars) (db : DepBuilder) (P : String) :
      actualInput rule output input = .ok P →
      InputsReach plan rule output (input :: rest) tsvs db P tsvs
        { db with trace := db.trace ++ [P] }
  | later (input : String) (rest : List String) (tsvs : Vars) (db : DepBuilder)
      (input1 : String) (n : Nat) (tsvs1 : Vars) (db1 : DepBuilder)
      (P : String) (tsvsP : Vars) (dbP : DepBuilder) :
      actualInput rule output input = .ok input1 →
      plan input1 tsvs { db with trace := db.trace ++ [input1] } = .ok (n, tsvs1, db1) →
      InputsReach plan rule output rest tsvs1 { db1 with trace := db1.trace.dropLast }
        P tsvsP dbP →
      InputsReach plan rule output (input :: rest) tsvs db P tsvsP dbP

/-- The loop over the order-only prerequisites of `buildPlan`, entered with
the table `tsvs` in the builder `db`, reaches the recursive call
`buildPlan(P)` with the table `tsvsP` in the builder `dbP`. -/
inductive OrderOnlyReach (plan : String → Vars → DepBuilder → PlanResult) :
    List String → Vars → DepBuilder → String → Vars → DepBuilder → Prop
  | here (input : String) (rest : List String) (tsvs : Vars) (db : DepBuilder) :
      OrderOnlyReach plan (input :: rest) tsvs db input tsvs
        { db with trace := db.trace ++ [input] }
  | later (input : String) (rest : List String) (tsvs : Vars) (db : DepBuilder)
      (n : Nat) (tsvs1 : Vars) (db1 : DepBuilder)
      (P : String) (tsvsP : Vars) (dbP : DepBuilder) :
      plan input tsvs { db with trace := db.trace ++ [input] } = .ok (n, tsvs1, db1) →
      OrderOnlyReach plan rest tsvs1
        (({ db1 with trace := db1.trace.dropLast } : DepBuilder).modifyNode n
          fun nd => { nd with IsOrderOnly := true }) P tsvsP dbP →
      OrderOnlyReach plan (input :: rest) tsvs db P tsvsP dbP

/-- The call `buildPlan(T)` with the table `tsvs` in the builder `db` (and
fuel `fuel + 1`) finds `T` not memoised, selects `rule` with the variables
`vars`, and one of its two loops reaches the recursive call `buildPlan(P)`
with the table `tsvsP` in the builder `dbP`. -/
def Requests (w : World) (fuel : Nat) (T : String) (tsvs : Vars) (db : DepBuilder)
    (rule : Rule) (vars : Option VarList) (P : String) (tsvsP : Vars)
    (dbP : DepBuilder) : Prop :=
  db.done T = none ∧
  ∃ dbB, (({ db with nodeCnt := db.nodeCnt + 1 } : DepBuilder).newNode T).pickRule w T
      = .ok ((some rule, vars, true), dbB) ∧
    (InputsReach (DepBuilder.buildPlan w fuel) rule T rule.inputs
        (applyVars w (vars.getD []) (dbB.vars, tsvs) []).1.2
        { dbB with vars := (applyVars w (vars.getD []) (dbB.vars, tsvs) []).1.1 }
        P tsvsP dbP ∨
     ∃ children ais tsvsD dbD,
       planInputs (DepBuilder.buildPlan w fuel) rule T rule.inputs [] []
         (applyVars w (vars.getD []) (dbB.vars, tsvs) []).1.2
         { dbB with vars := (applyVars w (vars.getD []) (dbB.vars, tsvs) []).1.1 }
         = .ok (children, ais, tsvsD, dbD) ∧
       OrderOnlyReach (DepBuilder.buildPlan w fuel) rule.orderOnlyInputs tsvsD dbD
         P tsvsP dbP)

/-- The call `buildPlan(T)` with fuel `F` reaches the call `buildPlan(P)`
with fuel `fuel` through a chain of requests, each made by a target that is
planned for the first time with a selected rule, and on which no target
after `T` binds the variable `X`. -/
inductive InScope (w : World) (X : String) (F : Nat) (T : String) (tsvs : Vars)
    (db : DepBuilder) : Nat → String → Vars → DepBuilder → Prop
  | direct (fuel : Nat) (rule : Rule) (vars : Option VarList) (P : String) (tsvsP : Vars)
      (dbP : DepBuilder) :
      F = fuel + 1 →
      Requests w fuel T tsvs db rule vars P tsvsP dbP →
      InScope w X F T tsvs db fuel P tsvsP dbP
  | next (fuel : Nat) (M : String) (tsvsM : Vars) (dbM : DepBuilder) (rule : Rule)
      (vars : Option VarList) (P : String) (tsvsP : Vars) (dbP : DepBuilder) :
      InScope w X F T tsvs db (fuel + 1) M tsvsM dbM →
      Requests w fuel M tsvsM dbM rule vars P tsvsP dbP →
      X ∉ boundNames vars →
      InScope w X F T tsvs db fuel P tsvsP dbP

/-- Builder `b` keeps the memo table of `a` and its nodes from index `lo`
on, changed at most in their `IsOrderOnly` flag. -/
def DepBuilder.KeptFrom (lo : Nat) (a b : DepBuilder) : Prop :=
  (∀ name n, a.done name = some n → b.done name = some n) ∧
  ∀ (k : Nat) (nd : DepNode), lo ≤ k → a.nodes[k]? = some nd →
    ∃ nd1, b.nodes[k]? = some nd1 ∧ nd.sameButOrderOnly nd1

/-- Example: `t: m ; ct`, `m: n ; cm`, `n: ; cn`, with the rule-scoped
bindings `X := 1` of `t` and `X := 2` of `m`. -/
def shadowBuilder : DepBuilder :=
  builderOf (worldOf [])
    [{ outputs := ["t"], inputs := ["m"], cmds := ["ct"] },
     { outputs := ["m"], inputs := ["n"], cmds := ["cm"] },
     { outputs := ["n"], cmds := ["cn"] }]
    [("t", [("X", { op := ":=", value := "1" })]),
     ("m", [("X", { op := ":=", value := "2" })])]

/-- Example: the single rule `.foo bar: ; c`, whose first output begins with
a dot and whose second output does not. -/
def dotFirstBuilder : DepBuilder :=
  builderOf (worldOf []) [{ outputs := [".foo", "bar"], cmds := ["c"] }] []

/-- Example: the static pattern rules `t: %: ; c1` and `t: t%: ; c2`, merged
into one explicit rule of `t` with two output patterns and no prerequisite. -/
def twoPatternBuilder : DepBuilder :=
  builderOf (worldOf [])
    [{ outputs := ["t"], outputPatterns := ["%"], cmds := ["c1"] },
     { outputs := ["t"], outputPatterns := ["t%"], cmds := ["c2"] }] []

/-- Example: the static pattern rules `t: %: a ; c1` and `t: t%: ; c2`, merged
into one explicit rule of `t` with two output patterns and the prerequisite
`a`. -/
def twoPatternInputBuilder : DepBuilder :=
  builderOf (worldOf [])
    [{ outputs := ["t"], outputPatterns := ["%"], inputs := ["a"], cmds := ["c1"] },
     { outputs := ["t"], outputPatterns := ["t%"], cmds := ["c2"] }] []

/-- Example: `a: b ; ca`, `c: | b ; cc`, `b: ; cb`. -/
def flagBuilder : DepBuilder :=
  builderOf (worldOf [])
    [{ outputs := ["a"], inputs := ["b"], cmds := ["ca"] },
     { outputs := ["c"], orderOnlyInputs := ["b"], cmds := ["cc"] },
     { outputs := ["b"], cmds := ["cb"] }] []

/-- Example: the pattern rule `%.o: %.c | %.d ; cc -c $<`, with `foo.c` on
disk. -/
def orderOnlyPatternBuilder : DepBuilder :=
  builderOf (worldOf ["foo.c"])
    [{ outputPatterns := ["%.o"], inputs := ["%.c"], orderOnlyInputs := ["%.d"],
       cmds := ["cc -c $<"] }] []

/-! ## The find cache (pathutil.go) -/

/-- Go's order `<` on strings, on character lists: lexicographic, a proper
prefix coming first. Go compares byte by byte, which on UTF-8 text is the
order of the code points, character by character. -/
def strLt : List Char → List Char → Bool
  | _, [] => false
  | [], _ :: _ => true
  | a :: as, b :: bs =>
    if a < b then true
    else if b < a then false
    else strLt as bs

/-- The comparison `a < b` of two Go strings. -/
def pathLess (a b : String) : Bool :=
  strLt a.data b.data

/-- The function `strings.HasPrefix`. -/
def hasPrefix (s pre : String) : Bool :=
  pre.data.isPrefixOf s.data

/-- The function `strings.TrimPrefix`. -/
def trimPrefix (s pre : String) : String :=
  if hasPrefix s pre then String.mk (s.data.drop pre.data.length) else s

/-- Go's `filepath.Base` for slash-separated paths: the last element of the
path, trailing slashes removed; `.` for the empty path and `/` for a path of
slashes only. -/
def filepathBase (path : String) : String :=
  if path.data.isEmpty then "."
  else
    let last := (path.data.reverse.dropWhile (· = '/')).takeWhile (· ≠ '/')
    if last.isEmpty then "/" else String.mk last.reverse

/-- The bit `os.ModeDir` of Go's `os.FileMode`. -/
def modeDir : Nat := 2 ^ 31

/-- The bit `os.ModeSymlink`. -/
def modeSymlink : Nat := 2 ^ 27

/-- The mask `os.ModeType`: directory, symlink, named pipe, socket, device,
character device, irregular. -/
def modeType : Nat :=
  2 ^ 31 ||| 2 ^ 27 ||| 2 ^ 25 ||| 2 ^ 24 ||| 2 ^ 26 ||| 2 ^ 21 ||| 2 ^ 19

/-- The method `FileMode.IsRegular`: no type bit is set. -/
def isRegular (mode : Nat) : Bool :=
  mode &&& modeType == 0

/-- The test `mode&os.ModeSymlink == os.ModeSymlink`. -/
def isSymlink (mode : Nat) : Bool :=
  mode &&& modeSymlink == modeSymlink

/-- The record `fileInfo`. -/
structure FileInfo where
  path : String
  mode : Nat
deriving DecidableEq, Repr

/-- Ways in which a query of the find cache aborts. -/
inductive FindErr where
  | indexOutOfRange
  | outOfFuel
deriving DecidableEq, Repr

/-- The error values a walk function returns: `errSkipDir` or another
error. -/
inductive WalkErr where
  | skipDir
  | other (msg : String)
deriving DecidableEq, Repr

/-- The loop of Go's `sort.Search`: binary search in `[i, j)` for the least
index at which `f` is true; the first argument bounds the number of rounds. -/
def searchLoop (f : Nat → Except FindErr Bool) : Nat → Nat → Nat → Except FindErr Nat
  | 0, i, j => if i < j then .error .outOfFuel else .ok i
  | fuel + 1, i, j =>
    if i < j then
      let h := (i + j) / 2
      match f h with
      | .error e => .error e
      | .ok false => searchLoop f fuel (h + 1) j
      | .ok true => searchLoop f fuel i h
    else .ok i

/-- Go's `sort.Search(n, f)`; `n` rounds are enough, as each round shrinks the
interval. -/
def sortSearch (n : Nat) (f : Nat → Except FindErr Bool) : Except FindErr Nat :=
  searchLoop f n 0 n

/-- The loop `for i := start; i < len(c.files); i++` of `walk`, on the
entries from index `i` on, with the list `skipdirs` and the state `s` the
walk function works on. -/
def walkLoop {σ : Type} (dir : String)
    (walkFn : Nat → FileInfo → σ → Option WalkErr × σ) :
    List FileInfo → Nat → List String → σ → Option WalkErr × σ
  | [], _, _, s => (none, s)
  | fi :: rest, i, skipdirs, s =>
    if fi.path = dir then
      match walkFn i fi s with
      | (some e, s1) => (some e, s1)
      | (none, s1) => walkLoop dir walkFn rest (i + 1) skipdirs s1
    else if !hasPrefix fi.path dir then (none, s)
    else if !hasPrefix fi.path (dir ++ "/") then
      walkLoop dir walkFn rest (i + 1) skipdirs s
    else if skipdirs.any (fun skip => hasPrefix fi.path (skip ++ "/")) then
      walkLoop dir walkFn rest (i + 1) skipdirs s
    else
      match walkFn i fi s with
      | (some .skipDir, s1) =>
        walkLoop dir walkFn rest (i + 1) (skipdirs ++ [fi.path]) s1
      | (some e, s1) => (some e, s1)
      | (none, s1) => walkLoop dir walkFn rest (i + 1) skipdirs s1

/-- The function `walk` hands to `sort.Search`: whether
`c.files[i].path >= dir`. -/
def atOrAbove (files : List FileInfo) (dir : String) (i : Nat) : Except FindErr Bool :=
  match files[i]? with
  | some fi => .ok (!pathLess fi.path dir)
  | none => .error .indexOutOfRange

/-- The method `androidFindCacheT.walk` on the array `files`: the error the
walk ends with, if any, and the state. -/
def walk {σ : Type} (files : List FileInfo) (dir : String)
    (walkFn : Nat → FileInfo → σ → Option WalkErr × σ) (s : σ) :
    Except FindErr (Option WalkErr × σ) :=
  match sortSearch files.length (atOrAbove files dir) with
  | .error e => .error e
  | .ok start => .ok (walkLoop dir walkFn (files.drop start) start [] s)

/-- The method `androidFindCacheT.findInDir`: the words written, after those
of `w`; `clean` stands for `filepath.Clean`. -/
def findInDir (clean : String → String) (files : List FileInfo) (dir : String)
    (w : List String) : Except FindErr (List String) :=
  let dir := clean dir
  match walk files dir (fun _ fi w =>
      if hasPrefix (filepathBase fi.path) "." then (none, w)
      else if !isRegular fi.mode then (none, w)
      else (none, w ++ ["./" ++ trimPrefix fi.path (dir ++ "/")])) w with
  | .error e => .error e
  | .ok r => .ok r.2

/-- The second loop of `findExtFilesUnder`, over the indices collected by the
walk. -/
def emitMatches (files : List FileInfo) (chdir ext : String) :
    List Nat → List String → Except FindErr (List String)
  | [], w => .ok w
  | i :: rest, w =>
    match files[i]? with
    | none => .error .indexOutOfRange
    | some fi =>
      let base := filepathBase fi.path
      if filepathExt base != ext then emitMatches files chdir ext rest w
      else if hasPrefix base "." then emitMatches files chdir ext rest w
      else emitMatches files chdir ext rest (w ++ [trimPrefix fi.path (chdir ++ "/")])

/-- The method `androidFindCacheT.findExtFilesUnder`: the result and the
words written, after those of `w`; `clean` and `join` stand for
`filepath.Clean` and `filepath.Join`. -/
def findExtFilesUnder (clean : String → String) (join : String → String → String)
    (files : List FileInfo) (chdir root ext : String) (w : List String) :
    Except FindErr (Bool × List String) :=
  let chdir := clean chdir
  let dir := join chdir root
  match walk files dir (fun i fi (found : List Nat) =>
      if fi.mode &&& modeSymlink = modeSymlink then
        (some (.other ("symlink " ++ fi.path)), found)
      else (none, found ++ [i])) [] with
  | .error e => .error e
  | .ok (some _, _) => .ok (false, w)
  | .ok (none, found) =>
    match emitMatches files chdir ext found w with
    | .error e => .error e
    | .ok w1 => .ok (true, w1)

/-- Example: a scan result, sorted by path. -/
def scanFiles : List FileInfo :=
  [⟨"a", modeDir⟩, ⟨"a.txt", 0⟩, ⟨"a/.hid", 0⟩, ⟨"a/b", modeDir⟩, ⟨"a/b/X.java", 0⟩,
   ⟨"a/b/y.c", 0⟩, ⟨"a/z.java", 0⟩, ⟨"a0", 0⟩, ⟨"b/q.java", 0⟩]

/-- Example: the same scan with a symlink under `a/b`. -/
def scanLinks : List FileInfo :=
  [⟨"a", modeDir⟩, ⟨"a/b", modeDir⟩, ⟨"a/b/l.java", modeSymlink⟩, ⟨"a/z.java", 0⟩]

/-- The array is sorted ascending by path. -/
def SortedByPath (files : List FileInfo) : Prop :=
  files.Pairwise fun a b => pathLess b.path a.path = false

/-- The entries `walk` hands to the walk function when no directory is
skipped: the entry of `dir` itself and the entries below `dir`. -/
def visited (dir : String) (fi : FileInfo) : Bool :=
  fi.path == dir || hasPrefix fi.path (dir ++ "/")

/-- The walk over the visited entries, for a walk function that fails with
`bad fi` on some entries and updates the state by `upd` on the others. -/
def runVisited {σ : Type} (bad : FileInfo → Option WalkErr)
    (upd : Nat → FileInfo → σ → σ) : List (Nat × FileInfo) → σ → Option WalkErr × σ
  | [], s => (none, s)
  | (i, fi) :: rest, s =>
    match bad fi with
    | some e => (some e, s)
    | none => runVisited bad upd rest (upd i fi s)

/-! ## Lexical path cleaning -/

/-- Split a character list at every slash. -/
def splitSlash : List Char → List (List Char)
  | [] => [[]]
  | c :: rest =>
    if c = '/' then [] :: splitSlash rest
    else
      match splitSlash rest with
      | e :: es => (c :: e) :: es
      | [] => [[c]]

/-- The elements Go's `filepath.Clean` keeps, from the elements of the path
(the second argument is the stack of elements kept so far, last first):
empty elements and `.` are dropped, `..` removes the element before it, or
stays at the beginning of a path that is not rooted. -/
def cleanElems (rooted : Bool) : List (List Char) → List (List Char) → List (List Char)
  | [], acc => acc.reverse
  | e :: rest, acc =>
    if e = [] ∨ e = ['.'] then cleanElems rooted rest acc
    else if e = ['.', '.'] then
      match acc with
      | a :: acc1 =>
        if a = ['.', '.'] then cleanElems rooted rest (e :: acc)
        else cleanElems rooted rest acc1
      | [] => if rooted then cleanElems rooted rest [] else cleanElems rooted rest [e]
    else cleanElems rooted rest (e :: acc)

/-- Go's `filepath.Clean` for slash-separated paths: the shortest path
equivalent to the given one by purely lexical processing; `.` for the empty
result. -/
def cleanPath (path : String) : String :=
  match path.data with
  | [] => "."
  | c :: _ =>
    let rooted := decide (c = '/')
    let body := String.mk
      (List.intercalate ['/'] (cleanElems rooted (splitSlash path.data) []))
    if rooted then "/" ++ body
    else if body = "" then "." else body

/-- Go's `filepath.Dir` for slash-separated paths: the path up to its last
slash, cleaned. -/
def filepathDir (path : String) : String :=
  cleanPath (String.mk
    (path.data.reverse.dropWhile (· ≠ '/')).reverse)

/-- The world with the given files on disk in which `filepath.Clean` is
`cleanPath`. -/
def cleanWorldOf (files : List String) : World :=
  { worldOf files with clean := cleanPath }

/-- Example: the single rule `./a: ; c`, whose output is not in cleaned
form. -/
def uncleanGoalBuilder : DepBuilder :=
  builderOf (cleanWorldOf []) [{ outputs := ["./a"], cmds := ["c"] }] []

/-! ## Wildcards (pathutil.go) -/

/-- The loop of `wildcardUnescape` on the characters from index `i` on. At a
backslash that is not the last character: before `*`, `?`, `[` or a
backslash, the backslash is written in the `switch` and again by the write
that ends the round, and the next round starts at the escaped character;
before any other character the index moves on and that character is
written. -/
def unescapeLoop : List Char → List Char
  | [] => []
  | [c] => [c]
  | c :: d :: rest =>
    if c = '\\' then
      if d = '*' ∨ d = '?' ∨ d = '[' ∨ d = '\\' then c :: c :: unescapeLoop (d :: rest)
      else d :: unescapeLoop rest
    else c :: unescapeLoop (d :: rest)

/-- The function `wildcardUnescape`. -/
def wildcardUnescape (pat : String) : String :=
  String.mk (unescapeLoop pat.data)

/-! ## The query `findleaves` of the find cache (pathutil.go) -/

/-- The count `strings.Count(s, "/")`. -/
def countSlash (s : String) : Nat :=
  s.data.count '/'

/-- The method `FileMode.IsDir`. -/
def isDir (mode : Nat) : Bool :=
  mode &&& modeDir != 0

/-- The method `fileInfoByLeaf.Less`: the order of the array `leaves`, by
the number of slashes, the parent directory, the directory bit and the
path. -/
def leafLess (a b : FileInfo) : Bool :=
  if countSlash a.path ≠ countSlash b.path then
    decide (countSlash a.path < countSlash b.path)
  else if filepathDir a.path ++ "/" ≠ filepathDir b.path ++ "/" then
    pathLess (filepathDir a.path ++ "/") (filepathDir b.path ++ "/")
  else if a.mode &&& modeDir ≠ b.mode &&& modeDir then
    decide (a.mode &&& modeDir < b.mode &&& modeDir)
  else pathLess a.path b.path

/-- The function `findleaves` hands to `sort.Search`. -/
def leafAtOrAbove (leaves : List FileInfo) (dir : String) (depth : Nat) (i : Nat) :
    Except FindErr Bool :=
  match leaves[i]? with
  | none => .error .indexOutOfRange
  | some fi =>
    if countSlash fi.path ≠ depth then .ok (decide (countSlash fi.path ≥ depth))
    else if filepathDir fi.path ++ "/" ≠ dir then
      .ok (!pathLess (filepathDir fi.path ++ "/") dir)
    else .ok (!pathLess fi.path dir)

/-- The loop `Scandir` of `findleaves`, on the entries from index `i` on:
the lists `found` and `dirs` after it; `eligible` is the test
`mindepth < 0 || depth >= topdepth+mindepth`. -/
def scanLeaves (dir name : String) (eligible : Bool) :
    List FileInfo → List String → List String → List String × List String
  | [], found, dirs => (found, dirs)
  | fi :: rest, found, dirs =>
    if dir = "" ∧ '/' ∈ fi.path.data then (found, dirs)
    else if !hasPrefix fi.path dir then (found, dirs)
    else if eligible && (!isDir fi.mode && filepathBase fi.path == name) then
      (found ++ ["./" ++ fi.path], dirs)
    else if isDir fi.mode then scanLeaves dir name eligible rest found (dirs ++ [fi.path])
    else scanLeaves dir name eligible rest found dirs

/-- The value of a sum of Go `int`s, which are 64 bits wide and wrap around
on overflow. -/
def wrapInt64 (x : Int) : Int :=
  (x + 9223372036854775808) % 18446744073709551616 - 9223372036854775808

/-- The loop `for len(dirs) > 0` of `findleaves`; the first argument bounds
the number of rounds. The sum `topdepth+mindepth` is a sum of Go `int`s. -/
def findleavesLoop (leaves : List FileInfo) (name : String) (topdepth : Nat)
    (mindepth : Int) : Nat → List String → List String → Except FindErr (List String)
  | 0, dirs, found => if dirs.isEmpty then .ok found else .error .outOfFuel
  | _ + 1, [], found => .ok found
  | fuel + 1, d :: dirs, found =>
    let dir := if cleanPath d ++ "/" = "./" then "" else cleanPath d ++ "/"
    let depth := countSlash dir
    match sortSearch leaves.length (leafAtOrAbove leaves dir depth) with
    | .error e => .error e
    | .ok i =>
      let r := scanLeaves dir name
        (decide (mindepth < 0) ||
          decide (wrapInt64 ((topdepth : Int) + mindepth) ≤ (depth : Int)))
        (leaves.drop i) found dirs
      findleavesLoop leaves name topdepth mindepth fuel r.2 r.1

/-- Insert a string into an ascending list. -/
def insertString (s : String) : List String → List String
  | [] => [s]
  | t :: rest => if pathLess s t then s :: t :: rest else t :: insertString s rest

/-- Go's `sort.Strings`: the strings in ascending order. -/
def sortStrings (l : List String) : List String :=
  l.foldr insertString []

/-- The method `androidFindCacheT.findleaves`: the result and the words
written, after those of `w`. The argument `prunes` is not used. -/
def findleaves (leaves : List FileInfo) (dir name : String) (_prunes : List String)
    (mindepth : Int) (fuel : Nat) (w : List String) : Except FindErr (Bool × List String) :=
  match findleavesLoop leaves name (countSlash (cleanPath dir)) mindepth fuel
      [cleanPath dir] [] with
  | .error e => .error e
  | .ok found => .ok (true, w ++ sortStrings found)

/-- The depth `findleaves` counts for a directory: the number of slashes of
its name followed by a slash, and 0 for `.`. -/
def leafDepth (D : String) : Nat :=
  if D = "." then 0 else countSlash D + 1

/-- The breadth-first reference, in the words of the specification: for each
scanned directory `D`, if its depth is at least `topdepth + mindepth` (or
`mindepth < 0`) and `D` directly contains a non-directory entry with base
name `name`, that entry is emitted and no subdirectory of `D` is scanned;
otherwise every subdirectory of `D` listed in the array is scanned. -/
def leavesReference (leaves : List FileInfo) (name : String) (topdepth : Nat)
    (mindepth : Int) : Nat → List String → List String → Option (List String)
  | 0, queue, found => if queue.isEmpty then some found else none
  | _ + 1, [], found => some found
  | fuel + 1, D :: queue, found =>
    let children := leaves.filter fun fi => filepathDir fi.path == D
    match children.find? (fun fi => !isDir fi.mode && filepathBase fi.path == name) with
    | some p =>
      if decide (mindepth < 0) || decide ((topdepth : Int) + mindepth ≤ (leafDepth D : Int)) then
        leavesReference leaves name topdepth mindepth fuel queue (found ++ ["./" ++ p.path])
      else
        leavesReference leaves name topdepth mindepth fuel
          (queue ++ (children.filter fun fi => isDir fi.mode).map fun fi => fi.path) found
    | none =>
      leavesReference leaves name topdepth mindepth fuel
        (queue ++ (children.filter fun fi => isDir fi.mode).map fun fi => fi.path) found

/-- Example: the leaves of a tree with `a/b/Android.mk` and
`a/b/c/Android.mk`, with their ancestor directories, in the order of
`fileInfoByLeaf`. -/
def nestedLeaves : List FileInfo :=
  [⟨"a", modeDir⟩, ⟨"a/b", modeDir⟩, ⟨"a/b/Android.mk", 0⟩, ⟨"a/b/c", modeDir⟩,
   ⟨"a/b/c/Android.mk", 0⟩]

/-- Example: the leaves of a tree with `a/b/Android.mk` only. -/
def singleLeaves : List FileInfo :=
  [⟨"a", modeDir⟩, ⟨"a/b", modeDir⟩, ⟨"a/b/Android.mk", 0⟩]

/-- Every rule of the suffix table has one input and is marked as a suffix
rule. -/
def DepBuilder.SuffixOK (db : DepBuilder) : Prop :=
  ∀ k l, db.suffixRules k = some l → ∀ r ∈ l, r.inputs.length = 1 ∧ r.isSuffixRule = true

/-- Go's `filepath.Join` of two elements, for slash-separated paths: the
elements that are not empty, joined by a slash and cleaned; the empty string
when both are empty. -/
def filepathJoin (a b : String) : String :=
  if a = "" then (if b = "" then "" else cleanPath b)
  else if b = "" then cleanPath a
  else cleanPath (a ++ "/" ++ b)

/-- Example: a scan result with the two directories `a` and `b`, each holding
one Java file. -/
def siblingFiles : List FileInfo :=
  [⟨"a", modeDir⟩, ⟨"a/y.java", 0⟩, ⟨"b", modeDir⟩, ⟨"b/x.java", 0⟩]

/-! ## Slices and their backing arrays

The value model above reads a slice as the list of its elements. The
definitions that follow keep what Go keeps: a slice is a header (backing
array, length, capacity), the arrays lie in a memory that is part of the
state of the builder, `append` writes into the spare capacity of its first
argument when the new elements fit and allocates a new array when they do
not, and a loop `for ... range s` reads element `i` of the array when round
`i` begins. Two slices over one array see each other's writes. -/

/-- A Go slice of strings: the backing array, as an index into the memory,
the length and the capacity. The nil slice has length and capacity 0. -/
structure Slice where
  arr : Nat := 0
  len : Nat := 0
  cap : Nat := 0
deriving DecidableEq, Repr

/-- The memory: the arrays of strings allocated so far. An array keeps its
length, which is the capacity it was allocated with. -/
abbrev Memory := List (List String)

/-- The elements of a slice, as the memory holds them now. -/
def Slice.read (s : Slice) (mem : Memory) : List String :=
  ((mem[s.arr]?).getD []).take s.len

/-- The element `s[i]`, as the memory holds it now. -/
def Slice.get (s : Slice) (mem : Memory) (i : Nat) : String :=
  (((mem[s.arr]?).getD [])[i]?).getD ""

/-- A composite literal `[]string{...}`: a new array of exactly these
elements. -/
def literalSlice (mem : Memory) (xs : List String) : Slice × Memory :=
  ({ arr := mem.length, len := xs.length, cap := xs.length }, mem ++ [xs])

/-- Go's `append(s, xs...)`. When the elements fit into the capacity of `s`
they are written into its array behind the first `len(s)` ones and the
result is `s` with the greater length. Otherwise a new array is allocated,
of a capacity the runtime chooses (`grow`, given the old capacity and the
length needed, and at least that length), the elements of `s` and then `xs`
are copied into it, and the rest of it is zeroed. -/
def appendSlice (grow : Nat → Nat → Nat) (mem : Memory) (s : Slice)
    (xs : List String) : Slice × Memory :=
  if s.len + xs.length ≤ s.cap then
    ({ s with len := s.len + xs.length },
     mem.modify (fun a => a.take s.len ++ xs ++ a.drop (s.len + xs.length)) s.arr)
  else
    let cap1 := max (s.len + xs.length) (grow s.cap (s.len + xs.length))
    ({ arr := mem.length, len := s.len + xs.length, cap := cap1 },
     mem ++ [s.read mem ++ xs ++ List.replicate (cap1 - (s.len + xs.length)) ""])

/-- The loop `for i, x := range s { s[i] = f(x) }`: the first `len(s)`
elements of the array of `s` are replaced by their images. -/
def mapSlice (f : String → String) (s : Slice) (mem : Memory) : Memory :=
  mem.modify (fun a => (a.take s.len).map f ++ a.drop s.len) s.arr

/-- The growth of the Go runtime for small slices of strings: the capacity
doubles, unless more than that is needed. -/
def goGrow (cap need : Nat) : Nat :=
  if need > 2 * cap then need else 2 * cap

/-! ## The builder over the memory -/

/-- Modelled from the spec: the `Rule` record (as `Rule` above), with its
five slices kept as slices. -/
structure Mem.Rule where
  outputs : Slice := {}
  inputs : Slice := {}
  orderOnlyInputs : Slice := {}
  outputPatterns : Slice := {}
  isDoubleColon : Bool := false
  isSuffixRule : Bool := false
  cmds : Slice := {}
  filename : String := ""
  lineno : Int := 0
  cmdLineno : Int := 0
deriving DecidableEq, Repr

/-- A rule as the memory shows it now. -/
def Mem.Rule.read (r : Mem.Rule) (mem : Memory) : Kati.Rule :=
  { outputs := r.outputs.read mem
    inputs := r.inputs.read mem
    orderOnlyInputs := r.orderOnlyInputs.read mem
    outputPatterns := r.outputPatterns.read mem
    isDoubleColon := r.isDoubleColon
    isSuffixRule := r.isSuffixRule
    cmds := r.cmds.read mem
    filename := r.filename
    lineno := r.lineno
    cmdLineno := r.cmdLineno }

/-- The record `DepNode`; `Cmds` is the slice `rule.cmds` the node was given,
`Deps` and `ActualInputs` are slices the call of `buildPlan` has built for
this node alone. -/
structure Mem.DepNode where
  Output : String
  Cmds : Slice := {}
  Deps : List Nat := []
  HasRule : Bool := false
  IsOrderOnly : Bool := false
  ActualInputs : List String := []
  TargetSpecificVars : Vars := Vars.empty
  Filename : String := ""
  Lineno : Int := 0

/-- A node as the memory shows it now. -/
def Mem.DepNode.read (nd : Mem.DepNode) (mem : Memory) : Kati.DepNode :=
  { Output := nd.Output
    Cmds := nd.Cmds.read mem
    Deps := nd.Deps
    HasRule := nd.HasRule
    IsOrderOnly := nd.IsOrderOnly
    ActualInputs := nd.ActualInputs
    TargetSpecificVars := nd.TargetSpecificVars
    Filename := nd.Filename
    Lineno := nd.Lineno }

/-- What the builder takes from outside dep.go, with the choice of the
runtime for the capacity of a newly allocated array. -/
structure Mem.World extends Kati.World where
  growCap : Nat → Nat → Nat

/-- The record `DepBuilder`, with the heap `nodes` of the plan nodes and the
memory `mem` of the arrays. A `*Rule` is kept as the record it points to: no
field of a rule is assigned after the rule has been put into a table. -/
structure Mem.DepBuilder where
  rules : String → Option Mem.Rule := fun _ => none
  ruleVars : String → Option VarList := fun _ => none
  implicitRules : List Mem.Rule := []
  suffixRules : String → Option (List Mem.Rule) := fun _ => none
  firstRule : Option Mem.Rule := none
  vars : Vars := Vars.empty
  done : String → Option Nat := fun _ => none
  nodes : List Mem.DepNode := []
  trace : List String := []
  nodeCnt : Nat := 0
  pickExplicitRuleCnt : Nat := 0
  pickImplicitRuleCnt : Nat := 0
  pickSuffixRuleCnt : Nat := 0
  pickExplicitRuleWithoutCmdCnt : Nat := 0
  mem : Memory := []

/-- The builder as the memory shows it now: every slice replaced by the list
of its elements. -/
def Mem.DepBuilder.view (m : Mem.DepBuilder) : Kati.DepBuilder :=
  { rules := fun k => (m.rules k).map fun r => r.read m.mem
    ruleVars := m.ruleVars
    implicitRules := m.implicitRules.map fun r => r.read m.mem
    suffixRules := fun k => (m.suffixRules k).map fun l => l.map fun r => r.read m.mem
    firstRule := m.firstRule.map fun r => r.read m.mem
    vars := m.vars
    done := m.done
    nodes := m.nodes.map fun nd => nd.read m.mem
    trace := m.trace
    nodeCnt := m.nodeCnt
    pickExplicitRuleCnt := m.pickExplicitRuleCnt
    pickImplicitRuleCnt := m.pickImplicitRuleCnt
    pickSuffixRuleCnt := m.pickSuffixRuleCnt
    pickExplicitRuleWithoutCmdCnt := m.pickExplicitRuleWithoutCmdCnt }

/-- The method `DepBuilder.exists`. -/
def Mem.DepBuilder.exists (mw : Mem.World) (m : Mem.DepBuilder) (target : String) :
    Bool :=
  if (m.rules target).isSome then true
  else
    match m.rules ".PHONY" with
    | some rule =>
      if (rule.inputs.read m.mem).contains target then true else mw.fsExists target
    | none => mw.fsExists target

/-- The method `DepBuilder.canPickImplicitRule`; indexing `outputPatterns[0]`
of a rule without patterns panics. -/
def Mem.DepBuilder.canPickImplicitRule (mw : Mem.World) (m : Mem.DepBuilder)
    (rule : Mem.Rule) (output : String) : Except Err Bool :=
  if rule.outputPatterns.len = 0 then .error .indexOutOfRange
  else
    let outputPattern := rule.outputPatterns.get m.mem 0
    if !matchPattern outputPattern output then .ok false
    else .ok ((rule.inputs.read m.mem).all fun input =>
      m.exists mw (substPattern outputPattern input output))

/-- The method `DepBuilder.mergeImplicitRuleVars`, called with `vars` not
nil. -/
def Mem.DepBuilder.mergeImplicitRuleVars (m : Mem.DepBuilder) (outputs : Slice)
    (vars : Option VarList) : Except Err (Option VarList) :=
  if outputs.len ≠ 1 then .error .implicitRuleOutputs
  else
    match m.ruleVars (outputs.get m.mem 0) with
    | none => .ok vars
    | some ivars =>
      match vars with
      | none => .ok (some ivars)
      | some vs => .ok (some ((VarList.Merge [] ivars).Merge vs))

/-- The test `len(rule.cmds) > 0` on a rule pointer, false for nil. -/
def Mem.hasCmds (rule : Option Mem.Rule) : Bool :=
  match rule with
  | some r => decide (r.cmds.len > 0)
  | none => false

/-- The loop of `pickRule` over `db.implicitRules`: the result of the first
applicable rule and the memory after it, or `none` when the loop ends
without returning. With an explicit rule, the prerequisites of the rule
returned are `append(irule.inputs, r.inputs...)`, which shares the array of
the pattern rule when that has room for them. -/
def Mem.DepBuilder.pickImplicit (mw : Mem.World) (m : Mem.DepBuilder)
    (rule : Option Mem.Rule) (vars : Option VarList) (output : String) :
    List Mem.Rule →
      Except Err (Option ((Option Mem.Rule × Option VarList × Bool) × Memory))
  | [] => .ok none
  | irule :: rest =>
    match m.canPickImplicitRule mw irule output with
    | .error e => .error e
    | .ok false => Mem.DepBuilder.pickImplicit mw m rule vars output rest
    | .ok true =>
      match rule with
      | some r0 =>
        let appended := appendSlice mw.growCap m.mem irule.inputs (r0.inputs.read m.mem)
        .ok (some ((some { r0 with
          outputPatterns := irule.outputPatterns
          inputs := appended.1
          cmds := irule.cmds
          cmdLineno := irule.cmdLineno }, vars, true), appended.2))
      | none =>
        match vars with
        | some _ =>
          match m.mergeImplicitRuleVars irule.outputPatterns vars with
          | .error e => .error e
          | .ok vars1 => .ok (some ((some irule, vars1, true), m.mem))
        | none => .ok (some ((some irule, vars, true), m.mem))

/-- The loop of `pickRule` over the suffix rules of the target's extension.
With an explicit rule, the prerequisites of the rule returned are
`append([]string{...}, r.inputs...)`, built on a new array. -/
def Mem.DepBuilder.pickSuffix (mw : Mem.World) (m : Mem.DepBuilder)
    (rule : Option Mem.Rule) (vars : Option VarList) (output : String) :
    List Mem.Rule →
      Except Err (Option ((Option Mem.Rule × Option VarList × Bool) × Memory))
  | [] => .ok none
  | irule :: rest =>
    if irule.inputs.len ≠ 1 then .error .suffixRuleInputs
    else
      let inp := irule.inputs.get m.mem 0
      if !m.exists mw (replaceSuffix output inp) then
        Mem.DepBuilder.pickSuffix mw m rule vars output rest
      else
        match rule with
        | some r0 =>
          let lit := literalSlice m.mem [replaceSuffix output inp]
          let appended := appendSlice mw.growCap lit.2 lit.1 (r0.inputs.read lit.2)
          .ok (some ((some { r0 with
            inputs := appended.1
            cmds := irule.cmds
            cmdLineno := irule.cmdLineno }, vars, true), appended.2))
        | none =>
          match vars with
          | some _ =>
            match m.mergeImplicitRuleVars irule.outputs vars with
            | .error e => .error e
            | .ok vars1 => .ok (some ((some irule, vars1, true), m.mem))
          | none => .ok (some ((some irule, vars, true), m.mem))

/-- The tail of `pickRule`, from `outputSuffix := filepath.Ext(output)` on. -/
def Mem.DepBuilder.pickSuffixStep (mw : Mem.World) (m : Mem.DepBuilder)
    (rule : Option Mem.Rule) (vars : Option VarList) (output : String) :
    Except Err ((Option Mem.Rule × Option VarList × Bool) × Mem.DepBuilder) :=
  match (filepathExt output).data with
  | '.' :: suffixName =>
    match m.suffixRules (String.mk suffixName) with
    | none => .ok ((rule, vars, rule.isSome), m)
    | some rules =>
      match m.pickSuffix mw rule vars output rules with
      | .error e => .error e
      | .ok (some res) =>
        .ok (res.1, { m with pickSuffixRuleCnt := m.pickSuffixRuleCnt + 1, mem := res.2 })
      | .ok none => .ok ((rule, vars, rule.isSome), m)
  | _ => .ok ((rule, vars, rule.isSome), m)

/-- The middle of `pickRule`: the loop over `db.implicitRules`, and the rest
of the function when no pattern rule is applicable. -/
def Mem.DepBuilder.pickImplicitStep (mw : Mem.World) (m : Mem.DepBuilder)
    (rule : Option Mem.Rule) (vars : Option VarList) (output : String) :
    Except Err ((Option Mem.Rule × Option VarList × Bool) × Mem.DepBuilder) :=
  match m.pickImplicit mw rule vars output m.implicitRules with
  | .error e => .error e
  | .ok (some res) =>
    .ok (res.1, { m with pickImplicitRuleCnt := m.pickImplicitRuleCnt + 1, mem := res.2 })
  | .ok none => m.pickSuffixStep mw rule vars output

/-- The method `DepBuilder.pickRule`: the rule, the variables, the flag, and
the builder with its counters advanced and its memory as the call leaves
it. -/
def Mem.DepBuilder.pickRule (mw : Mem.World) (m : Mem.DepBuilder) (output : String) :
    Except Err ((Option Mem.Rule × Option VarList × Bool) × Mem.DepBuilder) :=
  let rule := m.rules output
  let vars := m.ruleVars output
  if Mem.hasCmds rule then
    .ok ((rule, vars, true),
      { m with pickExplicitRuleCnt := m.pickExplicitRuleCnt + 1 })
  else if rule.isSome then
    Mem.DepBuilder.pickImplicitStep mw
      { m with
        pickExplicitRuleCnt := m.pickExplicitRuleCnt + 1
        pickExplicitRuleWithoutCmdCnt := m.pickExplicitRuleWithoutCmdCnt + 1 }
      rule vars output
  else m.pickImplicitStep mw rule vars output

/-- The input a prerequisite of the selected rule stands for, in the first
loop of `buildPlan`; the output patterns are read when the round runs. -/
def Mem.actualInput (rule : Mem.Rule) (mem : Memory) (output input : String) :
    Except Err String :=
  if rule.outputPatterns.len > 0 then
    if rule.outputPatterns.len > 1 then .error .multiOutputPattern
    else .ok (substPattern (rule.outputPatterns.get mem 0) input output)
  else if rule.isSuffixRule then .ok (replaceSuffix output input)
  else .ok input

/-- Write a node through its pointer. -/
def Mem.DepBuilder.modifyNode (m : Mem.DepBuilder) (n : Nat)
    (f : Mem.DepNode → Mem.DepNode) : Mem.DepBuilder :=
  { m with nodes := m.nodes.modify f n }

/-- The result of a call of `buildPlan`: the node pointer, the table `tsvs`
as the call leaves it, and the builder. -/
abbrev Mem.PlanResult := Except Err (Nat × Vars × Mem.DepBuilder)

/-- The loop `for _, input := range rule.inputs` of `buildPlan`, with the
recursive call as a parameter: `rounds` rounds from index `i` on. Round `i`
reads `rule.inputs[i]` from the memory as the rounds before it, and the
calls they made, have left it. -/
def Mem.planInputs (plan : String → Vars → Mem.DepBuilder → Mem.PlanResult)
    (rule : Mem.Rule) (output : String) :
    Nat → Nat → List Nat → List String → Vars → Mem.DepBuilder →
    Except Err (List Nat × List String × Vars × Mem.DepBuilder)
  | 0, _, children, actualInputs, tsvs, m => .ok (children, actualInputs, tsvs, m)
  | rounds + 1, i, children, actualInputs, tsvs, m =>
    match Mem.actualInput rule m.mem output (rule.inputs.get m.mem i) with
    | .error e => .error e
    | .ok input1 =>
      match plan input1 tsvs { m with trace := m.trace ++ [input1] } with
      | .error e => .error e
      | .ok (n, tsvs1, m1) =>
        Mem.planInputs plan rule output rounds (i + 1) (children ++ [n])
          (actualInputs ++ [input1]) tsvs1 { m1 with trace := m1.trace.dropLast }

/-- The loop `for _, input := range rule.orderOnlyInputs` of `buildPlan`:
`rounds` rounds from index `i` on. -/
def Mem.planOrderOnly (plan : String → Vars → Mem.DepBuilder → Mem.PlanResult)
    (rule : Mem.Rule) :
    Nat → Nat → List Nat → Vars → Mem.DepBuilder →
    Except Err (List Nat × Vars × Mem.DepBuilder)
  | 0, _, children, tsvs, m => .ok (children, tsvs, m)
  | rounds + 1, i, children, tsvs, m =>
    match plan (rule.orderOnlyInputs.get m.mem i) tsvs
        { m with trace := m.trace ++ [rule.orderOnlyInputs.get m.mem i] } with
    | .error e => .error e
    | .ok (n, tsvs1, m1) =>
      Mem.planOrderOnly plan rule rounds (i + 1) (children ++ [n]) tsvs1
        (({ m1 with trace := m1.trace.dropLast } : Mem.DepBuilder).modifyNode n
          fun nd => { nd with IsOrderOnly := true })

/-- The assignments that complete the node at the end of `buildPlan`. -/
def Mem.finishNode (rule : Mem.Rule) (children : List Nat)
    (actualInputs : List String) (tsvs : Vars) (nd : Mem.DepNode) : Mem.DepNode :=
  { nd with
    Deps := children
    HasRule := true
    Cmds := rule.cmds
    ActualInputs := actualInputs
    TargetSpecificVars := tsvs
    Filename := rule.filename
    Lineno := if rule.cmds.len > 0 then rule.cmdLineno else nd.Lineno }

/-- The two statements `n := &DepNode{Output: output}; db.done[output] = n`
of `buildPlan`. -/
def Mem.DepBuilder.newNode (m : Mem.DepBuilder) (output : String) : Mem.DepBuilder :=
  { m with
    nodes := m.nodes ++ [({ Output := output } : Mem.DepNode)]
    done := fun k => if k = output then some m.nodes.length else m.done k }

/-- The part of `buildPlan` after `pickRule` has returned a rule, for the
node `n` of `output`. -/
def Mem.planRule (mw : Mem.World)
    (plan : String → Vars → Mem.DepBuilder → Mem.PlanResult)
    (n : Nat) (rule : Mem.Rule) (vars : Option VarList) (output : String) (tsvs : Vars)
    (m : Mem.DepBuilder) : Mem.PlanResult :=
  let applied := applyVars mw.toWorld (vars.getD []) (m.vars, tsvs) []
  match Mem.planInputs plan rule output rule.inputs.len 0 [] [] applied.1.2
      { m with vars := applied.1.1 } with
  | .error e => .error e
  | .ok (children, actualInputs, tsvs1, m1) =>
    match Mem.planOrderOnly plan rule rule.orderOnlyInputs.len 0 children tsvs1 m1 with
    | .error e => .error e
    | .ok (children2, tsvs2, m2) =>
      let m3 := m2.modifyNode n (Mem.finishNode rule children2 actualInputs tsvs2)
      let restored := runRestores applied.2 (m3.vars, tsvs2)
      .ok (n, restored.2, { m3 with vars := restored.1 })

/-- The method `DepBuilder.buildPlan` (the argument `neededBy` is only
logged and is left out). -/
def Mem.DepBuilder.buildPlan (mw : Mem.World) :
    Nat → String → Vars → Mem.DepBuilder → Mem.PlanResult
  | 0, _, _, _ => .error .outOfFuel
  | fuel + 1, output, tsvs, m0 =>
    let m := { m0 with nodeCnt := m0.nodeCnt + 1 }
    match m.done output with
    | some n => .ok (n, tsvs, m)
    | none =>
      match (m.newNode output).pickRule mw output with
      | .error e => .error e
      | .ok ((_, _, false), m1) => .ok (m.nodes.length, tsvs, m1)
      | .ok ((none, _, true), _) => .error .nilRule
      | .ok ((some rule, vars, true), m1) =>
        Mem.planRule mw (Mem.DepBuilder.buildPlan mw fuel) m.nodes.length rule vars
          output tsvs m1

/-- The loop `for _, target := range targets` of `Eval`. -/
def Mem.DepBuilder.evalLoop (mw : Mem.World) (fuel : Nat) :
    List String → List Nat → Mem.DepBuilder → Except Err (List Nat × Mem.DepBuilder)
  | [], nodes, m => .ok (nodes, m)
  | target :: rest, nodes, m =>
    match Mem.DepBuilder.buildPlan mw fuel target Vars.empty
        { m with trace := [target] } with
    | .error e => .error e
    | .ok (n, _, m1) => Mem.DepBuilder.evalLoop mw fuel rest (nodes ++ [n]) m1

/-- The targets `Eval` plans: the given ones, or the first output of
`db.firstRule` when none is given. -/
def Mem.DepBuilder.evalTargets (m : Mem.DepBuilder) (targets : List String) :
    Except Err (List String) :=
  if targets.isEmpty then
    match m.firstRule with
    | none => .error .noTargets
    | some r =>
      if r.outputs.len = 0 then .error .indexOutOfRange
      else .ok [r.outputs.get m.mem 0]
  else .ok targets

/-- The method `DepBuilder.Eval`: the root pointers and the builder. -/
def Mem.DepBuilder.Eval (mw : Mem.World) (fuel : Nat) (m : Mem.DepBuilder)
    (targets : List String) : Except Err (List Nat × Mem.DepBuilder) :=
  match m.evalTargets targets with
  | .error e => .error e
  | .ok ts => Mem.DepBuilder.evalLoop mw fuel ts [] m

/-- The method `DepBuilder.populateSuffixRule`; the slice `[]string{inputSuffix}`
is a new array. -/
def Mem.DepBuilder.populateSuffixRule (m : Mem.DepBuilder) (rule : Mem.Rule)
    (output : String) : Bool × Mem.DepBuilder :=
  match output.data with
  | '.' :: rest =>
    match splitFirst '.' rest with
    | none => (false, m)
    | some (inputSuffix, afterDot) =>
      if (splitFirst '.' afterDot).isSome then (false, m)
      else
        let outputSuffix := String.mk afterDot
        let lit := literalSlice m.mem [String.mk inputSuffix]
        let r : Mem.Rule := { rule with
          inputs := lit.1
          isSuffixRule := true }
        (true, { m with
          suffixRules := fun k =>
            if k = outputSuffix then some (r :: (m.suffixRules outputSuffix).getD [])
            else m.suffixRules k
          mem := lit.2 })
  | _ => (false, m)

/-- The function `mergeRules`; `Error(...)` is fatal. The four calls of
`append` run in the order of the source, each on the memory the one before
it has left. -/
def Mem.mergeRules (grow : Nat → Nat → Nat) (mem : Memory) (oldRule rule : Mem.Rule)
    (_output : String) (_isSuffixRule : Bool) : Except Err (Mem.Rule × Memory) :=
  if oldRule.isDoubleColon != rule.isDoubleColon then .error .incompatibleColonKinds
  else
    let c : Slice × Memory :=
      if rule.isDoubleColon then appendSlice grow mem oldRule.cmds (rule.cmds.read mem)
      else if oldRule.cmds.len > 0 ∧ rule.cmds.len = 0 then (oldRule.cmds, mem)
      else (rule.cmds, mem)
    let i : Slice × Memory :=
      if rule.cmds.len > 0 then
        appendSlice grow c.2 rule.inputs (oldRule.inputs.read c.2)
      else appendSlice grow c.2 oldRule.inputs (rule.inputs.read c.2)
    let o : Slice × Memory :=
      if rule.cmds.len > 0 then
        appendSlice grow i.2 rule.orderOnlyInputs (oldRule.orderOnlyInputs.read i.2)
      else appendSlice grow i.2 oldRule.orderOnlyInputs (rule.orderOnlyInputs.read i.2)
    let p : Slice × Memory :=
      appendSlice grow o.2 rule.outputPatterns (oldRule.outputPatterns.read o.2)
    .ok ({ rule with
      cmds := c.1
      inputs := i.1
      orderOnlyInputs := o.1
      outputPatterns := p.1 }, p.2)

/-- The body of the loop `for _, output := range rule.outputs` of
`populateExplicitRule`, for the output read in this round. -/
def Mem.DepBuilder.populateOutput (mw : Mem.World) (m : Mem.DepBuilder)
    (rule : Mem.Rule) (output : String) : Except Err Mem.DepBuilder :=
  let output := mw.clean output
  let (isSuffixRule, m) := m.populateSuffixRule rule output
  match m.rules output with
  | some oldRule =>
    match Mem.mergeRules mw.growCap m.mem oldRule rule output isSuffixRule with
    | .error e => .error e
    | .ok (r, mem1) =>
      .ok { m with
        rules := fun k => if k = output then some r else m.rules k
        mem := mem1 }
  | none =>
    .ok { m with
      rules := fun k => if k = output then some rule else m.rules k
      firstRule :=
        if m.firstRule.isNone && !startsWithDot output then some rule
        else m.firstRule }

/-- The loop `for _, output := range rule.outputs` of `populateExplicitRule`:
`rounds` rounds from index `i` on, each reading `rule.outputs[i]` from the
memory as it is then. -/
def Mem.DepBuilder.populateOutputs (mw : Mem.World) (rule : Mem.Rule) :
    Nat → Nat → Mem.DepBuilder → Except Err Mem.DepBuilder
  | 0, _, m => .ok m
  | rounds + 1, i, m =>
    match m.populateOutput mw rule (rule.outputs.get m.mem i) with
    | .error e => .error e
    | .ok m1 => Mem.DepBuilder.populateOutputs mw rule rounds (i + 1) m1

/-- The method `DepBuilder.populateExplicitRule`. -/
def Mem.DepBuilder.populateExplicitRule (mw : Mem.World) (m : Mem.DepBuilder)
    (rule : Mem.Rule) : Except Err Mem.DepBuilder :=
  if rule.outputs.len = 0 then .ok m
  else Mem.DepBuilder.populateOutputs mw rule rule.outputs.len 0 m

/-- The loop of `populateImplicitRule` over the output patterns, which are
not written while it runs: each round allocates the slice
`[]string{outputPattern}` and appends a copy of the rule with it. -/
def Mem.populatePatterns (rule : Mem.Rule) :
    List String → Mem.DepBuilder → Mem.DepBuilder
  | [], m => m
  | outputPattern :: rest, m =>
    let lit := literalSlice m.mem [outputPattern]
    Mem.populatePatterns rule rest
      { m with
        implicitRules := m.implicitRules ++ [{ rule with outputPatterns := lit.1 }]
        mem := lit.2 }

/-- The method `DepBuilder.populateImplicitRule`. -/
def Mem.DepBuilder.populateImplicitRule (m : Mem.DepBuilder) (rule : Mem.Rule) :
    Mem.DepBuilder :=
  Mem.populatePatterns rule (rule.outputPatterns.read m.mem) m

/-- The last loop of `populateRules` (as `reverseLoop`), on the slice of rule
pointers `db.implicitRules`, which no other slice shares. -/
def Mem.reverseLoop : Nat → Nat → List Mem.Rule → List Mem.Rule
  | 0, _, l => l
  | k + 1, i, l =>
    if i ≥ l.length / 2 then l
    else
      let j := l.length - i - 1
      match l[i]?, l[j]? with
      | some r, some rj => Mem.reverseLoop k (i + 1) ((l.set i rj).set j r)
      | _, _ => l

/-- Modelled from the spec: the `EvalResult` record handed over by the
evaluator, with the memory in which the slices of its rules lie. -/
structure Mem.EvalResult where
  rules : List Mem.Rule := []
  ruleVars : String → Option VarList := fun _ => none
  mem : Memory := []

/-- The two inner loops of `populateRules`, which clean the prerequisites of
a rule in place. -/
def Mem.cleanRule (mw : Mem.World) (rule : Mem.Rule) (mem : Memory) : Memory :=
  mapSlice mw.clean rule.orderOnlyInputs (mapSlice mw.clean rule.inputs mem)

/-- The first loop of `populateRules`, over `er.rules`. -/
def Mem.DepBuilder.populateRulesLoop (mw : Mem.World) :
    List Mem.Rule → Mem.DepBuilder → Except Err Mem.DepBuilder
  | [], m => .ok m
  | rule :: rest, m =>
    match Mem.DepBuilder.populateExplicitRule mw
        { m with mem := Mem.cleanRule mw rule m.mem } rule with
    | .error e => .error e
    | .ok m1 =>
      Mem.DepBuilder.populateRulesLoop mw rest
        (if rule.outputs.len = 0 then m1.populateImplicitRule rule else m1)

/-- The method `DepBuilder.populateRules`. -/
def Mem.DepBuilder.populateRules (mw : Mem.World) (m : Mem.DepBuilder)
    (er : Mem.EvalResult) : Except Err Mem.DepBuilder :=
  match Mem.DepBuilder.populateRulesLoop mw er.rules m with
  | .error e => .error e
  | .ok m1 =>
    .ok { m1 with
      implicitRules := Mem.reverseLoop m1.implicitRules.length 0 m1.implicitRules }

/-- The function `NewDepBuilder`; the memory of the builder is the memory in
which the rules lie. -/
def Mem.NewDepBuilder (mw : Mem.World) (er : Mem.EvalResult) (vars : Vars) :
    Except Err Mem.DepBuilder :=
  Mem.DepBuilder.populateRules mw { ruleVars := er.ruleVars, vars := vars, mem := er.mem } er

/-- A world for the examples over the memory: as `worldOf`, with the growth
of the Go runtime. -/
def Mem.worldOf (files : List String) : Mem.World :=
  { toWorld := Kati.worldOf files, growCap := goGrow }

/-- The builder `NewDepBuilder` makes of rules lying in a memory, without
variables (the empty builder when it fails). -/
def Mem.builderOf (mw : Mem.World) (mem : Memory) (rules : List Mem.Rule) :
    Mem.DepBuilder :=
  match Mem.NewDepBuilder mw { rules := rules, mem := mem } Vars.empty with
  | .ok m => m
  | .error _ => {}

/-- Example: the memory of the rules `%.o: %.c %.h %.x ; cc`, `foo.o: e1`,
`bar.o: e2` and `foo.x: bar.o`. The three prerequisites of the pattern rule
lie in an array of four, as three calls of `append` leave them. -/
def sharedMemory : Memory :=
  [["%.o"], ["%.c", "%.h", "%.x", ""], ["cc"],
   ["foo.o"], ["e1"],
   ["bar.o"], ["e2"],
   ["foo.x"], ["bar.o"]]

/-- Example: the rules `%.o: %.c %.h %.x ; cc`, `foo.o: e1`, `bar.o: e2` and
`foo.x: bar.o`, lying in `sharedMemory`. -/
def sharedRules : List Mem.Rule :=
  [{ outputPatterns := ⟨0, 1, 1⟩, inputs := ⟨1, 3, 4⟩, cmds := ⟨2, 1, 1⟩ },
   { outputs := ⟨3, 1, 1⟩, inputs := ⟨4, 1, 1⟩ },
   { outputs := ⟨5, 1, 1⟩, inputs := ⟨6, 1, 1⟩ },
   { outputs := ⟨7, 1, 1⟩, inputs := ⟨8, 1, 1⟩ }]

/-- Example: the files `foo.c`, `foo.h`, `bar.c`, `bar.h` and `bar.x` are on
disk. -/
def sharedWorld : Mem.World :=
  Mem.worldOf ["foo.c", "foo.h", "bar.c", "bar.h", "bar.x"]

/-- Example: the builder of `sharedRules`. -/
def sharedBuilder : Mem.DepBuilder :=
  Mem.builderOf sharedWorld sharedMemory sharedRules

/-- A slice lies within an array of the memory: its length is at most its
capacity, and its capacity at most the length of its array (a slice of
capacity 0 needs no array). -/
def Slice.WF (s : Slice) (mem : Memory) : Prop :=
  s.len ≤ s.cap ∧ s.cap ≤ ((mem[s.arr]?).getD []).length

/-- The five slices of a rule lie within arrays of the memory. -/
def Mem.Rule.WF (r : Mem.Rule) (mem : Memory) : Prop :=
  r.outputs.WF mem ∧ r.inputs.WF mem ∧ r.orderOnlyInputs.WF mem ∧
  r.outputPatterns.WF mem ∧ r.cmds.WF mem

/-- The slices of all rules and nodes of the builder lie within arrays of its
memory. -/
def Mem.DepBuilder.WF (m : Mem.DepBuilder) : Prop :=
  (∀ k r, m.rules k = some r → r.WF m.mem) ∧
  (∀ r ∈ m.implicitRules, r.WF m.mem) ∧
  (∀ k l, m.suffixRules k = some l → ∀ r ∈ l, r.WF m.mem) ∧
  (∀ r, m.firstRule = some r → r.WF m.mem) ∧
  (∀ nd ∈ m.nodes, nd.Cmds.WF m.mem)

/-- No pattern rule has spare capacity behind its prerequisites. -/
def Mem.DepBuilder.Tight (m : Mem.DepBuilder) : Prop :=
  ∀ r ∈ m.implicitRules, r.inputs.cap ≤ r.inputs.len

/-- The result of `pickRule` as the memory shows it. -/
def Mem.readPick (res : Option Mem.Rule × Option VarList × Bool) (mem : Memory) :
    Option Kati.Rule × Option VarList × Bool :=
  (res.1.map fun r => r.read mem, res.2.1, res.2.2)

/-- Builder `b` is builder `a` after a call of `pickRule`: the tables, the
variables, the memo table and the nodes are the same; the counters and the
memory may differ. -/
def Mem.DepBuilder.sameTables (a b : Mem.DepBuilder) : Prop :=
  b.rules = a.rules ∧ b.ruleVars = a.ruleVars ∧ b.implicitRules = a.implicitRules ∧
  b.suffixRules = a.suffixRules ∧ b.firstRule = a.firstRule ∧ b.vars = a.vars ∧
  b.done = a.done ∧ b.nodes = a.nodes ∧ b.trace = a.trace ∧ b.nodeCnt = a.nodeCnt

/-- A recursive call of the memory model agrees with the one of the value
model: on a builder whose slices lie in its memory and whose pattern rules
have no spare capacity, it fails with the same error, or returns the same
node and variables and a builder that shows what the value model returns,
with the memory grown and the pattern rules as tight as before. -/
def Mem.PlanSim (plan : String → Vars → Mem.DepBuilder → Mem.PlanResult)
    (planL : String → Vars → Kati.DepBuilder → Kati.PlanResult) : Prop :=
  ∀ T tsvs m, m.WF → m.Tight →
    (∀ e, plan T tsvs m = .error e → planL T tsvs m.view = .error e) ∧
    (∀ n tsvs1 m1, plan T tsvs m = .ok (n, tsvs1, m1) →
      planL T tsvs m.view = .ok (n, tsvs1, m1.view) ∧ m1.WF ∧ m1.Tight ∧ m.mem <+: m1.mem)

instance (s : Slice) (mem : Memory) : Decidable (s.WF mem) := by
  unfold Slice.WF
  infer_instance

instance (r : Mem.Rule) (mem : Memory) : Decidable (r.WF mem) := by
  unfold Mem.Rule.WF
  infer_instance

instance (m : Mem.DepBuilder) : Decidable m.Tight := by
  unfold Mem.DepBuilder.Tight
  infer_instance

/-- The edges of the plan graph: node `p` has node `c` among its `Deps`. -/
def Mem.DepBuilder.edge (m : Mem.DepBuilder) (p c : Nat) : Prop :=
  ∃ nd, m.nodes[p]? = some nd ∧ c ∈ nd.Deps

/-- Whether an implicit rule is applicable to a target: `canPickImplicitRule`
returns true for it. -/
def Mem.DepBuilder.implicitApplicable (mw : Mem.World) (m : Mem.DepBuilder)
    (output : String) (rule : Mem.Rule) : Bool :=
  match m.canPickImplicitRule mw rule output with
  | .ok b => b
  | .error _ => false

/-- Example: the memory of the rules `a: b` and `b: a`. -/
def cycleMemory : Memory :=
  [["a"], ["b"], ["b"], ["a"]]

/-- Example: the builder of the rules `a: b` and `b: a`, two rules that
depend on each other. -/
def Mem.cycleBuilder : Mem.DepBuilder :=
  Mem.builderOf (Mem.worldOf []) cycleMemory
    [{ outputs := ⟨0, 1, 1⟩, inputs := ⟨1, 1, 1⟩ },
     { outputs := ⟨2, 1, 1⟩, inputs := ⟨3, 1, 1⟩ }]

/-- Example: the memory of the rules `foo.o: x%y | gen` and
`%.o: %.c ; cc -c $<`. -/
def percentMemory : Memory :=
  [["foo.o"], ["x%y"], ["gen"], ["%.o"], ["%.c"], ["cc -c $<"]]

/-- Example: the builder of `foo.o: x%y | gen`, without commands, and
`%.o: %.c ; cc -c $<`, with `foo.c` on disk. -/
def Mem.percentBuilder : Mem.DepBuilder :=
  Mem.builderOf (Mem.worldOf ["foo.c"]) percentMemory
    [{ outputs := ⟨0, 1, 1⟩, inputs := ⟨1, 1, 1⟩, orderOnlyInputs := ⟨2, 1, 1⟩ },
     { outputPatterns := ⟨3, 1, 1⟩, inputs := ⟨4, 1, 1⟩, cmds := ⟨5, 1, 1⟩ }]

/-- Example (scenario S3): the memory of the rules `foo.o: extra.h` and
`%.o: %.c ; cc -c $<`. -/
def s3Memory : Memory :=
  [["foo.o"], ["extra.h"], ["%.o"], ["%.c"], ["cc -c $<"]]

/-- Example (scenario S3): the explicit rule `foo.o: extra.h`. -/
def Mem.s3Explicit : Mem.Rule :=
  { outputs := ⟨0, 1, 1⟩, inputs := ⟨1, 1, 1⟩ }

/-- Example (scenario S3): the pattern rule `%.o: %.c ; cc -c $<`. -/
def Mem.s3Pattern : Mem.Rule :=
  { outputPatterns := ⟨2, 1, 1⟩, inputs := ⟨3, 1, 1⟩, cmds := ⟨4, 1, 1⟩ }

/-- Example (scenario S3): the files `foo.c` and `extra.h` are on disk. -/
def s3World : Mem.World :=
  Mem.worldOf ["foo.c", "extra.h"]

/-- Example (scenario S3): the builder of `foo.o: extra.h` and
`%.o: %.c ; cc -c $<`. -/
def Mem.s3Builder : Mem.DepBuilder :=
  Mem.builderOf s3World s3Memory [Mem.s3Explicit, Mem.s3Pattern]

/-- Example (scenario S5): the memory of the rule `a: b | c ; run`. -/
def s5Memory : Memory :=
  [["a"], ["b"], ["c"], ["run"]]

/-- Example (scenario S5): the rule `a: b | c ; run`. -/
def Mem.s5Rule : Mem.Rule :=
  { outputs := ⟨0, 1, 1⟩, inputs := ⟨1, 1, 1⟩, orderOnlyInputs := ⟨2, 1, 1⟩,
    cmds := ⟨3, 1, 1⟩ }

/-- Example (scenario S5): the builder of the rule `a: b | c ; run`. -/
def Mem.s5Builder : Mem.DepBuilder :=
  Mem.builderOf (Mem.worldOf []) s5Memory [Mem.s5Rule]

/-- Two slices share no array: one of them has capacity 0, or they lie in
different arrays. -/
def Slice.apart (s t : Slice) : Prop :=
  s.cap = 0 ∨ t.cap = 0 ∨ s.arr ≠ t.arr

instance (s t : Slice) : Decidable (s.apart t) := by
  unfold Slice.apart
  infer_instance

/-- The five slices of a rule. -/
def Mem.Rule.slices (r : Mem.Rule) : List Slice :=
  [r.outputs, r.inputs, r.orderOnlyInputs, r.outputPatterns, r.cmds]

/-- No two slices of the rules share an array. -/
def Mem.Apart (rs : List Mem.Rule) : Prop :=
  (rs.flatMap Mem.Rule.slices).Pairwise Slice.apart

instance (rs : List Mem.Rule) : Decidable (Mem.Apart rs) := by
  unfold Mem.Apart
  infer_instance

/-- The length of array `i` of the memory, 0 when there is no such array. -/
def arrayLen (mem : Memory) (i : Nat) : Nat :=
  ((mem[i]?).getD []).length

/-- Every array of `mem` is in `mem1` at the same index and at least as
long. -/
def Grows (mem mem1 : Memory) : Prop :=
  ∀ i, arrayLen mem i ≤ arrayLen mem1 i

/-- Example: the memory of the rule `x x:: ; A`. -/
def twiceMemory : Memory :=
  [["x", "x"], ["A"]]

/-- Example: the rule `x x:: ; A`, lying in `twiceMemory`. -/
def Mem.twiceRule : Mem.Rule :=
  { outputs := ⟨0, 2, 2⟩, isDoubleColon := true, cmds := ⟨1, 1, 1⟩ }

/-- Example: the memory of scenario S4, `all:: ; echo A` and `all:: ; echo B`. -/
def s4Memory : Memory :=
  [["all"], ["echo A"], ["all"], ["echo B"]]

/-- Example: the first rule of scenario S4, `all:: ; echo A`. -/
def Mem.s4First : Mem.Rule :=
  { outputs := ⟨0, 1, 1⟩, isDoubleColon := true, cmds := ⟨1, 1, 1⟩ }

/-- Example: the second rule of scenario S4, `all:: ; echo B`. -/
def Mem.s4Second : Mem.Rule :=
  { outputs := ⟨2, 1, 1⟩, isDoubleColon := true, cmds := ⟨3, 1, 1⟩ }

/-- Example: the memory of the rules `x y:: ; A ; B ; C`, `x:: ; D` and
`y:: ; E`. The three commands of the first rule lie in an array of four, as
three calls of `append` leave them. -/
def mergedMemory : Memory :=
  [["x", "y"], ["A", "B", "C", ""], ["x"], ["D"], ["y"], ["E"]]

/-- Example: the rules `x y:: ; A ; B ; C`, `x:: ; D` and `y:: ; E`, lying in
`mergedMemory`. -/
def mergedRules : List Mem.Rule :=
  [{ outputs := ⟨0, 2, 2⟩, isDoubleColon := true, cmds := ⟨1, 3, 4⟩ },
   { outputs := ⟨2, 1, 1⟩, isDoubleColon := true, cmds := ⟨3, 1, 1⟩ },
   { outputs := ⟨4, 1, 1⟩, isDoubleColon := true, cmds := ⟨5, 1, 1⟩ }]

/-- Example: the memory of the rules `%.o: %.c %.h %.x ; cc`, `foo.o: e1`,
`bar.o: x%y`, `foo.x: bar.o ; gen`, `bar.x: ; gen` and `xfooy: foo.o ; g`.
The three prerequisites of the pattern rule lie in an array of four. -/
def loopMemory : Memory :=
  [["%.o"], ["%.c", "%.h", "%.x", ""], ["cc"],
   ["foo.o"], ["e1"],
   ["bar.o"], ["x%y"],
   ["foo.x"], ["bar.o"], ["gen"],
   ["bar.x"], ["gen"],
   ["xfooy"], ["foo.o"], ["g"]]

/-- Example: the rules `%.o: %.c %.h %.x ; cc`, `foo.o: e1`, `bar.o: x%y`,
`foo.x: bar.o ; gen`, `bar.x: ; gen` and `xfooy: foo.o ; g`, lying in
`loopMemory`. -/
def loopRules : List Mem.Rule :=
  [{ outputPatterns := ⟨0, 1, 1⟩, inputs := ⟨1, 3, 4⟩, cmds := ⟨2, 1, 1⟩ },
   { outputs := ⟨3, 1, 1⟩, inputs := ⟨4, 1, 1⟩ },
   { outputs := ⟨5, 1, 1⟩, inputs := ⟨6, 1, 1⟩ },
   { outputs := ⟨7, 1, 1⟩, inputs := ⟨8, 1, 1⟩, cmds := ⟨9, 1, 1⟩ },
   { outputs := ⟨10, 1, 1⟩, cmds := ⟨11, 1, 1⟩ },
   { outputs := ⟨12, 1, 1⟩, inputs := ⟨13, 1, 1⟩, cmds := ⟨14, 1, 1⟩ }]

/-- Example: the files `foo.c`, `foo.h`, `bar.c` and `bar.h` are on disk. -/
def loopWorld : Mem.World :=
  Mem.worldOf ["foo.c", "foo.h", "bar.c", "bar.h"]

/-- Example: the builder of `loopRules`. -/
def loopBuilder : Mem.DepBuilder :=
  Mem.builderOf loopWorld loopMemory loopRules

/-! ## Theorems -/

theorem merge_nil (l : VarList) : VarList.Merge [] l = l := by
  simp [VarList.Merge]

theorem mergeImplicitRuleVars_single (db : DepBuilder) (key : String)
    (vars : Option VarList) :
    db.mergeImplicitRuleVars [key] vars = .ok (db.mergedVars key vars) := by
  unfold DepBuilder.mergeImplicitRuleVars DepBuilder.mergedVars
  simp only
  cases h : db.ruleVars key <;> cases vars <;> simp [merge_nil]

theorem canPick_of_single (w : World) (db : DepBuilder) (r : Rule) (T p : String)
    (h : r.outputPatterns = [p]) :
    db.canPickImplicitRule w r T = .ok (db.implicitApplicable w T r) := by
  unfold DepBuilder.implicitApplicable
  unfold DepBuilder.canPickImplicitRule
  rw [h]
  simp only
  split <;> rfl

theorem pickImplicit_cons (w : World) (db : DepBuilder) (rule : Option Rule)
    (vars : Option VarList) (T : String) (irule : Rule) (rest : List Rule) :
    db.pickImplicit w rule vars T (irule :: rest) =
      match db.canPickImplicitRule w irule T with
      | .error e => .error e
      | .ok false => db.pickImplicit w rule vars T rest
      | .ok true =>
        match rule with
        | some r0 =>
          .ok (some (some { r0 with
            outputPatterns := irule.outputPatterns
            inputs := irule.inputs ++ r0.inputs
            cmds := irule.cmds
            cmdLineno := irule.cmdLineno }, vars, true))
        | none =>
          match vars with
          | some _ =>
            match db.mergeImplicitRuleVars irule.outputPatterns vars with
            | .error e => .error e
            | .ok vars1 => .ok (some (some irule, vars1, true))
          | none => .ok (some (some irule, vars, true)) := rfl

theorem pickImplicit_none (w : World) (db : DepBuilder) (rule : Option Rule)
    (vars : Option VarList) (T : String) (l : List Rule)
    (hI : ∀ r ∈ l, r.outputPatterns.length = 1)
    (hnone : l.find? (db.implicitApplicable w T) = none) :
    db.pickImplicit w rule vars T l = .ok none := by
  induction l with
  | nil => rfl
  | cons r rest ih =>
    obtain ⟨p, hp⟩ := List.length_eq_one.mp (hI r (List.mem_cons_self _ _))
    rw [List.find?_cons] at hnone
    cases hr : db.implicitApplicable w T r with
    | true => rw [hr] at hnone; cases hnone
    | false =>
      rw [hr] at hnone
      rw [pickImplicit_cons, canPick_of_single w db r T p hp, hr]
      exact ih (fun r' hr' => hI r' (List.mem_cons_of_mem _ hr')) hnone

theorem pickImplicit_some (w : World) (db : DepBuilder) (rule : Option Rule)
    (vars : Option VarList) (T : String) (l : List Rule) (I : Rule)
    (hI : ∀ r ∈ l, r.outputPatterns.length = 1)
    (hsome : l.find? (db.implicitApplicable w T) = some I) :
    db.pickImplicit w rule vars T l =
      .ok (some (some (implicitChoice rule I),
        db.choiceVars rule vars I.outputPatterns, true)) := by
  induction l with
  | nil => cases hsome
  | cons r rest ih =>
    obtain ⟨p, hp⟩ := List.length_eq_one.mp (hI r (List.mem_cons_self _ _))
    rw [List.find?_cons] at hsome
    cases hr : db.implicitApplicable w T r with
    | false =>
      rw [hr] at hsome
      rw [pickImplicit_cons, canPick_of_single w db r T p hp, hr]
      exact ih (fun r' hr' => hI r' (List.mem_cons_of_mem _ hr')) hsome
    | true =>
      rw [hr] at hsome
      obtain rfl : r = I := by simpa using hsome
      rw [pickImplicit_cons, canPick_of_single w db r T p hp, hr]
      cases rule with
      | some r0 => simp [implicitChoice, DepBuilder.choiceVars]
      | none =>
        cases vars with
        | none => simp [implicitChoice, DepBuilder.choiceVars]
        | some vs =>
          simp only [hp, mergeImplicitRuleVars_single, implicitChoice,
            DepBuilder.choiceVars]

theorem pickSuffix_cons (w : World) (db : DepBuilder) (rule : Option Rule)
    (vars : Option VarList) (T : String) (irule : Rule) (rest : List Rule) :
    db.pickSuffix w rule vars T (irule :: rest) =
      match irule.inputs with
      | [inp] =>
        if !db.exists w (replaceSuffix T inp) then
          db.pickSuffix w rule vars T rest
        else
          match rule with
          | some r0 =>
            .ok (some (some { r0 with
              inputs := replaceSuffix T inp :: r0.inputs
              cmds := irule.cmds
              cmdLineno := irule.cmdLineno }, vars, true))
          | none =>
            match vars with
            | some _ =>
              match db.mergeImplicitRuleVars irule.outputs vars with
              | .error e => .error e
              | .ok vars1 => .ok (some (some irule, vars1, true))
            | none => .ok (some (some irule, vars, true))
      | _ => .error .suffixRuleInputs := rfl

theorem pickSuffix_none (w : World) (db : DepBuilder) (rule : Option Rule)
    (vars : Option VarList) (T : String) (l : List Rule)
    (hS : ∀ r ∈ l, r.inputs.length = 1)
    (hnone : l.find? (db.suffixApplicable w T) = none) :
    db.pickSuffix w rule vars T l = .ok none := by
  induction l with
  | nil => rfl
  | cons r rest ih =>
    obtain ⟨inp, hinp⟩ := List.length_eq_one.mp (hS r (List.mem_cons_self _ _))
    rw [List.find?_cons] at hnone
    cases hr : db.suffixApplicable w T r with
    | true => rw [hr] at hnone; cases hnone
    | false =>
      rw [hr] at hnone
      have hex : db.exists w (replaceSuffix T inp) = false := by
        simpa [DepBuilder.suffixApplicable, hinp] using hr
      rw [pickSuffix_cons, hinp]
      simp only [hex, Bool.not_false, if_true]
      exact ih (fun r' hr' => hS r' (List.mem_cons_of_mem _ hr')) hnone

theorem pickSuffix_some (w : World) (db : DepBuilder) (rule : Option Rule)
    (vars : Option VarList) (T : String) (l : List Rule) (S : Rule)
    (hS : ∀ r ∈ l, r.inputs.length = 1)
    (hO : rule = none → vars ≠ none → ∀ r ∈ l, r.outputs.length = 1)
    (hsome : l.find? (db.suffixApplicable w T) = some S) :
    db.pickSuffix w rule vars T l =
      .ok (some (some (suffixChoice rule S T),
        db.choiceVars rule vars S.outputs, true)) := by
  induction l with
  | nil => cases hsome
  | cons r rest ih =>
    obtain ⟨inp, hinp⟩ := List.length_eq_one.mp (hS r (List.mem_cons_self _ _))
    rw [List.find?_cons] at hsome
    cases hr : db.suffixApplicable w T r with
    | false =>
      rw [hr] at hsome
      have hex : db.exists w (replaceSuffix T inp) = false := by
        simpa [DepBuilder.suffixApplicable, hinp] using hr
      rw [pickSuffix_cons, hinp]
      simp only [hex, Bool.not_false, if_true]
      exact ih (fun r' hr' => hS r' (List.mem_cons_of_mem _ hr'))
        (fun h1 h2 r' hr' => hO h1 h2 r' (List.mem_cons_of_mem _ hr')) hsome
    | true =>
      rw [hr] at hsome
      obtain rfl : r = S := by simpa using hsome
      have hex : db.exists w (replaceSuffix T inp) = true := by
        simpa [DepBuilder.suffixApplicable, hinp] using hr
      rw [pickSuffix_cons, hinp]
      simp only [hex, Bool.not_true, Bool.false_eq_true, if_false]
      cases rule with
      | some r0 => simp [suffixChoice, DepBuilder.choiceVars, hinp]
      | none =>
        cases vars with
        | none => simp [suffixChoice, DepBuilder.choiceVars]
        | some vs =>
          obtain ⟨o, ho⟩ := List.length_eq_one.mp
            (hO rfl (by simp) r (List.mem_cons_self _ _))
          simp only [ho, mergeImplicitRuleVars_single, suffixChoice,
            DepBuilder.choiceVars]

theorem sameButCounters_refl (a : DepBuilder) : a.sameButCounters a :=
  ⟨rfl, rfl, rfl, rfl, rfl, rfl, rfl, rfl, rfl, rfl⟩

theorem suffixCandidates_cases (db : DepBuilder) (T : String) :
    (∃ sfx, (filepathExt T).data = '.' :: sfx ∧
      db.suffixCandidates T = (db.suffixRules (String.mk sfx)).getD []) ∨
    ((∀ sfx, (filepathExt T).data ≠ '.' :: sfx) ∧ db.suffixCandidates T = []) := by
  unfold DepBuilder.suffixCandidates
  split
  · rename_i sfx hsfx
    exact Or.inl ⟨sfx, hsfx, rfl⟩
  · rename_i hne
    exact Or.inr ⟨fun sfx h => hne sfx h, rfl⟩

theorem pickSuffixStep_eq (w : World) (db : DepBuilder) (rule : Option Rule)
    (vars : Option VarList) (T : String)
    (hS : ∀ r ∈ db.suffixCandidates T, r.inputs.length = 1)
    (hO : rule = none → vars ≠ none → ∀ r ∈ db.suffixCandidates T, r.outputs.length = 1)
    (hf : db.implicitRules.find? (db.implicitApplicable w T) = none) :
    ∃ db1, db.sameButCounters db1 ∧
      db.pickSuffixStep w rule vars T =
        .ok (db.selectedImplicit w rule vars T, db1) := by
  unfold DepBuilder.selectedImplicit
  rw [hf]
  simp only
  rcases suffixCandidates_cases db T with ⟨sfx, hsfx, hcand⟩ | ⟨hne, hcand⟩
  · rw [hcand] at hS hO ⊢
    unfold DepBuilder.pickSuffixStep
    rw [hsfx]
    simp only
    cases hk : db.suffixRules (String.mk sfx) with
    | none =>
      refine ⟨db, sameButCounters_refl db, ?_⟩
      simp
    | some rules =>
      rw [hk] at hS hO
      simp only [Option.getD_some] at hS hO ⊢
      cases hf : rules.find? (db.suffixApplicable w T) with
      | none =>
        refine ⟨db, sameButCounters_refl db, ?_⟩
        rw [pickSuffix_none w db rule vars T rules hS hf]
      | some S =>
        refine ⟨{ db with pickSuffixRuleCnt := db.pickSuffixRuleCnt + 1 },
          ⟨rfl, rfl, rfl, rfl, rfl, rfl, rfl, rfl, rfl, rfl⟩, ?_⟩
        rw [pickSuffix_some w db rule vars T rules S hS hO hf]
  · rw [hcand]
    refine ⟨db, sameButCounters_refl db, ?_⟩
    unfold DepBuilder.pickSuffixStep
    split
    · rename_i sfx hsfx
      exact absurd hsfx (hne sfx)
    · simp

theorem sameButCounters_trans {a b c : DepBuilder} (h1 : a.sameButCounters b)
    (h2 : b.sameButCounters c) : a.sameButCounters c := by
  obtain ⟨a1, a2, a3, a4, a5, a6, a7, a8, a9, a10⟩ := h1
  obtain ⟨b1, b2, b3, b4, b5, b6, b7, b8, b9, b10⟩ := h2
  exact ⟨a1.trans b1, a2.trans b2, a3.trans b3, a4.trans b4, a5.trans b5,
    a6.trans b6, a7.trans b7, a8.trans b8, a9.trans b9, a10.trans b10⟩

theorem exists_congr (w : World) {a b : DepBuilder} (h : a.rules = b.rules) :
    a.exists w = b.exists w := by
  funext t
  unfold DepBuilder.exists
  rw [h]

theorem implicitApplicable_congr (w : World) {a b : DepBuilder}
    (h : a.rules = b.rules) (T : String) :
    a.implicitApplicable w T = b.implicitApplicable w T := by
  funext r
  unfold DepBuilder.implicitApplicable DepBuilder.canPickImplicitRule
  rw [exists_congr w h]

theorem suffixApplicable_congr (w : World) {a b : DepBuilder}
    (h : a.rules = b.rules) (T : String) :
    a.suffixApplicable w T = b.suffixApplicable w T := by
  funext r
  unfold DepBuilder.suffixApplicable
  rw [exists_congr w h]

theorem suffixCandidates_congr {a b : DepBuilder}
    (h : a.suffixRules = b.suffixRules) (T : String) :
    a.suffixCandidates T = b.suffixCandidates T := by
  unfold DepBuilder.suffixCandidates
  rw [h]

theorem choiceVars_congr {a b : DepBuilder} (h : a.ruleVars = b.ruleVars)
    (rule : Option Rule) (vars : Option VarList) (keys : List String) :
    a.choiceVars rule vars keys = b.choiceVars rule vars keys := by
  unfold DepBuilder.choiceVars DepBuilder.mergedVars
  rw [h]

theorem selectedImplicit_congr (w : World) {a b : DepBuilder} (h1 : a.rules = b.rules)
    (h2 : a.ruleVars = b.ruleVars) (h3 : a.implicitRules = b.implicitRules)
    (h4 : a.suffixRules = b.suffixRules) (rule : Option Rule)
    (vars : Option VarList) (T : String) :
    a.selectedImplicit w rule vars T = b.selectedImplicit w rule vars T := by
  unfold DepBuilder.selectedImplicit
  rw [implicitApplicable_congr w h1, suffixApplicable_congr w h1,
    suffixCandidates_congr h4, h3]
  simp only [choiceVars_congr h2]

theorem selected_congr (w : World) {a b : DepBuilder} (h1 : a.rules = b.rules)
    (h2 : a.ruleVars = b.ruleVars) (h3 : a.implicitRules = b.implicitRules)
    (h4 : a.suffixRules = b.suffixRules) (T : String) :
    a.selected w T = b.selected w T := by
  unfold DepBuilder.selected
  rw [selectedImplicit_congr w h1 h2 h3 h4, h1, h2]

theorem pickImplicitStep_eq (w : World) (db : DepBuilder) (rule : Option Rule)
    (vars : Option VarList) (T : String) (hP : db.PickableWith rule vars T) :
    ∃ db1, db.sameButCounters db1 ∧
      db.pickImplicitStep w rule vars T =
        .ok (db.selectedImplicit w rule vars T, db1) := by
  obtain ⟨hI, hS, hO⟩ := hP
  cases hf : db.implicitRules.find? (db.implicitApplicable w T) with
  | some I =>
    refine ⟨{ db with pickImplicitRuleCnt := db.pickImplicitRuleCnt + 1 },
      ⟨rfl, rfl, rfl, rfl, rfl, rfl, rfl, rfl, rfl, rfl⟩, ?_⟩
    unfold DepBuilder.pickImplicitStep DepBuilder.selectedImplicit
    rw [pickImplicit_some w db _ _ T _ I hI hf, hf]
  | none =>
    unfold DepBuilder.pickImplicitStep
    rw [pickImplicit_none w db _ _ T _ hI hf]
    exact pickSuffixStep_eq w db _ _ T hS hO hf

/-- The result of `pickRule` on tables on which it cannot abort: it returns
what `selected` describes and changes nothing but the counters. -/
theorem pickRule_eq (w : World) (db : DepBuilder) (T : String)
    (hP : db.Pickable T) :
    ∃ db1, db.sameButCounters db1 ∧
      db.pickRule w T = .ok (db.selected w T, db1) := by
  unfold DepBuilder.pickRule DepBuilder.selected
  simp only
  by_cases hc : hasCmds (db.rules T) = true
  · simp only [hc, if_true]
    exact ⟨{ db with pickExplicitRuleCnt := db.pickExplicitRuleCnt + 1 },
      ⟨rfl, rfl, rfl, rfl, rfl, rfl, rfl, rfl, rfl, rfl⟩, rfl⟩
  · simp only [hc, if_false, Bool.false_eq_true]
    by_cases hs : (db.rules T).isSome = true
    · simp only [hs, if_true]
      obtain ⟨db1, h1, h2⟩ := pickImplicitStep_eq w
        { db with
          pickExplicitRuleCnt := db.pickExplicitRuleCnt + 1
          pickExplicitRuleWithoutCmdCnt := db.pickExplicitRuleWithoutCmdCnt + 1 }
        (db.rules T) (db.ruleVars T) T hP
      refine ⟨db1, sameButCounters_trans
        ⟨rfl, rfl, rfl, rfl, rfl, rfl, rfl, rfl, rfl, rfl⟩ h1, ?_⟩
      rw [h2]
      exact congrArg (fun x => Except.ok (x, db1))
        (selectedImplicit_congr w rfl rfl rfl rfl _ _ _)
    · simp only [hs, if_false, Bool.false_eq_true]
      exact pickImplicitStep_eq w db _ _ T hP

/-- The priority of `pickRule` where it returns. An explicit rule for `T`
with at least one command is returned with `ruleVars[T]` whatever the other
tables hold. Otherwise, on tables on which `pickRule` cannot abort
(`Pickable`), it returns the commands of the first applicable pattern rule;
failing that, those of the first applicable suffix rule; failing that, the
explicit rule without commands, or no rule. -/
theorem pickRule_priority (w : World) (db : DepBuilder) (T : String) :
    (∀ E, db.rules T = some E → E.cmds ≠ [] →
      ∃ db1, db.pickRule w T = .ok ((some E, db.ruleVars T, true), db1)) ∧
    (db.Pickable T → hasCmds (db.rules T) = false →
      ∃ res db1, db.pickRule w T = .ok (res, db1) ∧
        (∀ I, db.implicitRules.find? (db.implicitApplicable w T) = some I →
          ∃ r vars, res = (some r, vars, true) ∧ r.cmds = I.cmds) ∧
        (db.implicitRules.find? (db.implicitApplicable w T) = none →
          (∀ S, (db.suffixCandidates T).find? (db.suffixApplicable w T) = some S →
            ∃ r vars, res = (some r, vars, true) ∧ r.cmds = S.cmds) ∧
          ((db.suffixCandidates T).find? (db.suffixApplicable w T) = none →
            res = (db.rules T, db.ruleVars T, (db.rules T).isSome)))) := by
  constructor
  · intro E hE hcmds
    have hc : hasCmds (db.rules T) = true := by
      rw [hE]
      cases h : E.cmds with
      | nil => exact absurd h hcmds
      | cons c cs => simp [hasCmds, h]
    refine ⟨{ db with pickExplicitRuleCnt := db.pickExplicitRuleCnt + 1 }, ?_⟩
    unfold DepBuilder.pickRule
    rw [hE] at hc
    simp only [hc, if_true, hE]
  · intro hP hc
    obtain ⟨db1, -, hpick⟩ := pickRule_eq w db T hP
    refine ⟨db.selected w T, db1, hpick, ?_, ?_⟩
    · intro I hI
      unfold DepBuilder.selected DepBuilder.selectedImplicit
      simp only [hc, hI, Bool.false_eq_true, if_false]
      refine ⟨_, _, rfl, ?_⟩
      cases db.rules T <;> rfl
    · intro hnoI
      constructor
      · intro S hS
        unfold DepBuilder.selected DepBuilder.selectedImplicit
        simp only [hc, hnoI, hS, Bool.false_eq_true, if_false]
        refine ⟨_, _, rfl, ?_⟩
        cases db.rules T <;> rfl
      · intro hnoS
        unfold DepBuilder.selected DepBuilder.selectedImplicit
        simp only [hc, hnoI, hnoS, Bool.false_eq_true, if_false]

/-- Example: the tables of scenario S3 and the target `foo.o` satisfy
`Pickable`, and there the explicit rule has no commands. -/
theorem pickRule_priority_witness :
    s3Builder.Pickable "foo.o" ∧ hasCmds (s3Builder.rules "foo.o") = false ∧
    ∃ res db1, s3Builder.pickRule (worldOf ["foo.c", "extra.h"]) "foo.o" = .ok (res, db1) ∧
      (∀ I, s3Builder.implicitRules.find?
          (s3Builder.implicitApplicable (worldOf ["foo.c", "extra.h"]) "foo.o") = some I →
        ∃ r vars, res = (some r, vars, true) ∧ r.cmds = I.cmds) :=
  ⟨by decide, by decide,
    let ⟨res, db1, h1, h2, _⟩ :=
      (pickRule_priority (worldOf ["foo.c", "extra.h"]) s3Builder "foo.o").2
        (by decide) (by decide)
    ⟨res, db1, h1, h2⟩⟩

/-- C1, failing input: the rule `.c.o .s.o: ; cc -c $<`, the rule-scoped
variable `bar.o: CFLAGS := -O2`, the file `bar.c` on disk, the target
`bar.o`. `NewDepBuilder` returns; `bar.o` has no explicit rule and there is
no pattern rule; the first applicable suffix rule has the command
`cc -c $<`, which by the priority `pickRule` has to return; `pickRule`
aborts instead, in the check of `mergeImplicitRuleVars`, to which it hands
the two output names of the suffix rule. -/
theorem pickRule_aborts_before_suffix_rule :
    errorOf (NewDepBuilder (worldOf ["bar.c"])
      { rules := [{ outputs := [".c.o", ".s.o"], cmds := ["cc -c $<"] }]
        ruleVars := fun k =>
          [("bar.o", [("CFLAGS", ({ op := ":=", value := "-O2" } : Var))])].lookup k }
      Vars.empty) = none ∧
    suffixPairBuilder.rules "bar.o" = none ∧
    suffixPairBuilder.implicitRules = [] ∧
    ((suffixPairBuilder.suffixCandidates "bar.o").find?
      (suffixPairBuilder.suffixApplicable (worldOf ["bar.c"]) "bar.o")).map (fun r => r.cmds)
      = some ["cc -c $<"] ∧
    errorOf (suffixPairBuilder.pickRule (worldOf ["bar.c"]) "bar.o")
      = some Err.implicitRuleOutputs := by
  decide

theorem populateSuffixRule_rules (db : DepBuilder) (rule : Rule) (output : String) :
    (db.populateSuffixRule rule output).2.rules = db.rules ∧
    (db.populateSuffixRule rule output).2.implicitRules = db.implicitRules ∧
    (db.populateSuffixRule rule output).2.firstRule = db.firstRule := by
  unfold DepBuilder.populateSuffixRule
  split
  · split
    · exact ⟨rfl, rfl, rfl⟩
    · split <;> exact ⟨rfl, rfl, rfl⟩
  · exact ⟨rfl, rfl, rfl⟩

theorem lastCmds_nil (c0 : List String) : lastCmds c0 [] = c0 := rfl

theorem lastCmds_cons (c0 : List String) (r : Rule) (rest : List Rule) :
    lastCmds c0 (r :: rest) = lastCmds (if r.cmds.isEmpty then c0 else r.cmds) rest := by
  unfold lastCmds
  by_cases h : r.cmds.isEmpty = true
  · simp [List.filter_cons, h]
  · simp only [List.filter_cons, h, Bool.not_false, if_true, Bool.false_eq_true, if_false]
    cases hf : rest.filter (fun r => !r.cmds.isEmpty) with
    | nil => simp
    | cons a l =>
      have h1 : (r :: a :: l).getLast? = some ((a :: l).getLast (by simp)) := by
        rw [List.getLast?_eq_getLast _ (by simp)]
        simp
      have h2 : (a :: l).getLast? = some ((a :: l).getLast (by simp)) :=
        List.getLast?_eq_getLast _ (by simp)
      rw [h1, h2]
      simp

theorem allCmds_cons (r : Rule) (rest : List Rule) :
    allCmds (r :: rest) = r.cmds ++ allCmds rest := by
  simp [allCmds]

theorem mergeRules_ok (oldRule rule : Rule) (output : String) (b : Bool)
    (hdc : rule.isDoubleColon = oldRule.isDoubleColon) :
    ∃ r1, mergeRules oldRule rule output b = .ok r1 ∧
      r1.isDoubleColon = oldRule.isDoubleColon ∧
      r1.cmds = (if oldRule.isDoubleColon then oldRule.cmds ++ rule.cmds
        else if rule.cmds.isEmpty then oldRule.cmds else rule.cmds) := by
  unfold mergeRules
  simp only [hdc, bne_self_eq_false, Bool.false_eq_true, if_false]
  refine ⟨_, rfl, ?_, ?_⟩
  · simp only [apply_ite Rule.isDoubleColon, hdc, ite_self]
  · by_cases h1 : oldRule.isDoubleColon = true
    · by_cases h2 : rule.cmds.isEmpty = true <;> simp [h1, h2]
    · by_cases h2 : rule.cmds.isEmpty = true
      · by_cases h3 : oldRule.cmds.isEmpty = true
        · simp only [h1, h2, h3]
          simp only [List.isEmpty_iff] at h2 h3
          simp [h2, h3]
        · simp [h1, h2, h3]
      · simp [h1, h2]

theorem populateOutput_present (w : World) (db : DepBuilder) (rule : Rule)
    (o : String) (E0 : Rule) (hN : db.rules (w.clean o) = some E0)
    (hdc : rule.isDoubleColon = E0.isDoubleColon) :
    ∃ db1 E1, db.populateOutput w rule o = .ok db1 ∧
      db1.rules (w.clean o) = some E1 ∧
      db1.implicitRules = db.implicitRules ∧
      E1.isDoubleColon = E0.isDoubleColon ∧
      E1.cmds = (if E0.isDoubleColon then E0.cmds ++ rule.cmds
        else if rule.cmds.isEmpty then E0.cmds else rule.cmds) := by
  unfold DepBuilder.populateOutput
  simp only
  obtain ⟨h1, h2, -⟩ := populateSuffixRule_rules db rule (w.clean o)
  rcases hp : db.populateSuffixRule rule (w.clean o) with ⟨b, db1⟩
  rw [hp] at h1 h2
  simp only at h1 h2 ⊢
  rw [h1, hN]
  simp only
  obtain ⟨r1, hm, hd, hcm⟩ := mergeRules_ok E0 rule (w.clean o) b hdc
  rw [hm]
  exact ⟨_, r1, rfl, by simp, h2, hd, hcm⟩

theorem populateOutput_absent (w : World) (db : DepBuilder) (rule : Rule)
    (o : String) (hN : db.rules (w.clean o) = none) :
    ∃ db1, db.populateOutput w rule o = .ok db1 ∧
      db1.rules (w.clean o) = some rule ∧
      db1.implicitRules = db.implicitRules := by
  unfold DepBuilder.populateOutput
  simp only
  obtain ⟨h1, h2, -⟩ := populateSuffixRule_rules db rule (w.clean o)
  rcases hp : db.populateSuffixRule rule (w.clean o) with ⟨b, db1⟩
  rw [hp] at h1 h2
  simp only at h1 h2 ⊢
  rw [h1, hN]
  exact ⟨_, rfl, by simp, h2⟩

theorem populateRulesLoop_cons (w : World) (rule : Rule) (rest : List Rule)
    (db : DepBuilder) :
    DepBuilder.populateRulesLoop w (rule :: rest) db =
      match db.populateExplicitRule w (cleanRule w rule) with
      | .error e => .error e
      | .ok db1 =>
        DepBuilder.populateRulesLoop w rest
          (if (cleanRule w rule).outputs.isEmpty then
            db1.populateImplicitRule (cleanRule w rule)
          else db1) := rfl

theorem populateExplicitRule_single (w : World) (db : DepBuilder) (rule : Rule)
    (o : String) (ho : rule.outputs = [o]) :
    db.populateExplicitRule w rule = db.populateOutput w rule o := by
  unfold DepBuilder.populateExplicitRule
  rw [ho]
  simp only [List.isEmpty_cons, Bool.false_eq_true, if_false]
  show (match db.populateOutput w rule o with
    | .error e => Except.error e
    | .ok db1 => DepBuilder.populateOutputs w rule [] db1) = _
  cases db.populateOutput w rule o <;> rfl

theorem single_output (w : World) (r : Rule) (N : String)
    (hout : r.outputs.map w.clean = [N]) : ∃ o, r.outputs = [o] ∧ w.clean o = N := by
  cases hr : r.outputs with
  | nil => rw [hr] at hout; cases hout
  | cons a l =>
    cases l with
    | nil => rw [hr] at hout; exact ⟨a, rfl, by simpa using hout⟩
    | cons b l => rw [hr] at hout; cases hout

/-- Ingesting one more rule for an output that is in the table already. -/
theorem populateRulesLoop_step_present (w : World) (db : DepBuilder) (r : Rule)
    (rest : List Rule) (N : String) (E0 : Rule)
    (hN : db.rules N = some E0) (hout : r.outputs.map w.clean = [N])
    (hdc : r.isDoubleColon = E0.isDoubleColon) :
    ∃ db1 E1, db1.rules N = some E1 ∧ E1.isDoubleColon = E0.isDoubleColon ∧
      db1.implicitRules = db.implicitRules ∧
      E1.cmds = (if E0.isDoubleColon then E0.cmds ++ r.cmds
        else if r.cmds.isEmpty then E0.cmds else r.cmds) ∧
      DepBuilder.populateRulesLoop w (r :: rest) db =
        DepBuilder.populateRulesLoop w rest db1 := by
  obtain ⟨o, ho, hclean⟩ := single_output w r N hout
  subst hclean
  obtain ⟨db1, E1, h1, h2, h3, h4, h5⟩ := populateOutput_present w db
    (cleanRule w r) o E0 hN hdc
  refine ⟨db1, E1, h2, h4, h3, h5, ?_⟩
  have ho1 : (cleanRule w r).outputs = [o] := ho
  rw [populateRulesLoop_cons, populateExplicitRule_single w db _ o ho1, h1]
  simp [ho1]

/-- Ingesting the first rule for an output. -/
theorem populateRulesLoop_step_absent (w : World) (db : DepBuilder) (r : Rule)
    (rest : List Rule) (N : String)
    (hN : db.rules N = none) (hout : r.outputs.map w.clean = [N]) :
    ∃ db1 E1, db1.rules N = some E1 ∧ E1.isDoubleColon = r.isDoubleColon ∧
      db1.implicitRules = db.implicitRules ∧
      E1.cmds = r.cmds ∧
      DepBuilder.populateRulesLoop w (r :: rest) db =
        DepBuilder.populateRulesLoop w rest db1 := by
  obtain ⟨o, ho, hclean⟩ := single_output w r N hout
  subst hclean
  obtain ⟨db1, h1, h2, h3⟩ := populateOutput_absent w db
    (cleanRule w r) o hN
  refine ⟨db1, _, h2, rfl, h3, rfl, ?_⟩
  have ho1 : (cleanRule w r).outputs = [o] := ho
  rw [populateRulesLoop_cons, populateExplicitRule_single w db _ o ho1, h1]
  simp [ho1]

theorem populateRulesLoop_same_output (w : World) (N : String) (dc : Bool)
    (rs : List Rule) :
    ∀ (db : DepBuilder) (E0 : Rule), db.rules N = some E0 → E0.isDoubleColon = dc →
      (∀ r ∈ rs, r.outputs.map w.clean = [N] ∧ r.isDoubleColon = dc) →
      ∃ db1 E1, DepBuilder.populateRulesLoop w rs db = .ok db1 ∧
        db1.rules N = some E1 ∧ db1.implicitRules = db.implicitRules ∧
        E1.cmds = (if dc then E0.cmds ++ allCmds rs else lastCmds E0.cmds rs) := by
  induction rs with
  | nil =>
    intro db E0 hN _ _
    refine ⟨db, E0, rfl, hN, rfl, ?_⟩
    cases dc <;> simp [allCmds, lastCmds_nil]
  | cons r rest ih =>
    intro db E0 hN hE0 hall
    obtain ⟨hout, hdc⟩ := hall r (List.mem_cons_self _ _)
    obtain ⟨db1, E1, h1, h2, h3, h4, h5⟩ := populateRulesLoop_step_present w db r rest N E0
      hN hout (hdc.trans hE0.symm)
    obtain ⟨db2, E2, g1, g2, g3, g4⟩ := ih db1 E1 h1 (h2.trans hE0)
      (fun r' hr' => hall r' (List.mem_cons_of_mem _ hr'))
    refine ⟨db2, E2, h5.trans g1, g2, g3.trans h3, ?_⟩
    rw [g4, h4, hE0]
    cases dc
    · simp [lastCmds_cons]
    · simp [allCmds_cons]

/-- Value model. After ingesting, in order, a non-empty sequence `r :: rs` of explicit
rules whose single output cleans to the same name `N`, not yet in the table,
and which agree on `isDoubleColon`, the explicit-table entry for `N` has as
commands: for double-colon rules the concatenation of all the rules' command
lists in definition order, and for single-colon rules the command list of
the last rule of the sequence that has commands, or the empty list if none
has. -/
theorem merged_cmds_values (w : World) (db : DepBuilder) (N : String) (dc : Bool)
    (r : Rule) (rs : List Rule) (ruleVars : String → Option VarList)
    (hN : db.rules N = none)
    (hall : ∀ r1 ∈ r :: rs, r1.outputs.map w.clean = [N] ∧ r1.isDoubleColon = dc) :
    ∃ db1 E, db.populateRules w { rules := r :: rs, ruleVars := ruleVars } = .ok db1 ∧
      db1.rules N = some E ∧
      E.cmds = (if dc then allCmds (r :: rs) else lastCmds [] (r :: rs)) := by
  obtain ⟨hout, hdc⟩ := hall r (List.mem_cons_self _ _)
  obtain ⟨db1, E1, h1, h2, -, h4, h5⟩ :=
    populateRulesLoop_step_absent w db r rs N hN hout
  obtain ⟨db2, E2, g1, g2, -, g4⟩ := populateRulesLoop_same_output w N dc rs db1 E1 h1
    (h2.trans hdc) (fun r1 hr1 => hall r1 (List.mem_cons_of_mem _ hr1))
  refine ⟨{ db2 with
      implicitRules := reverseLoop db2.implicitRules.length 0 db2.implicitRules },
    E2, ?_, g2, ?_⟩
  · unfold DepBuilder.populateRules
    simp only
    rw [h5, g1]
  · rw [g4, h4, allCmds_cons, lastCmds_cons]
    by_cases he : r.cmds.isEmpty = true
    · simp only [he, if_true]
      rw [List.isEmpty_iff] at he
      rw [he]
    · simp only [he, Bool.false_eq_true, if_false]

/-- Example: scenario S4, `all:: ; echo A` then `all:: ; echo B`. -/
theorem merged_cmds_values_example :
    ∃ db1 E, DepBuilder.populateRules (worldOf []) {}
        { rules := [{ outputs := ["all"], isDoubleColon := true, cmds := ["echo A"] },
                    { outputs := ["all"], isDoubleColon := true, cmds := ["echo B"] }] }
        = .ok db1 ∧
      db1.rules "all" = some E ∧ E.cmds = ["echo A", "echo B"] :=
  merged_cmds_values (worldOf []) {} "all" true
    { outputs := ["all"], isDoubleColon := true, cmds := ["echo A"] }
    [{ outputs := ["all"], isDoubleColon := true, cmds := ["echo B"] }]
    (fun _ => none) rfl (by decide)

theorem reverseLoop_spec (k : Nat) :
    ∀ (i : Nat) (l : List Rule), l.length / 2 ≤ i + k →
      (reverseLoop k i l).length = l.length ∧
      ∀ m, (reverseLoop k i l)[m]? =
        if i ≤ m ∧ m < l.length - i then l[l.length - 1 - m]? else l[m]? := by
  induction k with
  | zero =>
    intro i l hk
    refine ⟨rfl, fun m => ?_⟩
    show l[m]? = _
    split
    · rename_i h
      have : l.length - 1 - m = m := by omega
      rw [this]
    · rfl
  | succ k ih =>
    intro i l hk
    by_cases hi : i ≥ l.length / 2
    · have : reverseLoop (k + 1) i l = l := by
        show (if i ≥ l.length / 2 then l else _) = l
        rw [if_pos hi]
      rw [this]
      refine ⟨rfl, fun m => ?_⟩
      split
      · rename_i h
        have : l.length - 1 - m = m := by omega
        rw [this]
      · rfl
    · have hi1 : i < l.length := by omega
      have hj1 : l.length - i - 1 < l.length := by omega
      have hstep : reverseLoop (k + 1) i l =
          reverseLoop k (i + 1) ((l.set i l[l.length - i - 1]).set (l.length - i - 1) l[i]) := by
        show (if i ≥ l.length / 2 then l else
          match l[i]?, l[l.length - i - 1]? with
          | some r, some rj => reverseLoop k (i + 1) ((l.set i rj).set (l.length - i - 1) r)
          | _, _ => l) = _
        rw [if_neg hi, List.getElem?_eq_getElem hi1, List.getElem?_eq_getElem hj1]
      rw [hstep]
      obtain ⟨hlen, hget⟩ := ih (i + 1)
        ((l.set i l[l.length - i - 1]).set (l.length - i - 1) l[i])
        (by simp only [List.length_set]; omega)
      refine ⟨by rw [hlen]; simp, fun m => ?_⟩
      rw [hget m]
      simp only [List.length_set]
      by_cases hm1 : m = i
      · subst hm1
        have h1 : ¬ (m + 1 ≤ m ∧ m < l.length - (m + 1)) := by omega
        have h2 : m ≤ m ∧ m < l.length - m := by omega
        rw [if_neg h1, if_pos h2]
        rw [List.getElem?_set_ne (by omega), List.getElem?_set_self hi1]
        have hidx : l.length - 1 - m = l.length - m - 1 := by omega
        rw [hidx, List.getElem?_eq_getElem hj1]
      · by_cases hm2 : m = l.length - i - 1
        · subst hm2
          have h1 : ¬ (i + 1 ≤ l.length - i - 1 ∧ l.length - i - 1 < l.length - (i + 1)) := by
            omega
          have h2 : i ≤ l.length - i - 1 ∧ l.length - i - 1 < l.length - i := by omega
          rw [if_neg h1, if_pos h2,
            List.getElem?_set_self (by simp only [List.length_set]; omega)]
          have hidx : l.length - 1 - (l.length - i - 1) = i := by omega
          rw [hidx, List.getElem?_eq_getElem hi1]
        · by_cases hm3 : i + 1 ≤ m ∧ m < l.length - (i + 1)
          · have h2 : i ≤ m ∧ m < l.length - i := by omega
            rw [if_pos hm3, if_pos h2]
            rw [List.getElem?_set_ne (by omega), List.getElem?_set_ne (by omega)]
          · have h2 : ¬ (i ≤ m ∧ m < l.length - i) := by omega
            rw [if_neg hm3, if_neg h2]
            rw [List.getElem?_set_ne (by omega), List.getElem?_set_ne (by omega)]

/-- The swapping loop at the end of `populateRules` reverses the list. -/
theorem reverseLoop_eq_reverse (l : List Rule) :
    reverseLoop l.length 0 l = l.reverse := by
  obtain ⟨hlen, hget⟩ := reverseLoop_spec l.length 0 l (by omega)
  apply List.ext_getElem?
  intro m
  rw [hget m]
  by_cases hm : m < l.length
  · rw [if_pos (by omega), List.getElem?_reverse hm]
  · rw [if_neg (by omega)]
    rw [List.getElem?_eq_none (by omega), List.getElem?_eq_none (by simp; omega)]

theorem populateOutput_implicitRules (w : World) (db db1 : DepBuilder) (rule : Rule)
    (o : String) (h : db.populateOutput w rule o = .ok db1) :
    db1.implicitRules = db.implicitRules := by
  unfold DepBuilder.populateOutput at h
  simp only at h
  obtain ⟨-, h2, -⟩ := populateSuffixRule_rules db rule (w.clean o)
  rcases hp : db.populateSuffixRule rule (w.clean o) with ⟨b, db2⟩
  rw [hp] at h h2
  simp only at h h2
  split at h
  · split at h
    · cases h
    · cases h
      exact h2
  · cases h
    exact h2

theorem populateOutputs_implicitRules (w : World) (rule : Rule) (os : List String) :
    ∀ (db db1 : DepBuilder), DepBuilder.populateOutputs w rule os db = .ok db1 →
      db1.implicitRules = db.implicitRules := by
  induction os with
  | nil =>
    intro db db1 h
    cases h
    rfl
  | cons o rest ih =>
    intro db db1 h
    have hcons : DepBuilder.populateOutputs w rule (o :: rest) db =
        match db.populateOutput w rule o with
        | .error e => .error e
        | .ok db2 => DepBuilder.populateOutputs w rule rest db2 := rfl
    rw [hcons] at h
    cases h2 : db.populateOutput w rule o with
    | error e => rw [h2] at h; cases h
    | ok db2 =>
      rw [h2] at h
      exact (ih db2 db1 h).trans (populateOutput_implicitRules w db db2 rule o h2)

theorem populateExplicitRule_implicitRules (w : World) (db db1 : DepBuilder)
    (rule : Rule) (h : db.populateExplicitRule w rule = .ok db1) :
    db1.implicitRules = db.implicitRules := by
  unfold DepBuilder.populateExplicitRule at h
  split at h
  · cases h
    rfl
  · exact populateOutputs_implicitRules w rule _ db db1 h

theorem populateRulesLoop_implicitRules (w : World) (rs : List Rule) :
    ∀ (db db1 : DepBuilder), DepBuilder.populateRulesLoop w rs db = .ok db1 →
      db1.implicitRules = db.implicitRules ++ rs.flatMap (derivedImplicit w) := by
  induction rs with
  | nil =>
    intro db db1 h
    cases h
    simp
  | cons r rest ih =>
    intro db db1 h
    rw [populateRulesLoop_cons] at h
    cases h2 : db.populateExplicitRule w (cleanRule w r) with
    | error e => rw [h2] at h; cases h
    | ok db2 =>
      rw [h2] at h
      simp only at h
      have h3 := populateExplicitRule_implicitRules w db db2 _ h2
      rw [ih _ db1 h, List.flatMap_cons]
      have hout : (cleanRule w r).outputs = r.outputs := rfl
      by_cases he : r.outputs.isEmpty = true
      · simp only [hout, he, if_true, DepBuilder.populateImplicitRule, derivedImplicit, h3,
          List.append_assoc]
      · simp only [hout, he, Bool.false_eq_true, if_false, derivedImplicit, h3,
          List.nil_append]

/-- After `populateRules` the implicit list is the exact reverse of the
ingestion order. -/
theorem populateRules_implicitRules (w : World) (db db1 : DepBuilder)
    (er : EvalResult) (h : db.populateRules w er = .ok db1) :
    db1.implicitRules =
      (db.implicitRules ++ er.rules.flatMap (derivedImplicit w)).reverse := by
  unfold DepBuilder.populateRules at h
  cases h2 : DepBuilder.populateRulesLoop w er.rules db with
  | error e => rw [h2] at h; cases h
  | ok db2 =>
    rw [h2] at h
    cases h
    simp only
    rw [reverseLoop_eq_reverse, populateRulesLoop_implicitRules w _ db db2 h2]

theorem derivedImplicit_single (w : World) (r B : Rule)
    (h : B ∈ derivedImplicit w r) : B.outputPatterns.length = 1 := by
  unfold derivedImplicit at h
  split at h
  · simp only [List.mem_map] at h
    obtain ⟨p, -, rfl⟩ := h
    rfl
  · cases h

theorem find?_append_of_none {α : Type} (p : α → Bool) (l1 l2 : List α)
    (h : ∀ x ∈ l1, p x = false) : (l1 ++ l2).find? p = l2.find? p := by
  induction l1 with
  | nil => rfl
  | cons a l ih =>
    rw [List.cons_append, List.find?_cons, h a (List.mem_cons_self _ _)]
    exact ih (fun x hx => h x (List.mem_cons_of_mem _ hx))

theorem pickImplicitStep_of_find (w : World) (db : DepBuilder) (rule : Option Rule)
    (vars : Option VarList) (T : String) (B : Rule)
    (hI : ∀ r ∈ db.implicitRules, r.outputPatterns.length = 1)
    (hfind : db.implicitRules.find? (db.implicitApplicable w T) = some B) :
    ∃ db2, db.pickImplicitStep w rule vars T = .ok
      ((some (implicitChoice rule B), db.choiceVars rule vars B.outputPatterns, true),
        db2) := by
  refine ⟨{ db with pickImplicitRuleCnt := db.pickImplicitRuleCnt + 1 }, ?_⟩
  unfold DepBuilder.pickImplicitStep
  rw [pickImplicit_some w db rule vars T _ B hI hfind]

/-- C3 (amended). For the builder `populateRules` makes of any rule list
(starting without pattern rules), the implicit list is the exact reverse of
the ingestion order of the pattern rules, and for a target `T` that has no
explicit rule with commands `pickRule` selects the most recently ingested
applicable pattern rule: a rule `B` that is applicable is selected when no
pattern rule ingested after `B` is applicable, whichever rules ingested
before `B` (such as `A`) are applicable. -/
theorem implicit_most_recent_wins (w : World) (db db1 : DepBuilder) (er : EvalResult)
    (T : String) (before after : List Rule) (B : Rule)
    (hdb : db.implicitRules = [])
    (h : db.populateRules w er = .ok db1)
    (hsplit : er.rules.flatMap (derivedImplicit w) = before ++ B :: after)
    (hcmds : hasCmds (db1.rules T) = false)
    (hB : db1.implicitApplicable w T B = true)
    (hafter : ∀ C ∈ after, db1.implicitApplicable w T C = false) :
    db1.implicitRules = (er.rules.flatMap (derivedImplicit w)).reverse ∧
    ∃ db2, db1.pickRule w T = .ok
      ((some (implicitChoice (db1.rules T) B),
        db1.choiceVars (db1.rules T) (db1.ruleVars T) B.outputPatterns, true), db2) := by
  have himp := populateRules_implicitRules w db db1 er h
  rw [hdb, List.nil_append] at himp
  refine ⟨himp, ?_⟩
  have hI : ∀ r ∈ db1.implicitRules, r.outputPatterns.length = 1 := by
    intro r hr
    rw [himp, List.mem_reverse, List.mem_flatMap] at hr
    obtain ⟨r0, -, hr0⟩ := hr
    exact derivedImplicit_single w r0 r hr0
  have hfind : db1.implicitRules.find? (db1.implicitApplicable w T) = some B := by
    rw [himp, hsplit, List.reverse_append, List.reverse_cons, List.append_assoc,
      find?_append_of_none _ _ _ (fun x hx => hafter x (List.mem_reverse.mp hx))]
    simp [List.find?_cons, hB]
  unfold DepBuilder.pickRule
  simp only [hcmds, Bool.false_eq_true, if_false]
  by_cases hs : (db1.rules T).isSome = true
  · simp only [hs, if_true]
    obtain ⟨db2, h2⟩ := pickImplicitStep_of_find w
      { db1 with
        pickExplicitRuleCnt := db1.pickExplicitRuleCnt + 1
        pickExplicitRuleWithoutCmdCnt := db1.pickExplicitRuleWithoutCmdCnt + 1 }
      (db1.rules T) (db1.ruleVars T) T B hI
      ((congrArg (fun f => List.find? f db1.implicitRules)
        (implicitApplicable_congr w rfl T)).trans hfind)
    exact ⟨db2, h2.trans (congrArg (fun v => Except.ok ((some (implicitChoice (db1.rules T) B),
      v, true), db2)) (choiceVars_congr rfl _ _ _))⟩
  · simp only [hs, Bool.false_eq_true, if_false]
    exact pickImplicitStep_of_find w db1 _ _ T B hI hfind

/-- C3, witness: `%.o: %.c` is ingested before `%.o: %.s`, both are
applicable to `foo.o`, and the second is selected. -/
theorem implicit_most_recent_wins_witness :
    hasCmds ((builderOf threeSources [ruleFromC, ruleFromS] []).rules "foo.o") = false ∧
    (builderOf threeSources [ruleFromC, ruleFromS] []).implicitApplicable threeSources
      "foo.o" ruleFromC = true ∧
    (builderOf threeSources [ruleFromC, ruleFromS] []).implicitApplicable threeSources
      "foo.o" ruleFromS = true ∧
    ∃ db2, (builderOf threeSources [ruleFromC, ruleFromS] []).pickRule threeSources "foo.o"
      = .ok ((some ruleFromS, none, true), db2) :=
  ⟨by decide, by decide, by decide,
    (implicit_most_recent_wins threeSources { vars := Vars.empty }
      (builderOf threeSources [ruleFromC, ruleFromS] [])
      { rules := [ruleFromC, ruleFromS], ruleVars := fun k => ([] : List (String × VarList)).lookup k }
      "foo.o" [ruleFromC] [] ruleFromS rfl rfl (by decide) (by decide) (by decide)
      (by decide)).2⟩

/-- C3, counterexample: `%.o: %.c` (A) is ingested before `%.o: %.s` (B),
`foo.o` has no explicit rule and both are applicable to it, yet `pickRule`
returns the commands of `%.o: %.f`, a third applicable rule ingested after
both. -/
theorem implicit_most_recent_wins_counterexample :
    errorOf (NewDepBuilder threeSources
      { rules := [ruleFromC, ruleFromS, ruleFromF]
        ruleVars := fun k => ([] : List (String × VarList)).lookup k } Vars.empty) = none ∧
    (builderOf threeSources [ruleFromC, ruleFromS, ruleFromF] []).rules "foo.o" = none ∧
    (builderOf threeSources [ruleFromC, ruleFromS, ruleFromF] []).implicitApplicable
      threeSources "foo.o" ruleFromC = true ∧
    (builderOf threeSources [ruleFromC, ruleFromS, ruleFromF] []).implicitApplicable
      threeSources "foo.o" ruleFromS = true ∧
    (valueOf ((builderOf threeSources [ruleFromC, ruleFromS, ruleFromF] []).pickRule
      threeSources "foo.o")).map (fun x => x.1.1) = some (some ruleFromF) ∧
    ruleFromF.cmds ≠ ruleFromS.cmds := by
  decide

theorem mergeImplicitRuleVars_ok (db : DepBuilder) (keys : List String)
    (vs : VarList) (vars1 : Option VarList)
    (h : db.mergeImplicitRuleVars keys (some vs) = .ok vars1) :
    vars1 = db.choiceVars none (some vs) keys := by
  match keys, h with
  | [o], h =>
    rw [mergeImplicitRuleVars_single] at h
    exact (Except.ok.inj h).symm
  | [], h => cases h
  | _ :: _ :: _, h => cases h

theorem canPick_ok_iff (w : World) (db : DepBuilder) (r : Rule) (T : String) (b : Bool)
    (h : db.canPickImplicitRule w r T = .ok b) : db.implicitApplicable w T r = b := by
  unfold DepBuilder.implicitApplicable
  rw [h]

/-- If the loop over the pattern rules ends without aborting, its result is
that of the first applicable rule. -/
theorem pickImplicit_ok (w : World) (db : DepBuilder) (rule : Option Rule)
    (vars : Option VarList) (T : String) (l : List Rule) :
    ∀ res, db.pickImplicit w rule vars T l = .ok res →
      res = (l.find? (db.implicitApplicable w T)).map fun I =>
        (some (implicitChoice rule I), db.choiceVars rule vars I.outputPatterns, true) := by
  induction l with
  | nil =>
    intro res h
    cases h
    rfl
  | cons r rest ih =>
    intro res h
    rw [pickImplicit_cons] at h
    rw [List.find?_cons]
    cases hc : db.canPickImplicitRule w r T with
    | error e => rw [hc] at h; cases h
    | ok b =>
      rw [hc] at h
      rw [canPick_ok_iff w db r T b hc]
      cases b with
      | false => exact ih res h
      | true =>
        simp only at h
        cases rule with
        | some r0 =>
          cases h
          rfl
        | none =>
          cases vars with
          | none =>
            cases h
            rfl
          | some vs =>
            simp only at h
            cases hm : db.mergeImplicitRuleVars r.outputPatterns (some vs) with
            | error e => rw [hm] at h; cases h
            | ok vars1 =>
              rw [hm] at h
              cases h
              rw [mergeImplicitRuleVars_ok db _ vs vars1 hm]
              rfl

theorem suffixApplicable_single (w : World) (db : DepBuilder) (T : String) (r : Rule)
    (inp : String) (h : r.inputs = [inp]) :
    db.suffixApplicable w T r = db.exists w (replaceSuffix T inp) := by
  unfold DepBuilder.suffixApplicable
  rw [h]

/-- If the loop over the suffix rules ends without aborting, its result is
that of the first applicable rule. -/
theorem pickSuffix_ok (w : World) (db : DepBuilder) (rule : Option Rule)
    (vars : Option VarList) (T : String) (l : List Rule) :
    ∀ res, db.pickSuffix w rule vars T l = .ok res →
      res = (l.find? (db.suffixApplicable w T)).map fun S =>
        (some (suffixChoice rule S T), db.choiceVars rule vars S.outputs, true) := by
  induction l with
  | nil =>
    intro res h
    cases h
    rfl
  | cons r rest ih =>
    intro res h
    rw [pickSuffix_cons] at h
    rw [List.find?_cons]
    match hin : r.inputs, h with
    | [inp], h =>
      simp only at h
      rw [suffixApplicable_single w db T r inp hin]
      cases hex : db.exists w (replaceSuffix T inp) with
      | false =>
        simp only [hex, Bool.not_false, if_true] at h
        exact ih res h
      | true =>
        simp only [hex, Bool.not_true, Bool.false_eq_true, if_false] at h
        cases rule with
        | some r0 =>
          cases h
          simp [suffixChoice, hin, DepBuilder.choiceVars]
        | none =>
          cases vars with
          | none =>
            cases h
            rfl
          | some vs =>
            simp only at h
            cases hm : db.mergeImplicitRuleVars r.outputs (some vs) with
            | error e => rw [hm] at h; cases h
            | ok vars1 =>
              rw [hm] at h
              cases h
              rw [mergeImplicitRuleVars_ok db _ vs vars1 hm]
              rfl
    | [], h => cases h
    | _ :: _ :: _, h => cases h

theorem pickSuffixStep_ok (w : World) (db : DepBuilder) (rule : Option Rule)
    (vars : Option VarList) (T : String) (res : Option Rule × Option VarList × Bool)
    (db1 : DepBuilder)
    (hf : db.implicitRules.find? (db.implicitApplicable w T) = none)
    (h : db.pickSuffixStep w rule vars T = .ok (res, db1)) :
    res = db.selectedImplicit w rule vars T ∧ db.sameButCounters db1 := by
  unfold DepBuilder.selectedImplicit
  rw [hf]
  simp only
  rcases suffixCandidates_cases db T with ⟨sfx, hsfx, hcand⟩ | ⟨hne, hcand⟩
  · rw [hcand]
    unfold DepBuilder.pickSuffixStep at h
    rw [hsfx] at h
    simp only at h
    cases hk : db.suffixRules (String.mk sfx) with
    | none =>
      rw [hk] at h
      cases h
      exact ⟨by simp, sameButCounters_refl db⟩
    | some rules =>
      rw [hk] at h
      simp only [Option.getD_some] at h ⊢
      cases hp : db.pickSuffix w rule vars T rules with
      | error e => rw [hp] at h; cases h
      | ok r1 =>
        rw [hp] at h
        have hr1 := pickSuffix_ok w db rule vars T rules r1 hp
        cases hfs : rules.find? (db.suffixApplicable w T) with
        | none =>
          rw [hfs] at hr1
          subst hr1
          cases h
          exact ⟨rfl, sameButCounters_refl db⟩
        | some S =>
          rw [hfs] at hr1
          subst hr1
          cases h
          exact ⟨rfl, ⟨rfl, rfl, rfl, rfl, rfl, rfl, rfl, rfl, rfl, rfl⟩⟩
  · rw [hcand]
    unfold DepBuilder.pickSuffixStep at h
    split at h
    · rename_i sfx hsfx
      exact absurd hsfx (hne sfx)
    · cases h
      exact ⟨by simp, sameButCounters_refl db⟩

theorem pickImplicitStep_ok (w : World) (db : DepBuilder) (rule : Option Rule)
    (vars : Option VarList) (T : String) (res : Option Rule × Option VarList × Bool)
    (db1 : DepBuilder)
    (h : db.pickImplicitStep w rule vars T = .ok (res, db1)) :
    res = db.selectedImplicit w rule vars T ∧ db.sameButCounters db1 := by
  unfold DepBuilder.pickImplicitStep at h
  cases hp : db.pickImplicit w rule vars T db.implicitRules with
  | error e => rw [hp] at h; cases h
  | ok r1 =>
    rw [hp] at h
    have hr1 := pickImplicit_ok w db rule vars T _ r1 hp
    cases hf : db.implicitRules.find? (db.implicitApplicable w T) with
    | none =>
      rw [hf] at hr1
      subst hr1
      exact pickSuffixStep_ok w db rule vars T res db1 hf h
    | some I =>
      rw [hf] at hr1
      subst hr1
      cases h
      unfold DepBuilder.selectedImplicit
      rw [hf]
      exact ⟨rfl, ⟨rfl, rfl, rfl, rfl, rfl, rfl, rfl, rfl, rfl, rfl⟩⟩

/-- Whenever `pickRule` returns, it returns what `selected` describes and
has changed nothing but the counters. -/
theorem pickRule_ok (w : World) (db : DepBuilder) (T : String)
    (res : Option Rule × Option VarList × Bool) (db1 : DepBuilder)
    (h : db.pickRule w T = .ok (res, db1)) :
    res = db.selected w T ∧ db.sameButCounters db1 := by
  unfold DepBuilder.pickRule at h
  unfold DepBuilder.selected
  simp only at h
  by_cases hc : hasCmds (db.rules T) = true
  · simp only [hc, if_true] at h ⊢
    cases h
    exact ⟨rfl, ⟨rfl, rfl, rfl, rfl, rfl, rfl, rfl, rfl, rfl, rfl⟩⟩
  · simp only [hc, if_false, Bool.false_eq_true] at h ⊢
    by_cases hs : (db.rules T).isSome = true
    · simp only [hs, if_true] at h
      obtain ⟨h1, h2⟩ := pickImplicitStep_ok w _ _ _ T res db1 h
      refine ⟨h1.trans (selectedImplicit_congr w rfl rfl rfl rfl _ _ _), ?_⟩
      exact sameButCounters_trans ⟨rfl, rfl, rfl, rfl, rfl, rfl, rfl, rfl, rfl, rfl⟩ h2
    · simp only [hs, if_false, Bool.false_eq_true] at h
      exact pickImplicitStep_ok w db _ _ T res db1 h

theorem sameButOrderOnly_refl (a : DepNode) : a.sameButOrderOnly a := Or.inl rfl

theorem sameButOrderOnly_trans {a b c : DepNode} (h1 : a.sameButOrderOnly b)
    (h2 : b.sameButOrderOnly c) : a.sameButOrderOnly c := by
  rcases h1 with rfl | rfl
  · exact h2
  · rcases h2 with rfl | rfl
    · exact Or.inr rfl
    · exact Or.inr rfl

theorem sameButOrderOnly_fields {a b : DepNode} (h : a.sameButOrderOnly b) :
    b.Output = a.Output ∧ b.Cmds = a.Cmds ∧ b.Deps = a.Deps ∧ b.HasRule = a.HasRule ∧
    b.ActualInputs = a.ActualInputs ∧ b.TargetSpecificVars = a.TargetSpecificVars ∧
    b.Filename = a.Filename ∧ b.Lineno = a.Lineno ∧
    (a.IsOrderOnly = true → b.IsOrderOnly = true) := by
  rcases h with rfl | rfl
  · exact ⟨rfl, rfl, rfl, rfl, rfl, rfl, rfl, rfl, id⟩
  · exact ⟨rfl, rfl, rfl, rfl, rfl, rfl, rfl, rfl, fun _ => rfl⟩

theorem DepBuilder.Extends.refl (a : DepBuilder) : a.Extends a :=
  ⟨rfl, rfl, rfl, rfl, rfl, fun _ _ h => h, fun _ nd h => ⟨nd, h, Or.inl rfl⟩⟩

theorem DepBuilder.Extends.trans {a b c : DepBuilder} (h1 : a.Extends b) (h2 : b.Extends c) :
    a.Extends c where
  rules := h2.rules.trans h1.rules
  ruleVars := h2.ruleVars.trans h1.ruleVars
  implicitRules := h2.implicitRules.trans h1.implicitRules
  suffixRules := h2.suffixRules.trans h1.suffixRules
  firstRule := h2.firstRule.trans h1.firstRule
  done_mono := fun name n h => h2.done_mono name n (h1.done_mono name n h)
  old_nodes := fun n nd h => by
    obtain ⟨nd1, g1, s1⟩ := h1.old_nodes n nd h
    obtain ⟨nd2, g2, s2⟩ := h2.old_nodes n nd1 g1
    exact ⟨nd2, g2, sameButOrderOnly_trans s1 s2⟩

theorem DepBuilder.Extends.of_sameGraph {a b : DepBuilder} (h : a.sameGraph b) : a.Extends b := by
  obtain ⟨h1, h2, h3, h4, h5, h6, h7⟩ := h
  exact ⟨h1, h2, h3, h4, h5, fun name n h => by rw [h6]; exact h,
    fun n nd h => ⟨nd, by rw [h7]; exact h, Or.inl rfl⟩⟩

theorem sameGraph_of_sameButCounters {a b : DepBuilder} (h : a.sameButCounters b) :
    a.sameGraph b := by
  obtain ⟨a1, a2, a3, a4, a5, a6, a7, a8, a9, a10⟩ := h
  exact ⟨a1.symm, a2.symm, a3.symm, a4.symm, a5.symm, a7.symm, a8.symm⟩

theorem selected_of_extends (w : World) {a b : DepBuilder} (h : a.Extends b) (T : String) :
    b.selected w T = a.selected w T :=
  selected_congr w h.rules h.ruleVars h.implicitRules h.suffixRules T

theorem DepBuilder.Extends.length_le {a b : DepBuilder} (h : a.Extends b) :
    a.nodes.length ≤ b.nodes.length := by
  by_contra hlt
  have hlt : b.nodes.length < a.nodes.length := Nat.lt_of_not_le hlt
  obtain ⟨nd1, g1, -⟩ := h.old_nodes b.nodes.length _ (List.getElem?_eq_getElem hlt)
  rw [List.getElem?_eq_none (Nat.le_refl _)] at g1
  cases g1

/-- A completed node stays completed in every later state. -/
theorem DepBuilder.Planned.mono (w : World) {a b : DepBuilder} (h : a.Extends b) (n : Nat)
    (hp : a.Planned w n) : b.Planned w n := by
  obtain ⟨nd, hnd, hno, hyes⟩ := hp
  obtain ⟨nd1, hnd1, hs⟩ := h.old_nodes n nd hnd
  obtain ⟨f1, f2, f3, f4, f5, -, f7, -, -⟩ := sameButOrderOnly_fields hs
  refine ⟨nd1, hnd1, ?_, ?_⟩
  · intro rule vars hsel
    rw [selected_of_extends w h, f1] at hsel
    rw [f2, f3, f4, f5]
    exact hno rule vars hsel
  · intro rule vars hsel
    rw [selected_of_extends w h, f1] at hsel
    obtain ⟨ins, oos, h1, h2, h3, h4, h5, h6, h7⟩ := hyes rule vars hsel
    refine ⟨ins, oos, ?_, ?_, ?_, ?_, ?_, ?_, ?_⟩
    · rw [f1, f5]; exact h1
    · rw [f4]; exact h2
    · rw [f2]; exact h3
    · rw [f7]; exact h4
    · rw [f3]; exact h5
    · rw [f5]
      exact h6.imp fun {name c} hc => h.done_mono name c hc
    · refine h7.imp fun {name c} hc => ?_
      obtain ⟨hc1, cd, hcd, hoo⟩ := hc
      obtain ⟨cd1, hcd1, hs1⟩ := h.old_nodes c cd hcd
      exact ⟨h.done_mono name c hc1, cd1, hcd1, (sameButOrderOnly_fields hs1).2.2.2.2.2.2.2.2 hoo⟩

theorem modifyNode_get (db : DepBuilder) (n m : Nat) (f : DepNode → DepNode) :
    (db.modifyNode n f).nodes[m]? = (fun a => if n = m then f a else a) <$> db.nodes[m]? := by
  unfold DepBuilder.modifyNode
  exact List.getElem?_modify f n db.nodes m

theorem modifyNode_memoOK (db : DepBuilder) (n : Nat) (f : DepNode → DepNode)
    (hf : ∀ nd, (f nd).Output = nd.Output) (h : db.MemoOK) : (db.modifyNode n f).MemoOK := by
  obtain ⟨h1, h2⟩ := h
  constructor
  · intro name k hk
    obtain ⟨nd, hnd, hout⟩ := h1 name k hk
    rw [modifyNode_get, hnd]
    by_cases hnk : n = k
    · exact ⟨f nd, by simp [hnk], (hf nd).trans hout⟩
    · exact ⟨nd, by simp [hnk], hout⟩
  · intro k nd hk
    rw [modifyNode_get] at hk
    cases hnd : db.nodes[k]? with
    | none => rw [hnd] at hk; cases hk
    | some nd0 =>
      rw [hnd] at hk
      have h3 := h2 k nd0 hnd
      by_cases hnk : n = k
      · simp only [hnk, if_true, Option.map_eq_map, Option.map_some', Option.some.injEq] at hk
        rw [← hk, hf]
        exact h3
      · simp only [hnk, if_false, Option.map_eq_map, Option.map_some', Option.some.injEq] at hk
        rw [← hk]
        exact h3

/-- Setting the `IsOrderOnly` flag of a node leads to a later state. -/
theorem modifyNode_orderOnly_extends (db : DepBuilder) (n : Nat) :
    db.Extends (db.modifyNode n fun nd => { nd with IsOrderOnly := true }) where
  rules := rfl
  ruleVars := rfl
  implicitRules := rfl
  suffixRules := rfl
  firstRule := rfl
  done_mono := fun _ _ h => h
  old_nodes := fun k nd hk => by
    rw [modifyNode_get, hk]
    by_cases hnk : n = k
    · exact ⟨{ nd with IsOrderOnly := true }, by simp [hnk], Or.inr rfl⟩
    · exact ⟨nd, by simp [hnk], Or.inl rfl⟩

theorem modifyNode_length (db : DepBuilder) (n : Nat) (f : DepNode → DepNode) :
    (db.modifyNode n f).nodes.length = db.nodes.length := by
  unfold DepBuilder.modifyNode
  simp

theorem planInputs_cons (plan : String → Vars → DepBuilder → PlanResult) (rule : Rule)
    (output input : String) (rest : List String) (children : List Nat)
    (actualInputs : List String) (tsvs : Vars) (db : DepBuilder) :
    planInputs plan rule output (input :: rest) children actualInputs tsvs db =
      match actualInput rule output input with
      | .error e => .error e
      | .ok input1 =>
        match plan input1 tsvs { db with trace := db.trace ++ [input1] } with
        | .error e => .error e
        | .ok (n, tsvs1, db1) =>
          planInputs plan rule output rest (children ++ [n])
            (actualInputs ++ [input1]) tsvs1 { db1 with trace := db1.trace.dropLast } := rfl

theorem planOrderOnly_cons (plan : String → Vars → DepBuilder → PlanResult)
    (input : String) (rest : List String) (children : List Nat) (tsvs : Vars)
    (db : DepBuilder) :
    planOrderOnly plan (input :: rest) children tsvs db =
      match plan input tsvs { db with trace := db.trace ++ [input] } with
      | .error e => .error e
      | .ok (n, tsvs1, db1) =>
        planOrderOnly plan rest (children ++ [n]) tsvs1
          (({ db1 with trace := db1.trace.dropLast } : DepBuilder).modifyNode n
            fun nd => { nd with IsOrderOnly := true }) := rfl

/-- The loop over the regular prerequisites: it plans the actual inputs in
order and appends their nodes to `children`. -/
theorem planInputs_ok (w : World) (plan : String → Vars → DepBuilder → PlanResult)
    (hplan : PlanOK w plan) (rule : Rule) (output : String) (inputs : List String) :
    ∀ children ais tsvs db children1 ais1 tsvs1 db1,
      planInputs plan rule output inputs children ais tsvs db
        = .ok (children1, ais1, tsvs1, db1) →
      db.MemoOK →
      db1.MemoOK ∧ db.Extends db1 ∧
      (∀ m, db.nodes.length ≤ m → m < db1.nodes.length → db1.Planned w m) ∧
      ∃ newAis newCh, ais1 = ais ++ newAis ∧ children1 = children ++ newCh ∧
        List.Forall₂ (fun i a => actualInput rule output i = .ok a) inputs newAis ∧
        List.Forall₂ (fun name c => db1.done name = some c) newAis newCh := by
  induction inputs with
  | nil =>
    intro children ais tsvs db children1 ais1 tsvs1 db1 h hm
    cases h
    exact ⟨hm, DepBuilder.Extends.refl _, fun m h1 h2 => absurd h2 (Nat.not_lt.mpr h1),
      [], [], by simp, by simp, List.Forall₂.nil, List.Forall₂.nil⟩
  | cons input rest ih =>
    intro children ais tsvs db children1 ais1 tsvs1 db1 h hm
    rw [planInputs_cons] at h
    cases ha : actualInput rule output input with
    | error e => rw [ha] at h; cases h
    | ok input1 =>
      rw [ha] at h
      simp only at h
      cases hp : plan input1 tsvs { db with trace := db.trace ++ [input1] } with
      | error e => rw [hp] at h; cases h
      | ok r =>
        obtain ⟨n, tsvsA, dbA⟩ := r
        rw [hp] at h
        simp only at h
        obtain ⟨mA, eA, dA, pA⟩ := hplan input1 tsvs _ n tsvsA dbA hp hm
        obtain ⟨mB, eB, pB, newAis, newCh, h1, h2, h3, h4⟩ :=
          ih _ _ _ _ children1 ais1 tsvs1 db1 h mA
        have eA1 : db.Extends dbA :=
          ⟨eA.1, eA.2, eA.3, eA.4, eA.5, eA.6, eA.7⟩
        have eB1 : dbA.Extends db1 :=
          ⟨eB.1, eB.2, eB.3, eB.4, eB.5, eB.6, eB.7⟩
        refine ⟨mB, eA1.trans eB1, ?_, input1 :: newAis, n :: newCh, ?_, ?_, ?_, ?_⟩
        · intro m hm1 hm2
          by_cases hlt : m < dbA.nodes.length
          · exact DepBuilder.Planned.mono w eB1 m (pA m hm1 hlt)
          · exact pB m (Nat.le_of_not_lt hlt) hm2
        · rw [h1]; simp
        · rw [h2]; simp
        · exact List.Forall₂.cons ha h3
        · exact List.Forall₂.cons (eB1.done_mono _ _ dA) h4

/-- The loop over the order-only prerequisites: it plans them in order,
unchanged, appends their nodes to `children` and flags them. -/
theorem planOrderOnly_ok (w : World) (plan : String → Vars → DepBuilder → PlanResult)
    (hplan : PlanOK w plan) (inputs : List String) :
    ∀ children tsvs db children1 tsvs1 db1,
      planOrderOnly plan inputs children tsvs db = .ok (children1, tsvs1, db1) →
      db.MemoOK →
      db1.MemoOK ∧ db.Extends db1 ∧
      (∀ m, db.nodes.length ≤ m → m < db1.nodes.length → db1.Planned w m) ∧
      ∃ newCh, children1 = children ++ newCh ∧
        List.Forall₂ (fun name c => db1.done name = some c ∧
          ∃ cd, db1.nodes[c]? = some cd ∧ cd.IsOrderOnly = true) inputs newCh := by
  induction inputs with
  | nil =>
    intro children tsvs db children1 tsvs1 db1 h hm
    cases h
    exact ⟨hm, DepBuilder.Extends.refl _, fun m h1 h2 => absurd h2 (Nat.not_lt.mpr h1),
      [], by simp, List.Forall₂.nil⟩
  | cons input rest ih =>
    intro children tsvs db children1 tsvs1 db1 h hm
    rw [planOrderOnly_cons] at h
    cases hp : plan input tsvs { db with trace := db.trace ++ [input] } with
    | error e => rw [hp] at h; cases h
    | ok r =>
      obtain ⟨n, tsvsA, dbA⟩ := r
      rw [hp] at h
      simp only at h
      obtain ⟨mA, eA, dA, pA⟩ := hplan input tsvs _ n tsvsA dbA hp hm
      have eA1 : db.Extends dbA :=
        ⟨eA.1, eA.2, eA.3, eA.4, eA.5, eA.6, eA.7⟩
      have mA1 : (({ dbA with trace := dbA.trace.dropLast } : DepBuilder).modifyNode n
          fun nd => { nd with IsOrderOnly := true }).MemoOK :=
        modifyNode_memoOK _ n _ (fun _ => rfl) mA
      have eA2 : dbA.Extends (({ dbA with trace := dbA.trace.dropLast } : DepBuilder).modifyNode n
          fun nd => { nd with IsOrderOnly := true }) :=
        let e := modifyNode_orderOnly_extends { dbA with trace := dbA.trace.dropLast } n
        ⟨e.1, e.2, e.3, e.4, e.5, e.6, e.7⟩
      obtain ⟨mB, eB, pB, newCh, h2, h4⟩ := ih _ _ _ children1 tsvs1 db1 h mA1
      have eAB : dbA.Extends db1 := eA2.trans eB
      refine ⟨mB, eA1.trans eAB, ?_, n :: newCh, ?_, ?_⟩
      · intro m hm1 hm2
        by_cases hlt : m < dbA.nodes.length
        · exact DepBuilder.Planned.mono w eAB m (pA m hm1 hlt)
        · refine pB m ?_ hm2
          rw [modifyNode_length]
          exact Nat.le_of_not_lt hlt
      · rw [h2]; simp
      · refine List.Forall₂.cons ⟨eAB.done_mono _ _ dA, ?_⟩ h4
        obtain ⟨nd, hnd, -⟩ := mA.1 input n dA
        have hflag : (({ dbA with trace := dbA.trace.dropLast } : DepBuilder).modifyNode n
            fun nd => { nd with IsOrderOnly := true }).nodes[n]?
            = some { nd with IsOrderOnly := true } := by
          rw [modifyNode_get]
          show (fun a => if n = n then _ else a) <$> dbA.nodes[n]? = _
          rw [hnd]
          simp
        obtain ⟨cd, hcd, hs⟩ := eB.old_nodes n _ hflag
        exact ⟨cd, hcd, (sameButOrderOnly_fields hs).2.2.2.2.2.2.2.2 rfl⟩

theorem newNode_memoOK (db : DepBuilder) (T : String) (hm : db.MemoOK)
    (hd : db.done T = none) : (db.newNode T).MemoOK := by
  obtain ⟨h1, h2⟩ := hm
  constructor
  · intro name k hk
    change (if name = T then some db.nodes.length else db.done name) = some k at hk
    change ∃ nd, (db.nodes ++ [({ Output := T } : DepNode)])[k]? = some nd ∧ nd.Output = name
    by_cases hname : name = T
    · rw [if_pos hname] at hk
      cases hk
      exact ⟨{ Output := T }, by simp, hname.symm⟩
    · rw [if_neg hname] at hk
      obtain ⟨nd, hnd, hout⟩ := h1 name k hk
      have hlt : k < db.nodes.length := by
        by_contra hge
        rw [List.getElem?_eq_none (Nat.le_of_not_lt hge)] at hnd
        cases hnd
      exact ⟨nd, by rw [List.getElem?_append_left hlt]; exact hnd, hout⟩
  · intro k nd hk
    change (db.nodes ++ [({ Output := T } : DepNode)])[k]? = some nd at hk
    change (if nd.Output = T then some db.nodes.length else db.done nd.Output) = some k
    by_cases hlt : k < db.nodes.length
    · rw [List.getElem?_append_left hlt] at hk
      have h3 := h2 k nd hk
      have hne : nd.Output ≠ T := by
        intro heq
        rw [heq, hd] at h3
        cases h3
      rw [if_neg hne]
      exact h3
    · rw [List.getElem?_append_right (Nat.le_of_not_lt hlt)] at hk
      have hk0 : k - db.nodes.length = 0 := by
        by_contra hne
        rw [List.getElem?_eq_none (by simp; omega)] at hk
        cases hk
      rw [hk0] at hk
      simp only [List.getElem?_cons_zero, Option.some.injEq] at hk
      subst hk
      simp only [if_true]
      congr 1
      omega

theorem newNode_extends (db : DepBuilder) (T : String)
    (hd : db.done T = none) : db.Extends (db.newNode T) where
  rules := rfl
  ruleVars := rfl
  implicitRules := rfl
  suffixRules := rfl
  firstRule := rfl
  done_mono := fun name k hk => by
    change (if name = T then some db.nodes.length else db.done name) = some k
    have hne : name ≠ T := by
      intro heq
      rw [heq, hd] at hk
      cases hk
    rw [if_neg hne]
    exact hk
  old_nodes := fun k nd hk => by
    refine ⟨nd, ?_, Or.inl rfl⟩
    change (db.nodes ++ [({ Output := T } : DepNode)])[k]? = some nd
    have hlt : k < db.nodes.length := by
      by_contra hge
      rw [List.getElem?_eq_none (Nat.le_of_not_lt hge)] at hk
      cases hk
    rw [List.getElem?_append_left hlt]
    exact hk

theorem newNode_get (db : DepBuilder) (T : String) :
    (db.newNode T).nodes[db.nodes.length]? = some { Output := T } ∧
    (db.newNode T).done T = some db.nodes.length ∧
    (db.newNode T).nodes.length = db.nodes.length + 1 := by
  refine ⟨?_, ?_, ?_⟩
  · change (db.nodes ++ [({ Output := T } : DepNode)])[db.nodes.length]? = _
    simp
  · change (if T = T then some db.nodes.length else db.done T) = _
    simp
  · change (db.nodes ++ [({ Output := T } : DepNode)]).length = _
    simp

/-- A completed node other than `n` stays completed when node `n` is
rewritten without touching its `IsOrderOnly` flag. -/
theorem Planned_modifyNode_ne (w : World) (db : DepBuilder) (n m : Nat)
    (f : DepNode → DepNode) (hf : ∀ nd, (f nd).IsOrderOnly = nd.IsOrderOnly)
    (hne : m ≠ n) (hp : db.Planned w m) : (db.modifyNode n f).Planned w m := by
  obtain ⟨nd, hnd, hno, hyes⟩ := hp
  refine ⟨nd, ?_, hno, ?_⟩
  · rw [modifyNode_get, hnd]
    simp [Ne.symm hne]
  · intro rule vars hsel
    obtain ⟨ins, oos, h1, h2, h3, h4, h5, h6, h7⟩ := hyes rule vars hsel
    refine ⟨ins, oos, h1, h2, h3, h4, h5, h6, ?_⟩
    refine h7.imp fun {name c} hc => ?_
    obtain ⟨hc1, cd, hcd, hoo⟩ := hc
    refine ⟨hc1, ?_⟩
    rw [modifyNode_get, hcd]
    by_cases hnc : n = c
    · exact ⟨f cd, by simp [hnc], (hf cd).trans hoo⟩
    · exact ⟨cd, by simp [hnc], hoo⟩

theorem getElem?_lt {α : Type} {l : List α} {k : Nat} {a : α} (h : l[k]? = some a) :
    k < l.length := by
  by_contra hge
  rw [List.getElem?_eq_none (Nat.le_of_not_lt hge)] at h
  cases h

/-- The part of `buildPlan` that follows the selection of a rule: the node
of the target is completed as `Planned` describes, and so is every node
allocated on the way. `dbP` is the builder before the node was allocated. -/
theorem planRule_ok (w : World) (plan : String → Vars → DepBuilder → PlanResult)
    (hplan : PlanOK w plan) (dbP db : DepBuilder) (rule : Rule) (vars : Option VarList)
    (T : String) (tsvs : Vars) (k : Nat) (tsvs1 : Vars) (db1 : DepBuilder)
    (h : planRule w plan dbP.nodes.length rule vars T tsvs db = .ok (k, tsvs1, db1))
    (hm : db.MemoOK) (hext : dbP.Extends db)
    (hlen : db.nodes.length = dbP.nodes.length + 1)
    (hdone : db.done T = some dbP.nodes.length)
    (hsel : db.selected w T = (some rule, vars, true)) :
    k = dbP.nodes.length ∧ db1.MemoOK ∧ dbP.Extends db1 ∧ db1.done T = some k ∧
    ∀ m, dbP.nodes.length ≤ m → m < db1.nodes.length → db1.Planned w m := by
  unfold planRule at h
  simp only at h
  generalize happ : applyVars w (vars.getD []) (db.vars, tsvs) [] = applied at h
  cases hI : planInputs plan rule T rule.inputs [] [] applied.1.2
      { db with vars := applied.1.1 } with
  | error e => rw [hI] at h; cases h
  | ok rI =>
    obtain ⟨children, ais, tsvsD, dbD⟩ := rI
    rw [hI] at h
    simp only at h
    cases hO : planOrderOnly plan rule.orderOnlyInputs children tsvsD dbD with
    | error e => rw [hO] at h; cases h
    | ok rO =>
      obtain ⟨children2, tsvsE, dbE⟩ := rO
      rw [hO] at h
      simp only at h
      obtain ⟨mD, eD, pD, newAis, newCh, h1, h2, h3, h4⟩ :=
        planInputs_ok w plan hplan rule T rule.inputs _ _ _ _ _ _ _ _ hI hm
      obtain ⟨mE, eE, pE, newCh2, g2, g4⟩ :=
        planOrderOnly_ok w plan hplan rule.orderOnlyInputs _ _ _ _ _ _ hO mD
      simp only [List.nil_append] at h1 h2
      subst h1 h2
      have eD1 : db.Extends dbD := ⟨eD.1, eD.2, eD.3, eD.4, eD.5, eD.6, eD.7⟩
      have eCE : db.Extends dbE := eD1.trans eE
      have ePE : dbP.Extends dbE := hext.trans eCE
      obtain ⟨nd0, hnd0, hout0⟩ := hm.1 T _ hdone
      obtain ⟨ndE, hndE, hsE⟩ := eCE.old_nodes _ nd0 hnd0
      have houtE : ndE.Output = T := (sameButOrderOnly_fields hsE).1.trans hout0
      have hk : k = dbP.nodes.length := (congrArg Prod.fst (Except.ok.inj h)).symm
      have hdb1 : db1 = { dbE.modifyNode dbP.nodes.length
            (finishNode rule children2 ais tsvsE) with
          vars := (runRestores applied.2
            ((dbE.modifyNode dbP.nodes.length
              (finishNode rule children2 ais tsvsE)).vars, tsvsE)).1 } :=
        (congrArg (fun x => x.2.2) (Except.ok.inj h)).symm
      have hnodes : ∀ m, db1.nodes[m]? =
          (fun a => if dbP.nodes.length = m then finishNode rule children2 ais tsvsE a else a)
            <$> dbE.nodes[m]? := by
        intro m
        rw [hdb1]
        exact modifyNode_get dbE _ m _
      have hdone1 : db1.done = dbE.done := by rw [hdb1]; rfl
      have hsel1 : ∀ X, db1.selected w X = db.selected w X := by
        intro X
        rw [hdb1]
        exact (selected_congr w rfl rfl rfl rfl X).trans (selected_of_extends w eCE X)
      refine ⟨hk, ?_, ?_, ?_, ?_⟩
      · rw [hdb1]
        exact modifyNode_memoOK dbE _ _ (fun _ => rfl) mE
      · refine ⟨?_, ?_, ?_, ?_, ?_, ?_, ?_⟩
        · rw [hdb1]; exact ePE.rules
        · rw [hdb1]; exact ePE.ruleVars
        · rw [hdb1]; exact ePE.implicitRules
        · rw [hdb1]; exact ePE.suffixRules
        · rw [hdb1]; exact ePE.firstRule
        · intro name c hc
          rw [hdone1]
          exact ePE.done_mono name c hc
        · intro c nd hc
          obtain ⟨nd1, hnd1, hs1⟩ := ePE.old_nodes c nd hc
          refine ⟨nd1, ?_, hs1⟩
          have hlt := getElem?_lt hc
          rw [hnodes, hnd1]
          simp [Nat.ne_of_gt hlt]
      · rw [hdone1, hk]
        exact eCE.done_mono T _ hdone
      · intro m hm1 hm2
        have hlen1 : db1.nodes.length = dbE.nodes.length := by
          rw [hdb1]
          exact modifyNode_length dbE _ _
        by_cases hmn : m = dbP.nodes.length
        · subst hmn
          refine ⟨finishNode rule children2 ais tsvsE ndE, ?_, ?_, ?_⟩
          · rw [hnodes, hndE]
            simp
          · intro rule1 vars1 hs
            have hT : (finishNode rule children2 ais tsvsE ndE).Output = T := houtE
            rw [hT, hsel1, hsel] at hs
            cases hs
          · intro rule1 vars1 hs
            have hT : (finishNode rule children2 ais tsvsE ndE).Output = T := houtE
            rw [hT, hsel1, hsel] at hs
            obtain ⟨rfl, -⟩ : rule = rule1 ∧ vars = vars1 := by
              simpa using hs
            refine ⟨children, newCh2, ?_, rfl, rfl, rfl, g2, ?_, ?_⟩
            · rw [hT]
              exact h3
            · rw [hdone1]
              exact h4.imp fun {name c} hc => eE.done_mono name c hc
            · rw [hdone1]
              refine g4.imp fun {name c} hc => ?_
              obtain ⟨hc1, cd, hcd, hoo⟩ := hc
              refine ⟨hc1, ?_⟩
              rw [hnodes, hcd]
              by_cases hnc : dbP.nodes.length = c
              · exact ⟨finishNode rule children2 ais tsvsE cd, by simp [hnc], hoo⟩
              · exact ⟨cd, by simp [hnc], hoo⟩
        · have hm3 : db.nodes.length ≤ m := by omega
          have hpE : dbE.Planned w m := by
            by_cases hlt : m < dbD.nodes.length
            · exact DepBuilder.Planned.mono w eE m (pD m hm3 hlt)
            · exact pE m (Nat.le_of_not_lt hlt) (hlen1 ▸ hm2)
          have hpF := Planned_modifyNode_ne w dbE dbP.nodes.length m
            (finishNode rule children2 ais tsvsE) (fun _ => rfl) hmn hpE
          rw [hdb1]
          exact DepBuilder.Planned.mono w
            (DepBuilder.Extends.of_sameGraph ⟨rfl, rfl, rfl, rfl, rfl, rfl, rfl⟩) m hpF

theorem buildPlan_succ (w : World) (fuel : Nat) (output : String) (tsvs : Vars)
    (db0 : DepBuilder) :
    DepBuilder.buildPlan w (fuel + 1) output tsvs db0 =
      match ({ db0 with nodeCnt := db0.nodeCnt + 1 } : DepBuilder).done output with
      | some n => .ok (n, tsvs, { db0 with nodeCnt := db0.nodeCnt + 1 })
      | none =>
        match (({ db0 with nodeCnt := db0.nodeCnt + 1 } : DepBuilder).newNode output).pickRule
            w output with
        | .error e => .error e
        | .ok ((_, _, false), db1) => .ok (db0.nodes.length, tsvs, db1)
        | .ok ((none, _, true), _) => .error .nilRule
        | .ok ((some rule, vars, true), db1) =>
          planRule w (DepBuilder.buildPlan w fuel) db0.nodes.length rule vars output
            tsvs db1 := rfl

/-- Every call of `buildPlan` that returns keeps the memo table consistent,
memoises the target to the returned node, and completes every node it
allocates. -/
theorem buildPlan_ok (w : World) (fuel : Nat) : PlanOK w (DepBuilder.buildPlan w fuel) := by
  induction fuel with
  | zero =>
    intro T tsvs db n tsvs1 db1 h _
    cases h
  | succ fuel ih =>
    intro T tsvs db0 n tsvs1 db1 h hm
    rw [buildPlan_succ] at h
    have hm0 : ({ db0 with nodeCnt := db0.nodeCnt + 1 } : DepBuilder).MemoOK := hm
    have e0 : db0.Extends { db0 with nodeCnt := db0.nodeCnt + 1 } :=
      DepBuilder.Extends.of_sameGraph ⟨rfl, rfl, rfl, rfl, rfl, rfl, rfl⟩
    cases hd : db0.done T with
    | some k =>
      have hd1 : ({ db0 with nodeCnt := db0.nodeCnt + 1 } : DepBuilder).done T = some k := hd
      rw [hd1] at h
      cases h
      exact ⟨hm0, e0, hd, fun m h1 h2 => absurd h2 (Nat.not_lt.mpr h1)⟩
    | none =>
      have hd1 : ({ db0 with nodeCnt := db0.nodeCnt + 1 } : DepBuilder).done T = none := hd
      rw [hd1] at h
      simp only at h
      have mA := newNode_memoOK _ T hm0 hd1
      have eA := newNode_extends _ T hd1
      obtain ⟨gA1, gA2, gA3⟩ := newNode_get ({ db0 with nodeCnt := db0.nodeCnt + 1 }) T
      cases hp : (({ db0 with nodeCnt := db0.nodeCnt + 1 } : DepBuilder).newNode T).pickRule
          w T with
      | error e => rw [hp] at h; cases h
      | ok r =>
        obtain ⟨⟨rule, vars, present⟩, dbB⟩ := r
        rw [hp] at h
        obtain ⟨hsel, hsame⟩ := pickRule_ok w _ T _ dbB hp
        have sB := sameGraph_of_sameButCounters hsame
        have eB := DepBuilder.Extends.of_sameGraph sB
        have e0B : db0.Extends dbB := (e0.trans eA).trans eB
        have mB : dbB.MemoOK := by
          obtain ⟨-, -, -, -, -, s6, s7⟩ := sB
          unfold DepBuilder.MemoOK
          rw [s6, s7]
          exact mA
        have hselB : dbB.selected w T = (rule, vars, present) :=
          (selected_of_extends w eB T).trans hsel.symm
        have hdoneB : dbB.done T = some db0.nodes.length := eB.done_mono T _ gA2
        have hlenB : dbB.nodes.length = db0.nodes.length + 1 := by
          rw [sB.2.2.2.2.2.2]
          exact gA3
        cases present with
        | false =>
          simp only at h
          cases h
          refine ⟨mB, e0B, hdoneB, ?_⟩
          intro m hm1 hm2
          have hmn : m = db0.nodes.length := by omega
          subst hmn
          refine ⟨{ Output := T }, ?_, ?_, ?_⟩
          · rw [sB.2.2.2.2.2.2]
            exact gA1
          · intro _ _ _
            exact ⟨rfl, rfl, rfl, rfl⟩
          · intro rule1 vars1 hs
            rw [hselB] at hs
            cases hs
        | true =>
          cases rule with
          | none =>
            simp only at h
            cases h
          | some rule =>
            simp only at h
            obtain ⟨hk, m1, e1, d1, p1⟩ := planRule_ok w _ ih db0 dbB rule vars T tsvs n tsvs1
              db1 h mB e0B hlenB hdoneB hselB
            exact ⟨m1, e1, d1, p1⟩

theorem forall₂_trans_done {α β γ : Type} {R : α → β → Prop} {S : β → γ → Prop}
    {l1 : List α} {l2 : List β} {l3 : List γ}
    (h1 : List.Forall₂ R l1 l2) (h2 : List.Forall₂ S l2 l3) :
    List.Forall₂ (fun a c => ∃ b, R a b ∧ S b c) l1 l3 := by
  induction h1 generalizing l3 with
  | nil =>
    cases h2
    exact List.Forall₂.nil
  | cons hab _ ih =>
    cases h2 with
    | cons hbc hrest => exact List.Forall₂.cons ⟨_, hab, hbc⟩ (ih hrest)

/-- A builder that has planned nothing yet has a consistent memo table. -/
theorem memoOK_fresh (db : DepBuilder) (hnodes : db.nodes = [])
    (hdone : ∀ name, db.done name = none) : db.MemoOK := by
  constructor
  · intro name n h
    rw [hdone] at h
    cases h
  · intro n nd h
    rw [hnodes] at h
    simp at h

/-- The node a first request for a target returns is a new one. -/
theorem buildPlan_new_node (w : World) (fuel : Nat) (T : String) (tsvs : Vars)
    (db : DepBuilder) (n : Nat) (tsvs1 : Vars) (db1 : DepBuilder)
    (hm : db.MemoOK) (hd : db.done T = none)
    (h : DepBuilder.buildPlan w fuel T tsvs db = .ok (n, tsvs1, db1)) :
    db.nodes.length ≤ n ∧ n < db1.nodes.length := by
  obtain ⟨m1, e1, d1, -⟩ := buildPlan_ok w fuel T tsvs db n tsvs1 db1 h hm
  obtain ⟨nd1, hnd1, hout1⟩ := m1.1 T n d1
  refine ⟨?_, getElem?_lt hnd1⟩
  by_contra hlt
  have hlt : n < db.nodes.length := Nat.lt_of_not_le hlt
  obtain ⟨nd2, hnd2, hs⟩ := e1.old_nodes n _ (List.getElem?_eq_getElem hlt)
  rw [hnd1] at hnd2
  cases hnd2
  have h3 := hm.2 n _ (List.getElem?_eq_getElem hlt)
  rw [← (sameButOrderOnly_fields hs).1, hout1, hd] at h3
  cases h3

/-- C5. Within one builder there is at most one plan node per output name.
After a request for `N` has returned node `n`: no two nodes of the heap have
the same output; `N` is memoised to `n`; every further planning keeps the
memo table consistent and leads to a later state (`Extends`), in which `N` is
still memoised to `n`; and in every later state a request for `N` returns
`n` and leaves the builder as it is but for the call counter `nodeCnt`: no
rule is selected (the selection counters stand still) and no prerequisite is
planned (heap and memo table are unchanged). -/
theorem buildPlan_memoised (w : World) (fuel : Nat) (N : String) (tsvs : Vars)
    (db : DepBuilder) (n : Nat) (tsvs1 : Vars) (db1 : DepBuilder)
    (hm : db.MemoOK)
    (h : DepBuilder.buildPlan w fuel N tsvs db = .ok (n, tsvs1, db1)) :
    (∀ (i j : Nat) (a b : DepNode), db1.nodes[i]? = some a → db1.nodes[j]? = some b →
      a.Output = b.Output → i = j) ∧
    db1.done N = some n ∧
    (∀ fuel2 M tsvs2 m tsvs3 db2,
      DepBuilder.buildPlan w fuel2 M tsvs2 db1 = .ok (m, tsvs3, db2) →
      db2.MemoOK ∧ db1.Extends db2) ∧
    (∀ db2, db1.Extends db2 → db2.done N = some n ∧
      ∀ fuel2 tsvs2, DepBuilder.buildPlan w (fuel2 + 1) N tsvs2 db2 =
        .ok (n, tsvs2, { db2 with nodeCnt := db2.nodeCnt + 1 })) := by
  obtain ⟨m1, -, d1, -⟩ := buildPlan_ok w fuel N tsvs db n tsvs1 db1 h hm
  refine ⟨?_, d1, ?_, ?_⟩
  · intro i j a b ha hb hab
    have hi := m1.2 i a ha
    have hj := m1.2 j b hb
    rw [hab, hj] at hi
    exact (Option.some.inj hi).symm
  · intro fuel2 M tsvs2 m tsvs3 db2 h2
    obtain ⟨m2, e2, -, -⟩ := buildPlan_ok w fuel2 M tsvs2 db1 m tsvs3 db2 h2 m1
    exact ⟨m2, e2⟩
  · intro db2 e2
    have d2 := e2.done_mono N n d1
    refine ⟨d2, fun fuel2 tsvs2 => ?_⟩
    rw [buildPlan_succ]
    have d3 : ({ db2 with nodeCnt := db2.nodeCnt + 1 } : DepBuilder).done N = some n := d2
    rw [d3]

theorem ok_of_errorOf_none {α : Type} (r : Except Err α) (h : errorOf r = none) :
    ∃ a, r = .ok a := by
  cases r with
  | error e => cases h
  | ok a => exact ⟨a, rfl⟩

/-- C5, witness: scenario S6, planning `x` in a new builder; afterwards `z`
is memoised, and a further request for `z` returns that node and advances
the call counter only. -/
theorem buildPlan_memoised_witness :
    s6Builder.MemoOK ∧
    ∃ n tsvs1 db1,
      DepBuilder.buildPlan (worldOf []) 10 "x" Vars.empty s6Builder = .ok (n, tsvs1, db1) ∧
      (∀ (i j : Nat) (a b : DepNode), db1.nodes[i]? = some a → db1.nodes[j]? = some b →
        a.Output = b.Output → i = j) ∧
      db1.done "x" = some n ∧
      ∀ fuel2 tsvs2, DepBuilder.buildPlan (worldOf []) (fuel2 + 1) "x" tsvs2 db1 =
        .ok (n, tsvs2, { db1 with nodeCnt := db1.nodeCnt + 1 }) := by
  have hm : s6Builder.MemoOK := memoOK_fresh s6Builder rfl (fun _ => rfl)
  obtain ⟨⟨n, tsvs1, db1⟩, h⟩ := ok_of_errorOf_none
    (DepBuilder.buildPlan (worldOf []) 10 "x" Vars.empty s6Builder) (by decide)
  have key := buildPlan_memoised (worldOf []) 10 "x" Vars.empty s6Builder n tsvs1 db1 hm h
  exact ⟨hm, n, tsvs1, db1, h, key.1, key.2.1,
    (key.2.2.2 db1 (DepBuilder.Extends.refl db1)).2⟩

/-- Value model. For a plan node built from a selected rule (the first request for
`T`, for which `pickRule` returns `rule`), `Deps` is the list of the nodes of
the rule's regular prerequisites (each planned under its actual name `a`) in
rule order, followed by the nodes of the rule's order-only prerequisites in
rule order, and every child appended from the order-only list has
`IsOrderOnly = true`. -/
theorem children_order_values (w : World) (fuel : Nat) (T : String) (tsvs : Vars)
    (db : DepBuilder) (n : Nat) (tsvs1 : Vars) (db1 dbx : DepBuilder)
    (rule : Rule) (vars : Option VarList)
    (hm : db.MemoOK) (hd : db.done T = none)
    (hpick : db.pickRule w T = .ok ((some rule, vars, true), dbx))
    (h : DepBuilder.buildPlan w fuel T tsvs db = .ok (n, tsvs1, db1)) :
    ∃ nd ins oos, db1.nodes[n]? = some nd ∧ nd.Output = T ∧ nd.Deps = ins ++ oos ∧
      List.Forall₂ (fun i c => ∃ a cd, actualInput rule T i = .ok a ∧
          db1.done a = some c ∧ db1.nodes[c]? = some cd ∧ cd.Output = a)
        rule.inputs ins ∧
      List.Forall₂ (fun name c => db1.done name = some c ∧
          ∃ cd, db1.nodes[c]? = some cd ∧ cd.Output = name ∧ cd.IsOrderOnly = true)
        rule.orderOnlyInputs oos := by
  obtain ⟨m1, e1, d1, p1⟩ := buildPlan_ok w fuel T tsvs db n tsvs1 db1 h hm
  obtain ⟨hn1, hn2⟩ := buildPlan_new_node w fuel T tsvs db n tsvs1 db1 hm hd h
  obtain ⟨nd, hnd, -, hyes⟩ := p1 n hn1 hn2
  have hout : nd.Output = T := by
    obtain ⟨nd1, hnd1, hout1⟩ := m1.1 T n d1
    rw [hnd] at hnd1
    cases hnd1
    exact hout1
  have hsel : db1.selected w nd.Output = (some rule, vars, true) := by
    rw [hout, selected_of_extends w e1]
    exact (pickRule_ok w db T _ dbx hpick).1.symm
  obtain ⟨ins, oos, h1, -, -, -, h5, h6, h7⟩ := hyes rule vars hsel
  refine ⟨nd, ins, oos, hnd, hout, h5, ?_, ?_⟩
  · rw [hout] at h1
    refine (forall₂_trans_done h1 h6).imp fun {i c} hic => ?_
    obtain ⟨a, ha1, ha2⟩ := hic
    obtain ⟨cd, hcd, hcout⟩ := m1.1 a c ha2
    exact ⟨a, cd, ha1, ha2, hcd, hcout⟩
  · refine h7.imp fun {name c} hc => ?_
    obtain ⟨hc1, cd, hcd, hoo⟩ := hc
    obtain ⟨cd1, hcd1, hcout⟩ := m1.1 name c hc1
    rw [hcd] at hcd1
    cases hcd1
    exact ⟨hc1, cd, hcd, hcout, hoo⟩

/-- Example: scenario S5, `a: b | c ; run`; the node of `a` has two
children, the node of `b` and then the node of `c`, the latter flagged. -/
theorem children_order_values_example :
    s5Builder.MemoOK ∧ s5Builder.done "a" = none ∧
    (valueOf (DepBuilder.buildPlan (worldOf []) 10 "a" Vars.empty s5Builder)).map
      (fun r => r.2.2.nodes.map fun nd => (nd.Output, nd.Deps, nd.IsOrderOnly))
      = some [("a", [1, 2], false), ("b", [], false), ("c", [], true)] ∧
    ∃ n tsvs1 db1 nd ins oos,
      DepBuilder.buildPlan (worldOf []) 10 "a" Vars.empty s5Builder = .ok (n, tsvs1, db1) ∧
      db1.nodes[n]? = some nd ∧ nd.Deps = ins ++ oos ∧
      List.Forall₂ (fun i c => ∃ a cd, actualInput s5Rule "a" i = .ok a ∧
          db1.done a = some c ∧ db1.nodes[c]? = some cd ∧ cd.Output = a) ["b"] ins ∧
      List.Forall₂ (fun name c => db1.done name = some c ∧
          ∃ cd, db1.nodes[c]? = some cd ∧ cd.Output = name ∧ cd.IsOrderOnly = true)
        ["c"] oos := by
  have hm : s5Builder.MemoOK := memoOK_fresh s5Builder rfl (fun _ => rfl)
  obtain ⟨⟨n, tsvs1, db1⟩, h⟩ := ok_of_errorOf_none
    (DepBuilder.buildPlan (worldOf []) 10 "a" Vars.empty s5Builder) (by decide)
  obtain ⟨⟨res, dbx⟩, hp⟩ := ok_of_errorOf_none
    (s5Builder.pickRule (worldOf []) "a") (by decide)
  have hres : res = (some s5Rule, none, true) := by
    rw [(pickRule_ok (worldOf []) s5Builder "a" res dbx hp).1]
    decide
  subst hres
  obtain ⟨nd, ins, oos, k1, -, k3, k4, k5⟩ :=
    children_order_values (worldOf []) 10 "a" Vars.empty s5Builder n tsvs1 db1 dbx _ _ hm rfl hp h
  exact ⟨hm, rfl, by decide, n, tsvs1, db1, nd, ins, oos, h, k1, k3, k4, k5⟩

theorem evalLoop_cons (w : World) (fuel : Nat) (target : String) (rest : List String)
    (nodes : List Nat) (db : DepBuilder) :
    DepBuilder.evalLoop w fuel (target :: rest) nodes db =
      match DepBuilder.buildPlan w fuel target Vars.empty { db with trace := [target] } with
      | .error e => .error e
      | .ok (n, _, db1) => DepBuilder.evalLoop w fuel rest (nodes ++ [n]) db1 := rfl

theorem evalLoop_ok (w : World) (fuel : Nat) (targets : List String) :
    ∀ nodes db roots db1,
      DepBuilder.evalLoop w fuel targets nodes db = .ok (roots, db1) →
      db.MemoOK → db.AllPlanned w →
      db1.MemoOK ∧ db.Extends db1 ∧ db1.AllPlanned w ∧
      ∃ newRoots, roots = nodes ++ newRoots ∧
        List.Forall₂ (fun t r => db1.done t = some r) targets newRoots := by
  induction targets with
  | nil =>
    intro nodes db roots db1 h hm hp
    cases h
    exact ⟨hm, DepBuilder.Extends.refl _, hp, [], by simp, List.Forall₂.nil⟩
  | cons t rest ih =>
    intro nodes db roots db1 h hm hp
    rw [evalLoop_cons] at h
    cases hb : DepBuilder.buildPlan w fuel t Vars.empty { db with trace := [t] } with
    | error e => rw [hb] at h; cases h
    | ok r =>
      obtain ⟨n, tsvsA, dbA⟩ := r
      rw [hb] at h
      simp only at h
      obtain ⟨mA, eA, dA, pA⟩ := buildPlan_ok w fuel t Vars.empty _ n tsvsA dbA hb hm
      have eA1 : db.Extends dbA := ⟨eA.1, eA.2, eA.3, eA.4, eA.5, eA.6, eA.7⟩
      have hpA : dbA.AllPlanned w := by
        intro m hm1
        by_cases hlt : m < db.nodes.length
        · exact DepBuilder.Planned.mono w eA1 m (hp m hlt)
        · exact pA m (Nat.le_of_not_lt hlt) hm1
      obtain ⟨mB, eB, pB, newRoots, h1, h2⟩ := ih _ dbA roots db1 h mA hpA
      refine ⟨mB, eA1.trans eB, pB, n :: newRoots, ?_, ?_⟩
      · rw [h1]; simp
      · exact List.Forall₂.cons (eB.done_mono _ _ dA) h2

/-- The graph part of what `Eval` guarantees: the memo table is consistent,
every node is completed, and each root is the memoised node of its target. -/
theorem Eval_ok (w : World) (fuel : Nat) (db : DepBuilder) (targets : List String)
    (roots : List Nat) (db1 : DepBuilder)
    (h : db.Eval w fuel targets = .ok (roots, db1))
    (hm : db.MemoOK) (hp : db.AllPlanned w) :
    db1.MemoOK ∧ db.Extends db1 ∧ db1.AllPlanned w ∧
    ∃ ts, db.evalTargets targets = .ok ts ∧
      List.Forall₂ (fun t r => db1.done t = some r) ts roots := by
  unfold DepBuilder.Eval at h
  cases ht : db.evalTargets targets with
  | error e => rw [ht] at h; cases h
  | ok ts =>
    rw [ht] at h
    simp only at h
    obtain ⟨m1, e1, p1, newRoots, h1, h2⟩ := evalLoop_ok w fuel ts [] db roots db1 h hm hp
    rw [List.nil_append] at h1
    subst h1
    exact ⟨m1, e1, p1, ts, rfl, h2⟩

theorem allPlanned_fresh (w : World) (db : DepBuilder) (hnodes : db.nodes = []) :
    db.AllPlanned w := by
  intro m hm
  rw [hnodes] at hm
  cases hm

theorem selected_true_some (w : World) (db : DepBuilder) (T : String)
    (r : Option Rule) (v : Option VarList) (h : db.selected w T = (r, v, true)) :
    ∃ rule, r = some rule := by
  unfold DepBuilder.selected at h
  split at h
  · rename_i hc
    cases hr : db.rules T with
    | none => rw [hr] at hc; cases hc
    | some rule =>
      rw [hr] at h
      cases h
      exact ⟨rule, rfl⟩
  · unfold DepBuilder.selectedImplicit at h
    split at h
    · cases h
      exact ⟨_, rfl⟩
    · split at h
      · cases h
        exact ⟨_, rfl⟩
      · cases hr : db.rules T with
        | none => rw [hr] at h; cases h
        | some rule =>
          rw [hr] at h
          cases h
          exact ⟨rule, rfl⟩

theorem forall₂_mem_right {α β : Type} {R : α → β → Prop} {l1 : List α} {l2 : List β}
    (h : List.Forall₂ R l1 l2) {b : β} (hb : b ∈ l2) : ∃ a ∈ l1, R a b := by
  induction h with
  | nil => cases hb
  | cons hab _ ih =>
    rcases List.mem_cons.mp hb with rfl | hb1
    · exact ⟨_, List.mem_cons_self _ _, hab⟩
    · obtain ⟨a, ha, hr⟩ := ih hb1
      exact ⟨a, List.mem_cons_of_mem _ ha, hr⟩

/-- Every edge of the plan graph joins the node of a target to the node of
one of its prerequisites. -/
theorem edge_prereq (w : World) (db : DepBuilder) (hm : db.MemoOK)
    (hp : db.AllPlanned w) (p c : Nat) (he : db.edge p c) :
    ∃ pd cd, db.nodes[p]? = some pd ∧ db.nodes[c]? = some cd ∧
      db.prereq w pd.Output cd.Output := by
  obtain ⟨nd, hnd, hc⟩ := he
  obtain ⟨nd1, hnd1, hno, hyes⟩ := hp p (getElem?_lt hnd)
  rw [hnd] at hnd1
  cases hnd1
  rcases hsel : db.selected w nd.Output with ⟨r, v, b⟩
  cases b with
  | false =>
    obtain ⟨-, -, hdeps, -⟩ := hno r v hsel
    rw [hdeps] at hc
    cases hc
  | true =>
    obtain ⟨rule, rfl⟩ := selected_true_some w db nd.Output r v hsel
    obtain ⟨ins, oos, h1, -, -, -, h5, h6, h7⟩ := hyes rule v hsel
    rw [h5, List.mem_append] at hc
    rcases hc with hc | hc
    · obtain ⟨a, ha, hda⟩ := forall₂_mem_right h6 hc
      obtain ⟨i, hi, hia⟩ := forall₂_mem_right h1 ha
      obtain ⟨cd, hcd, hout⟩ := hm.1 a c hda
      exact ⟨nd, cd, hnd, hcd, rule, v, hsel, Or.inl ⟨i, hi, hout ▸ hia⟩⟩
    · obtain ⟨name, hname, hdn, -⟩ := forall₂_mem_right h7 hc
      obtain ⟨cd, hcd, hout⟩ := hm.1 name c hdn
      exact ⟨nd, cd, hnd, hcd, rule, v, hsel, Or.inr (hout ▸ hname)⟩

theorem path_prereq (w : World) (db : DepBuilder) (hm : db.MemoOK)
    (hp : db.AllPlanned w) (p c : Nat) (h : Relation.TransGen db.edge p c) :
    ∃ pd cd, db.nodes[p]? = some pd ∧ db.nodes[c]? = some cd ∧
      Relation.TransGen (db.prereq w) pd.Output cd.Output := by
  induction h with
  | single he =>
    obtain ⟨pd, cd, h1, h2, h3⟩ := edge_prereq w db hm hp _ _ he
    exact ⟨pd, cd, h1, h2, Relation.TransGen.single h3⟩
  | tail _ he ih =>
    obtain ⟨pd, md, h1, h2, h3⟩ := ih
    obtain ⟨md1, cd, g1, g2, g3⟩ := edge_prereq w db hm hp _ _ he
    rw [h2] at g1
    cases g1
    exact ⟨pd, cd, h1, g2, Relation.TransGen.tail h3 g3⟩

theorem prereq_of_extends (w : World) {a b : DepBuilder} (h : a.Extends b)
    (T P : String) (hp : b.prereq w T P) : a.prereq w T P := by
  obtain ⟨rule, vars, hsel, hrest⟩ := hp
  exact ⟨rule, vars, (selected_of_extends w h T).symm.trans hsel, hrest⟩

/-- Value model. For a builder that has planned nothing yet, every rule
set and every goal list: if no target is, under the rules `pickRule`
selects, a prerequisite of itself through one or more steps, then the graph
of plan nodes returned by `Eval`, with an edge from each node to every node
in its `Deps`, is acyclic. -/
theorem acyclic_plan_values (w : World) (fuel : Nat) (db : DepBuilder) (goals : List String)
    (roots : List Nat) (db1 : DepBuilder)
    (hnodes : db.nodes = []) (hdone : ∀ name, db.done name = none)
    (hacyclic : ∀ T, ¬ Relation.TransGen (db.prereq w) T T)
    (h : db.Eval w fuel goals = .ok (roots, db1)) :
    ∀ n, ¬ Relation.TransGen db1.edge n n := by
  obtain ⟨m1, e1, p1, -⟩ := Eval_ok w fuel db goals roots db1 h
    (memoOK_fresh db hnodes hdone) (allPlanned_fresh w db hnodes)
  intro n hcyc
  obtain ⟨pd, cd, h1, h2, h3⟩ := path_prereq w db1 m1 p1 n n hcyc
  rw [h1] at h2
  cases h2
  exact hacyclic pd.Output (h3.mono fun T P hTP => prereq_of_extends w e1 T P hTP)

theorem acyclic_of_rank {α : Type} (R : α → α → Prop) (rank : α → Nat)
    (h : ∀ a b, R a b → rank b < rank a) : ∀ a, ¬ Relation.TransGen R a a := by
  have key : ∀ a b, Relation.TransGen R a b → rank b < rank a := by
    intro a b hab
    induction hab with
    | single hab => exact h _ _ hab
    | tail _ hbc ih => exact Nat.lt_trans (h _ _ hbc) ih
  intro a ha
  exact Nat.lt_irrefl _ (key a a ha)

/-- A target without explicit rule has no rule at all when there are neither
pattern rules nor suffix rules. -/
theorem selected_of_no_rule (w : World) (db : DepBuilder) (T : String)
    (hr : db.rules T = none) (hi : db.implicitRules = [])
    (hs : ∀ k, db.suffixRules k = none) :
    db.selected w T = (none, db.ruleVars T, false) := by
  have hcand : db.suffixCandidates T = [] := by
    unfold DepBuilder.suffixCandidates
    split
    · rw [hs]; rfl
    · rfl
  unfold DepBuilder.selected DepBuilder.selectedImplicit
  rw [hr, hi, hcand]
  rfl

/-- Example: scenario S5, `a: b | c ; run`, goal `a`: only `a` has
prerequisites, and they have none. -/
theorem acyclic_plan_values_example :
    s5Builder.nodes = [] ∧ (∀ name, s5Builder.done name = none) ∧
    (∀ T, ¬ Relation.TransGen (s5Builder.prereq (worldOf [])) T T) ∧
    ∃ roots db1, s5Builder.Eval (worldOf []) 10 ["a"] = .ok (roots, db1) ∧
      ∀ n, ¬ Relation.TransGen db1.edge n n := by
  have hacyclic : ∀ T, ¬ Relation.TransGen (s5Builder.prereq (worldOf [])) T T := by
    apply acyclic_of_rank _ (fun T => if T = "a" then 1 else 0)
    intro T P hTP
    obtain ⟨rule, vars, hsel, hP⟩ := hTP
    by_cases hT : T = "a"
    · subst hT
      have hrule : rule = s5Rule := by
        have h2 : s5Builder.selected (worldOf []) "a" = (some s5Rule, none, true) := by decide
        rw [h2] at hsel
        cases hsel
        rfl
      subst hrule
      have hPa : P ≠ "a" := by
        rcases hP with ⟨i, hi, hia⟩ | hP
        · have hib : i = "b" := by simpa [s5Rule] using hi
          subst hib
          have h3 : actualInput s5Rule "a" "b" = .ok "b" := rfl
          rw [h3] at hia
          cases hia
          decide
        · have hPc : P = "c" := by simpa [s5Rule] using hP
          subst hPc
          decide
      simp [hPa]
    · have hr : s5Builder.rules T = none := by
        show (if T = "a" then some s5Rule else none) = none
        rw [if_neg hT]
      rw [selected_of_no_rule (worldOf []) s5Builder T hr rfl (fun _ => rfl)] at hsel
      cases hsel
  obtain ⟨⟨roots, db1⟩, h⟩ := ok_of_errorOf_none
    (s5Builder.Eval (worldOf []) 10 ["a"]) (by decide)
  exact ⟨rfl, fun _ => rfl, hacyclic, roots, db1, h,
    acyclic_plan_values (worldOf []) 10 s5Builder ["a"] roots db1 rfl (fun _ => rfl) hacyclic h⟩

/-- Example: for the rules `a: b` and `b: a` and the goal `a`,
`Eval` returns the root 0 and two nodes, `a` with `Deps = [1]` and `b` with
`Deps = [0]`: node 0 reaches itself along the edges 0 → 1 → 0. -/
theorem cyclic_plan_values :
    cycleBuilder.nodes = [] ∧
    (valueOf (cycleBuilder.Eval (worldOf []) 10 ["a"])).map
      (fun r => (r.1, r.2.nodes.map fun nd => (nd.Output, nd.Deps)))
      = some ([0], [("a", [1]), ("b", [0])]) ∧
    ∃ roots db1, cycleBuilder.Eval (worldOf []) 10 ["a"] = .ok (roots, db1) ∧
      Relation.TransGen db1.edge 0 0 := by
  have hv : (valueOf (cycleBuilder.Eval (worldOf []) 10 ["a"])).map
      (fun r => (r.1, r.2.nodes.map fun nd => (nd.Output, nd.Deps)))
      = some ([0], [("a", [1]), ("b", [0])]) := by decide
  refine ⟨rfl, hv, ?_⟩
  obtain ⟨⟨roots, db1⟩, h⟩ := ok_of_errorOf_none
    (cycleBuilder.Eval (worldOf []) 10 ["a"]) (by decide)
  refine ⟨roots, db1, h, ?_⟩
  rw [h] at hv
  simp only [valueOf, Option.map_some', Option.some.injEq, Prod.mk.injEq] at hv
  obtain ⟨-, hnodes⟩ := hv
  have h0 : (db1.nodes.map fun nd => (nd.Output, nd.Deps))[0]? = some ("a", [1]) := by
    rw [hnodes]; rfl
  have h1 : (db1.nodes.map fun nd => (nd.Output, nd.Deps))[1]? = some ("b", [0]) := by
    rw [hnodes]; rfl
  rw [List.getElem?_map] at h0 h1
  cases hn0 : db1.nodes[0]? with
  | none => rw [hn0] at h0; cases h0
  | some nd0 =>
    cases hn1 : db1.nodes[1]? with
    | none => rw [hn1] at h1; cases h1
    | some nd1 =>
      rw [hn0] at h0
      rw [hn1] at h1
      simp only [Option.map_some', Option.some.injEq, Prod.mk.injEq] at h0 h1
      have e01 : db1.edge 0 1 := ⟨nd0, hn0, by rw [h0.2]; simp⟩
      have e10 : db1.edge 1 0 := ⟨nd1, hn1, by rw [h1.2]; simp⟩
      exact Relation.TransGen.tail (Relation.TransGen.single e01) e10

/-- The node of a first request for a target for which a rule is selected. -/
theorem first_request_node (w : World) (fuel : Nat) (T : String) (tsvs : Vars)
    (db : DepBuilder) (n : Nat) (tsvs1 : Vars) (db1 : DepBuilder)
    (rule : Rule) (vars : Option VarList)
    (hm : db.MemoOK) (hd : db.done T = none)
    (hsel : db.selected w T = (some rule, vars, true))
    (h : DepBuilder.buildPlan w fuel T tsvs db = .ok (n, tsvs1, db1)) :
    db1.MemoOK ∧
    ∃ nd ins oos, db1.nodes[n]? = some nd ∧ nd.Output = T ∧ nd.HasRule = true ∧
      nd.Cmds = rule.cmds ∧ nd.Deps = ins ++ oos ∧
      List.Forall₂ (fun i a => actualInput rule T i = .ok a) rule.inputs nd.ActualInputs ∧
      List.Forall₂ (fun name c => db1.done name = some c) nd.ActualInputs ins ∧
      List.Forall₂ (fun name c => db1.done name = some c) rule.orderOnlyInputs oos := by
  obtain ⟨m1, e1, d1, p1⟩ := buildPlan_ok w fuel T tsvs db n tsvs1 db1 h hm
  obtain ⟨hn1, hn2⟩ := buildPlan_new_node w fuel T tsvs db n tsvs1 db1 hm hd h
  obtain ⟨nd, hnd, -, hyes⟩ := p1 n hn1 hn2
  have hout : nd.Output = T := by
    obtain ⟨nd1, hnd1, hout1⟩ := m1.1 T n d1
    rw [hnd] at hnd1
    cases hnd1
    exact hout1
  have hsel1 : db1.selected w nd.Output = (some rule, vars, true) := by
    rw [hout, selected_of_extends w e1]
    exact hsel
  obtain ⟨ins, oos, h1, h2, h3, -, h5, h6, h7⟩ := hyes rule vars hsel1
  rw [hout] at h1
  exact ⟨m1, nd, ins, oos, hnd, hout, h2, h3, h5, h1, h6, h7.imp fun {_ _} hc => hc.1⟩

theorem forall₂_ok_map {f : String → String} {inputs ais : List String}
    (h : List.Forall₂ (fun i a => (Except.ok (f i) : Except Err String) = .ok a) inputs ais) :
    ais = inputs.map f := by
  induction h with
  | nil => rfl
  | cons hia _ ih =>
    rw [List.map_cons, ih]
    cases hia
    rfl

theorem splitFirst_none_of_not_mem (c : Char) (l : List Char) (h : c ∉ l) :
    splitFirst c l = none := by
  induction l with
  | nil => rfl
  | cons d rest ih =>
    have hd : d ≠ c := fun heq => h (heq ▸ List.mem_cons_self _ _)
    have hrest : c ∉ rest := fun hm => h (List.mem_cons_of_mem _ hm)
    show (if d = c then some ([], rest) else
      match splitFirst c rest with
      | some (p, s) => some (d :: p, s)
      | none => none) = none
    rw [if_neg hd, ih hrest]

/-- A template without `%` is left as it is by the substitution. -/
theorem substPattern_no_percent (pat repl str : String) (h : '%' ∉ repl.data) :
    substPattern pat repl str = repl := by
  unfold substPattern splitPercent
  rw [splitFirst_none_of_not_mem '%' repl.data h]
  cases patternStem pat str <;> rfl

theorem done_with_output (db : DepBuilder) (hm : db.MemoOK) {names : List String}
    {cs : List Nat} (h : List.Forall₂ (fun name c => db.done name = some c) names cs) :
    List.Forall₂ (fun name c => db.done name = some c ∧
      ∃ cd, db.nodes[c]? = some cd ∧ cd.Output = name) names cs :=
  h.imp fun {name c} hc => ⟨hc, hm.1 name c hc⟩

/-- Value model. When target `T` has an explicit rule `E` without commands
and `I` is the first applicable implicit rule (every implicit rule having
one output pattern), `pickRule(T)` returns a synthetic rule whose commands
are `I`'s, whose output patterns are `I`'s, and whose inputs are `I`'s inputs
followed by `E`'s inputs; the plan node of a first request for `T` then has
the commands of `I`, and its `Deps` are the nodes of `I`'s inputs, of `E`'s
inputs and of `E`'s order-only inputs, in that order, where `%` is replaced
by the stem in `I`'s inputs and in `E`'s inputs alike; an input without `%`
is left as it is. -/
theorem synthetic_rule_values (w : World) (fuel : Nat) (T : String) (tsvs : Vars)
    (db : DepBuilder) (n : Nat) (tsvs1 : Vars) (db1 : DepBuilder) (E I : Rule)
    (hm : db.MemoOK) (hd : db.done T = none)
    (hI : ∀ r ∈ db.implicitRules, r.outputPatterns.length = 1)
    (hE : db.rules T = some E) (hcmds : E.cmds = [])
    (hfirst : db.implicitRules.find? (db.implicitApplicable w T) = some I)
    (h : DepBuilder.buildPlan w fuel T tsvs db = .ok (n, tsvs1, db1)) :
    (∃ dbx, db.pickRule w T = .ok
      ((some { E with
          outputPatterns := I.outputPatterns
          inputs := I.inputs ++ E.inputs
          cmds := I.cmds
          cmdLineno := I.cmdLineno }, db.ruleVars T, true), dbx)) ∧
    ∃ p nd, I.outputPatterns = [p] ∧ db1.nodes[n]? = some nd ∧ nd.Cmds = I.cmds ∧
      List.Forall₂ (fun name c => db1.done name = some c ∧
          ∃ cd, db1.nodes[c]? = some cd ∧ cd.Output = name)
        ((I.inputs.map fun i => substPattern p i T) ++
          (E.inputs.map fun e => substPattern p e T) ++ E.orderOnlyInputs)
        nd.Deps ∧
      ∀ e ∈ E.inputs, '%' ∉ e.data → substPattern p e T = e := by
  have hc : hasCmds (some E) = false := by
    simp [hasCmds, hcmds]
  have hsel : db.selected w T = (some { E with
      outputPatterns := I.outputPatterns
      inputs := I.inputs ++ E.inputs
      cmds := I.cmds
      cmdLineno := I.cmdLineno }, db.ruleVars T, true) := by
    unfold DepBuilder.selected DepBuilder.selectedImplicit
    simp only [hE, hc, hfirst, Bool.false_eq_true, if_false]
    rfl
  constructor
  · unfold DepBuilder.pickRule
    simp only [hE, hc, Option.isSome_some, Bool.false_eq_true, if_false, if_true]
    obtain ⟨dbx, hx⟩ := pickImplicitStep_of_find w
      { db with
        pickExplicitRuleCnt := db.pickExplicitRuleCnt + 1
        pickExplicitRuleWithoutCmdCnt := db.pickExplicitRuleWithoutCmdCnt + 1 }
      (some E) (db.ruleVars T) T I hI
      ((congrArg (fun f => List.find? f db.implicitRules)
        (implicitApplicable_congr w rfl T)).trans hfirst)
    exact ⟨dbx, hx⟩
  · obtain ⟨p, hp⟩ := List.length_eq_one.mp (hI I (List.mem_of_find?_eq_some hfirst))
    obtain ⟨m1, nd, ins, oos, k1, -, -, k4, k5, k6, k7, k8⟩ :=
      first_request_node w fuel T tsvs db n tsvs1 db1 _ _ hm hd hsel h
    refine ⟨p, nd, hp, k1, k4, ?_, fun e _ he => substPattern_no_percent p e T he⟩
    have hact : ∀ i, actualInput { E with
        outputPatterns := I.outputPatterns
        inputs := I.inputs ++ E.inputs
        cmds := I.cmds
        cmdLineno := I.cmdLineno } T i = .ok (substPattern p i T) := by
      intro i
      unfold actualInput
      simp only [hp]
    have hais : nd.ActualInputs = (I.inputs ++ E.inputs).map fun i => substPattern p i T := by
      refine forall₂_ok_map (f := fun i => substPattern p i T) ?_
      exact k6.imp fun {i a} hia => (hact i).symm.trans hia
    rw [k5, ← List.map_append, ← hais]
    exact done_with_output db1 m1 (List.rel_append k7 k8)

/-- Example: scenario S3, `foo.o: extra.h` and `%.o: %.c ; cc -c $<` with
`foo.c` and `extra.h` on disk: the node of `foo.o` has the command of the
pattern rule and the children `foo.c`, `extra.h`, in this order. -/
theorem synthetic_rule_values_example :
    s3Builder.MemoOK ∧ s3Builder.done "foo.o" = none ∧
    (∀ r ∈ s3Builder.implicitRules, r.outputPatterns.length = 1) ∧
    s3Builder.rules "foo.o" = some s3Explicit ∧ s3Explicit.cmds = [] ∧
    s3Builder.implicitRules.find?
      (s3Builder.implicitApplicable (worldOf ["foo.c", "extra.h"]) "foo.o") = some ruleFromC ∧
    ∃ n tsvs1 db1 nd,
      DepBuilder.buildPlan (worldOf ["foo.c", "extra.h"]) 10 "foo.o" Vars.empty s3Builder
        = .ok (n, tsvs1, db1) ∧
      db1.nodes[n]? = some nd ∧ nd.Cmds = ["cc -c $<"] ∧
      List.Forall₂ (fun name c => db1.done name = some c ∧
          ∃ cd, db1.nodes[c]? = some cd ∧ cd.Output = name)
        ["foo.c", "extra.h"] nd.Deps := by
  have hm : s3Builder.MemoOK := memoOK_fresh s3Builder rfl (fun _ => rfl)
  obtain ⟨⟨n, tsvs1, db1⟩, h⟩ := ok_of_errorOf_none
    (DepBuilder.buildPlan (worldOf ["foo.c", "extra.h"]) 10 "foo.o" Vars.empty s3Builder)
    (by decide)
  obtain ⟨-, p, nd, hp, k1, k2, k3, -⟩ :=
    synthetic_rule_values (worldOf ["foo.c", "extra.h"]) 10 "foo.o" Vars.empty s3Builder
      n tsvs1 db1 s3Explicit ruleFromC hm rfl (by decide) (by decide) rfl (by decide) h
  obtain rfl : "%.o" = p := by
    have hp1 : ["%.o"] = [p] := hp
    simpa using hp1
  exact ⟨hm, rfl, by decide, by decide, rfl, by decide, n, tsvs1, db1, nd, h, k1, k2, k3⟩

/-- Example: `foo.o` has the explicit rule `foo.o: x%y | gen`
without commands, and `%.o: %.c` is the first applicable implicit rule. The
claim gives the node of `foo.o` two children, `foo.c` and `x%y`; it has
three, `foo.c`, `xfooy` and `gen`. -/
theorem synthetic_rule_values_percent :
    percentBuilder.rules "foo.o"
      = some { outputs := ["foo.o"], inputs := ["x%y"], orderOnlyInputs := ["gen"] } ∧
    percentBuilder.implicitRules.find?
      (percentBuilder.implicitApplicable (worldOf ["foo.c"]) "foo.o") = some ruleFromC ∧
    (valueOf (DepBuilder.buildPlan (worldOf ["foo.c"]) 10 "foo.o" Vars.empty
        percentBuilder)).map
      (fun r => (r.1, r.2.2.nodes.map fun nd => (nd.Output, nd.Deps)))
      = some (0, [("foo.o", [1, 2, 3]), ("foo.c", []), ("xfooy", []), ("gen", [])]) := by
  decide

/-- C4 (amended). Let `T` have no explicit rule and no applicable implicit
rule, and let `S`, with commands `C`, be the first rule in the suffix-table
list for `T`'s extension (the most recently ingested first) whose input
`stripExt(T) + "." + IN` exists, where `S` is as `populateSuffixRule` leaves
it (`inputs = [IN]`, `isSuffixRule` set) and has neither output patterns nor
order-only prerequisites. Then a first request for `T` that returns yields a
node with `Cmds = C`, `ActualInputs = [stripExt(T) + "." + IN]` and exactly
one child, the node of that input. -/
theorem suffix_rule_plan (w : World) (fuel : Nat) (T : String) (tsvs : Vars)
    (db : DepBuilder) (n : Nat) (tsvs1 : Vars) (db1 : DepBuilder) (S : Rule)
    (IN : String)
    (hm : db.MemoOK) (hd : db.done T = none)
    (hE : db.rules T = none)
    (hnoI : db.implicitRules.find? (db.implicitApplicable w T) = none)
    (hS : (db.suffixCandidates T).find? (db.suffixApplicable w T) = some S)
    (hin : S.inputs = [IN]) (hsuf : S.isSuffixRule = true)
    (hpat : S.outputPatterns = []) (hoo : S.orderOnlyInputs = [])
    (h : DepBuilder.buildPlan w fuel T tsvs db = .ok (n, tsvs1, db1)) :
    db.exists w (replaceSuffix T IN) = true ∧
    ∃ nd c cd, db1.nodes[n]? = some nd ∧ nd.HasRule = true ∧ nd.Cmds = S.cmds ∧
      nd.ActualInputs = [replaceSuffix T IN] ∧ nd.Deps = [c] ∧
      db1.done (replaceSuffix T IN) = some c ∧
      db1.nodes[c]? = some cd ∧ cd.Output = replaceSuffix T IN := by
  have hex : db.exists w (replaceSuffix T IN) = true := by
    have hap := List.find?_some hS
    rwa [suffixApplicable_single w db T S IN hin] at hap
  have hsel : db.selected w T
      = (some S, db.choiceVars none (db.ruleVars T) S.outputs, true) := by
    unfold DepBuilder.selected DepBuilder.selectedImplicit
    simp only [hE, hnoI, hS, hasCmds, Bool.false_eq_true, if_false]
    rfl
  obtain ⟨m1, nd, ins, oos, k1, -, k3, k4, k5, k6, k7, k8⟩ :=
    first_request_node w fuel T tsvs db n tsvs1 db1 _ _ hm hd hsel h
  rw [hoo] at k8
  cases k8
  have hact : ∀ i, actualInput S T i = .ok (replaceSuffix T i) := by
    intro i
    unfold actualInput
    simp only [hpat, hsuf, if_true]
  have hais : nd.ActualInputs = S.inputs.map fun i => replaceSuffix T i := by
    refine forall₂_ok_map (f := fun i => replaceSuffix T i) ?_
    exact k6.imp fun {i a} hia => (hact i).symm.trans hia
  rw [hin] at hais
  simp only [List.map_cons, List.map_nil] at hais
  rw [hais] at k7
  cases k7 with
  | cons hc hrest2 =>
    cases hrest2
    rename_i c
    obtain ⟨cd, hcd, hout⟩ := m1.1 _ c hc
    exact ⟨hex, nd, c, cd, k1, k3, k4, hais, by simpa using k5, hc, hcd, hout⟩

/-- C4, witness: scenario S2, `.c.o: ; cc -c $<` with `bar.c` on disk and
the target `bar.o`. -/
theorem suffix_rule_plan_witness :
    s2Builder.MemoOK ∧ s2Builder.done "bar.o" = none ∧ s2Builder.rules "bar.o" = none ∧
    s2Builder.implicitRules.find? (s2Builder.implicitApplicable (worldOf ["bar.c"]) "bar.o")
      = none ∧
    (s2Builder.suffixCandidates "bar.o").find?
      (s2Builder.suffixApplicable (worldOf ["bar.c"]) "bar.o") = some s2Suffix ∧
    ∃ n tsvs1 db1 nd c cd,
      DepBuilder.buildPlan (worldOf ["bar.c"]) 10 "bar.o" Vars.empty s2Builder
        = .ok (n, tsvs1, db1) ∧
      db1.nodes[n]? = some nd ∧ nd.Cmds = ["cc -c $<"] ∧ nd.ActualInputs = ["bar.c"] ∧
      nd.Deps = [c] ∧ db1.nodes[c]? = some cd ∧ cd.Output = "bar.c" := by
  have hm : s2Builder.MemoOK := memoOK_fresh s2Builder rfl (fun _ => rfl)
  obtain ⟨⟨n, tsvs1, db1⟩, h⟩ := ok_of_errorOf_none
    (DepBuilder.buildPlan (worldOf ["bar.c"]) 10 "bar.o" Vars.empty s2Builder) (by decide)
  obtain ⟨-, nd, c, cd, k1, -, k3, k4, k5, -, k7, k8⟩ :=
    suffix_rule_plan (worldOf ["bar.c"]) 10 "bar.o" Vars.empty s2Builder n tsvs1 db1
      s2Suffix "c" hm rfl (by decide) (by decide) (by decide) rfl rfl rfl rfl h
  exact ⟨hm, rfl, by decide, by decide, by decide, n, tsvs1, db1, nd, c, cd, h, k1, k3,
    k4, k5, k7, k8⟩

/-- C4, counterexample: the suffix rule `.c.o` with the command `cc -c $<` is
ingested, `bar.o` has the extension `o`, no explicit rule and no applicable
implicit rule, and `bar.c` exists; yet the node planned for `bar.o` has the
command `as $<` and the actual input `bar.s`, those of the suffix rule `.s.o`
ingested later. -/
theorem suffix_rule_plan_counterexample :
    twoSuffixBuilder.rules "bar.o" = none ∧
    twoSuffixBuilder.implicitRules = [] ∧
    (twoSuffixBuilder.suffixCandidates "bar.o").map (fun r => (r.outputs, r.inputs, r.cmds))
      = [([".s.o"], ["s"], ["as $<"]), ([".c.o"], ["c"], ["cc -c $<"])] ∧
    twoSuffixBuilder.exists (worldOf ["bar.c", "bar.s"]) (replaceSuffix "bar.o" "c") = true ∧
    (valueOf (DepBuilder.buildPlan (worldOf ["bar.c", "bar.s"]) 10 "bar.o" Vars.empty
        twoSuffixBuilder)).map
      (fun r => r.2.2.nodes.map fun nd => (nd.Output, nd.Cmds, nd.ActualInputs, nd.Deps))
      = some [("bar.o", ["as $<"], ["bar.s"], [1]), ("bar.s", [], [], [])] :=
  ⟨by decide, by decide, by decide, by decide, by decide⟩

theorem applyVar_other (w : World) (name : String) (tsv : Var) (st : Vars × Vars)
    (k : String) (hk : k ≠ name) :
    (applyVar w name tsv st).1 k = st.1 k ∧ (applyVar w name tsv st).2 k = st.2 k := by
  obtain ⟨dbvars, tsvs⟩ := st
  unfold applyVar
  simp only
  split
  · simp [Vars.set, hk]
  · split
    · split
      · simp [Vars.set, hk]
      · split <;> simp [Vars.set, hk]
    · split
      · split <;> simp [Vars.set, hk]
      · simp

theorem applyVars_cons (w : World) (name : String) (tsv : Var) (rest : VarList)
    (st : Vars × Vars) (restores : List Restore) :
    applyVars w ((name, tsv) :: rest) st restores =
      applyVars w rest (applyVar w name tsv st)
        (restores ++ [⟨true, name, st.1.save name⟩, ⟨false, name, st.2.save name⟩]) := rfl

theorem applyVars_acc (w : World) (vars : VarList) :
    ∀ (st : Vars × Vars) (rs : List Restore),
      applyVars w vars st rs = ((applyVars w vars st []).1, rs ++ (applyVars w vars st []).2) := by
  induction vars with
  | nil =>
    intro st rs
    show (st, rs) = (st, rs ++ [])
    rw [List.append_nil]
  | cons kv rest ih =>
    intro st rs
    obtain ⟨name, tsv⟩ := kv
    rw [applyVars_cons, applyVars_cons, ih _ (rs ++ _), ih _ ([] ++ _)]
    simp

theorem applyVars_other (w : World) (vars : VarList) :
    ∀ (st : Vars × Vars) (k : String), k ∉ vars.map Prod.fst →
      (applyVars w vars st []).1.1 k = st.1 k ∧ (applyVars w vars st []).1.2 k = st.2 k := by
  induction vars with
  | nil =>
    intro st k _
    exact ⟨rfl, rfl⟩
  | cons kv rest ih =>
    intro st k hk
    obtain ⟨name, tsv⟩ := kv
    simp only [List.map_cons, List.mem_cons, not_or] at hk
    rw [applyVars_cons, applyVars_acc]
    obtain ⟨h1, h2⟩ := ih (applyVar w name tsv st) k hk.2
    obtain ⟨g1, g2⟩ := applyVar_other w name tsv st k hk.1
    exact ⟨h1.trans g1, h2.trans g2⟩

theorem runRestores_append (a b : List Restore) (st : Vars × Vars) :
    runRestores (a ++ b) st = runRestores b (runRestores a st) := by
  induction a generalizing st with
  | nil => rfl
  | cons r rest ih => exact ih _

theorem restore_get (vt : Vars) (name : String) (saved : Option Var) (k : String) :
    (vt.restore name saved) k = if k = name then saved else vt k := by
  unfold Vars.restore
  cases saved <;> simp [Vars.set, Vars.delete]

/-- The deferred function puts back, at every name of the list, the value
`applyVars` found there, and touches no other name. -/
theorem runRestores_applyVars (w : World) (vars : VarList) :
    ∀ (st stX : Vars × Vars), (vars.map Prod.fst).Nodup →
      runRestores (applyVars w vars st []).2 stX = restoredTo (vars.map Prod.fst) st stX := by
  induction vars with
  | nil =>
    intro st stX _
    show stX = _
    simp [restoredTo]
  | cons kv rest ih =>
    intro st stX hnd
    obtain ⟨name, tsv⟩ := kv
    simp only [List.map_cons, List.nodup_cons] at hnd
    rw [applyVars_cons, applyVars_acc, List.nil_append]
    simp only
    rw [runRestores_append, ih _ _ hnd.2]
    unfold restoredTo
    simp only [List.map_cons, List.mem_cons]
    have hone : runRestores [⟨true, name, st.1.save name⟩, ⟨false, name, st.2.save name⟩] stX
        = (stX.1.restore name (st.1 name), stX.2.restore name (st.2 name)) := rfl
    rw [hone]
    refine Prod.ext ?_ ?_
    · funext k
      simp only
      by_cases hk : k ∈ rest.map Prod.fst
      · have hne : k ≠ name := fun heq => hnd.1 (heq ▸ hk)
        simp only [hk, if_true, or_true]
        exact (applyVar_other w name tsv st k hne).1
      · simp only [hk, if_false, or_false, restore_get]
        by_cases hkn : k = name
        · rw [if_pos hkn, if_pos hkn, hkn]
        · rw [if_neg hkn, if_neg hkn]
    · funext k
      simp only
      by_cases hk : k ∈ rest.map Prod.fst
      · have hne : k ≠ name := fun heq => hnd.1 (heq ▸ hk)
        simp only [hk, if_true, or_true]
        exact (applyVar_other w name tsv st k hne).2
      · simp only [hk, if_false, or_false, restore_get]
        by_cases hkn : k = name
        · rw [if_pos hkn, if_pos hkn, hkn]
        · rw [if_neg hkn, if_neg hkn]

/-- Applying the variables of a node and then running the deferred function
gives back both tables. -/
theorem applyVars_roundtrip (w : World) (vars : VarList) (st : Vars × Vars)
    (hnd : (vars.map Prod.fst).Nodup) :
    runRestores (applyVars w vars st []).2 (applyVars w vars st []).1 = st := by
  rw [runRestores_applyVars w vars st _ hnd]
  unfold restoredTo
  refine Prod.ext ?_ ?_
  · funext k
    simp only
    split
    · rfl
    · rename_i hk
      exact (applyVars_other w vars st k hk).1
  · funext k
    simp only
    split
    · rfl
    · rename_i hk
      exact (applyVars_other w vars st k hk).2

theorem planInputs_frame (plan : String → Vars → DepBuilder → PlanResult)
    (hplan : PlanFrame plan) (rule : Rule) (output : String) (inputs : List String) :
    ∀ children ais tsvs db children1 ais1 tsvs1 db1,
      planInputs plan rule output inputs children ais tsvs db
        = .ok (children1, ais1, tsvs1, db1) →
      db.VarsOK →
      tsvs1 = tsvs ∧ db1.vars = db.vars ∧ db1.ruleVars = db.ruleVars ∧
      db1.rules = db.rules ∧ db1.implicitRules = db.implicitRules ∧
      db1.suffixRules = db.suffixRules := by
  induction inputs with
  | nil =>
    intro children ais tsvs db children1 ais1 tsvs1 db1 h _
    cases h
    exact ⟨rfl, rfl, rfl, rfl, rfl, rfl⟩
  | cons input rest ih =>
    intro children ais tsvs db children1 ais1 tsvs1 db1 h hv
    rw [planInputs_cons] at h
    cases ha : actualInput rule output input with
    | error e => rw [ha] at h; cases h
    | ok input1 =>
      rw [ha] at h
      simp only at h
      cases hp : plan input1 tsvs { db with trace := db.trace ++ [input1] } with
      | error e => rw [hp] at h; cases h
      | ok r =>
        obtain ⟨n, tsvsA, dbA⟩ := r
        rw [hp] at h
        simp only at h
        obtain ⟨a1, a2, a3, a4, a5, a6⟩ := hplan input1 tsvs _ n tsvsA dbA hp hv
        have hvA : ({ dbA with trace := dbA.trace.dropLast } : DepBuilder).VarsOK := by
          intro T l hl
          exact hv T l (a3 ▸ hl)
        obtain ⟨b1, b2, b3, b4, b5, b6⟩ := ih _ _ _ _ children1 ais1 tsvs1 db1 h hvA
        exact ⟨b1.trans a1, b2.trans a2, b3.trans a3, b4.trans a4, b5.trans a5,
          b6.trans a6⟩

theorem planOrderOnly_frame (plan : String → Vars → DepBuilder → PlanResult)
    (hplan : PlanFrame plan) (inputs : List String) :
    ∀ children tsvs db children1 tsvs1 db1,
      planOrderOnly plan inputs children tsvs db = .ok (children1, tsvs1, db1) →
      db.VarsOK →
      tsvs1 = tsvs ∧ db1.vars = db.vars ∧ db1.ruleVars = db.ruleVars ∧
      db1.rules = db.rules ∧ db1.implicitRules = db.implicitRules ∧
      db1.suffixRules = db.suffixRules := by
  induction inputs with
  | nil =>
    intro children tsvs db children1 tsvs1 db1 h _
    cases h
    exact ⟨rfl, rfl, rfl, rfl, rfl, rfl⟩
  | cons input rest ih =>
    intro children tsvs db children1 tsvs1 db1 h hv
    rw [planOrderOnly_cons] at h
    cases hp : plan input tsvs { db with trace := db.trace ++ [input] } with
    | error e => rw [hp] at h; cases h
    | ok r =>
      obtain ⟨n, tsvsA, dbA⟩ := r
      rw [hp] at h
      simp only at h
      obtain ⟨a1, a2, a3, a4, a5, a6⟩ := hplan input tsvs _ n tsvsA dbA hp hv
      have hvA : (({ dbA with trace := dbA.trace.dropLast } : DepBuilder).modifyNode n
          fun nd => { nd with IsOrderOnly := true }).VarsOK := by
        intro T l hl
        exact hv T l (a3 ▸ hl)
      obtain ⟨b1, b2, b3, b4, b5, b6⟩ := ih _ _ _ children1 tsvs1 db1 h hvA
      exact ⟨b1.trans a1, b2.trans a2, b3.trans a3, b4.trans a4, b5.trans a5,
        b6.trans a6⟩

/-- The part of `buildPlan` that follows the selection of a rule restores
both variable tables, when the selected variables form a map. -/
theorem planRule_frame (w : World) (plan : String → Vars → DepBuilder → PlanResult)
    (hplan : PlanFrame plan) (n : Nat) (rule : Rule) (vars : Option VarList)
    (T : String) (tsvs : Vars) (db : DepBuilder) (k : Nat) (tsvs1 : Vars)
    (db1 : DepBuilder)
    (h : planRule w plan n rule vars T tsvs db = .ok (k, tsvs1, db1))
    (hv : db.VarsOK) (hnd : ((vars.getD []).map Prod.fst).Nodup) :
    tsvs1 = tsvs ∧ db1.vars = db.vars ∧ db1.ruleVars = db.ruleVars ∧
    db1.rules = db.rules ∧ db1.implicitRules = db.implicitRules ∧
    db1.suffixRules = db.suffixRules := by
  unfold planRule at h
  simp only at h
  have hround := applyVars_roundtrip w (vars.getD []) (db.vars, tsvs) hnd
  generalize applyVars w (vars.getD []) (db.vars, tsvs) [] = applied at h hround
  cases hI : planInputs plan rule T rule.inputs [] [] applied.1.2
      { db with vars := applied.1.1 } with
  | error e => rw [hI] at h; cases h
  | ok rI =>
    obtain ⟨children, ais, tsvsD, dbD⟩ := rI
    rw [hI] at h
    simp only at h
    cases hO : planOrderOnly plan rule.orderOnlyInputs children tsvsD dbD with
    | error e => rw [hO] at h; cases h
    | ok rO =>
      obtain ⟨children2, tsvsE, dbE⟩ := rO
      rw [hO] at h
      simp only at h
      have hvC : ({ db with vars := applied.1.1 } : DepBuilder).VarsOK := hv
      obtain ⟨a1, a2, a3, a4, a5, a6⟩ :=
        planInputs_frame plan hplan rule T rule.inputs _ _ _ _ _ _ _ _ hI hvC
      have hvD : dbD.VarsOK := by
        intro X l hl
        exact hv X l (a3 ▸ hl)
      obtain ⟨b1, b2, b3, b4, b5, b6⟩ :=
        planOrderOnly_frame plan hplan rule.orderOnlyInputs _ _ _ _ _ _ hO hvD
      have hst : ((dbE.modifyNode n (finishNode rule children2 ais tsvsE)).vars, tsvsE)
          = applied.1 := by
        refine Prod.ext ?_ ?_
        · exact b2.trans a2
        · exact b1.trans a1
      rw [hst, hround] at h
      cases h
      exact ⟨rfl, rfl, b3.trans a3, b4.trans a4, b5.trans a5, b6.trans a6⟩

theorem merge_nodup (ivars vs : VarList) (h1 : (ivars.map Prod.fst).Nodup)
    (h2 : (vs.map Prod.fst).Nodup) : ((ivars.Merge vs).map Prod.fst).Nodup := by
  unfold VarList.Merge
  rw [List.map_append, List.nodup_append]
  refine ⟨?_, h2, ?_⟩
  · exact List.Nodup.sublist (List.Sublist.map _ (List.filter_sublist _)) h1
  · intro k hk1 hk2
    rw [List.mem_map] at hk1
    obtain ⟨kv, hkv, rfl⟩ := hk1
    rw [List.mem_filter] at hkv
    have := hkv.2
    simp only [Bool.not_eq_true', List.contains_eq_any_beq, List.any_eq_false, beq_iff_eq,
      List.mem_map, forall_exists_index, and_imp] at this
    obtain ⟨kv2, hkv2, heq⟩ := List.mem_map.mp hk2
    exact this kv2.1 kv2 hkv2 rfl heq.symm

theorem choiceVars_nodup (db : DepBuilder) (hv : db.VarsOK) (rule : Option Rule)
    (vars : Option VarList) (keys : List String)
    (h : ((vars.getD []).map Prod.fst).Nodup) :
    (((db.choiceVars rule vars keys).getD []).map Prod.fst).Nodup := by
  unfold DepBuilder.choiceVars
  split
  · rename_i vs key
    unfold DepBuilder.mergedVars
    cases hi : db.ruleVars key with
    | none => exact h
    | some ivars => exact merge_nodup ivars vs (hv key ivars hi) h
  · exact h

/-- The variables `pickRule` returns form a map. -/
theorem selected_vars_nodup (w : World) (db : DepBuilder) (hv : db.VarsOK) (T : String) :
    ((((db.selected w T).2.1).getD []).map Prod.fst).Nodup := by
  have h0 : (((db.ruleVars T).getD []).map Prod.fst).Nodup := by
    cases hr : db.ruleVars T with
    | none => exact List.nodup_nil
    | some l => exact hv T l hr
  unfold DepBuilder.selected
  split
  · exact h0
  · unfold DepBuilder.selectedImplicit
    split
    · exact choiceVars_nodup db hv _ _ _ h0
    · split
      · exact choiceVars_nodup db hv _ _ _ h0
      · exact h0

/-- Every call of `buildPlan` that returns leaves `tsvs` and `db.vars` as
it found them. -/
theorem buildPlan_frame (w : World) (fuel : Nat) :
    PlanFrame (DepBuilder.buildPlan w fuel) := by
  induction fuel with
  | zero =>
    intro T tsvs db n tsvs1 db1 h _
    cases h
  | succ fuel ih =>
    intro T tsvs db0 n tsvs1 db1 h hv
    rw [buildPlan_succ] at h
    cases hd : db0.done T with
    | some k =>
      have hd1 : ({ db0 with nodeCnt := db0.nodeCnt + 1 } : DepBuilder).done T = some k := hd
      rw [hd1] at h
      cases h
      exact ⟨rfl, rfl, rfl, rfl, rfl, rfl⟩
    | none =>
      have hd1 : ({ db0 with nodeCnt := db0.nodeCnt + 1 } : DepBuilder).done T = none := hd
      rw [hd1] at h
      simp only at h
      cases hp : (({ db0 with nodeCnt := db0.nodeCnt + 1 } : DepBuilder).newNode T).pickRule
          w T with
      | error e => rw [hp] at h; cases h
      | ok r =>
        obtain ⟨⟨rule, vars, present⟩, dbB⟩ := r
        rw [hp] at h
        obtain ⟨hsel, hsame⟩ := pickRule_ok w _ T _ dbB hp
        obtain ⟨s1, s2, s3, s4, -, s6, -, -, -, -⟩ := hsame
        have hvB : dbB.VarsOK := by
          intro X l hl
          exact hv X l (s2 ▸ hl)
        cases present with
        | false =>
          simp only at h
          cases h
          exact ⟨rfl, s6.symm, s2.symm, s1.symm, s3.symm, s4.symm⟩
        | true =>
          cases rule with
          | none =>
            simp only at h
            cases h
          | some rule =>
            simp only at h
            have hnd : ((vars.getD []).map Prod.fst).Nodup := by
              have := selected_vars_nodup w
                (({ db0 with nodeCnt := db0.nodeCnt + 1 } : DepBuilder).newNode T) hv T
              rw [← hsel] at this
              exact this
            obtain ⟨a1, a2, a3, a4, a5, a6⟩ :=
              planRule_frame w _ ih _ rule vars T tsvs dbB n tsvs1 db1 h hvB hnd
            exact ⟨a1, a2.trans s6.symm, a3.trans s2.symm, a4.trans s1.symm,
              a5.trans s3.symm, a6.trans s4.symm⟩

theorem evalLoop_frame (w : World) (fuel : Nat) (targets : List String) :
    ∀ nodes db roots db1,
      DepBuilder.evalLoop w fuel targets nodes db = .ok (roots, db1) → db.VarsOK →
      db1.vars = db.vars := by
  induction targets with
  | nil =>
    intro nodes db roots db1 h _
    cases h
    rfl
  | cons t rest ih =>
    intro nodes db roots db1 h hv
    rw [evalLoop_cons] at h
    cases hb : DepBuilder.buildPlan w fuel t Vars.empty { db with trace := [t] } with
    | error e => rw [hb] at h; cases h
    | ok r =>
      obtain ⟨n, tsvsA, dbA⟩ := r
      rw [hb] at h
      simp only at h
      obtain ⟨-, a2, a3, -, -, -⟩ := buildPlan_frame w fuel t Vars.empty _ n tsvsA dbA hb hv
      have hvA : dbA.VarsOK := by
        intro X l hl
        exact hv X l (a3 ▸ hl)
      exact (ih _ dbA roots db1 h hvA).trans a2

/-- C9. For every rule set, every rule-scoped variable map (a map: no name
twice in one target's table; with any mix of `:=`/`=`, `+=` and `?=`
bindings) and every goal list, the global variable table `db.vars` after
`Eval(goals)` returns has exactly the same names bound to the same values as
before the call. -/
theorem eval_restores_vars (w : World) (fuel : Nat) (db : DepBuilder)
    (goals : List String) (roots : List Nat) (db1 : DepBuilder)
    (hv : ∀ T l, db.ruleVars T = some l → (l.map Prod.fst).Nodup)
    (h : db.Eval w fuel goals = .ok (roots, db1)) :
    db1.vars = db.vars := by
  unfold DepBuilder.Eval at h
  cases ht : db.evalTargets goals with
  | error e => rw [ht] at h; cases h
  | ok ts =>
    rw [ht] at h
    exact evalLoop_frame w fuel ts [] db roots db1 h hv

theorem s1Builder_varsOK : ∀ T l, s1Builder.ruleVars T = some l → (l.map Prod.fst).Nodup := by
  intro T l hl
  have hrv : s1Builder.ruleVars T =
      if T == "foo.o" then some [("CFLAGS", { op := "+=", value := "-O2" }),
        ("OPT", { op := "?=", value := "1" }), ("DBG", { op := ":=", value := "0" })]
      else none := by
    show List.lookup T [("foo.o", _)] = _
    simp only [List.lookup]
    cases T == "foo.o" <;> rfl
  rw [hrv] at hl
  split at hl
  · cases hl
    decide
  · cases hl

/-- C9, witness: scenario S1 with three rule-scoped bindings of `foo.o`;
`Eval` returns, and the global table is as before. -/
theorem eval_restores_vars_witness :
    (∀ T l, s1Builder.ruleVars T = some l → (l.map Prod.fst).Nodup) ∧
    ∃ roots db1, s1Builder.Eval (worldOf ["foo.c"]) 10 ["foo.o"] = .ok (roots, db1) ∧
      db1.vars = s1Builder.vars ∧
      (db1.nodes.map fun nd => (nd.Output, (nd.TargetSpecificVars "CFLAGS").map fun v => v.value))
        = [("foo.o", some "-g -O2"), ("foo.c", none)] := by
  obtain ⟨⟨roots, db1⟩, h⟩ := ok_of_errorOf_none
    (s1Builder.Eval (worldOf ["foo.c"]) 10 ["foo.o"]) (by decide)
  have hv : (valueOf (s1Builder.Eval (worldOf ["foo.c"]) 10 ["foo.o"])).map
      (fun r => r.2.nodes.map fun nd =>
        (nd.Output, (nd.TargetSpecificVars "CFLAGS").map fun v => v.value))
      = some [("foo.o", some "-g -O2"), ("foo.c", none)] := by decide
  rw [h] at hv
  exact ⟨s1Builder_varsOK, roots, db1, h,
    eval_restores_vars (worldOf ["foo.c"]) 10 s1Builder ["foo.o"] roots db1
      s1Builder_varsOK h,
    by simpa [valueOf] using hv⟩

theorem applyVar_assign (w : World) (name : String) (v : Var) (st : Vars × Vars)
    (hop : v.op = ":=") :
    (applyVar w name v st).1 name = some v ∧ (applyVar w name v st).2 name = some v := by
  obtain ⟨dbvars, tsvs⟩ := st
  unfold applyVar
  simp [hop, Vars.set]

/-- After the loop over the variables of a node, a name bound with `:=` has
that binding in both tables. -/
theorem applyVars_assign (w : World) (vars : VarList) :
    ∀ (st : Vars × Vars) (X : String) (v : Var), (vars.map Prod.fst).Nodup →
      (X, v) ∈ vars → v.op = ":=" →
      (applyVars w vars st []).1.1 X = some v ∧ (applyVars w vars st []).1.2 X = some v := by
  induction vars with
  | nil =>
    intro st X v _ hmem _
    cases hmem
  | cons kv rest ih =>
    intro st X v hnd hmem hop
    obtain ⟨name, tsv⟩ := kv
    simp only [List.map_cons, List.nodup_cons] at hnd
    rw [applyVars_cons, applyVars_acc]
    rcases List.mem_cons.mp hmem with heq | hrest
    · cases heq
      have hX : X ∉ rest.map Prod.fst := hnd.1
      obtain ⟨h1, h2⟩ := applyVars_other w rest (applyVar w X v st) X hX
      obtain ⟨g1, g2⟩ := applyVar_assign w X v st hop
      exact ⟨h1.trans g1, h2.trans g2⟩
    · exact ih _ X v hnd.2 hrest hop

/-- The snapshot stored in the node of a first request for which a rule is
selected: the inherited table after the node's own variables are applied. -/
theorem planRule_tsv (w : World) (plan : String → Vars → DepBuilder → PlanResult)
    (hplan : PlanOK w plan) (hframe : PlanFrame plan) (n : Nat) (rule : Rule)
    (vars : Option VarList) (T : String) (tsvs : Vars) (db : DepBuilder) (k : Nat)
    (tsvs1 : Vars) (db1 : DepBuilder) (nd0 : DepNode)
    (h : planRule w plan n rule vars T tsvs db = .ok (k, tsvs1, db1))
    (hm : db.MemoOK) (hv : db.VarsOK) (hn : db.nodes[n]? = some nd0) :
    ∃ nd, db1.nodes[n]? = some nd ∧ nd.HasRule = true ∧
      nd.TargetSpecificVars = (applyVars w (vars.getD []) (db.vars, tsvs) []).1.2 := by
  unfold planRule at h
  simp only at h
  generalize applyVars w (vars.getD []) (db.vars, tsvs) [] = applied at h ⊢
  cases hI : planInputs plan rule T rule.inputs [] [] applied.1.2
      { db with vars := applied.1.1 } with
  | error e => rw [hI] at h; cases h
  | ok rI =>
    obtain ⟨children, ais, tsvsD, dbD⟩ := rI
    rw [hI] at h
    simp only at h
    cases hO : planOrderOnly plan rule.orderOnlyInputs children tsvsD dbD with
    | error e => rw [hO] at h; cases h
    | ok rO =>
      obtain ⟨children2, tsvsE, dbE⟩ := rO
      rw [hO] at h
      simp only at h
      have hvC : ({ db with vars := applied.1.1 } : DepBuilder).VarsOK := hv
      obtain ⟨a1, -, a3, -, -, -⟩ :=
        planInputs_frame plan hframe rule T rule.inputs _ _ _ _ _ _ _ _ hI hvC
      have hvD : dbD.VarsOK := by
        intro X l hl
        exact hv X l (a3 ▸ hl)
      obtain ⟨b1, -, -, -, -, -⟩ :=
        planOrderOnly_frame plan hframe rule.orderOnlyInputs _ _ _ _ _ _ hO hvD
      obtain ⟨mD, eD, -, -⟩ :=
        planInputs_ok w plan hplan rule T rule.inputs _ _ _ _ _ _ _ _ hI hm
      obtain ⟨-, eE, -, -⟩ :=
        planOrderOnly_ok w plan hplan rule.orderOnlyInputs _ _ _ _ _ _ hO mD
      have eD1 : db.Extends dbD := ⟨eD.1, eD.2, eD.3, eD.4, eD.5, eD.6, eD.7⟩
      obtain ⟨ndE, hndE, -⟩ := (eD1.trans eE).old_nodes n nd0 hn
      have hdb1 : db1 = { dbE.modifyNode n (finishNode rule children2 ais tsvsE) with
          vars := (runRestores applied.2
            ((dbE.modifyNode n (finishNode rule children2 ais tsvsE)).vars, tsvsE)).1 } :=
        (congrArg (fun x => x.2.2) (Except.ok.inj h)).symm
      refine ⟨finishNode rule children2 ais tsvsE ndE, ?_, rfl, ?_⟩
      · rw [hdb1]
        show (dbE.modifyNode n (finishNode rule children2 ais tsvsE)).nodes[n]? = _
        rw [modifyNode_get, hndE]
        simp
      · show tsvsE = applied.1.2
        exact b1.trans a1

/-- The node a first request returns, when a rule is selected for the target:
its snapshot of the target-specific variables. -/
theorem first_request_tsv (w : World) (fuel : Nat) (T : String) (tsvs : Vars)
    (db : DepBuilder) (n : Nat) (tsvs1 : Vars) (db1 : DepBuilder)
    (rule : Rule) (vars : Option VarList)
    (hm : db.MemoOK) (hv : db.VarsOK) (hd : db.done T = none)
    (hsel : db.selected w T = (some rule, vars, true))
    (h : DepBuilder.buildPlan w fuel T tsvs db = .ok (n, tsvs1, db1)) :
    db.nodes.length ≤ n ∧
    ∃ nd, db1.nodes[n]? = some nd ∧ nd.HasRule = true ∧
      nd.TargetSpecificVars = (applyVars w (vars.getD []) (db.vars, tsvs) []).1.2 := by
  obtain ⟨hn1, -⟩ := buildPlan_new_node w fuel T tsvs db n tsvs1 db1 hm hd h
  refine ⟨hn1, ?_⟩
  cases fuel with
  | zero => cases h
  | succ fuel =>
    rw [buildPlan_succ] at h
    have hd1 : ({ db with nodeCnt := db.nodeCnt + 1 } : DepBuilder).done T = none := hd
    have hm0 : ({ db with nodeCnt := db.nodeCnt + 1 } : DepBuilder).MemoOK := hm
    rw [hd1] at h
    simp only at h
    cases hp : (({ db with nodeCnt := db.nodeCnt + 1 } : DepBuilder).newNode T).pickRule w T with
    | error e => rw [hp] at h; cases h
    | ok r =>
      obtain ⟨res, dbB⟩ := r
      rw [hp] at h
      obtain ⟨hres, hsame⟩ := pickRule_ok w _ T _ dbB hp
      have hres2 : res = (some rule, vars, true) := by
        rw [hres, ← hsel]
        exact selected_congr w rfl rfl rfl rfl T
      subst hres2
      simp only at h
      obtain ⟨s1, s2, s3, s4, s5, s6, s7, s8, -, -⟩ := hsame
      have mA := newNode_memoOK _ T hm0 hd1
      obtain ⟨gA1, -, -⟩ := newNode_get ({ db with nodeCnt := db.nodeCnt + 1 }) T
      have mB : dbB.MemoOK := by
        unfold DepBuilder.MemoOK
        rw [← s7, ← s8]
        exact mA
      have hvB : dbB.VarsOK := by
        intro X l hl
        exact hv X l (s2 ▸ hl)
      have hnB : dbB.nodes[db.nodes.length]? = some { Output := T } := by
        rw [← s8]
        exact gA1
      obtain ⟨nd, k1, k2, k3⟩ := planRule_tsv w _ (buildPlan_ok w fuel) (buildPlan_frame w fuel)
        db.nodes.length rule vars T tsvs dbB n tsvs1 db1 _ h mB hvB hnB
      have hn : n = db.nodes.length := by
        unfold planRule at h
        simp only at h
        split at h
        · cases h
        · split at h
          · cases h
          · exact (congrArg Prod.fst (Except.ok.inj h)).symm
      rw [hn]
      refine ⟨nd, k1, k2, ?_⟩
      rw [k3, ← s6]
      rfl

theorem keptFrom_of_extends {a b : DepBuilder} (lo : Nat) (h : a.Extends b) :
    DepBuilder.KeptFrom lo a b :=
  ⟨h.done_mono, fun k nd _ hk => h.old_nodes k nd hk⟩

theorem keptFrom_trans {a b c : DepBuilder} {lo lo1 : Nat} (hlo : lo ≤ lo1)
    (h1 : DepBuilder.KeptFrom lo1 a b) (h2 : DepBuilder.KeptFrom lo b c) :
    DepBuilder.KeptFrom lo1 a c := by
  refine ⟨fun name n h => h2.1 name n (h1.1 name n h), ?_⟩
  intro k nd hk hnd
  obtain ⟨nd1, g1, s1⟩ := h1.2 k nd hk hnd
  obtain ⟨nd2, g2, s2⟩ := h2.2 k nd1 (Nat.le_trans hlo hk) g1
  exact ⟨nd2, g2, sameButOrderOnly_trans s1 s2⟩

/-- A call the loop over the regular prerequisites reaches is made with the
table the loop was entered with, it returns when the loop does, and the
state the loop ends in is a later state of the one it returns. -/
theorem inputsReach_nested (w : World) (plan : String → Vars → DepBuilder → PlanResult)
    (hplan : PlanOK w plan) (hframe : PlanFrame plan) (rule : Rule) (T : String)
    (inputs : List String) (tsvs : Vars) (db : DepBuilder) (P : String) (tsvsP : Vars)
    (dbP : DepBuilder) (hr : InputsReach plan rule T inputs tsvs db P tsvsP dbP) :
    ∀ ch ais ch1 ais1 tsvs1 db1,
      planInputs plan rule T inputs ch ais tsvs db = .ok (ch1, ais1, tsvs1, db1) →
      db.MemoOK → db.VarsOK →
      tsvsP = tsvs ∧ dbP.MemoOK ∧ dbP.VarsOK ∧ db.nodes.length ≤ dbP.nodes.length ∧
      ∃ p tsvsP1 dbP1, plan P tsvsP dbP = .ok (p, tsvsP1, dbP1) ∧ dbP1.Extends db1 := by
  induction hr with
  | here input rest tsvs db P ha =>
    intro ch ais ch1 ais1 tsvs1 db1 h hm hv
    rw [planInputs_cons, ha] at h
    simp only at h
    cases hp : plan P tsvs { db with trace := db.trace ++ [P] } with
    | error e => rw [hp] at h; cases h
    | ok r =>
      obtain ⟨n, tsvsA, dbA⟩ := r
      rw [hp] at h
      simp only at h
      obtain ⟨mA, -, -, -⟩ := hplan P tsvs _ n tsvsA dbA hp hm
      obtain ⟨-, eB, -, -⟩ := planInputs_ok w plan hplan rule T rest _ _ _ _ _ _ _ _ h mA
      exact ⟨rfl, hm, hv, Nat.le_refl _, n, tsvsA, dbA, rfl,
        ⟨eB.1, eB.2, eB.3, eB.4, eB.5, eB.6, eB.7⟩⟩
  | later input rest tsvs db input1 n tsvsA dbA P tsvsP dbP ha hp _ ih =>
    intro ch ais ch1 ais1 tsvs1 db1 h hm hv
    rw [planInputs_cons, ha] at h
    simp only at h
    rw [hp] at h
    simp only at h
    obtain ⟨mA, eA, -, -⟩ := hplan input1 tsvs _ n tsvsA dbA hp hm
    obtain ⟨a1, -, a3, -, -, -⟩ := hframe input1 tsvs _ n tsvsA dbA hp hv
    have hvA : ({ dbA with trace := dbA.trace.dropLast } : DepBuilder).VarsOK := by
      intro X l hl
      exact hv X l (a3 ▸ hl)
    obtain ⟨b1, b2, b3, b4, b5⟩ := ih _ _ _ _ _ _ h mA hvA
    have eA1 : db.Extends dbA := ⟨eA.1, eA.2, eA.3, eA.4, eA.5, eA.6, eA.7⟩
    exact ⟨b1.trans a1, b2, b3, Nat.le_trans eA1.length_le b4, b5⟩

/-- The same for the loop over the order-only prerequisites. -/
theorem orderOnlyReach_nested (w : World) (plan : String → Vars → DepBuilder → PlanResult)
    (hplan : PlanOK w plan) (hframe : PlanFrame plan)
    (inputs : List String) (tsvs : Vars) (db : DepBuilder) (P : String) (tsvsP : Vars)
    (dbP : DepBuilder) (hr : OrderOnlyReach plan inputs tsvs db P tsvsP dbP) :
    ∀ ch ch1 tsvs1 db1,
      planOrderOnly plan inputs ch tsvs db = .ok (ch1, tsvs1, db1) →
      db.MemoOK → db.VarsOK →
      tsvsP = tsvs ∧ dbP.MemoOK ∧ dbP.VarsOK ∧ db.nodes.length ≤ dbP.nodes.length ∧
      ∃ p tsvsP1 dbP1, plan P tsvsP dbP = .ok (p, tsvsP1, dbP1) ∧ dbP1.Extends db1 := by
  induction hr with
  | here input rest tsvs db =>
    intro ch ch1 tsvs1 db1 h hm hv
    rw [planOrderOnly_cons] at h
    cases hp : plan input tsvs { db with trace := db.trace ++ [input] } with
    | error e => rw [hp] at h; cases h
    | ok r =>
      obtain ⟨n, tsvsA, dbA⟩ := r
      rw [hp] at h
      simp only at h
      obtain ⟨mA, -, -, -⟩ := hplan input tsvs _ n tsvsA dbA hp hm
      have mA1 : (({ dbA with trace := dbA.trace.dropLast } : DepBuilder).modifyNode n
          fun nd => { nd with IsOrderOnly := true }).MemoOK :=
        modifyNode_memoOK _ n _ (fun _ => rfl) mA
      have eA2 : dbA.Extends (({ dbA with trace := dbA.trace.dropLast } : DepBuilder).modifyNode n
          fun nd => { nd with IsOrderOnly := true }) :=
        let e := modifyNode_orderOnly_extends { dbA with trace := dbA.trace.dropLast } n
        ⟨e.1, e.2, e.3, e.4, e.5, e.6, e.7⟩
      obtain ⟨-, eB, -, -⟩ := planOrderOnly_ok w plan hplan rest _ _ _ _ _ _ h mA1
      exact ⟨rfl, hm, hv, Nat.le_refl _, n, tsvsA, dbA, rfl, eA2.trans eB⟩
  | later input rest tsvs db n tsvsA dbA P tsvsP dbP hp _ ih =>
    intro ch ch1 tsvs1 db1 h hm hv
    rw [planOrderOnly_cons, hp] at h
    simp only at h
    obtain ⟨mA, eA, -, -⟩ := hplan input tsvs _ n tsvsA dbA hp hm
    obtain ⟨a1, -, a3, -, -, -⟩ := hframe input tsvs _ n tsvsA dbA hp hv
    have mA1 : (({ dbA with trace := dbA.trace.dropLast } : DepBuilder).modifyNode n
        fun nd => { nd with IsOrderOnly := true }).MemoOK :=
      modifyNode_memoOK _ n _ (fun _ => rfl) mA
    have hvA : (({ dbA with trace := dbA.trace.dropLast } : DepBuilder).modifyNode n
        fun nd => { nd with IsOrderOnly := true }).VarsOK := by
      intro X l hl
      exact hv X l (a3 ▸ hl)
    obtain ⟨b1, b2, b3, b4, b5⟩ := ih _ _ _ _ h mA1 hvA
    have eA1 : db.Extends dbA := ⟨eA.1, eA.2, eA.3, eA.4, eA.5, eA.6, eA.7⟩
    refine ⟨b1.trans a1, b2, b3, Nat.le_trans eA1.length_le ?_, b5⟩
    rw [modifyNode_length] at b4
    exact b4

theorem choiceVars_mem (db : DepBuilder) (rule : Option Rule) (vars : Option VarList)
    (keys : List String) (kv : String × Var) (h : kv ∈ vars.getD []) :
    kv ∈ (db.choiceVars rule vars keys).getD [] := by
  unfold DepBuilder.choiceVars
  split
  · rename_i vs key
    unfold DepBuilder.mergedVars
    cases hi : db.ruleVars key with
    | none => exact h
    | some ivars =>
      show kv ∈ ivars.Merge vs
      unfold VarList.Merge
      exact List.mem_append_right _ h
  · exact h

/-- The variables `pickRule` returns hold every binding the target itself
carries. -/
theorem selected_vars_mem (w : World) (db : DepBuilder) (T : String) (l : VarList)
    (kv : String × Var) (hl : db.ruleVars T = some l) (h : kv ∈ l) :
    kv ∈ ((db.selected w T).2.1).getD [] := by
  have h0 : kv ∈ (db.ruleVars T).getD [] := by
    rw [hl]
    exact h
  unfold DepBuilder.selected
  split
  · exact h0
  · unfold DepBuilder.selectedImplicit
    split
    · exact choiceVars_mem db _ _ _ kv h0
    · split
      · exact choiceVars_mem db _ _ _ kv h0
      · exact h0

theorem keptFrom_finish {a b : DepBuilder} (n lo : Nat) (f : DepNode → DepNode)
    (vs : Vars) (h : a.Extends b) (hlo : n < lo) :
    DepBuilder.KeptFrom lo a { b.modifyNode n f with vars := vs } := by
  refine ⟨h.done_mono, ?_⟩
  intro k nd hk hnd
  obtain ⟨nd1, g1, s1⟩ := h.old_nodes k nd hnd
  refine ⟨nd1, ?_, s1⟩
  show (b.modifyNode n f).nodes[k]? = some nd1
  rw [modifyNode_get, g1]
  have hne : n ≠ k := by omega
  simp [hne]

/-- A call that `buildPlan(T)` makes for a prerequisite gets the table the
node of `T` takes its snapshot from; it returns when the call for `T` does,
and the nodes it allocates are kept to the end of the call for `T`. -/
theorem requests_nested (w : World) (fuel : Nat) (T : String) (tsvs : Vars)
    (db : DepBuilder) (rule : Rule) (vars : Option VarList) (P : String) (tsvsP : Vars)
    (dbP : DepBuilder) (hr : Requests w fuel T tsvs db rule vars P tsvsP dbP)
    (n : Nat) (tsvs1 : Vars) (db1 : DepBuilder)
    (h : DepBuilder.buildPlan w (fuel + 1) T tsvs db = .ok (n, tsvs1, db1))
    (hm : db.MemoOK) (hv : db.VarsOK) :
    db.selected w T = (some rule, vars, true) ∧
    tsvsP = (applyVars w (vars.getD []) (db.vars, tsvs) []).1.2 ∧
    dbP.MemoOK ∧ dbP.VarsOK ∧ db.nodes.length < dbP.nodes.length ∧
    ∃ p tsvsP1 dbP1, DepBuilder.buildPlan w fuel P tsvsP dbP = .ok (p, tsvsP1, dbP1) ∧
      DepBuilder.KeptFrom dbP.nodes.length dbP1 db1 := by
  obtain ⟨hd, dbB, hp, hreach⟩ := hr
  rw [buildPlan_succ] at h
  have hd1 : ({ db with nodeCnt := db.nodeCnt + 1 } : DepBuilder).done T = none := hd
  have hm0 : ({ db with nodeCnt := db.nodeCnt + 1 } : DepBuilder).MemoOK := hm
  rw [hd1] at h
  simp only at h
  rw [hp] at h
  simp only at h
  obtain ⟨hres, hsame⟩ := pickRule_ok w _ T _ dbB hp
  have hsel : db.selected w T = (some rule, vars, true) := by
    rw [hres]
    exact (selected_congr w rfl rfl rfl rfl T).symm
  obtain ⟨s1, s2, s3, s4, s5, s6, s7, s8, -, -⟩ := hsame
  have mA := newNode_memoOK _ T hm0 hd1
  have mB : dbB.MemoOK := by
    unfold DepBuilder.MemoOK
    rw [← s7, ← s8]
    exact mA
  have hvB : dbB.VarsOK := by
    intro X l hl
    exact hv X l (s2 ▸ hl)
  have hvars : dbB.vars = db.vars := s6.symm
  have hlenB : dbB.nodes.length = db.nodes.length + 1 := by
    rw [← s8]
    show (db.nodes ++ [_]).length = _
    simp
  rw [← hvars]
  unfold planRule at h
  simp only at h
  generalize applyVars w (vars.getD []) (dbB.vars, tsvs) [] = applied at h hreach ⊢
  cases hI : planInputs (DepBuilder.buildPlan w fuel) rule T rule.inputs [] [] applied.1.2
      { dbB with vars := applied.1.1 } with
  | error e => rw [hI] at h; cases h
  | ok rI =>
    obtain ⟨children, ais, tsvsD, dbD⟩ := rI
    rw [hI] at h
    simp only at h
    cases hO : planOrderOnly (DepBuilder.buildPlan w fuel) rule.orderOnlyInputs children
        tsvsD dbD with
    | error e => rw [hO] at h; cases h
    | ok rO =>
      obtain ⟨children2, tsvsE, dbE⟩ := rO
      rw [hO] at h
      simp only at h
      have hdb1 : db1 = { dbE.modifyNode db.nodes.length
            (finishNode rule children2 ais tsvsE) with
          vars := (runRestores applied.2
            ((dbE.modifyNode db.nodes.length
              (finishNode rule children2 ais tsvsE)).vars, tsvsE)).1 } :=
        (congrArg (fun x => x.2.2) (Except.ok.inj h)).symm
      have mC : ({ dbB with vars := applied.1.1 } : DepBuilder).MemoOK := mB
      have hvC : ({ dbB with vars := applied.1.1 } : DepBuilder).VarsOK := hvB
      obtain ⟨a1, -, a3, -, -, -⟩ :=
        planInputs_frame _ (buildPlan_frame w fuel) rule T rule.inputs _ _ _ _ _ _ _ _ hI hvC
      have hvD : dbD.VarsOK := by
        intro X l hl
        exact hvB X l (a3 ▸ hl)
      obtain ⟨mD, eD, -, -⟩ :=
        planInputs_ok w _ (buildPlan_ok w fuel) rule T rule.inputs _ _ _ _ _ _ _ _ hI mC
      obtain ⟨-, eE, -, -⟩ :=
        planOrderOnly_ok w _ (buildPlan_ok w fuel) rule.orderOnlyInputs _ _ _ _ _ _ hO mD
      rcases hreach with hin | ⟨children', ais', tsvsD', dbD', hI', hoo⟩
      · obtain ⟨b1, b2, b3, b4, p, tsvsP1, dbP1, b5, b6⟩ :=
          inputsReach_nested w _ (buildPlan_ok w fuel) (buildPlan_frame w fuel) rule T
            rule.inputs _ _ P tsvsP dbP hin _ _ _ _ _ _ hI mC hvC
        have hlt : db.nodes.length < dbP.nodes.length := by
          have : dbB.nodes.length ≤ dbP.nodes.length := b4
          omega
        refine ⟨hsel, b1, b2, b3, hlt, p, tsvsP1, dbP1, b5, ?_⟩
        rw [hdb1]
        exact keptFrom_finish _ _ _ _ (b6.trans eE) hlt
      · rw [hI] at hI'
        have e1 : tsvsD' = tsvsD := (congrArg (fun x => x.2.2.1) (Except.ok.inj hI')).symm
        have e2 : dbD' = dbD := (congrArg (fun x => x.2.2.2) (Except.ok.inj hI')).symm
        rw [e1, e2] at hoo
        obtain ⟨b1, b2, b3, b4, p, tsvsP1, dbP1, b5, b6⟩ :=
          orderOnlyReach_nested w _ (buildPlan_ok w fuel) (buildPlan_frame w fuel)
            rule.orderOnlyInputs _ _ P tsvsP dbP hoo _ _ _ _ hO mD hvD
        have hlt : db.nodes.length < dbP.nodes.length := by
          have h1 : dbB.nodes.length ≤ dbD.nodes.length := eD.length_le
          omega
        refine ⟨hsel, b1.trans a1, b2, b3, hlt, p, tsvsP1, dbP1, b5, ?_⟩
        rw [hdb1]
        exact keptFrom_finish _ _ _ _ b6 hlt

/-- Along a chain of requests on which no target after `T` binds `X`, the
table handed down agrees at `X` with the snapshot of the node of `T`; the
call at the end of the chain returns when the call for `T` does, and the
nodes it allocates are kept to the end of the call for `T`. -/
theorem inScope_nested (w : World) (X : String) (F : Nat) (T : String) (tsvs : Vars)
    (db : DepBuilder) (rule : Rule) (vars : Option VarList) (n : Nat) (tsvs1 : Vars)
    (db1 : DepBuilder)
    (h : DepBuilder.buildPlan w F T tsvs db = .ok (n, tsvs1, db1))
    (hm : db.MemoOK) (hv : db.VarsOK) (hsel : db.selected w T = (some rule, vars, true))
    (fuelP : Nat) (P : String) (tsvsP : Vars) (dbP : DepBuilder)
    (hs : InScope w X F T tsvs db fuelP P tsvsP dbP) :
    tsvsP X = (applyVars w (vars.getD []) (db.vars, tsvs) []).1.2 X ∧
    dbP.MemoOK ∧ dbP.VarsOK ∧ db.nodes.length < dbP.nodes.length ∧
    ∃ p tsvsP1 dbP1, DepBuilder.buildPlan w fuelP P tsvsP dbP = .ok (p, tsvsP1, dbP1) ∧
      DepBuilder.KeptFrom dbP.nodes.length dbP1 db1 := by
  induction hs with
  | direct fuel rule1 vars1 P tsvsP dbP hF hr =>
    subst hF
    obtain ⟨c1, c2, c3, c4, c5, c6⟩ :=
      requests_nested w fuel T tsvs db rule1 vars1 P tsvsP dbP hr n tsvs1 db1 h hm hv
    rw [hsel] at c1
    have hvars : vars1 = vars := (congrArg (fun x => x.2.1) c1).symm
    rw [hvars] at c2
    exact ⟨congrFun c2 X, c3, c4, c5, c6⟩
  | next fuel M tsvsM dbM rule1 vars1 P tsvsP dbP _ hr hX ih =>
    obtain ⟨i1, i2, i3, i4, m, tsvsM1, dbM1, i5, i6⟩ := ih
    obtain ⟨c1, c2, c3, c4, c5, p, tsvsP1, dbP1, c6, c7⟩ :=
      requests_nested w fuel M tsvsM dbM rule1 vars1 P tsvsP dbP hr m tsvsM1 dbM1 i5 i2 i3
    refine ⟨?_, c3, c4, Nat.lt_trans i4 c5, p, tsvsP1, dbP1, c6,
      keptFrom_trans (Nat.le_of_lt c5) c7 i6⟩
    rw [c2, (applyVars_other w (vars1.getD []) (dbM.vars, tsvsM) X hX).2]
    exact i1

/-- The first regular prerequisite of the selected rule is requested with
the inherited table after the variables of the target are applied. -/
theorem requests_first_input (w : World) (fuel : Nat) (T : String) (tsvs : Vars)
    (db dbB : DepBuilder) (rule : Rule) (vars : Option VarList) (input P : String)
    (rest : List String) (hd : db.done T = none)
    (hp : (({ db with nodeCnt := db.nodeCnt + 1 } : DepBuilder).newNode T).pickRule w T
      = .ok ((some rule, vars, true), dbB))
    (hin : rule.inputs = input :: rest) (ha : actualInput rule T input = .ok P) :
    Requests w fuel T tsvs db rule vars P
      (applyVars w (vars.getD []) (dbB.vars, tsvs) []).1.2
      { dbB with
        vars := (applyVars w (vars.getD []) (dbB.vars, tsvs) []).1.1
        trace := dbB.trace ++ [P] } := by
  refine ⟨hd, dbB, hp, Or.inl ?_⟩
  rw [hin]
  exact InputsReach.here input rest _ _ P ha

/-- C8 (amended). Target-specific variables are block-scoped. Let `T` carry
the binding `v` of `X` with the operator `:=`, and let a first request for
`T`, for which `pickRule` selects a rule, return node `n`. Then the snapshot
`TargetSpecificVars` of `n` has `v` at `X`. So has, at the end of that
request, the node of every target `N` that is reached from `T` through a
chain of requests on which no target after `T` binds `X` (`InScope`), that
is planned for the first time there with a selected rule, and whose variables
do not bind `X`. When the request for `T` returns, the table `tsvs` and the
global table are as they were before it, and a target planned for the first
time next, with a selected rule whose variables do not bind `X`, gets at `X`
what `tsvs` held before `T` was planned. -/
theorem target_vars_block_scoped (w : World) (X : String) (v : Var) (F : Nat) (T : String)
    (tsvs : Vars) (db : DepBuilder) (l : VarList) (rule : Rule) (vars : Option VarList)
    (dbx : DepBuilder) (n : Nat) (tsvs1 : Vars) (db1 : DepBuilder)
    (hm : db.MemoOK) (hv : db.VarsOK) (hd : db.done T = none)
    (hl : db.ruleVars T = some l) (hX : (X, v) ∈ l) (hop : v.op = ":=")
    (hpick : db.pickRule w T = .ok ((some rule, vars, true), dbx))
    (h : DepBuilder.buildPlan w F T tsvs db = .ok (n, tsvs1, db1)) :
    (∃ nd, db1.nodes[n]? = some nd ∧ nd.HasRule = true ∧
      nd.TargetSpecificVars X = some v) ∧
    (∀ fuelN N tsvsN dbN ruleN varsN dbxN,
      InScope w X F T tsvs db fuelN N tsvsN dbN → dbN.done N = none →
      dbN.pickRule w N = .ok ((some ruleN, varsN, true), dbxN) →
      X ∉ boundNames varsN →
      ∃ k nd, db1.done N = some k ∧ db1.nodes[k]? = some nd ∧ nd.HasRule = true ∧
        nd.TargetSpecificVars X = some v) ∧
    tsvs1 = tsvs ∧ db1.vars = db.vars ∧
    (∀ fuelN N ruleN varsN dbxN k tsvs2 db2, db1.done N = none →
      db1.pickRule w N = .ok ((some ruleN, varsN, true), dbxN) →
      X ∉ boundNames varsN →
      DepBuilder.buildPlan w fuelN N tsvs1 db1 = .ok (k, tsvs2, db2) →
      ∃ nd, db2.nodes[k]? = some nd ∧ nd.HasRule = true ∧
        nd.TargetSpecificVars X = tsvs X) := by
  have hsel : db.selected w T = (some rule, vars, true) :=
    (pickRule_ok w db T _ dbx hpick).1.symm
  have hmem : (X, v) ∈ vars.getD [] := by
    have := selected_vars_mem w db T l (X, v) hl hX
    rw [hsel] at this
    exact this
  have hnd : ((vars.getD []).map Prod.fst).Nodup := by
    have := selected_vars_nodup w db hv T
    rw [hsel] at this
    exact this
  have hinj : (applyVars w (vars.getD []) (db.vars, tsvs) []).1.2 X = some v :=
    (applyVars_assign w (vars.getD []) (db.vars, tsvs) X v hnd hmem hop).2
  obtain ⟨m1, e1, -, -⟩ := buildPlan_ok w F T tsvs db n tsvs1 db1 h hm
  obtain ⟨f1, f2, f3, -, -, -⟩ := buildPlan_frame w F T tsvs db n tsvs1 db1 h hv
  refine ⟨?_, ?_, f1, f2, ?_⟩
  · obtain ⟨-, nd, g1, g2, g3⟩ :=
      first_request_tsv w F T tsvs db n tsvs1 db1 rule vars hm hv hd hsel h
    exact ⟨nd, g1, g2, by rw [g3]; exact hinj⟩
  · intro fuelN N tsvsN dbN ruleN varsN dbxN hs hdN hpN hXN
    obtain ⟨i1, i2, i3, -, p, tsvsP1, dbP1, i5, i6⟩ :=
      inScope_nested w X F T tsvs db rule vars n tsvs1 db1 h hm hv hsel fuelN N tsvsN dbN hs
    have hselN : dbN.selected w N = (some ruleN, varsN, true) :=
      (pickRule_ok w dbN N _ dbxN hpN).1.symm
    obtain ⟨g0, nd, g1, g2, g3⟩ :=
      first_request_tsv w fuelN N tsvsN dbN p tsvsP1 dbP1 ruleN varsN i2 i3 hdN hselN i5
    obtain ⟨-, -, dN, -⟩ := buildPlan_ok w fuelN N tsvsN dbN p tsvsP1 dbP1 i5 i2
    obtain ⟨nd1, k1, k2⟩ := i6.2 p nd g0 g1
    obtain ⟨-, -, -, s4, -, s6, -⟩ := sameButOrderOnly_fields k2
    refine ⟨p, nd1, i6.1 N p dN, k1, s4.trans g2, ?_⟩
    rw [s6, g3, (applyVars_other w (varsN.getD []) (dbN.vars, tsvsN) X hXN).2]
    exact i1.trans hinj
  · intro fuelN N ruleN varsN dbxN k tsvs2 db2 hdN hpN hXN hN
    have hselN : db1.selected w N = (some ruleN, varsN, true) :=
      (pickRule_ok w db1 N _ dbxN hpN).1.symm
    have hv1 : db1.VarsOK := by
      intro Y l1 hl1
      exact hv Y l1 (f3 ▸ hl1)
    obtain ⟨-, nd, g1, g2, g3⟩ :=
      first_request_tsv w fuelN N tsvs1 db1 k tsvs2 db2 ruleN varsN m1 hv1 hdN hselN hN
    refine ⟨nd, g1, g2, ?_⟩
    rw [g3, (applyVars_other w (varsN.getD []) (db1.vars, tsvs1) X hXN).2]
    exact congrFun f1 X

/-- C8, counterexample: with `X := 1` on `t`, `X := 2` on `m` and the rules
`t: m`, `m: n`, `n:`, planning `t` gives three rule-bearing nodes. The node
of `n` is first planned as a transitive prerequisite of `t` and `n` has no
binding of `X`, but its snapshot holds the binding `2` of `m`, not the
binding `1` of `t`. -/
theorem target_vars_block_scoped_counterexample :
    shadowBuilder.ruleVars "t" = some [("X", { op := ":=", value := "1" })] ∧
    shadowBuilder.ruleVars "n" = none ∧
    (valueOf (shadowBuilder.Eval (worldOf []) 10 ["t"])).map
      (fun r => r.2.nodes.map fun nd =>
        (nd.Output, nd.HasRule, nd.Deps, nd.TargetSpecificVars "X"))
      = some [("t", true, [1], some { op := ":=", value := "1" }),
              ("m", true, [2], some { op := ":=", value := "2" }),
              ("n", true, [], some { op := ":=", value := "2" })] :=
  ⟨by decide, by decide, by decide⟩

theorem shadowBuilder_varsOK : shadowBuilder.VarsOK := by
  intro T l hl
  have hrv : shadowBuilder.ruleVars T =
      if T == "t" then some [("X", { op := ":=", value := "1" })]
      else if T == "m" then some [("X", { op := ":=", value := "2" })]
      else none := by
    show List.lookup T [("t", _), ("m", _)] = _
    simp only [List.lookup]
    cases T == "t" <;> cases T == "m" <;> rfl
  rw [hrv] at hl
  split at hl
  · cases hl
    decide
  · split at hl
    · cases hl
      decide
    · cases hl

/-- C8, witness: in the example, a first request for `m`, which carries
`X := 2`; its node and the node of its prerequisite `n`, which binds
nothing, hold that binding, and the tables are restored. -/
theorem target_vars_block_scoped_witness :
    shadowBuilder.ruleVars "m" = some [("X", { op := ":=", value := "2" })] ∧
    ∃ n tsvs1 db1,
      DepBuilder.buildPlan (worldOf []) 10 "m" Vars.empty shadowBuilder = .ok (n, tsvs1, db1) ∧
      (∃ nd, db1.nodes[n]? = some nd ∧ nd.HasRule = true ∧
        nd.TargetSpecificVars "X" = some { op := ":=", value := "2" }) ∧
      (∃ k nd, db1.done "n" = some k ∧ db1.nodes[k]? = some nd ∧ nd.HasRule = true ∧
        nd.TargetSpecificVars "X" = some { op := ":=", value := "2" }) ∧
      tsvs1 = Vars.empty ∧ db1.vars = shadowBuilder.vars := by
  obtain ⟨⟨n, tsvs1, db1⟩, h⟩ := ok_of_errorOf_none
    (DepBuilder.buildPlan (worldOf []) 10 "m" Vars.empty shadowBuilder) (by decide)
  have hthm := target_vars_block_scoped (worldOf []) "X" { op := ":=", value := "2" } 10 "m"
    Vars.empty shadowBuilder [("X", { op := ":=", value := "2" })]
    { outputs := ["m"], inputs := ["n"], cmds := ["cm"] }
    (some [("X", { op := ":=", value := "2" })])
    { shadowBuilder with pickExplicitRuleCnt := 1 } n tsvs1 db1
    (memoOK_fresh shadowBuilder rfl (fun _ => rfl)) shadowBuilder_varsOK rfl rfl
    (List.mem_singleton.mpr rfl) rfl rfl h
  obtain ⟨t1, t2, t3, t4, -⟩ := hthm
  refine ⟨rfl, n, tsvs1, db1, h, t1, ?_, t3, t4⟩
  exact t2 9 "n" _ _ { outputs := ["n"], cmds := ["cn"] } none _
    (InScope.direct 9 _ _ "n" _ _ rfl
      (requests_first_input (worldOf []) 9 "m" Vars.empty shadowBuilder _
        { outputs := ["m"], inputs := ["n"], cmds := ["cm"] }
        (some [("X", { op := ":=", value := "2" })]) "n" "n" [] rfl rfl rfl rfl))
    rfl rfl (by simp [boundNames])

/-- C11, failing input: the only rule is `.foo bar: ; c`. Its output `bar`
does not begin with a dot, so the rule is recorded as `firstRule`; with an
empty goal list `Eval` plans the first output of that rule, `.foo`, which
begins with a dot. -/
theorem default_goal_begins_with_dot :
    dotFirstBuilder.firstRule = some { outputs := [".foo", "bar"], cmds := ["c"] } ∧
    dotFirstBuilder.evalTargets [] = .ok [".foo"] ∧
    startsWithDot ".foo" = true ∧
    (valueOf (dotFirstBuilder.Eval (worldOf []) 10 [])).map
      (fun r => r.2.nodes.map fun nd => (nd.Output, nd.HasRule)) = some [(".foo", true)] :=
  ⟨by decide, rfl, rfl, by decide⟩

/-- C12. Ingesting a rule for an output `N` that is already in the explicit
table (under its cleaned name, with the entry `old`): the step fails with
`incompatibleColonKinds` if and only if `old` and the new rule disagree on
`isDoubleColon`; when they agree, `mergeRules` succeeds and the step replaces
the entry of `N` by the merged rule, leaving the entries of all other names
and the default goal as they were. -/
theorem populateOutput_colon_kinds (w : World) (db : DepBuilder) (rule : Rule) (N : String)
    (old : Rule) (h : db.rules (w.clean N) = some old) :
    (db.populateOutput w rule N = .error .incompatibleColonKinds ↔
      old.isDoubleColon ≠ rule.isDoubleColon) ∧
    (old.isDoubleColon = rule.isDoubleColon →
      ∃ r db1, mergeRules old rule (w.clean N) (db.populateSuffixRule rule (w.clean N)).1 = .ok r ∧
        db.populateOutput w rule N = .ok db1 ∧ db1.rules (w.clean N) = some r ∧
        (∀ k, k ≠ w.clean N → db1.rules k = db.rules k) ∧ db1.firstRule = db.firstRule) := by
  unfold DepBuilder.populateOutput
  simp only
  obtain ⟨h1, -, h3⟩ := populateSuffixRule_rules db rule (w.clean N)
  rcases hp : db.populateSuffixRule rule (w.clean N) with ⟨b, dbS⟩
  rw [hp] at h1 h3
  simp only at h1 h3 ⊢
  rw [h1, h]
  simp only
  by_cases hdc : old.isDoubleColon = rule.isDoubleColon
  · obtain ⟨r1, hm, -, -⟩ := mergeRules_ok old rule (w.clean N) b hdc.symm
    rw [hm]
    refine ⟨⟨fun hc => (by cases hc), fun hne => absurd hdc hne⟩,
      fun _ => ⟨r1, _, rfl, rfl, ?_, ?_, h3⟩⟩
    · simp
    · intro k hk
      simp only [hk, if_false]
  · have hm : mergeRules old rule (w.clean N) b = .error .incompatibleColonKinds := by
      unfold mergeRules
      have : (old.isDoubleColon != rule.isDoubleColon) = true := by
        simpa using hdc
      simp only [this, if_true]
    rw [hm]
    exact ⟨⟨fun _ => hdc, fun _ => rfl⟩, fun he => absurd he hdc⟩

/-- C12, witness: scenario S6, where `x: y z ; r` is in the table; a
double-colon rule for `x` is refused, a further single-colon rule for `x` is
merged in. -/
theorem populateOutput_colon_kinds_witness :
    s6Builder.rules "x" = some { outputs := ["x"], inputs := ["y", "z"], cmds := ["r"] } ∧
    errorOf (s6Builder.populateOutput (worldOf [])
      { outputs := ["x"], isDoubleColon := true } "x") = some .incompatibleColonKinds ∧
    errorOf (s6Builder.populateOutput (worldOf []) { outputs := ["x"], inputs := ["w"] } "x")
      = none := by
  have h := populateOutput_colon_kinds (worldOf []) s6Builder
    { outputs := ["x"], isDoubleColon := true } "x"
    { outputs := ["x"], inputs := ["y", "z"], cmds := ["r"] } (by decide)
  refine ⟨by decide, ?_, by decide⟩
  rw [h.1.mpr (by decide)]
  rfl

/-- C19. When the two rules agree on `isDoubleColon`, `mergeRules(old, new)`
returns a rule whose prerequisites are ordered by whether `new` has commands:
with a command, the inputs are those of `new` followed by those of `old`, and
so are the order-only inputs; without, those of `old` come first in both. -/
theorem mergeRules_inputs_order (oldRule rule : Rule) (output : String) (b : Bool)
    (hdc : oldRule.isDoubleColon = rule.isDoubleColon) :
    ∃ r, mergeRules oldRule rule output b = .ok r ∧
      (rule.cmds ≠ [] → r.inputs = rule.inputs ++ oldRule.inputs ∧
        r.orderOnlyInputs = rule.orderOnlyInputs ++ oldRule.orderOnlyInputs) ∧
      (rule.cmds = [] → r.inputs = oldRule.inputs ++ rule.inputs ∧
        r.orderOnlyInputs = oldRule.orderOnlyInputs ++ rule.orderOnlyInputs) := by
  unfold mergeRules
  simp only [hdc, bne_self_eq_false, Bool.false_eq_true, if_false]
  refine ⟨_, rfl, ?_, ?_⟩
  · intro hc
    have hc1 : rule.cmds.isEmpty = false := by
      cases hcm : rule.cmds with
      | nil => exact absurd hcm hc
      | cons a l => rfl
    by_cases h1 : rule.isDoubleColon = true <;>
      by_cases h3 : oldRule.cmds.isEmpty = true <;> simp [h1, hc1, h3]
  · intro hc
    have hc1 : rule.cmds.isEmpty = true := by rw [hc]; rfl
    by_cases h1 : rule.isDoubleColon = true <;>
      by_cases h3 : oldRule.cmds.isEmpty = true <;> simp [h1, hc1, h3]

/-- C19, witness: `x: a | p ; c` merged over `x: b | q`, and the other way
round. -/
theorem mergeRules_inputs_order_witness :
    (∃ r, mergeRules { inputs := ["b"], orderOnlyInputs := ["q"] }
        { inputs := ["a"], orderOnlyInputs := ["p"], cmds := ["c"] } "x" false = .ok r ∧
      r.inputs = ["a", "b"] ∧ r.orderOnlyInputs = ["p", "q"]) ∧
    (∃ r, mergeRules { inputs := ["a"], orderOnlyInputs := ["p"], cmds := ["c"] }
        { inputs := ["b"], orderOnlyInputs := ["q"] } "x" false = .ok r ∧
      r.inputs = ["a", "b"] ∧ r.orderOnlyInputs = ["p", "q"]) := by
  obtain ⟨r1, h1, h2, -⟩ := mergeRules_inputs_order { inputs := ["b"], orderOnlyInputs := ["q"] }
    { inputs := ["a"], orderOnlyInputs := ["p"], cmds := ["c"] } "x" false rfl
  obtain ⟨r2, g1, -, g3⟩ := mergeRules_inputs_order
    { inputs := ["a"], orderOnlyInputs := ["p"], cmds := ["c"] }
    { inputs := ["b"], orderOnlyInputs := ["q"] } "x" false rfl
  exact ⟨⟨r1, h1, h2 (by decide)⟩, ⟨r2, g1, g3 rfl⟩⟩

theorem actualInput_multi (rule : Rule) (output input : String)
    (h : 1 < rule.outputPatterns.length) :
    actualInput rule output input = .error .multiOutputPattern := by
  unfold actualInput
  cases hp : rule.outputPatterns with
  | nil => rw [hp] at h; simp at h
  | cons p rest =>
    cases rest with
    | nil => rw [hp] at h; simp at h
    | cons q rest2 => rfl

/-- C13 (amended). Planning a target for the first time, when `pickRule`
selects for it a rule with more than one output pattern: if the rule has at
least one regular prerequisite, `buildPlan` fails with `multiOutputPattern`,
whatever the prerequisites are; if the rule has no prerequisite at all,
`buildPlan` returns a node. -/
theorem multi_output_pattern_fails (w : World) (fuel : Nat) (T : String) (tsvs : Vars)
    (db dbB : DepBuilder) (rule : Rule) (vars : Option VarList)
    (hd : db.done T = none)
    (hp : (({ db with nodeCnt := db.nodeCnt + 1 } : DepBuilder).newNode T).pickRule w T
      = .ok ((some rule, vars, true), dbB))
    (hpat : 1 < rule.outputPatterns.length) :
    (rule.inputs ≠ [] →
      DepBuilder.buildPlan w (fuel + 1) T tsvs db = .error .multiOutputPattern) ∧
    (rule.inputs = [] → rule.orderOnlyInputs = [] →
      ∃ tsvs1 db1, DepBuilder.buildPlan w (fuel + 1) T tsvs db
        = .ok (db.nodes.length, tsvs1, db1)) := by
  have hd1 : ({ db with nodeCnt := db.nodeCnt + 1 } : DepBuilder).done T = none := hd
  rw [buildPlan_succ, hd1]
  simp only
  rw [hp]
  simp only
  unfold planRule
  simp only
  constructor
  · intro hin
    cases hi : rule.inputs with
    | nil => exact absurd hi hin
    | cons input rest =>
      rw [planInputs_cons, actualInput_multi rule T input hpat]
  · intro hin hoo
    rw [hin, hoo]
    exact ⟨_, _, rfl⟩

/-- C13, witness: the rules `t: %: a ; c1` and `t: t%: ; c2` give `t` an
explicit rule with the output patterns `t%`, `%` and the prerequisite `a`;
planning `t` fails with `multiOutputPattern`. -/
theorem multi_output_pattern_fails_witness :
    (twoPatternInputBuilder.rules "t").map (fun r => (r.outputPatterns, r.inputs))
      = some (["t%", "%"], ["a"]) ∧
    DepBuilder.buildPlan (worldOf []) 10 "t" Vars.empty twoPatternInputBuilder
      = .error .multiOutputPattern :=
  ⟨by decide,
   (multi_output_pattern_fails (worldOf []) 9 "t" Vars.empty twoPatternInputBuilder
      { (({ twoPatternInputBuilder with nodeCnt := 1 } : DepBuilder).newNode "t") with
        pickExplicitRuleCnt := 1 }
      { outputs := ["t"], inputs := ["a"], outputPatterns := ["t%", "%"], cmds := ["c2"] }
      none rfl rfl (by decide)).1 (by decide)⟩

/-- C13, counterexample: the rules `t: %: ; c1` and `t: t%: ; c2` give `t`
an explicit rule with commands and the two output patterns `t%`, `%`; it is
the rule `pickRule` selects for `t`, and planning `t` does not fail: it
returns a node with `HasRule` set. -/
theorem multi_output_pattern_fails_counterexample :
    (valueOf (twoPatternBuilder.pickRule (worldOf []) "t")).map
      (fun r => (r.1.1.map fun rule => (rule.outputPatterns, rule.inputs), r.1.2.2))
      = some (some (["t%", "%"], []), true) ∧
    errorOf (DepBuilder.buildPlan (worldOf []) 10 "t" Vars.empty twoPatternBuilder) = none ∧
    (valueOf (DepBuilder.buildPlan (worldOf []) 10 "t" Vars.empty twoPatternBuilder)).map
      (fun r => r.2.2.nodes.map fun nd => (nd.Output, nd.HasRule)) = some [("t", true)] :=
  ⟨by decide, by decide, by decide⟩

/-- What `pickRule` selects when the target has no explicit rule and no
pattern or suffix rule is applicable to it: nothing. -/
theorem selected_none (w : World) (db : DepBuilder) (T : String)
    (hr : db.rules T = none)
    (hi : ∀ r ∈ db.implicitRules, db.implicitApplicable w T r = false)
    (hs : ∀ r ∈ db.suffixCandidates T, db.suffixApplicable w T r = false) :
    db.selected w T = (none, db.ruleVars T, false) := by
  have h1 : db.implicitRules.find? (db.implicitApplicable w T) = none := by
    rw [List.find?_eq_none]
    intro r hr1
    simp [hi r hr1]
  have h2 : (db.suffixCandidates T).find? (db.suffixApplicable w T) = none := by
    rw [List.find?_eq_none]
    intro r hr1
    simp [hs r hr1]
  unfold DepBuilder.selected DepBuilder.selectedImplicit
  rw [hr, h1, h2]
  rfl

/-- The flag `pickRule` returns says whether the rule it returns is there. -/
theorem selected_flag (w : World) (db : DepBuilder) (T : String) :
    (db.selected w T).2.2 = (db.selected w T).1.isSome := by
  unfold DepBuilder.selected
  split
  · rename_i hc
    cases hr : db.rules T with
    | none => rw [hr] at hc; cases hc
    | some rule => rfl
  · unfold DepBuilder.selectedImplicit
    split
    · rfl
    · split
      · rfl
      · rfl

/-- C14. Let a target `T` be planned for the first time and `buildPlan`
return its node. The call of `pickRule` that `buildPlan` makes for `T`
returns; `HasRule` of the node is true exactly when it returned a rule (its
flag is set, which is the case exactly when the rule is not nil). If `T` is
not a key of the explicit table and no pattern rule and no suffix rule is
applicable to `T`, then the node has `HasRule = false`, no commands and no
children. The three fields are the same in every later state. -/
theorem hasRule_iff_rule_selected (w : World) (fuel : Nat) (T : String) (tsvs : Vars)
    (db : DepBuilder) (n : Nat) (tsvs1 : Vars) (db1 : DepBuilder)
    (hm : db.MemoOK) (hd : db.done T = none)
    (h : DepBuilder.buildPlan w fuel T tsvs db = .ok (n, tsvs1, db1)) :
    ∃ nd res dbB, db1.nodes[n]? = some nd ∧ nd.Output = T ∧
      (({ db with nodeCnt := db.nodeCnt + 1 } : DepBuilder).newNode T).pickRule w T
        = .ok (res, dbB) ∧
      (nd.HasRule = true ↔ res.2.2 = true) ∧
      (res.2.2 = true ↔ ∃ rule, res.1 = some rule) ∧
      (db.rules T = none →
        (∀ r ∈ db.implicitRules, db.implicitApplicable w T r = false) →
        (∀ r ∈ db.suffixCandidates T, db.suffixApplicable w T r = false) →
        nd.HasRule = false ∧ nd.Cmds = [] ∧ nd.Deps = []) ∧
      ∀ db2, db1.Extends db2 → ∃ nd2, db2.nodes[n]? = some nd2 ∧
        nd2.HasRule = nd.HasRule ∧ nd2.Cmds = nd.Cmds ∧ nd2.Deps = nd.Deps := by
  obtain ⟨m1, e1, d1, p1⟩ := buildPlan_ok w fuel T tsvs db n tsvs1 db1 h hm
  obtain ⟨hn1, hn2⟩ := buildPlan_new_node w fuel T tsvs db n tsvs1 db1 hm hd h
  obtain ⟨nd, hnd, hno, hyes⟩ := p1 n hn1 hn2
  obtain ⟨nd0, hnd0, hout⟩ := m1.1 T n d1
  rw [hnd] at hnd0
  cases hnd0
  have hselEq : db1.selected w T = db.selected w T := selected_of_extends w e1 T
  rw [hout, hselEq] at hno hyes
  cases fuel with
  | zero => cases h
  | succ fuel =>
    rw [buildPlan_succ] at h
    have hd1 : ({ db with nodeCnt := db.nodeCnt + 1 } : DepBuilder).done T = none := hd
    rw [hd1] at h
    simp only at h
    cases hp : (({ db with nodeCnt := db.nodeCnt + 1 } : DepBuilder).newNode T).pickRule w T with
    | error e => rw [hp] at h; cases h
    | ok r =>
      obtain ⟨res, dbB⟩ := r
      obtain ⟨hres, -⟩ := pickRule_ok w _ T _ dbB hp
      have hres1 : res = db.selected w T := by
        rw [hres]
        exact selected_congr w rfl rfl rfl rfl T
      have hflag := selected_flag w db T
      rw [← hres1] at hflag hno hyes
      obtain ⟨rule, vars, present⟩ := res
      have hHas : nd.HasRule = true ↔ present = true := by
        cases present with
        | false =>
          obtain ⟨g1, -, -, -⟩ := hno rule vars rfl
          simp [g1]
        | true =>
          obtain ⟨rule1, hr1⟩ : ∃ rule1, rule = some rule1 := by
            cases rule with
            | none => cases hflag
            | some rule1 => exact ⟨rule1, rfl⟩
          subst hr1
          obtain ⟨-, -, -, g2, -⟩ := hyes rule1 vars rfl
          simp [g2]
      refine ⟨nd, (rule, vars, present), dbB, hnd, hout, rfl, hHas, ?_, ?_, ?_⟩
      · simp only at hflag ⊢
        rw [hflag]
        cases rule <;> simp
      · intro hr hi hs
        have hsel := selected_none w db T hr hi hs
        rw [← hres1] at hsel
        cases hsel
        obtain ⟨g1, g2, g3, -⟩ := hno none (db.ruleVars T) rfl
        exact ⟨g1, g2, g3⟩
      · intro db2 e2
        obtain ⟨nd2, hnd2, hs⟩ := e2.old_nodes n nd hnd
        obtain ⟨-, f2, f3, f4, -⟩ := sameButOrderOnly_fields hs
        exact ⟨nd2, hnd2, f4, f2, f3⟩

/-- C14, witness: scenario S1; `foo.c` has no rule of any kind and its node
is bare, `foo.o` has the pattern rule and `HasRule` set. -/
theorem hasRule_iff_rule_selected_witness :
    ∃ n tsvs1 db1, DepBuilder.buildPlan (worldOf ["foo.c"]) 10 "foo.o" Vars.empty s1Builder
        = .ok (n, tsvs1, db1) ∧
      (∃ nd, db1.nodes[n]? = some nd ∧ nd.Output = "foo.o" ∧ nd.HasRule = true) ∧
      db1.nodes.map (fun nd => (nd.Output, nd.HasRule, nd.Cmds, nd.Deps))
        = [("foo.o", true, ["cc -c $<"], [1]), ("foo.c", false, [], [])] := by
  obtain ⟨⟨n, tsvs1, db1⟩, h⟩ := ok_of_errorOf_none
    (DepBuilder.buildPlan (worldOf ["foo.c"]) 10 "foo.o" Vars.empty s1Builder) (by decide)
  have hv : (valueOf (DepBuilder.buildPlan (worldOf ["foo.c"]) 10 "foo.o" Vars.empty
      s1Builder)).map
      (fun r => r.2.2.nodes.map fun nd => (nd.Output, nd.HasRule, nd.Cmds, nd.Deps))
      = some [("foo.o", true, ["cc -c $<"], [1]), ("foo.c", false, [], [])] := by decide
  rw [h] at hv
  obtain ⟨nd, res, dbB, g1, g2, g3, g4, -, -, -⟩ := hasRule_iff_rule_selected
    (worldOf ["foo.c"]) 10 "foo.o" Vars.empty s1Builder n tsvs1 db1
    (memoOK_fresh s1Builder rfl (fun _ => rfl)) rfl h
  have hres : res.2.2 = true := by
    have hp : (valueOf ((({ s1Builder with nodeCnt := s1Builder.nodeCnt + 1 } :
        DepBuilder).newNode "foo.o").pickRule (worldOf ["foo.c"]) "foo.o")).map
        (fun r => r.1.2.2) = some true := by decide
    rw [g3] at hp
    simpa [valueOf] using hp
  exact ⟨n, tsvs1, db1, h, ⟨nd, g1, g2, g4.mpr hres⟩, by simpa [valueOf] using hv⟩

/-- A request for a memoised target returns its node and changes only the
call counter. -/
theorem buildPlan_done (w : World) (fuel : Nat) (T : String) (tsvs : Vars) (db : DepBuilder)
    (n : Nat) (hd : db.done T = some n) :
    DepBuilder.buildPlan w (fuel + 1) T tsvs db
      = .ok (n, tsvs, { db with nodeCnt := db.nodeCnt + 1 }) := by
  rw [buildPlan_succ]
  have hd1 : ({ db with nodeCnt := db.nodeCnt + 1 } : DepBuilder).done T = some n := hd
  rw [hd1]

/-- C15 (amended). The flag `IsOrderOnly` of a node is false when the node is
created, is set by every reference to the node as an order-only
prerequisite, the first or a later one, and is never reset. For a builder
with a consistent memo table: a request for a target `T` that is not
memoised allocates the node of `T` with the flag false and memoises it, and
it is from this state, the other nodes being as they were, that the call
selects the rule and, with a rule, plans the prerequisites (without a rule
it returns the node as allocated); a call of `buildPlan` leaves every node
there is as it is or sets its flag; a round of the loop over the regular
prerequisites that refers to a memoised node leaves all nodes as they are;
and after a round of the loop over the order-only prerequisites for `P`, the
flag of the node of `P` is set. -/
theorem order_only_flag_set (w : World) (fuel : Nat) (db : DepBuilder) (hm : db.MemoOK) :
    (∀ T tsvs, db.done T = none →
      (∃ nd, (({ db with nodeCnt := db.nodeCnt + 1 } : DepBuilder).newNode T).nodes[
          db.nodes.length]? = some nd ∧ nd.Output = T ∧ nd.IsOrderOnly = false) ∧
      (({ db with nodeCnt := db.nodeCnt + 1 } : DepBuilder).newNode T).done T
        = some db.nodes.length ∧
      (∀ r v db1,
        (({ db with nodeCnt := db.nodeCnt + 1 } : DepBuilder).newNode T).pickRule w T
          = .ok ((r, v, false), db1) →
        DepBuilder.buildPlan w (fuel + 1) T tsvs db = .ok (db.nodes.length, tsvs, db1) ∧
        db1.nodes = db.nodes ++ [({ Output := T } : DepNode)]) ∧
      (∀ rule vars db1,
        (({ db with nodeCnt := db.nodeCnt + 1 } : DepBuilder).newNode T).pickRule w T
          = .ok ((some rule, vars, true), db1) →
        DepBuilder.buildPlan w (fuel + 1) T tsvs db
          = planRule w (DepBuilder.buildPlan w fuel) db.nodes.length rule vars T tsvs db1 ∧
        db1.nodes = db.nodes ++ [({ Output := T } : DepNode)])) ∧
    (∀ T tsvs n tsvs1 db1, DepBuilder.buildPlan w fuel T tsvs db = .ok (n, tsvs1, db1) →
      ∀ (k : Nat) (nd : DepNode), db.nodes[k]? = some nd →
        ∃ nd1, db1.nodes[k]? = some nd1 ∧ (nd1 = nd ∨ nd1 = { nd with IsOrderOnly := true })) ∧
    (∀ rule T input P n ch ais tsvs ch1 ais1 tsvs1 db1,
      actualInput rule T input = .ok P → db.done P = some n →
      planInputs (DepBuilder.buildPlan w fuel) rule T [input] ch ais tsvs db
        = .ok (ch1, ais1, tsvs1, db1) →
      db1.nodes = db.nodes ∧ ch1 = ch ++ [n]) ∧
    (∀ P ch tsvs ch1 tsvs1 db1,
      planOrderOnly (DepBuilder.buildPlan w fuel) [P] ch tsvs db = .ok (ch1, tsvs1, db1) →
      ∃ n nd, ch1 = ch ++ [n] ∧ db1.done P = some n ∧ db1.nodes[n]? = some nd ∧
        nd.IsOrderOnly = true) := by
  refine ⟨?_, ?_, ?_, ?_⟩
  · intro T tsvs hd
    have hd1 : ({ db with nodeCnt := db.nodeCnt + 1 } : DepBuilder).done T = none := hd
    refine ⟨⟨{ Output := T }, ?_, rfl, rfl⟩, ?_, ?_, ?_⟩
    · show (db.nodes ++ [({ Output := T } : DepNode)])[db.nodes.length]? = _
      simp
    · show (if T = T then some db.nodes.length else db.done T) = _
      simp
    · intro r v db1 hp
      refine ⟨?_, ?_⟩
      · rw [buildPlan_succ, hd1]
        simp only
        rw [hp]
        cases r <;> rfl
      · exact ((pickRule_ok w _ T _ db1 hp).2.2.2.2.2.2.2.2.1).symm
    · intro rule vars db1 hp
      refine ⟨?_, ?_⟩
      · rw [buildPlan_succ, hd1]
        simp only
        rw [hp]
      · exact ((pickRule_ok w _ T _ db1 hp).2.2.2.2.2.2.2.2.1).symm
  · intro T tsvs n tsvs1 db1 h k nd hk
    obtain ⟨-, e1, -, -⟩ := buildPlan_ok w fuel T tsvs db n tsvs1 db1 h hm
    exact e1.old_nodes k nd hk
  · intro rule T input P n ch ais tsvs ch1 ais1 tsvs1 db1 ha hd h
    rw [planInputs_cons, ha] at h
    simp only at h
    cases fuel with
    | zero => cases h
    | succ fuel =>
      have hd1 : ({ db with trace := db.trace ++ [P] } : DepBuilder).done P = some n := hd
      rw [buildPlan_done w fuel P tsvs _ n hd1] at h
      cases h
      exact ⟨rfl, rfl⟩
  · intro P ch tsvs ch1 tsvs1 db1 h
    obtain ⟨-, -, -, newCh, h1, h2⟩ :=
      planOrderOnly_ok w _ (buildPlan_ok w fuel) [P] ch tsvs db ch1 tsvs1 db1 h hm
    cases h2 with
    | cons hc hrest =>
      cases hrest
      obtain ⟨hc1, cd, hcd, hflag⟩ := hc
      exact ⟨_, cd, h1, hc1, hcd, hflag⟩

/-- C15, witness: in the example, after the goal `a` the node of `b` is
there with its flag clear; a round of the order-only loop for `b` sets it. -/
theorem order_only_flag_set_witness :
    ∃ ch1 tsvs1 db1,
      planOrderOnly (DepBuilder.buildPlan (worldOf []) 10) ["b"] [] Vars.empty flagBuilder
        = .ok (ch1, tsvs1, db1) ∧
      ∃ n nd, ch1 = [] ++ [n] ∧ db1.done "b" = some n ∧ db1.nodes[n]? = some nd ∧
        nd.IsOrderOnly = true := by
  obtain ⟨⟨ch1, tsvs1, db1⟩, h⟩ := ok_of_errorOf_none
    (planOrderOnly (DepBuilder.buildPlan (worldOf []) 10) ["b"] [] Vars.empty flagBuilder)
    (by decide)
  exact ⟨ch1, tsvs1, db1, h,
    (order_only_flag_set (worldOf []) 10 flagBuilder
      (memoOK_fresh flagBuilder rfl (fun _ => rfl))).2.2.2 "b" [] Vars.empty ch1 tsvs1 db1 h⟩

/-- C15, counterexample: with `a: b`, `c: | b` and `b:`, the goal `a` alone
leaves the node of `b`, first reached as a regular prerequisite of `a`, with
`IsOrderOnly = false`; with the goals `a`, `c` the later reference to `b` as
an order-only prerequisite of `c` sets the flag of that same node. -/
theorem order_only_flag_set_counterexample :
    (valueOf (flagBuilder.Eval (worldOf []) 10 ["a"])).map
      (fun r => r.2.nodes.map fun nd => (nd.Output, nd.Deps, nd.IsOrderOnly))
      = some [("a", [1], false), ("b", [], false)] ∧
    (valueOf (flagBuilder.Eval (worldOf []) 10 ["a", "c"])).map
      (fun r => r.2.nodes.map fun nd => (nd.Output, nd.Deps, nd.IsOrderOnly))
      = some [("a", [1], false), ("b", [], true), ("c", [1], false)] :=
  ⟨by decide, by decide⟩

/-- C16, failing input: the pattern rule `%.o: %.c | %.d ; cc -c $<`, `foo.c`
on disk, goal `foo.o`. The regular prerequisite is planned as `foo.c`, with
the stem in place of `%`; the order-only prerequisite is planned under its
literal name `%.d`. -/
theorem order_only_not_substituted :
    (valueOf (orderOnlyPatternBuilder.Eval (worldOf ["foo.c"]) 10 ["foo.o"])).map
      (fun r => r.2.nodes.map fun nd =>
        (nd.Output, nd.ActualInputs, nd.Deps, nd.IsOrderOnly))
      = some [("foo.o", ["foo.c"], [1, 2], false), ("foo.c", [], [], false),
              ("%.d", [], [], true)] := by
  decide

theorem splitFirst_some (c : Char) (l p s : List Char) :
    splitFirst c l = some (p, s) ↔ l = p ++ c :: s ∧ c ∉ p := by
  induction l generalizing p s with
  | nil =>
    constructor
    · intro h
      cases h
    · intro h
      cases p <;> simp at h
  | cons d rest ih =>
    unfold splitFirst
    by_cases hd : d = c
    · subst hd
      simp only [if_true, Option.some.injEq, Prod.mk.injEq]
      constructor
      · rintro ⟨rfl, rfl⟩
        simp
      · rintro ⟨h1, h2⟩
        cases p with
        | nil => simpa [eq_comm] using h1
        | cons a p1 =>
          simp only [List.cons_append, List.cons.injEq] at h1
          exact absurd (by rw [← h1.1]; exact List.mem_cons_self _ _) h2
    · simp only [hd, if_false]
      cases hr : splitFirst c rest with
      | none =>
        simp only
        constructor
        · intro h
          cases h
        · rintro ⟨h1, h2⟩
          cases p with
          | nil =>
            simp only [List.nil_append, List.cons.injEq] at h1
            exact absurd h1.1 hd
          | cons a p1 =>
            simp only [List.cons_append, List.cons.injEq] at h1
            have := (ih p1 s).mpr ⟨h1.2, fun hm => h2 (List.mem_cons_of_mem _ hm)⟩
            rw [hr] at this
            cases this
      | some ps =>
        obtain ⟨p0, s0⟩ := ps
        simp only [Option.some.injEq, Prod.mk.injEq]
        obtain ⟨h1, h2⟩ := (ih p0 s0).mp hr
        constructor
        · rintro ⟨rfl, rfl⟩
          refine ⟨by rw [h1]; rfl, ?_⟩
          intro hm
          rcases List.mem_cons.mp hm with h | h
          · exact hd h.symm
          · exact h2 h
        · rintro ⟨g1, g2⟩
          cases p with
          | nil =>
            simp only [List.nil_append, List.cons.injEq] at g1
            exact absurd g1.1 hd
          | cons a p1 =>
            simp only [List.cons_append, List.cons.injEq] at g1
            have := (ih p1 s).mpr ⟨g1.2, fun hm => g2 (List.mem_cons_of_mem _ hm)⟩
            rw [hr] at this
            simp only [Option.some.injEq, Prod.mk.injEq] at this
            exact ⟨by rw [g1.1, this.1], this.2⟩

theorem splitFirst_none (c : Char) (l : List Char) :
    splitFirst c l = none ↔ c ∉ l := by
  constructor
  · intro h hm
    obtain ⟨p, s, hps⟩ : ∃ p s, l = p ++ c :: s ∧ c ∉ p := by
      induction l with
      | nil => cases hm
      | cons d rest ih =>
        by_cases hd : d = c
        · exact ⟨[], rest, by simp [hd], by simp⟩
        · rcases List.mem_cons.mp hm with h1 | h1
          · exact absurd h1.symm hd
          · have hrest : splitFirst c rest = none := by
              unfold splitFirst at h
              simp only [hd, if_false] at h
              cases hr : splitFirst c rest with
              | none => rfl
              | some ps => rw [hr] at h; cases h
            obtain ⟨p, s, h2, h3⟩ := ih hrest h1
            refine ⟨d :: p, s, by rw [h2]; rfl, ?_⟩
            intro hm2
            rcases List.mem_cons.mp hm2 with h4 | h4
            · exact hd h4.symm
            · exact h3 h4
    rw [(splitFirst_some c l p s).mpr hps] at h
    cases h
  · exact splitFirst_none_of_not_mem c l

theorem populateSuffixRule_of_shape (db : DepBuilder) (rule : Rule) (O : String)
    (IN OUT : List Char) (hO : O.data = '.' :: (IN ++ '.' :: OUT)) (hi : '.' ∉ IN)
    (ho : '.' ∉ OUT) :
    db.populateSuffixRule rule O =
      (true, { db with
        suffixRules := fun k =>
          if k = String.mk OUT then
            some ({ rule with inputs := [String.mk IN], isSuffixRule := true } ::
              (db.suffixRules (String.mk OUT)).getD [])
          else db.suffixRules k }) := by
  have h1 : splitFirst '.' (IN ++ '.' :: OUT) = some (IN, OUT) :=
    (splitFirst_some '.' _ IN OUT).mpr ⟨rfl, hi⟩
  have h2 : splitFirst '.' OUT = none := (splitFirst_none '.' OUT).mpr ho
  unfold DepBuilder.populateSuffixRule
  rw [hO]
  simp only [h1, h2, Option.isSome_none, Bool.false_eq_true, if_false]

theorem populateSuffixRule_of_not_shape (db : DepBuilder) (rule : Rule) (O : String)
    (h : ¬ ∃ IN OUT : List Char, O.data = '.' :: (IN ++ '.' :: OUT) ∧ '.' ∉ IN ∧ '.' ∉ OUT) :
    db.populateSuffixRule rule O = (false, db) := by
  unfold DepBuilder.populateSuffixRule
  split
  · rename_i rest hO
    split
    · rfl
    · rename_i inS after h1
      obtain ⟨h2, h3⟩ := (splitFirst_some '.' rest inS after).mp h1
      split
      · rfl
      · rename_i h4
        have h5 : splitFirst '.' after = none := by
          cases hs : splitFirst '.' after with
          | none => rfl
          | some _ => rw [hs] at h4; simp at h4
        exact absurd ⟨inS, after, by rw [hO, h2], h3, (splitFirst_none '.' after).mp h5⟩ h
  · rfl

/-- C20. `populateSuffixRule` returns true for the output name `O` if and
only if `O` is a dot, a part `IN` without a dot, a dot and a part `OUT`
without a dot. When `O` has that form, the given rule with `inputs = [IN]`
and `isSuffixRule` set is put in front of the list the suffix table has under
`OUT`, and the lists under all other keys are as they were; when it has not,
the builder is unchanged. No other table changes in either case. -/
theorem populateSuffixRule_shape (db : DepBuilder) (rule : Rule) (O : String) :
    ((db.populateSuffixRule rule O).1 = true ↔
      ∃ IN OUT : List Char, O.data = '.' :: (IN ++ '.' :: OUT) ∧ '.' ∉ IN ∧ '.' ∉ OUT) ∧
    (∀ IN OUT : List Char, O.data = '.' :: (IN ++ '.' :: OUT) → '.' ∉ IN → '.' ∉ OUT →
      (db.populateSuffixRule rule O).2.suffixRules (String.mk OUT) =
        some ({ rule with inputs := [String.mk IN], isSuffixRule := true } ::
          (db.suffixRules (String.mk OUT)).getD []) ∧
      ∀ k, k ≠ String.mk OUT →
        (db.populateSuffixRule rule O).2.suffixRules k = db.suffixRules k) ∧
    ((db.populateSuffixRule rule O).1 = false → (db.populateSuffixRule rule O).2 = db) ∧
    (db.populateSuffixRule rule O).2.rules = db.rules ∧
    (db.populateSuffixRule rule O).2.implicitRules = db.implicitRules ∧
    (db.populateSuffixRule rule O).2.ruleVars = db.ruleVars ∧
    (db.populateSuffixRule rule O).2.firstRule = db.firstRule := by
  by_cases hs : ∃ IN OUT : List Char, O.data = '.' :: (IN ++ '.' :: OUT) ∧ '.' ∉ IN ∧ '.' ∉ OUT
  · obtain ⟨IN0, OUT0, hO, hi, ho⟩ := hs
    have heq := populateSuffixRule_of_shape db rule O IN0 OUT0 hO hi ho
    refine ⟨?_, ?_, ?_, ?_, ?_, ?_, ?_⟩
    · rw [heq]
      exact ⟨fun _ => ⟨IN0, OUT0, hO, hi, ho⟩, fun _ => rfl⟩
    · intro IN OUT hO1 hi1 ho1
      rw [populateSuffixRule_of_shape db rule O IN OUT hO1 hi1 ho1]
      constructor
      · show (if String.mk OUT = String.mk OUT then _ else _) = _
        rw [if_pos rfl]
      · intro k hk
        show (if k = String.mk OUT then _ else _) = _
        rw [if_neg hk]
    · intro hf
      rw [heq] at hf
      cases hf
    · rw [heq]
    · rw [heq]
    · rw [heq]
    · rw [heq]
  · have heq := populateSuffixRule_of_not_shape db rule O hs
    refine ⟨?_, ?_, ?_, ?_, ?_, ?_, ?_⟩
    · rw [heq]
      exact ⟨fun hf => (by cases hf), fun hx => absurd hx hs⟩
    · intro IN OUT hO1 hi1 ho1
      exact absurd ⟨IN, OUT, hO1, hi1, ho1⟩ hs
    · intro _
      rw [heq]
    · rw [heq]
    · rw [heq]
    · rw [heq]
    · rw [heq]

/-- C20, witness: `.c.o` is a suffix rule name, with `IN = c` and `OUT = o`;
`.o`, `.a.b.c` and `c.o` are not. -/
theorem populateSuffixRule_shape_witness :
    (({} : DepBuilder).populateSuffixRule { cmds := ["cc"] } ".c.o").1 = true ∧
    (({} : DepBuilder).populateSuffixRule { cmds := ["cc"] } ".c.o").2.suffixRules "o"
      = some [{ cmds := ["cc"], inputs := ["c"], isSuffixRule := true }] ∧
    (({} : DepBuilder).populateSuffixRule { cmds := ["cc"] } ".o").1 = false ∧
    (({} : DepBuilder).populateSuffixRule { cmds := ["cc"] } ".a.b.c").1 = false ∧
    (({} : DepBuilder).populateSuffixRule { cmds := ["cc"] } "c.o").1 = false := by
  have h := populateSuffixRule_shape {} { cmds := ["cc"] } ".c.o"
  refine ⟨h.1.mpr ⟨['c'], ['o'], rfl, by decide, by decide⟩, ?_, rfl, rfl, rfl⟩
  exact (h.2.1 ['c'] ['o'] rfl (by decide) (by decide)).1



theorem strLt_nil_right (a : List Char) : strLt a [] = false := by
  cases a <;> rfl

theorem strLt_cons (a b : Char) (as bs : List Char) :
    strLt (a :: as) (b :: bs) =
      if a < b then true else if b < a then false else strLt as bs := rfl

theorem strLt_irrefl (a : List Char) : strLt a a = false := by
  induction a with
  | nil => rfl
  | cons x xs ih => rw [strLt_cons]; simp [ih]

/-- The order is total and transitive: if `c < a`, then `b < a` or `c < b`. -/
theorem strLt_cotrans (a : List Char) : ∀ b c : List Char,
    strLt c a = true → strLt b a = true ∨ strLt c b = true := by
  induction a with
  | nil =>
    intro b c h
    rw [strLt_nil_right] at h
    cases h
  | cons x as ih =>
    intro b c h
    cases b with
    | nil => exact Or.inl rfl
    | cons y bs =>
      cases c with
      | nil => exact Or.inr rfl
      | cons z cs =>
        rw [strLt_cons] at h ⊢
        rw [strLt_cons]
        by_cases hyx : y < x
        · simp [hyx]
        · by_cases hzy : z < y
          · simp [hzy]
          · by_cases hzx : z < x
            · exact absurd (lt_of_lt_of_le hzx (not_lt.mp hyx)) hzy
            · simp only [hzx, if_false] at h
              by_cases hxz : x < z
              · simp [hxz] at h
              · simp only [hxz, if_false] at h
                have hxz1 : x = z := le_antisymm (not_lt.mp hzx) (not_lt.mp hxz)
                subst hxz1
                by_cases hxy : x < y
                · exact absurd hxy hzy
                · simp only [hyx, hxy, hzy, if_false]
                  exact ih bs cs h

/-- Transitivity of `≤`. -/
theorem strLe_trans {a b c : List Char} (h1 : strLt b a = false) (h2 : strLt c b = false) :
    strLt c a = false := by
  cases h : strLt c a with
  | false => rfl
  | true =>
    rcases strLt_cotrans a b c h with h3 | h3
    · rw [h1] at h3; cases h3
    · rw [h2] at h3; cases h3

theorem isPrefixOf_cons (a b : Char) (as bs : List Char) :
    (a :: as).isPrefixOf (b :: bs) = (a == b && as.isPrefixOf bs) := rfl

/-- A string is not below its prefixes. -/
theorem not_strLt_of_prefix (pre : List Char) : ∀ s : List Char,
    pre.isPrefixOf s = true → strLt s pre = false := by
  induction pre with
  | nil =>
    intro s _
    exact strLt_nil_right s
  | cons a as ih =>
    intro s h
    cases s with
    | nil => cases h
    | cons b bs =>
      rw [isPrefixOf_cons] at h
      simp only [Bool.and_eq_true, beq_iff_eq] at h
      obtain ⟨rfl, h2⟩ := h
      rw [strLt_cons]
      simp [ih bs h2]

/-- The strings with a given prefix lie below every string that is at or
above the prefix and does not have it. -/
theorem strLt_of_prefix (d : List Char) : ∀ s t : List Char,
    strLt s d = false → d.isPrefixOf s = false → d.isPrefixOf t = true →
    strLt t s = true := by
  induction d with
  | nil =>
    intro s t _ h2 _
    cases s <;> cases h2
  | cons a ds ih =>
    intro s t h1 h2 h3
    cases t with
    | nil => cases h3
    | cons c ts =>
      rw [isPrefixOf_cons] at h3
      simp only [Bool.and_eq_true, beq_iff_eq] at h3
      obtain ⟨rfl, h4⟩ := h3
      cases s with
      | nil => cases h1
      | cons b bs =>
        rw [strLt_cons] at h1 ⊢
        rw [isPrefixOf_cons] at h2
        by_cases hab : a < b
        · simp [hab]
        · by_cases hba : b < a
          · simp [hba] at h1
          · have heq : a = b := le_antisymm (not_lt.mp hba) (not_lt.mp hab)
            subst heq
            simp only [hab, if_false] at h1 ⊢
            simp only [beq_self_eq_true, Bool.true_and] at h2
            exact ih bs ts h1 h2 h4

theorem searchLoop_succ (f : Nat → Except FindErr Bool) (fuel i j : Nat) :
    searchLoop f (fuel + 1) i j =
      if i < j then
        match f ((i + j) / 2) with
        | .error e => .error e
        | .ok false => searchLoop f fuel ((i + j) / 2 + 1) j
        | .ok true => searchLoop f fuel i ((i + j) / 2)
      else .ok i := rfl

/-- Binary search finds the boundary of a monotone predicate. -/
theorem searchLoop_spec (f : Nat → Except FindErr Bool) (p : Nat → Bool) (n : Nat)
    (hf : ∀ i, i < n → f i = .ok (p i))
    (hmono : ∀ i j, i ≤ j → j < n → p i = true → p j = true) :
    ∀ fuel i j, i ≤ j → j ≤ n → j - i ≤ fuel →
      (∀ x, x < i → p x = false) → (∀ x, j ≤ x → x < n → p x = true) →
      ∃ k, searchLoop f fuel i j = .ok k ∧ k ≤ n ∧
        (∀ x, x < k → p x = false) ∧ (∀ x, k ≤ x → x < n → p x = true) := by
  intro fuel
  induction fuel with
  | zero =>
    intro i j hij hjn hfuel hlo hhi
    have : ¬ i < j := by omega
    refine ⟨i, ?_, by omega, hlo, ?_⟩
    · show (if i < j then _ else _) = _
      rw [if_neg this]
    · intro x hx hxn
      exact hhi x (by omega) hxn
  | succ fuel ih =>
    intro i j hij hjn hfuel hlo hhi
    rw [searchLoop_succ]
    by_cases hlt : i < j
    · rw [if_pos hlt]
      have hh1 : i ≤ (i + j) / 2 := by omega
      have hh2 : (i + j) / 2 < j := by omega
      rw [hf _ (by omega)]
      cases hp : p ((i + j) / 2) with
      | false =>
        simp only
        refine ih _ j (by omega) hjn (by omega) ?_ hhi
        intro x hx
        cases hpx : p x with
        | false => rfl
        | true =>
          have := hmono x ((i + j) / 2) (by omega) (by omega) hpx
          rw [hp] at this
          cases this
      | true =>
        simp only
        refine ih i _ hh1 (by omega) (by omega) hlo ?_
        intro x hx hxn
        exact hmono _ x hx hxn hp
    · rw [if_neg hlt]
      refine ⟨i, rfl, by omega, hlo, ?_⟩
      intro x hx hxn
      exact hhi x (by omega) hxn

/-- On an array sorted by path, the search of `walk` returns the number of
entries below `dir`: the entries before it are below `dir`, the entries from
it on are not. -/
theorem walk_start (files : List FileInfo) (dir : String) (hs : SortedByPath files) :
    ∃ k, sortSearch files.length (atOrAbove files dir) = .ok k ∧ k ≤ files.length ∧
      (∀ fi ∈ files.take k, pathLess fi.path dir = true) ∧
      (∀ fi ∈ files.drop k, pathLess fi.path dir = false) := by
  obtain ⟨k, h1, h2, h3, h4⟩ := searchLoop_spec (atOrAbove files dir)
    (fun i =>
      match files[i]? with
      | some fi => !pathLess fi.path dir
      | none => true)
    files.length
    (by
      intro i hi
      unfold atOrAbove
      simp only [List.getElem?_eq_getElem hi])
    (by
      intro i j hij hj hp
      have hi : i < files.length := by omega
      simp only [List.getElem?_eq_getElem hi, List.getElem?_eq_getElem hj] at hp ⊢
      simp only [Bool.not_eq_true'] at hp ⊢
      rcases Nat.eq_or_lt_of_le hij with heq | hlt
      · subst heq
        exact hp
      · have hle := List.pairwise_iff_getElem.mp hs i j hi hj hlt
        exact strLe_trans hp hle)
    files.length 0 files.length (Nat.zero_le _) (Nat.le_refl _) (by omega)
    (by intro x hx; omega) (by intro x hx hxn; omega)
  refine ⟨k, h1, h2, ?_, ?_⟩
  · intro fi hfi
    obtain ⟨x, hx, hget⟩ := List.getElem_of_mem hfi
    rw [List.length_take] at hx
    have hxk : x < k := by omega
    have hxn : x < files.length := by omega
    have := h3 x hxk
    rw [List.getElem_take] at hget
    simp only [List.getElem?_eq_getElem hxn, hget] at this
    simpa using this
  · intro fi hfi
    obtain ⟨x, hx, hget⟩ := List.getElem_of_mem hfi
    rw [List.length_drop] at hx
    have hxn : k + x < files.length := by omega
    have := h4 (k + x) (by omega) hxn
    rw [List.getElem_drop] at hget
    simp only [List.getElem?_eq_getElem hxn, hget] at this
    simpa using this

theorem walkLoop_cons {σ : Type} (dir : String)
    (walkFn : Nat → FileInfo → σ → Option WalkErr × σ) (fi : FileInfo)
    (rest : List FileInfo) (i : Nat) (skipdirs : List String) (s : σ) :
    walkLoop dir walkFn (fi :: rest) i skipdirs s =
      if fi.path = dir then
        match walkFn i fi s with
        | (some e, s1) => (some e, s1)
        | (none, s1) => walkLoop dir walkFn rest (i + 1) skipdirs s1
      else if !hasPrefix fi.path dir then (none, s)
      else if !hasPrefix fi.path (dir ++ "/") then
        walkLoop dir walkFn rest (i + 1) skipdirs s
      else if skipdirs.any (fun skip => hasPrefix fi.path (skip ++ "/")) then
        walkLoop dir walkFn rest (i + 1) skipdirs s
      else
        match walkFn i fi s with
        | (some .skipDir, s1) =>
          walkLoop dir walkFn rest (i + 1) (skipdirs ++ [fi.path]) s1
        | (some e, s1) => (some e, s1)
        | (none, s1) => walkLoop dir walkFn rest (i + 1) skipdirs s1 := rfl

theorem isPrefixOf_append_left (a b : List Char) : ∀ s : List Char,
    (a ++ b).isPrefixOf s = true → a.isPrefixOf s = true := by
  induction a with
  | nil =>
    intro s _
    cases s <;> rfl
  | cons x xs ih =>
    intro s h
    cases s with
    | nil => cases h
    | cons y ys =>
      rw [List.cons_append, isPrefixOf_cons] at h
      rw [isPrefixOf_cons]
      simp only [Bool.and_eq_true] at h ⊢
      exact ⟨h.1, ih ys h.2⟩

theorem isPrefixOf_self (a : List Char) : a.isPrefixOf a = true := by
  induction a with
  | nil => rfl
  | cons x xs ih => rw [isPrefixOf_cons]; simp [ih]

/-- A visited entry has `dir` as a prefix of its path. -/
theorem hasPrefix_of_visited (dir : String) (fi : FileInfo) (h : visited dir fi = true) :
    hasPrefix fi.path dir = true := by
  unfold visited at h
  simp only [Bool.or_eq_true, beq_iff_eq] at h
  rcases h with h | h
  · rw [h]
    exact isPrefixOf_self _
  · exact isPrefixOf_append_left dir.data "/".data _ h

/-- The loop of `walk` on a sorted list of entries none of which is below
`dir`, for a walk function that never asks to skip a directory: it is the
walk over the visited entries. -/
theorem walkLoop_eq {σ : Type} (dir : String)
    (walkFn : Nat → FileInfo → σ → Option WalkErr × σ)
    (bad : FileInfo → Option WalkErr) (upd : Nat → FileInfo → σ → σ)
    (hfn : ∀ i fi s, walkFn i fi s =
      match bad fi with
      | some e => (some e, s)
      | none => (none, upd i fi s))
    (hbad : ∀ fi, bad fi ≠ some .skipDir) :
    ∀ (L : List FileInfo) (i : Nat) (s : σ), SortedByPath L →
      (∀ fi ∈ L, pathLess fi.path dir = false) →
      walkLoop dir walkFn L i [] s =
        runVisited bad upd ((L.enumFrom i).filter fun p => visited dir p.2) s := by
  intro L
  induction L with
  | nil =>
    intro i s _ _
    rfl
  | cons fi rest ih =>
    intro i s hs hge
    have hs1 : SortedByPath rest := (List.pairwise_cons.mp hs).2
    have hmin := (List.pairwise_cons.mp hs).1
    have hge1 : ∀ f ∈ rest, pathLess f.path dir = false :=
      fun f hf => hge f (List.mem_cons_of_mem _ hf)
    have hfi : pathLess fi.path dir = false := hge fi (List.mem_cons_self _ _)
    rw [walkLoop_cons, List.enumFrom_cons, List.filter_cons]
    by_cases h1 : fi.path = dir
    · have hv : visited dir fi = true := by
        unfold visited
        simp [h1]
      simp only [h1, if_true] at hv ⊢
      rw [if_pos (by simpa using hv)]
      rw [hfn]
      show _ = match bad fi with
        | some e => (some e, s)
        | none => runVisited bad upd _ (upd i fi s)
      cases hb : bad fi with
      | some e => rfl
      | none => exact ih (i + 1) _ hs1 hge1
    · rw [if_neg h1]
      by_cases h2 : hasPrefix fi.path dir = true
      · simp only [h2, Bool.not_true, Bool.false_eq_true, if_false]
        by_cases h3 : hasPrefix fi.path (dir ++ "/") = true
        · have hv : visited dir fi = true := by
            unfold visited
            simp [h3]
          simp only [h3, Bool.not_true, Bool.false_eq_true, if_false, List.any_nil]
          rw [if_pos hv, hfn]
          show _ = match bad fi with
            | some e => (some e, s)
            | none => runVisited bad upd _ (upd i fi s)
          cases hb : bad fi with
          | some e =>
            cases e with
            | skipDir => exact absurd hb (hbad fi)
            | other msg => rfl
          | none => exact ih (i + 1) _ hs1 hge1
        · have hv : visited dir fi = false := by
            unfold visited
            simp [h1, h3]
          simp only [h3, Bool.not_false, if_true]
          rw [if_neg (by simp [hv])]
          exact ih (i + 1) s hs1 hge1
      · have h2f : hasPrefix fi.path dir = false := by simpa using h2
        have hv : visited dir fi = false := by
          cases hvv : visited dir fi with
          | false => rfl
          | true => rw [hasPrefix_of_visited dir fi hvv] at h2f; cases h2f
        simp only [h2f, Bool.not_false, if_true]
        rw [if_neg (by simp [hv])]
        have hnone : ((rest.enumFrom (i + 1)).filter fun p => visited dir p.2) = [] := by
          rw [List.filter_eq_nil_iff]
          intro p hp hvp
          have hmem : p.2 ∈ rest := by
            have := List.mem_map_of_mem Prod.snd hp
            rwa [List.enumFrom_map_snd] at this
          have hpre := hasPrefix_of_visited dir p.2 hvp
          have hlt := strLt_of_prefix dir.data fi.path.data p.2.path.data hfi h2f hpre
          have hle := hmin p.2 hmem
          unfold pathLess at hle
          rw [hle] at hlt
          cases hlt
        rw [hnone]
        rfl

/-- On a sorted array, `walk` with a walk function that never asks to skip a
directory returns, and it is the walk over the visited entries of the whole
array, each with its index. -/
theorem walk_eq {σ : Type} (files : List FileInfo) (dir : String)
    (walkFn : Nat → FileInfo → σ → Option WalkErr × σ)
    (bad : FileInfo → Option WalkErr) (upd : Nat → FileInfo → σ → σ)
    (hfn : ∀ i fi s, walkFn i fi s =
      match bad fi with
      | some e => (some e, s)
      | none => (none, upd i fi s))
    (hbad : ∀ fi, bad fi ≠ some .skipDir) (s : σ) (hs : SortedByPath files) :
    walk files dir walkFn s =
      .ok (runVisited bad upd ((files.enumFrom 0).filter fun p => visited dir p.2) s) := by
  obtain ⟨k, h1, h2, h3, h4⟩ := walk_start files dir hs
  unfold walk
  rw [h1]
  simp only
  have hsd : SortedByPath (files.drop k) :=
    List.Pairwise.sublist (List.drop_sublist k files) hs
  rw [walkLoop_eq dir walkFn bad upd hfn hbad (files.drop k) k s hsd h4]
  have hsplit : files.enumFrom 0 =
      (files.take k).enumFrom 0 ++ (files.drop k).enumFrom k := by
    conv_lhs => rw [← List.take_append_drop k files]
    rw [List.enumFrom_append, List.length_take, Nat.min_eq_left h2, Nat.zero_add]
  have hnone : (((files.take k).enumFrom 0).filter fun p => visited dir p.2) = [] := by
    rw [List.filter_eq_nil_iff]
    intro p hp hvp
    have hmem : p.2 ∈ files.take k := by
      have := List.mem_map_of_mem Prod.snd hp
      rwa [List.enumFrom_map_snd] at this
    have hlt := h3 p.2 hmem
    have hpre := hasPrefix_of_visited dir p.2 hvp
    have := not_strLt_of_prefix dir.data p.2.path.data hpre
    unfold pathLess at hlt
    rw [this] at hlt
    cases hlt
  rw [hsplit, List.filter_append, hnone, List.nil_append]

theorem enumFrom_filter_snd (q : FileInfo → Bool) (L : List FileInfo) (i : Nat) :
    ((L.enumFrom i).filter fun p => q p.2).map Prod.snd = L.filter q := by
  induction L generalizing i with
  | nil => rfl
  | cons a rest ih =>
    rw [List.enumFrom_cons, List.filter_cons, List.filter_cons]
    by_cases h : q a = true
    · simp only [h, if_true, List.map_cons]
      rw [ih]
    · simp only [h, if_false, Bool.false_eq_true]
      exact ih (i + 1)

/-- A walk that never fails and appends a word for the entries `keep`
selects. -/
theorem runVisited_words (keep : FileInfo → Bool) (word : FileInfo → String)
    (l : List (Nat × FileInfo)) (w : List String) :
    runVisited (fun _ => none)
      (fun _ fi (w : List String) => if keep fi then w ++ [word fi] else w) l w =
      (none, w ++ ((l.map Prod.snd).filter keep).map word) := by
  induction l generalizing w with
  | nil => simp [runVisited]
  | cons p rest ih =>
    obtain ⟨i, fi⟩ := p
    show runVisited _ _ rest _ = _
    rw [ih]
    by_cases h : keep fi = true
    · simp [h]
    · simp [h]

/-- What is left of a path after a prefix it has is removed. -/
theorem trimPrefix_append (s pre : String) (h : hasPrefix s pre = true) :
    pre ++ trimPrefix s pre = s := by
  unfold trimPrefix
  rw [if_pos h]
  unfold hasPrefix at h
  have hp : pre.data <+: s.data := List.isPrefixOf_iff_prefix.mp h
  obtain ⟨t, ht⟩ := hp
  apply String.ext
  rw [String.data_append]
  show pre.data ++ s.data.drop pre.data.length = s.data
  rw [← ht, List.drop_left]

/-- What `findInDir` writes. For every files array sorted ascending by path
and every name `d` under whose cleaned form the array has no regular file,
`findInDir(d)` returns and writes exactly one word for each entry of the
array that is a regular file, whose base name does not begin with a dot and
whose path begins with the cleaned `d` and a slash, in the order of the
array, and nothing else; the word is `./` followed by the path without that
beginning. -/
theorem findInDir_spec (clean : String → String) (files : List FileInfo) (d : String)
    (w : List String) (hs : SortedByPath files)
    (hdir : ∀ fi ∈ files, fi.path = clean d → isRegular fi.mode = false) :
    findInDir clean files d w =
      .ok (w ++ (files.filter fun fi =>
          isRegular fi.mode && !hasPrefix (filepathBase fi.path) "." &&
            hasPrefix fi.path (clean d ++ "/")).map
        fun fi => "./" ++ trimPrefix fi.path (clean d ++ "/")) ∧
    ∀ fi ∈ files, hasPrefix fi.path (clean d ++ "/") = true →
      clean d ++ "/" ++ trimPrefix fi.path (clean d ++ "/") = fi.path := by
  refine ⟨?_, fun fi _ h => trimPrefix_append fi.path (clean d ++ "/") h⟩
  unfold findInDir
  simp only
  rw [walk_eq files (clean d) _ (fun _ => none)
    (fun _ fi (w : List String) =>
      if !hasPrefix (filepathBase fi.path) "." && isRegular fi.mode then
        w ++ ["./" ++ trimPrefix fi.path (clean d ++ "/")]
      else w)
    (by
      intro i fi s
      by_cases h1 : hasPrefix (filepathBase fi.path) "." = true
      · simp [h1]
      · by_cases h2 : isRegular fi.mode = true
        · simp [h1, h2]
        · simp [h1, h2])
    (by intro fi h; cases h) w hs]
  simp only
  rw [runVisited_words, enumFrom_filter_snd (visited (clean d)) files 0, List.filter_filter]
  have hfilter : files.filter (fun a =>
        (!hasPrefix (filepathBase a.path) "." && isRegular a.mode) && visited (clean d) a) =
      files.filter (fun fi =>
        isRegular fi.mode && !hasPrefix (filepathBase fi.path) "." &&
          hasPrefix fi.path (clean d ++ "/")) := by
    apply List.filter_congr
    intro fi hfi
    unfold visited
    by_cases h1 : fi.path = clean d
    · have hreg := hdir fi hfi h1
      simp [hreg]
    · by_cases h3 : hasPrefix fi.path (clean d ++ "/") = true
      · simp [h1, h3, Bool.and_comm]
      · simp [h1, h3]
  rw [hfilter]

/-- The walk of `findExtFilesUnder`: it fails if a visited entry is a
symlink, and otherwise collects the indices of the visited entries. -/
theorem runVisited_found (l : List (Nat × FileInfo)) (found : List Nat) :
    runVisited
      (fun fi => if fi.mode &&& modeSymlink = modeSymlink then
        some (WalkErr.other ("symlink " ++ fi.path)) else none)
      (fun i _ (found : List Nat) => found ++ [i]) l found =
      match l.find? (fun p => isSymlink p.2.mode) with
      | some p => (some (WalkErr.other ("symlink " ++ p.2.path)),
          found ++ (l.takeWhile fun p => !isSymlink p.2.mode).map Prod.fst)
      | none => (none, found ++ l.map Prod.fst) := by
  induction l generalizing found with
  | nil => simp [runVisited]
  | cons p rest ih =>
    obtain ⟨i, fi⟩ := p
    by_cases h : fi.mode &&& modeSymlink = modeSymlink
    · have hs : isSymlink fi.mode = true := by
        unfold isSymlink
        simpa using h
      simp [runVisited, h, hs]
    · have hs : isSymlink fi.mode = false := by
        unfold isSymlink
        simpa using h
      simp only [runVisited, h, if_false, List.find?_cons, hs, List.takeWhile_cons,
        Bool.not_false, if_true, List.map_cons]
      rw [ih]
      cases rest.find? (fun p => isSymlink p.2.mode) <;> simp

theorem emitMatches_cons (files : List FileInfo) (chdir ext : String) (i : Nat)
    (rest : List Nat) (w : List String) :
    emitMatches files chdir ext (i :: rest) w =
      match files[i]? with
      | none => .error .indexOutOfRange
      | some fi =>
        if filepathExt (filepathBase fi.path) != ext then emitMatches files chdir ext rest w
        else if hasPrefix (filepathBase fi.path) "." then emitMatches files chdir ext rest w
        else emitMatches files chdir ext rest (w ++ [trimPrefix fi.path (chdir ++ "/")]) := rfl

/-- The second loop of `findExtFilesUnder` on the indices of entries of the
array: it returns, with a word for every entry of the right extension whose
base name does not begin with a dot. -/
theorem emitMatches_eq (files : List FileInfo) (chdir ext : String)
    (l : List (Nat × FileInfo)) (hl : ∀ p ∈ l, files[p.1]? = some p.2) (w : List String) :
    emitMatches files chdir ext (l.map Prod.fst) w =
      .ok (w ++ ((l.map Prod.snd).filter fun fi =>
          filepathExt (filepathBase fi.path) == ext &&
            !hasPrefix (filepathBase fi.path) ".").map
        fun fi => trimPrefix fi.path (chdir ++ "/")) := by
  induction l generalizing w with
  | nil => simp [emitMatches]
  | cons p rest ih =>
    obtain ⟨i, fi⟩ := p
    have hi : files[i]? = some fi := hl (i, fi) (List.mem_cons_self _ _)
    have hrest : ∀ p ∈ rest, files[p.1]? = some p.2 :=
      fun p hp => hl p (List.mem_cons_of_mem _ hp)
    rw [List.map_cons, emitMatches_cons, hi]
    simp only
    by_cases h1 : filepathExt (filepathBase fi.path) = ext
    · by_cases h2 : hasPrefix (filepathBase fi.path) "." = true
      · simp [h1, h2, ih hrest]
      · simp [h1, h2, ih hrest]
    · simp [h1, ih hrest]

/-- What `findExtFilesUnder` writes. For every files array sorted ascending
by path, `findExtFilesUnder(chdir, root, ext)` returns. If an entry whose
path is `dir = Join(Clean(chdir), root)` or begins with `dir` and a slash is
a symlink, the result is false and no word is written. Otherwise the result
is true and exactly one word is written for each such entry whose base name
has the extension `ext` and does not begin with a dot, in the order of the
array; the word is the path without the beginning `Clean(chdir)/`, where it
has that beginning. -/
theorem findExtFilesUnder_spec (clean : String → String) (join : String → String → String)
    (files : List FileInfo) (chdir root ext : String) (w : List String)
    (hs : SortedByPath files) :
    findExtFilesUnder clean join files chdir root ext w =
      .ok (if files.any (fun fi => visited (join (clean chdir) root) fi && isSymlink fi.mode)
        then (false, w)
        else (true, w ++ (files.filter fun fi =>
            visited (join (clean chdir) root) fi &&
              (filepathExt (filepathBase fi.path) == ext &&
                !hasPrefix (filepathBase fi.path) ".")).map
          fun fi => trimPrefix fi.path (clean chdir ++ "/"))) ∧
    ∀ fi ∈ files, hasPrefix fi.path (clean chdir ++ "/") = true →
      clean chdir ++ "/" ++ trimPrefix fi.path (clean chdir ++ "/") = fi.path := by
  refine ⟨?_, fun fi _ h => trimPrefix_append fi.path (clean chdir ++ "/") h⟩
  unfold findExtFilesUnder
  simp only
  rw [walk_eq files (join (clean chdir) root) _
    (fun fi => if fi.mode &&& modeSymlink = modeSymlink then
      some (WalkErr.other ("symlink " ++ fi.path)) else none)
    (fun i _ (found : List Nat) => found ++ [i])
    (by
      intro i fi s
      by_cases h : fi.mode &&& modeSymlink = modeSymlink <;> simp [h])
    (by
      intro fi h
      by_cases h1 : fi.mode &&& modeSymlink = modeSymlink <;> simp [h1] at h)
    [] hs]
  rw [runVisited_found]
  have hmem : ∀ p ∈ ((files.enumFrom 0).filter fun p => visited (join (clean chdir) root) p.2),
      files[p.1]? = some p.2 := by
    intro p hp
    have := (List.mem_filter.mp hp).1
    exact List.mk_mem_enum_iff_getElem?.mp this
  have hany : (files.any fun fi => visited (join (clean chdir) root) fi && isSymlink fi.mode) =
      (((files.enumFrom 0).filter fun p => visited (join (clean chdir) root) p.2).find?
        fun p => isSymlink p.2.mode).isSome := by
    rw [Bool.eq_iff_iff, List.find?_isSome]
    simp only [List.any_eq_true, List.mem_filter, Bool.and_eq_true]
    constructor
    · rintro ⟨fi, hfi, hv, hsym⟩
      obtain ⟨i, hi, hget⟩ := List.getElem_of_mem hfi
      have hmemE : (i, fi) ∈ files.enumFrom 0 :=
        List.mk_mem_enum_iff_getElem?.mpr (by rw [List.getElem?_eq_getElem hi, hget])
      exact ⟨(i, fi), ⟨hmemE, hv⟩, hsym⟩
    · rintro ⟨p, ⟨hp, hv⟩, hsym⟩
      have hmemF : p.2 ∈ files := by
        have := List.mem_map_of_mem Prod.snd hp
        rwa [List.enumFrom_map_snd] at this
      exact ⟨p.2, hmemF, hv, hsym⟩
  rw [hany]
  cases hf : ((files.enumFrom 0).filter fun p => visited (join (clean chdir) root) p.2).find?
      fun p => isSymlink p.2.mode with
  | some p => rfl
  | none =>
    simp only [List.nil_append, Option.isSome_none, Bool.false_eq_true, if_false]
    rw [emitMatches_eq files (clean chdir) ext _ hmem w,
      enumFrom_filter_snd (visited (join (clean chdir) root)) files 0, List.filter_filter]
    simp only [Bool.and_comm]

theorem scanFiles_sorted : SortedByPath scanFiles := by
  unfold SortedByPath scanFiles
  decide

theorem scanLinks_sorted : SortedByPath scanLinks := by
  unfold SortedByPath scanLinks
  decide

/-- Example: in the example scan, `a` is a directory; `findInDir("a")`
writes the three regular files below it that are not hidden, and neither
`a.txt` and `a0` beside it nor the hidden `a/.hid`. -/
theorem findInDir_spec_witness :
    SortedByPath scanFiles ∧
    findInDir id scanFiles "a" [] = .ok ["./b/X.java", "./b/y.c", "./z.java"] :=
  ⟨scanFiles_sorted,
   (findInDir_spec id scanFiles "a" [] scanFiles_sorted (by decide)).1.trans
     (congrArg Except.ok (by decide))⟩

/-- Example: in the example scan, `findExtFilesUnder("a", "b", ".java")`
returns true and writes the one `.java` file under `a/b`, relative to `a`;
in the scan with a symlink under `a/b` it returns false and writes
nothing. -/
theorem findExtFilesUnder_spec_witness :
    findExtFilesUnder id (fun a b => a ++ "/" ++ b) scanFiles "a" "b" ".java" []
      = .ok (true, ["b/X.java"]) ∧
    findExtFilesUnder id (fun a b => a ++ "/" ++ b) scanLinks "a" "b" ".java" []
      = .ok (false, []) :=
  ⟨(findExtFilesUnder_spec id (fun a b => a ++ "/" ++ b) scanFiles "a" "b" ".java" []
      scanFiles_sorted).1.trans (congrArg Except.ok (by decide)),
   (findExtFilesUnder_spec id (fun a b => a ++ "/" ++ b) scanLinks "a" "b" ".java" []
      scanLinks_sorted).1.trans (congrArg Except.ok (by decide))⟩



/-- C21, failing input: the pattern `a\*b`. The backslash before `*` is
written twice, once in the `switch` and once by the write that ends the
round, so the result is `a\\*b`, with two backslashes; so it is for `\?`,
`\[` and `\\`. A backslash before another character is dropped and the
character kept: `a\xb` gives `axb`. -/
theorem wildcardUnescape_doubles_backslash :
    wildcardUnescape "a\\*b" = "a\\\\*b" ∧
    wildcardUnescape "\\?" = "\\\\?" ∧
    wildcardUnescape "\\[" = "\\\\[" ∧
    wildcardUnescape "\\\\" = "\\\\\\" ∧
    wildcardUnescape "a\\xb" = "axb" := by
  decide

/-- C23, failing input: the rule `.c.o .s.o: ; cc -c $<`, the rule-scoped
binding `CFLAGS := -O2` of `bar.o`, and `bar.c` on disk. Ingestion succeeds;
the implicit list is empty, and each of the two rules derived for the
suffix `o` has one input; `bar.o` has no explicit rule and the rule derived
from `.c.o` is applicable to it. Its `outputs` are still the two names of
the rule as written, `pickRule` hands them to `mergeImplicitRuleVars`, and
that call aborts. -/
theorem pickRule_suffix_outputs_abort :
    suffixPairBuilder.implicitRules = [] ∧
    (suffixPairBuilder.suffixCandidates "bar.o").map (fun r => (r.inputs, r.outputs))
      = [(["s"], [".c.o", ".s.o"]), (["c"], [".c.o", ".s.o"])] ∧
    suffixPairBuilder.rules "bar.o" = none ∧
    suffixPairBuilder.ruleVars "bar.o" = some [("CFLAGS", { op := ":=", value := "-O2" })] ∧
    errorOf (suffixPairBuilder.mergeImplicitRuleVars [".c.o", ".s.o"]
      (some [("CFLAGS", { op := ":=", value := "-O2" })])) = some Err.implicitRuleOutputs ∧
    errorOf (suffixPairBuilder.pickRule (worldOf ["bar.c"]) "bar.o")
      = some Err.implicitRuleOutputs ∧
    errorOf (suffixPairBuilder.Eval (worldOf ["bar.c"]) 10 ["bar.o"])
      = some Err.implicitRuleOutputs := by
  decide

/-- C22, failing input: the leaves `a`, `a/b`, `a/b/Android.mk`, `a/b/c`,
`a/b/c/Android.mk`, in the order of `fileInfoByLeaf`, and the query
`findleaves("a", "Android.mk", nil, 2)`. The scan of `a/`, whose entries are
the last of their depth, runs on into the deeper entries, which begin with
`a/` too, and puts `a/b/c` on the list of directories; so `a/b/c` is scanned
although `a/b` holds `Android.mk`, and two words are written where the
breadth-first reference gives one. With `mindepth = -1` on the leaves `a`,
`a/b`, `a/b/Android.mk` the same run-on writes the one word twice. -/
theorem findleaves_scans_below_match :
    nestedLeaves.Pairwise (fun a b => leafLess b a = false) ∧
    findleaves nestedLeaves "a" "Android.mk" [] 2 10 []
      = .ok (true, ["./a/b/Android.mk", "./a/b/c/Android.mk"]) ∧
    (leavesReference nestedLeaves "Android.mk" 0 2 10 ["a"] []).map sortStrings
      = some ["./a/b/Android.mk"] ∧
    singleLeaves.Pairwise (fun a b => leafLess b a = false) ∧
    findleaves singleLeaves "a" "Android.mk" [] (-1) 10 []
      = .ok (true, ["./a/b/Android.mk", "./a/b/Android.mk"]) ∧
    (leavesReference singleLeaves "Android.mk" 0 (-1) 10 ["a"] []).map sortStrings
      = some ["./a/b/Android.mk"] :=
  ⟨by decide, rfl, by decide, by decide, rfl, by decide⟩

/-- C24, failing input: the only rule is `./a: ; c`. The key of the explicit
table is the cleaned name `a`, which does not begin with a dot, so the rule
is recorded as `firstRule`; with an empty goal list `Eval` plans the first
output as written, `./a`, which is not a key, and the root node has
`HasRule = false`. -/
theorem default_goal_not_a_key :
    (uncleanGoalBuilder.firstRule.map fun r => r.outputs) = some ["./a"] ∧
    (uncleanGoalBuilder.rules "a").isSome = true ∧
    uncleanGoalBuilder.rules "./a" = none ∧
    uncleanGoalBuilder.evalTargets [] = .ok ["./a"] ∧
    (valueOf (uncleanGoalBuilder.Eval (cleanWorldOf []) 10 [])).map
      (fun r => (r.1, r.2.nodes.map fun nd => (nd.Output, nd.HasRule, nd.Cmds)))
      = some ([0], [("./a", false, [])]) :=
  ⟨by decide, by decide, by decide, rfl, by decide⟩

theorem populateSuffixRule_suffixOK (db : DepBuilder) (rule : Rule) (O : String)
    (h : db.SuffixOK) : (db.populateSuffixRule rule O).2.SuffixOK := by
  by_cases hs : ∃ IN OUT : List Char, O.data = '.' :: (IN ++ '.' :: OUT) ∧ '.' ∉ IN ∧ '.' ∉ OUT
  · obtain ⟨IN, OUT, hO, hi, ho⟩ := hs
    rw [populateSuffixRule_of_shape db rule O IN OUT hO hi ho]
    intro k l hl r hr
    by_cases hk : k = String.mk OUT
    · have hl1 : some ({ rule with inputs := [String.mk IN], isSuffixRule := true } ::
          (db.suffixRules (String.mk OUT)).getD []) = some l := by
        have : (if k = String.mk OUT then
            some ({ rule with inputs := [String.mk IN], isSuffixRule := true } ::
              (db.suffixRules (String.mk OUT)).getD [])
          else db.suffixRules k) = some l := hl
        rwa [if_pos hk] at this
      cases hl1
      rcases List.mem_cons.mp hr with h1 | h1
      · rw [h1]
        exact ⟨rfl, rfl⟩
      · cases hold : db.suffixRules (String.mk OUT) with
        | none => rw [hold] at h1; cases h1
        | some l0 =>
          rw [hold] at h1
          exact h _ l0 hold r h1
    · have hl1 : db.suffixRules k = some l := by
        have : (if k = String.mk OUT then
            some ({ rule with inputs := [String.mk IN], isSuffixRule := true } ::
              (db.suffixRules (String.mk OUT)).getD [])
          else db.suffixRules k) = some l := hl
        rwa [if_neg hk] at this
      exact h k l hl1 r hr
  · rw [populateSuffixRule_of_not_shape db rule O hs]
    exact h

theorem populateOutput_suffixOK (w : World) (db db1 : DepBuilder) (rule : Rule)
    (o : String) (h : db.populateOutput w rule o = .ok db1) (hs : db.SuffixOK) :
    db1.SuffixOK := by
  unfold DepBuilder.populateOutput at h
  simp only at h
  have h2 := populateSuffixRule_suffixOK db rule (w.clean o) hs
  rcases hp : db.populateSuffixRule rule (w.clean o) with ⟨b, db2⟩
  rw [hp] at h h2
  simp only at h h2
  split at h
  · split at h
    · cases h
    · cases h
      exact h2
  · cases h
    exact h2

theorem populateOutputs_suffixOK (w : World) (rule : Rule) (os : List String) :
    ∀ (db db1 : DepBuilder), DepBuilder.populateOutputs w rule os db = .ok db1 →
      db.SuffixOK → db1.SuffixOK := by
  induction os with
  | nil =>
    intro db db1 h hs
    cases h
    exact hs
  | cons o rest ih =>
    intro db db1 h hs
    have hcons : DepBuilder.populateOutputs w rule (o :: rest) db =
        match db.populateOutput w rule o with
        | .error e => .error e
        | .ok db2 => DepBuilder.populateOutputs w rule rest db2 := rfl
    rw [hcons] at h
    cases h2 : db.populateOutput w rule o with
    | error e => rw [h2] at h; cases h
    | ok db2 =>
      rw [h2] at h
      exact ih db2 db1 h (populateOutput_suffixOK w db db2 rule o h2 hs)

theorem populateRulesLoop_suffixOK (w : World) (rs : List Rule) :
    ∀ (db db1 : DepBuilder), DepBuilder.populateRulesLoop w rs db = .ok db1 →
      db.SuffixOK → db1.SuffixOK := by
  induction rs with
  | nil =>
    intro db db1 h hs
    cases h
    exact hs
  | cons r rest ih =>
    intro db db1 h hs
    rw [populateRulesLoop_cons] at h
    cases h2 : db.populateExplicitRule w (cleanRule w r) with
    | error e => rw [h2] at h; cases h
    | ok db2 =>
      rw [h2] at h
      simp only at h
      have hs2 : db2.SuffixOK := by
        unfold DepBuilder.populateExplicitRule at h2
        split at h2
        · cases h2
          exact hs
        · exact populateOutputs_suffixOK w _ _ db db2 h2 hs
      refine ih _ db1 h ?_
      split
      · exact hs2
      · exact hs2

/-- The tables `NewDepBuilder` builds from any rule list: every rule of the
implicit list has one output pattern, and every rule of the suffix table has
one input. -/
theorem newDepBuilder_tables (w : World) (er : EvalResult) (vars : Vars) (db : DepBuilder)
    (h : NewDepBuilder w er vars = .ok db) :
    (∀ r ∈ db.implicitRules, r.outputPatterns.length = 1) ∧ db.SuffixOK := by
  unfold NewDepBuilder at h
  constructor
  · intro r hr
    rw [populateRules_implicitRules w _ db er h] at hr
    simp only [List.nil_append, List.mem_reverse, List.mem_flatMap] at hr
    obtain ⟨r0, -, hr0⟩ := hr
    exact derivedImplicit_single w r0 r hr0
  · unfold DepBuilder.populateRules at h
    cases h2 : DepBuilder.populateRulesLoop w er.rules
        { ruleVars := er.ruleVars, vars := vars } with
    | error e => rw [h2] at h; cases h
    | ok db2 =>
      rw [h2] at h
      cases h
      have : db2.SuffixOK := populateRulesLoop_suffixOK w er.rules _ db2 h2
        (by intro k l hl; cases hl)
      exact this

/-- C17, failing input: the scan result `scanFiles`, sorted by path, and the
query `findInDir(".")`. Every entry of the scan is a descendant of the
directory `.`, and six of them are regular files whose base name does not
begin with a dot, which the shell pattern in the comment of `findInDir`
(`cd $1 ; find ./ ...`) lists as `./a.txt`, `./a/b/X.java` and so on. The
paths of the scan do not begin with `.`, so `walk` returns at the first entry
and `findInDir` writes no word; the same holds for the empty name, which
`filepath.Clean` turns into `.`. -/
theorem findInDir_dot_writes_nothing :
    SortedByPath scanFiles ∧
    cleanPath "." = "." ∧ cleanPath "" = "." ∧
    ((scanFiles.filter fun fi =>
        isRegular fi.mode && !hasPrefix (filepathBase fi.path) ".").map
      fun fi => "./" ++ fi.path)
      = ["./a.txt", "./a/b/X.java", "./a/b/y.c", "./a/z.java", "./a0", "./b/q.java"] ∧
    findInDir cleanPath scanFiles "." [] = .ok [] ∧
    findInDir cleanPath scanFiles "" [] = .ok [] := by
  refine ⟨scanFiles_sorted, by decide, by decide, by decide, rfl, rfl⟩

/-- C18, failing input: the scan result `siblingFiles`, sorted by path, and
the query `findExtFilesUnder("a", "../b", ".java")`. The directory walked
is `filepath.Join("a", "../b")`, that is `b`; no entry at or under it is a
symlink, the result is true, and the one word written is `b/x.java`: the
prefix `a/` that is to be removed is not there. The path of that file
relative to `a`, which the shell pattern in the comment of the function
(`cd ${LOCAL_PATH} ; find -L $1 ...`) prints, is `../b/x.java`. For
`chdir = "."` and `root = "."` the directory walked is `.`, with which no
path of the scan begins: in the scan `scanLinks`, which holds a symlink and
a Java file, the result is true and no word is written. -/
theorem findExtFilesUnder_outside_chdir :
    SortedByPath siblingFiles ∧
    filepathJoin (cleanPath "a") "../b" = "b" ∧
    findExtFilesUnder cleanPath filepathJoin siblingFiles "a" "../b" ".java" []
      = .ok (true, ["b/x.java"]) ∧
    SortedByPath scanLinks ∧
    filepathJoin (cleanPath ".") "." = "." ∧
    findExtFilesUnder cleanPath filepathJoin scanLinks "." "." ".java" []
      = .ok (true, []) := by
  refine ⟨?_, by decide, rfl, scanLinks_sorted, by decide, rfl⟩
  unfold SortedByPath siblingFiles
  decide

theorem Slice.WF.cases {s : Slice} {mem : Memory} (h : s.WF mem) :
    s.cap = 0 ∨ ∃ a, mem[s.arr]? = some a ∧ s.cap ≤ a.length := by
  cases ha : mem[s.arr]? with
  | none =>
    have h2 := h.2
    rw [ha] at h2
    exact Or.inl (Nat.eq_zero_of_le_zero h2)
  | some a =>
    have h2 := h.2
    rw [ha] at h2
    exact Or.inr ⟨a, rfl, h2⟩

theorem Slice.WF.of_array {s : Slice} {mem : Memory} {a : List String} (h1 : s.len ≤ s.cap)
    (ha : mem[s.arr]? = some a) (h2 : s.cap ≤ a.length) : s.WF mem := by
  refine ⟨h1, ?_⟩
  rw [ha]
  exact h2

theorem Slice.WF.of_cap_zero {s : Slice} {mem : Memory} (h1 : s.len ≤ s.cap)
    (h0 : s.cap = 0) : s.WF mem := by
  refine ⟨h1, ?_⟩
  rw [h0]
  exact Nat.zero_le _

theorem Slice.WF.extend {s : Slice} {mem mem1 : Memory} (h : s.WF mem)
    (hp : mem <+: mem1) : s.WF mem1 := by
  obtain ⟨t, rfl⟩ := hp
  rcases h.cases with h0 | ⟨a, ha, hc⟩
  · exact Slice.WF.of_cap_zero h.1 h0
  · refine Slice.WF.of_array h.1 ?_ hc
    have hlt : s.arr < mem.length := by
      by_contra hge
      rw [List.getElem?_eq_none (Nat.le_of_not_lt hge)] at ha
      cases ha
    rw [List.getElem?_append_left hlt]
    exact ha

theorem Slice.read_mono {s : Slice} {mem mem1 : Memory} (h : s.WF mem)
    (hp : mem <+: mem1) : s.read mem1 = s.read mem := by
  obtain ⟨t, rfl⟩ := hp
  unfold Slice.read
  rcases h.cases with h0 | ⟨a, ha, -⟩
  · have hl : s.len = 0 := Nat.eq_zero_of_le_zero (h0 ▸ h.1)
    rw [hl]
    simp
  · have hlt : s.arr < mem.length := by
      by_contra hge
      rw [List.getElem?_eq_none (Nat.le_of_not_lt hge)] at ha
      cases ha
    rw [List.getElem?_append_left hlt]

theorem Slice.get_mono {s : Slice} {mem mem1 : Memory} (h : s.WF mem) {i : Nat}
    (hi : i < s.len) (hp : mem <+: mem1) : s.get mem1 i = s.get mem i := by
  obtain ⟨t, rfl⟩ := hp
  unfold Slice.get
  rcases h.cases with h0 | ⟨a, ha, -⟩
  · have hl : s.len = 0 := Nat.eq_zero_of_le_zero (h0 ▸ h.1)
    omega
  · have hlt : s.arr < mem.length := by
      by_contra hge
      rw [List.getElem?_eq_none (Nat.le_of_not_lt hge)] at ha
      cases ha
    rw [List.getElem?_append_left hlt]

theorem Slice.read_length {s : Slice} {mem : Memory} (h : s.WF mem) :
    (s.read mem).length = s.len := by
  unfold Slice.read
  rcases h.cases with h0 | ⟨a, ha, hc⟩
  · have hl : s.len = 0 := Nat.eq_zero_of_le_zero (h0 ▸ h.1)
    rw [hl]
    simp
  · rw [ha]
    simp only [Option.getD_some, List.length_take]
    have := h.1
    omega

theorem Slice.read_getElem? {s : Slice} {mem : Memory} (h : s.WF mem) {i : Nat}
    (hi : i < s.len) : (s.read mem)[i]? = some (s.get mem i) := by
  unfold Slice.read Slice.get
  rcases h.cases with h0 | ⟨a, ha, hc⟩
  · have hl : s.len = 0 := Nat.eq_zero_of_le_zero (h0 ▸ h.1)
    omega
  · rw [ha]
    simp only [Option.getD_some]
    have h1 := h.1
    have hia : i < a.length := by omega
    rw [List.getElem?_take_of_lt hi, List.getElem?_eq_getElem hia]
    rfl

theorem Slice.read_nil_of_len {s : Slice} {mem : Memory} (hl : s.len = 0) :
    s.read mem = [] := by
  unfold Slice.read
  rw [hl]
  simp

theorem Slice.read_cons {s : Slice} {mem : Memory} (h : s.WF mem) (hl : 0 < s.len) :
    ∃ rest, s.read mem = s.get mem 0 :: rest := by
  have h0 := Slice.read_getElem? h hl
  cases hr : s.read mem with
  | nil => rw [hr] at h0; cases h0
  | cons x rest =>
    rw [hr] at h0
    simp only [List.getElem?_cons_zero, Option.some.injEq] at h0
    exact ⟨rest, by rw [h0]⟩

theorem Slice.read_single {s : Slice} {mem : Memory} (h : s.WF mem) (hl : s.len = 1) :
    s.read mem = [s.get mem 0] := by
  obtain ⟨rest, hr⟩ := Slice.read_cons h (by omega)
  have hlen := Slice.read_length h
  rw [hr, hl] at hlen
  cases rest with
  | nil => exact hr
  | cons y ys => simp at hlen

theorem Slice.read_drop {s : Slice} {mem : Memory} (h : s.WF mem) {i : Nat}
    (hi : i < s.len) :
    (s.read mem).drop i = s.get mem i :: (s.read mem).drop (i + 1) := by
  have h0 := Slice.read_getElem? h hi
  have hlt : i < (s.read mem).length := by rw [Slice.read_length h]; exact hi
  rw [List.drop_eq_getElem_cons hlt]
  congr 1
  rw [List.getElem?_eq_getElem hlt] at h0
  exact Option.some.inj h0

theorem Mem.Rule.WF.grown {r : Mem.Rule} {mem mem1 : Memory} (h : r.WF mem)
    (hp : mem <+: mem1) : r.WF mem1 :=
  ⟨h.1.extend hp, h.2.1.extend hp, h.2.2.1.extend hp, h.2.2.2.1.extend hp, h.2.2.2.2.extend hp⟩

theorem Mem.Rule.read_grown {r : Mem.Rule} {mem mem1 : Memory} (h : r.WF mem)
    (hp : mem <+: mem1) : r.read mem1 = r.read mem := by
  unfold Mem.Rule.read
  rw [Slice.read_mono h.1 hp, Slice.read_mono h.2.1 hp, Slice.read_mono h.2.2.1 hp,
    Slice.read_mono h.2.2.2.1 hp, Slice.read_mono h.2.2.2.2 hp]

theorem Mem.DepNode.read_node_grown {nd : Mem.DepNode} {mem mem1 : Memory} (h : nd.Cmds.WF mem)
    (hp : mem <+: mem1) : nd.read mem1 = nd.read mem := by
  unfold Mem.DepNode.read
  rw [Slice.read_mono h hp]

/-- Allocation does not change what the builder shows. -/
theorem view_mem_mono (m : Mem.DepBuilder) (mem1 : Memory) (hwf : m.WF)
    (hp : m.mem <+: mem1) : ({ m with mem := mem1 } : Mem.DepBuilder).view = m.view := by
  obtain ⟨h1, h2, h3, h4, h5⟩ := hwf
  have e1 : (fun k => (m.rules k).map fun r => r.read mem1)
      = fun k => (m.rules k).map fun r => r.read m.mem := by
    funext k
    cases hr : m.rules k with
    | none => rfl
    | some r => simp only [Option.map_some']; rw [Mem.Rule.read_grown (h1 k r hr) hp]
  have e2 : (m.implicitRules.map fun r => r.read mem1)
      = m.implicitRules.map fun r => r.read m.mem :=
    List.map_congr_left fun r hr => Mem.Rule.read_grown (h2 r hr) hp
  have e3 : (fun k => (m.suffixRules k).map fun l => l.map fun r => r.read mem1)
      = fun k => (m.suffixRules k).map fun l => l.map fun r => r.read m.mem := by
    funext k
    cases hr : m.suffixRules k with
    | none => rfl
    | some l =>
      simp only [Option.map_some']
      rw [List.map_congr_left fun r hr1 => Mem.Rule.read_grown (h3 k l hr r hr1) hp]
  have e4 : (m.firstRule.map fun r => r.read mem1)
      = m.firstRule.map fun r => r.read m.mem := by
    cases hr : m.firstRule with
    | none => rfl
    | some r => simp only [Option.map_some']; rw [Mem.Rule.read_grown (h4 r hr) hp]
  have e5 : (m.nodes.map fun nd => nd.read mem1)
      = m.nodes.map fun nd => nd.read m.mem :=
    List.map_congr_left fun nd hnd => Mem.DepNode.read_node_grown (h5 nd hnd) hp
  unfold Mem.DepBuilder.view
  simp only [e1, e2, e3, e4, e5]

theorem wf_mem_mono (m : Mem.DepBuilder) (mem1 : Memory) (hwf : m.WF)
    (hp : m.mem <+: mem1) : ({ m with mem := mem1 } : Mem.DepBuilder).WF := by
  obtain ⟨h1, h2, h3, h4, h5⟩ := hwf
  exact ⟨fun k r hr => (h1 k r hr).grown hp, fun r hr => (h2 r hr).grown hp,
    fun k l hl r hr => (h3 k l hl r hr).grown hp, fun r hr => (h4 r hr).grown hp,
    fun nd hnd => (h5 nd hnd).extend hp⟩

theorem modify_id_of {α : Type} (f : α → α) (l : List α) (n : Nat)
    (h : ∀ a, l[n]? = some a → f a = a) : l.modify f n = l := by
  induction l generalizing n with
  | nil => cases n <;> rfl
  | cons x xs ih =>
    cases n with
    | zero =>
      show f x :: xs = x :: xs
      rw [h x (by simp)]
    | succ k =>
      show x :: xs.modify f k = x :: xs
      rw [ih k (fun a ha => h a (by simpa using ha))]

/-- The slice `append` returns holds the elements of its first argument
followed by the new ones. -/
theorem appendSlice_read (grow : Nat → Nat → Nat) (mem : Memory) (s : Slice)
    (xs : List String) (h : s.WF mem) :
    (appendSlice grow mem s xs).1.read (appendSlice grow mem s xs).2 = s.read mem ++ xs ∧
    (appendSlice grow mem s xs).1.WF (appendSlice grow mem s xs).2 := by
  unfold appendSlice
  by_cases hfit : s.len + xs.length ≤ s.cap
  · simp only [hfit, if_true]
    rcases h.cases with h0 | ⟨a, ha, hc⟩
    · have hl : s.len = 0 := Nat.eq_zero_of_le_zero (h0 ▸ h.1)
      have hx : xs = [] := by
        apply List.eq_nil_of_length_eq_zero
        omega
      subst hx
      refine ⟨?_, ?_⟩
      · unfold Slice.read
        simp [hl]
      · exact Slice.WF.of_cap_zero (by simp [hl]) h0
    · have hlt : s.arr < mem.length := by
        by_contra hge
        rw [List.getElem?_eq_none (Nat.le_of_not_lt hge)] at ha
        cases ha
      have h1 := h.1
      have hget : (mem.modify (fun a => a.take s.len ++ xs ++ a.drop (s.len + xs.length))
          s.arr)[s.arr]? = some (a.take s.len ++ xs ++ a.drop (s.len + xs.length)) := by
        rw [List.getElem?_modify_eq, ha]
        rfl
      refine ⟨?_, ?_⟩
      · unfold Slice.read
        simp only [hget, Option.getD_some, ha]
        rw [List.append_assoc, List.take_append_eq_append_take]
        simp only [List.length_take]
        have hm : min s.len a.length = s.len := by omega
        rw [hm, List.take_take]
        have hm2 : min (s.len + xs.length) s.len = s.len := by omega
        rw [hm2]
        congr 1
        have : s.len + xs.length - s.len = xs.length := by omega
        rw [this, List.take_append_eq_append_take]
        simp
      · refine Slice.WF.of_array hfit hget ?_
        simp only [List.length_append, List.length_take, List.length_drop]
        omega
  · simp only [hfit, if_false]
    have hlen := Slice.read_length h
    refine ⟨?_, ?_⟩
    · unfold Slice.read
      simp only [List.getElem?_concat_length, Option.getD_some]
      show List.take (s.len + xs.length) (s.read mem ++ xs ++ _) = s.read mem ++ xs
      rw [List.append_assoc, List.take_append_eq_append_take]
      rw [List.take_of_length_le (by omega), hlen]
      congr 1
      have : s.len + xs.length - s.len = xs.length := by omega
      rw [this, List.take_append_eq_append_take]
      simp
    · refine Slice.WF.of_array (Nat.le_max_left _ _) (List.getElem?_concat_length _ _) ?_
      simp only [List.length_append, List.length_replicate]
      rw [hlen]
      have := Nat.le_max_left (s.len + xs.length) (grow s.cap (s.len + xs.length))
      omega

/-- Appending to a slice without spare capacity leaves the arrays there are
as they are. -/
theorem appendSlice_tight (grow : Nat → Nat → Nat) (mem : Memory) (s : Slice)
    (xs : List String) (ht : s.cap ≤ s.len) :
    mem <+: (appendSlice grow mem s xs).2 := by
  unfold appendSlice
  by_cases hfit : s.len + xs.length ≤ s.cap
  · simp only [hfit, if_true]
    have hx : xs = [] := by
      apply List.eq_nil_of_length_eq_zero
      omega
    subst hx
    rw [modify_id_of]
    intro a _
    simp
  · simp only [hfit, if_false]
    exact List.prefix_append _ _

theorem literalSlice_spec (mem : Memory) (xs : List String) :
    mem <+: (literalSlice mem xs).2 ∧ (literalSlice mem xs).1.WF (literalSlice mem xs).2 ∧
    (literalSlice mem xs).1.read (literalSlice mem xs).2 = xs ∧
    (literalSlice mem xs).1.cap ≤ (literalSlice mem xs).1.len := by
  unfold literalSlice
  refine ⟨List.prefix_append _ _,
    Slice.WF.of_array (Nat.le_refl _) (List.getElem?_concat_length _ _) (Nat.le_refl _), ?_,
    Nat.le_refl _⟩
  unfold Slice.read
  simp

theorem exists_view (mw : Mem.World) (m : Mem.DepBuilder) (t : String) :
    m.exists mw t = m.view.exists mw.toWorld t := by
  unfold Mem.DepBuilder.exists DepBuilder.exists Mem.DepBuilder.view
  simp only [Option.isSome_map']
  cases m.rules ".PHONY" <;> rfl

theorem canPick_view (mw : Mem.World) (m : Mem.DepBuilder) (r : Mem.Rule) (output : String)
    (hr : r.WF m.mem) :
    m.canPickImplicitRule mw r output
      = m.view.canPickImplicitRule mw.toWorld (r.read m.mem) output := by
  unfold Mem.DepBuilder.canPickImplicitRule DepBuilder.canPickImplicitRule
  by_cases hl : r.outputPatterns.len = 0
  · have hnil : (r.read m.mem).outputPatterns = [] := Slice.read_nil_of_len hl
    simp only [hl, if_true, hnil]
  · obtain ⟨rest, hrest⟩ := Slice.read_cons hr.2.2.2.1 (Nat.pos_of_ne_zero hl)
    have hc : (r.read m.mem).outputPatterns = r.outputPatterns.get m.mem 0 :: rest := hrest
    simp only [hl, if_false, hc]
    have he : (fun input => m.exists mw (substPattern (r.outputPatterns.get m.mem 0) input output))
        = fun input => m.view.exists mw.toWorld
            (substPattern (r.outputPatterns.get m.mem 0) input output) := by
      funext input
      exact exists_view mw m _
    rw [he]
    rfl

theorem mergeImplicitRuleVars_view (m : Mem.DepBuilder) (s : Slice)
    (vars : Option VarList) (hs : s.WF m.mem) :
    m.mergeImplicitRuleVars s vars = m.view.mergeImplicitRuleVars (s.read m.mem) vars := by
  unfold Mem.DepBuilder.mergeImplicitRuleVars DepBuilder.mergeImplicitRuleVars
  by_cases hl : s.len = 1
  · rw [Slice.read_single hs hl]
    simp only [hl, ne_eq, not_true_eq_false, if_false]
    rfl
  · have hlen := Slice.read_length hs
    simp only [hl, ne_eq, not_false_eq_true, if_true]
    cases hr : s.read m.mem with
    | nil => rfl
    | cons x xs =>
      cases xs with
      | nil => rw [hr] at hlen; exact absurd hlen.symm hl
      | cons y ys => rfl

theorem hasCmds_view (rule : Option Mem.Rule) (mem : Memory)
    (hr : ∀ r, rule = some r → r.WF mem) :
    Mem.hasCmds rule = hasCmds (rule.map fun r => r.read mem) := by
  cases rule with
  | none => rfl
  | some r =>
    have hlen := Slice.read_length (hr r rfl).2.2.2.2
    show decide (r.cmds.len > 0) = !(r.cmds.read mem).isEmpty
    cases hc : r.cmds.read mem with
    | nil =>
      rw [hc] at hlen
      simp at hlen
      simp [← hlen]
    | cons x xs =>
      rw [hc] at hlen
      simp at hlen
      simp [← hlen]

theorem mem_pickImplicit_cons (mw : Mem.World) (m : Mem.DepBuilder)
    (rule : Option Mem.Rule) (vars : Option VarList) (output : String)
    (irule : Mem.Rule) (rest : List Mem.Rule) :
    m.pickImplicit mw rule vars output (irule :: rest) =
      match m.canPickImplicitRule mw irule output with
      | .error e => .error e
      | .ok false => m.pickImplicit mw rule vars output rest
      | .ok true =>
        match rule with
        | some r0 =>
          .ok (some ((some { r0 with
            outputPatterns := irule.outputPatterns
            inputs := (appendSlice mw.growCap m.mem irule.inputs (r0.inputs.read m.mem)).1
            cmds := irule.cmds
            cmdLineno := irule.cmdLineno }, vars, true),
            (appendSlice mw.growCap m.mem irule.inputs (r0.inputs.read m.mem)).2))
        | none =>
          match vars with
          | some _ =>
            match m.mergeImplicitRuleVars irule.outputPatterns vars with
            | .error e => .error e
            | .ok vars1 => .ok (some ((some irule, vars1, true), m.mem))
          | none => .ok (some ((some irule, vars, true), m.mem)) := rfl

/-- The loop over the pattern rules, on rules without spare capacity: the
memory model returns what the value model returns on the builder as the
memory shows it, and it only allocates. -/
theorem pickImplicit_view (mw : Mem.World) (m : Mem.DepBuilder)
    (rule : Option Mem.Rule) (vars : Option VarList) (output : String)
    (hrule : ∀ r, rule = some r → r.WF m.mem) :
    ∀ l : List Mem.Rule, (∀ r ∈ l, r.WF m.mem ∧ r.inputs.cap ≤ r.inputs.len) →
      (∀ e, m.pickImplicit mw rule vars output l = .error e →
        m.view.pickImplicit mw.toWorld (rule.map fun r => r.read m.mem) vars output
          (l.map fun r => r.read m.mem) = .error e) ∧
      (m.pickImplicit mw rule vars output l = .ok none →
        m.view.pickImplicit mw.toWorld (rule.map fun r => r.read m.mem) vars output
          (l.map fun r => r.read m.mem) = .ok none) ∧
      (∀ res mem1, m.pickImplicit mw rule vars output l = .ok (some (res, mem1)) →
        m.view.pickImplicit mw.toWorld (rule.map fun r => r.read m.mem) vars output
          (l.map fun r => r.read m.mem) = .ok (some (Mem.readPick res mem1)) ∧
        m.mem <+: mem1 ∧ ∀ r, res.1 = some r → r.WF mem1) := by
  intro l
  induction l with
  | nil =>
    intro _
    refine ⟨fun e h => ?_, fun _ => rfl, fun res mem1 h => ?_⟩
    · cases h
    · cases h
  | cons irule rest ih =>
    intro hl
    obtain ⟨hwf, htight⟩ := hl irule (List.mem_cons_self _ _)
    obtain ⟨ih1, ih2, ih3⟩ := ih (fun r hr => hl r (List.mem_cons_of_mem _ hr))
    rw [mem_pickImplicit_cons, List.map_cons, pickImplicit_cons, canPick_view mw m irule output hwf]
    cases hc : m.view.canPickImplicitRule mw.toWorld (irule.read m.mem) output with
    | error e =>
      dsimp only
      refine ⟨fun e1 h => ?_, fun h => ?_, fun res mem1 h => ?_⟩
      · cases h
        rfl
      · cases h
      · cases h
    | ok b =>
      cases b with
      | false => exact ⟨ih1, ih2, ih3⟩
      | true =>
        dsimp only
        cases rule with
        | some r0 =>
          dsimp only [Option.map_some']
          have hr0 := hrule r0 rfl
          obtain ⟨hread, hwf1⟩ := appendSlice_read mw.growCap m.mem irule.inputs
            (r0.inputs.read m.mem) hwf.2.1
          have hpre := appendSlice_tight mw.growCap m.mem irule.inputs
            (r0.inputs.read m.mem) htight
          refine ⟨fun e h => ?_, fun h => ?_, fun res mem1 h => ?_⟩
          · cases h
          · cases h
          · simp only [Except.ok.injEq, Option.some.injEq, Prod.mk.injEq] at h
            obtain ⟨h1, h2⟩ := h
            subst h1
            subst h2
            refine ⟨?_, hpre, ?_⟩
            · simp only [Option.map_some', Mem.readPick]
              congr 3
              unfold Mem.Rule.read
              simp only
              rw [hread, Slice.read_mono hr0.1 hpre, Slice.read_mono hr0.2.2.1 hpre,
                Slice.read_mono hwf.2.2.2.1 hpre, Slice.read_mono hwf.2.2.2.2 hpre]
            · intro r hr
              simp only [Option.some.injEq] at hr
              subst hr
              exact ⟨hr0.1.extend hpre, hwf1, hr0.2.2.1.extend hpre, hwf.2.2.2.1.extend hpre,
                hwf.2.2.2.2.extend hpre⟩
        | none =>
          cases vars with
          | some vs =>
            dsimp only [Option.map_none']
            rw [mergeImplicitRuleVars_view m irule.outputPatterns (some vs) hwf.2.2.2.1]
            have hop : (irule.read m.mem).outputPatterns = irule.outputPatterns.read m.mem := rfl
            rw [hop]
            cases hm : m.view.mergeImplicitRuleVars (irule.outputPatterns.read m.mem) (some vs) with
            | error e =>
              dsimp only
              refine ⟨fun e1 h => ?_, fun h => ?_, fun res mem1 h => ?_⟩
              · cases h
                rfl
              · cases h
              · cases h
            | ok vars1 =>
              dsimp only
              refine ⟨fun e1 h => ?_, fun h => ?_, fun res mem1 h => ?_⟩
              · cases h
              · cases h
              · simp only [Except.ok.injEq, Option.some.injEq, Prod.mk.injEq] at h
                obtain ⟨h1, h2⟩ := h
                subst h1
                subst h2
                refine ⟨rfl, List.prefix_refl _, ?_⟩
                intro r hr
                simp only [Option.some.injEq] at hr
                subst hr
                exact hwf
          | none =>
            dsimp only [Option.map_none']
            refine ⟨fun e1 h => ?_, fun h => ?_, fun res mem1 h => ?_⟩
            · cases h
            · cases h
            · simp only [Except.ok.injEq, Option.some.injEq, Prod.mk.injEq] at h
              obtain ⟨h1, h2⟩ := h
              subst h1
              subst h2
              refine ⟨rfl, List.prefix_refl _, ?_⟩
              intro r hr
              simp only [Option.some.injEq] at hr
              subst hr
              exact hwf

theorem sameTables_refl (a : Mem.DepBuilder) : a.sameTables a :=
  ⟨rfl, rfl, rfl, rfl, rfl, rfl, rfl, rfl, rfl, rfl⟩

theorem sameTables_trans {a b c : Mem.DepBuilder} (h1 : a.sameTables b)
    (h2 : b.sameTables c) : a.sameTables c :=
  ⟨h2.1.trans h1.1, h2.2.1.trans h1.2.1, h2.2.2.1.trans h1.2.2.1,
   h2.2.2.2.1.trans h1.2.2.2.1, h2.2.2.2.2.1.trans h1.2.2.2.2.1,
   h2.2.2.2.2.2.1.trans h1.2.2.2.2.2.1, h2.2.2.2.2.2.2.1.trans h1.2.2.2.2.2.2.1,
   h2.2.2.2.2.2.2.2.1.trans h1.2.2.2.2.2.2.2.1,
   h2.2.2.2.2.2.2.2.2.1.trans h1.2.2.2.2.2.2.2.2.1,
   h2.2.2.2.2.2.2.2.2.2.trans h1.2.2.2.2.2.2.2.2.2⟩

/-- What a later builder with the same tables shows, when the memory has
only grown: the same tables, read as before. -/
theorem view_of_grown (a b : Mem.DepBuilder) (hwf : a.WF) (hp : a.mem <+: b.mem)
    (h1 : b.rules = a.rules) (h2 : b.implicitRules = a.implicitRules)
    (h3 : b.suffixRules = a.suffixRules) (h4 : b.firstRule = a.firstRule)
    (h5 : b.nodes = a.nodes) :
    b.view = { a.view with
      ruleVars := b.ruleVars
      vars := b.vars
      done := b.done
      trace := b.trace
      nodeCnt := b.nodeCnt
      pickExplicitRuleCnt := b.pickExplicitRuleCnt
      pickImplicitRuleCnt := b.pickImplicitRuleCnt
      pickSuffixRuleCnt := b.pickSuffixRuleCnt
      pickExplicitRuleWithoutCmdCnt := b.pickExplicitRuleWithoutCmdCnt } := by
  have key := view_mem_mono a b.mem hwf hp
  unfold Mem.DepBuilder.view at key ⊢
  simp only [DepBuilder.mk.injEq] at key
  obtain ⟨k1, -, k2, k3, k4, -, -, k5, -⟩ := key
  simp only [h1, h2, h3, h4, h5, k1, k2, k3, k4, k5]

theorem wf_of_grown (a b : Mem.DepBuilder) (hwf : a.WF) (hp : a.mem <+: b.mem)
    (h1 : b.rules = a.rules) (h2 : b.implicitRules = a.implicitRules)
    (h3 : b.suffixRules = a.suffixRules) (h4 : b.firstRule = a.firstRule)
    (h5 : b.nodes = a.nodes) : b.WF := by
  have key := wf_mem_mono a b.mem hwf hp
  unfold Mem.DepBuilder.WF at key ⊢
  simp only at key
  rw [h1, h2, h3, h4, h5]
  exact key

theorem mem_pickSuffix_cons (mw : Mem.World) (m : Mem.DepBuilder)
    (rule : Option Mem.Rule) (vars : Option VarList) (output : String)
    (irule : Mem.Rule) (rest : List Mem.Rule) :
    m.pickSuffix mw rule vars output (irule :: rest) =
      if irule.inputs.len ≠ 1 then .error .suffixRuleInputs
      else
        if !m.exists mw (replaceSuffix output (irule.inputs.get m.mem 0)) then
          m.pickSuffix mw rule vars output rest
        else
          match rule with
          | some r0 =>
            .ok (some ((some { r0 with
              inputs := (appendSlice mw.growCap
                (literalSlice m.mem [replaceSuffix output (irule.inputs.get m.mem 0)]).2
                (literalSlice m.mem [replaceSuffix output (irule.inputs.get m.mem 0)]).1
                (r0.inputs.read
                  (literalSlice m.mem [replaceSuffix output (irule.inputs.get m.mem 0)]).2)).1
              cmds := irule.cmds
              cmdLineno := irule.cmdLineno }, vars, true),
              (appendSlice mw.growCap
                (literalSlice m.mem [replaceSuffix output (irule.inputs.get m.mem 0)]).2
                (literalSlice m.mem [replaceSuffix output (irule.inputs.get m.mem 0)]).1
                (r0.inputs.read
                  (literalSlice m.mem [replaceSuffix output (irule.inputs.get m.mem 0)]).2)).2))
          | none =>
            match vars with
            | some _ =>
              match m.mergeImplicitRuleVars irule.outputs vars with
              | .error e => .error e
              | .ok vars1 => .ok (some ((some irule, vars1, true), m.mem))
            | none => .ok (some ((some irule, vars, true), m.mem)) := rfl

/-- The loop over the suffix rules: the memory model returns what the value
model returns on the builder as the memory shows it, and it only
allocates. -/
theorem pickSuffix_view (mw : Mem.World) (m : Mem.DepBuilder)
    (rule : Option Mem.Rule) (vars : Option VarList) (output : String)
    (hrule : ∀ r, rule = some r → r.WF m.mem) :
    ∀ l : List Mem.Rule, (∀ r ∈ l, r.WF m.mem) →
      (∀ e, m.pickSuffix mw rule vars output l = .error e →
        m.view.pickSuffix mw.toWorld (rule.map fun r => r.read m.mem) vars output
          (l.map fun r => r.read m.mem) = .error e) ∧
      (m.pickSuffix mw rule vars output l = .ok none →
        m.view.pickSuffix mw.toWorld (rule.map fun r => r.read m.mem) vars output
          (l.map fun r => r.read m.mem) = .ok none) ∧
      (∀ res mem1, m.pickSuffix mw rule vars output l = .ok (some (res, mem1)) →
        m.view.pickSuffix mw.toWorld (rule.map fun r => r.read m.mem) vars output
          (l.map fun r => r.read m.mem) = .ok (some (Mem.readPick res mem1)) ∧
        m.mem <+: mem1 ∧ ∀ r, res.1 = some r → r.WF mem1) := by
  intro l
  induction l with
  | nil =>
    intro _
    refine ⟨fun e h => ?_, fun _ => rfl, fun res mem1 h => ?_⟩
    · cases h
    · cases h
  | cons irule rest ih =>
    intro hl
    have hwf := hl irule (List.mem_cons_self _ _)
    obtain ⟨ih1, ih2, ih3⟩ := ih (fun r hr => hl r (List.mem_cons_of_mem _ hr))
    rw [mem_pickSuffix_cons, List.map_cons, pickSuffix_cons]
    have hin : (irule.read m.mem).inputs = irule.inputs.read m.mem := rfl
    rw [hin]
    by_cases hlen : irule.inputs.len = 1
    · rw [Slice.read_single hwf.2.1 hlen]
      simp only [hlen, ne_eq, not_true_eq_false, if_false]
      rw [exists_view]
      cases hex : m.view.exists mw.toWorld (replaceSuffix output (irule.inputs.get m.mem 0)) with
      | false =>
        simp only [Bool.not_false, if_true]
        exact ⟨ih1, ih2, ih3⟩
      | true =>
        simp only [Bool.not_true, Bool.false_eq_true, if_false]
        cases rule with
        | some r0 =>
          dsimp only [Option.map_some']
          have hr0 := hrule r0 rfl
          obtain ⟨hp1, hw1, hrd1, ht1⟩ := literalSlice_spec m.mem
            [replaceSuffix output (irule.inputs.get m.mem 0)]
          rw [Slice.read_mono hr0.2.1 hp1]
          obtain ⟨hread, hwf2⟩ := appendSlice_read mw.growCap _ _
            (r0.inputs.read m.mem) hw1
          have hp2 := appendSlice_tight mw.growCap
            (literalSlice m.mem [replaceSuffix output (irule.inputs.get m.mem 0)]).2
            (literalSlice m.mem [replaceSuffix output (irule.inputs.get m.mem 0)]).1
            (r0.inputs.read m.mem) ht1
          have hpre := hp1.trans hp2
          refine ⟨fun e h => ?_, fun h => ?_, fun res mem1 h => ?_⟩
          · cases h
          · cases h
          · simp only [Except.ok.injEq, Option.some.injEq, Prod.mk.injEq] at h
            obtain ⟨h1, h2⟩ := h
            subst h1
            subst h2
            refine ⟨?_, hpre, ?_⟩
            · simp only [Mem.readPick, Option.map_some']
              congr 3
              unfold Mem.Rule.read
              simp only
              rw [hread, hrd1, Slice.read_mono hr0.1 hpre,
                Slice.read_mono hr0.2.2.1 hpre, Slice.read_mono hr0.2.2.2.1 hpre,
                Slice.read_mono hwf.2.2.2.2 hpre]
              rfl
            · intro r hr
              simp only [Option.some.injEq] at hr
              subst hr
              exact ⟨hr0.1.extend hpre, hwf2, hr0.2.2.1.extend hpre, hr0.2.2.2.1.extend hpre,
                hwf.2.2.2.2.extend hpre⟩
        | none =>
          cases vars with
          | some vs =>
            dsimp only [Option.map_none']
            rw [mergeImplicitRuleVars_view m irule.outputs (some vs) hwf.1]
            have hop : (irule.read m.mem).outputs = irule.outputs.read m.mem := rfl
            rw [hop]
            cases hm : m.view.mergeImplicitRuleVars (irule.outputs.read m.mem) (some vs) with
            | error e =>
              dsimp only
              refine ⟨fun e1 h => ?_, fun h => ?_, fun res mem1 h => ?_⟩
              · cases h
                rfl
              · cases h
              · cases h
            | ok vars1 =>
              dsimp only
              refine ⟨fun e1 h => ?_, fun h => ?_, fun res mem1 h => ?_⟩
              · cases h
              · cases h
              · simp only [Except.ok.injEq, Option.some.injEq, Prod.mk.injEq] at h
                obtain ⟨h1, h2⟩ := h
                subst h1
                subst h2
                refine ⟨rfl, List.prefix_refl _, ?_⟩
                intro r hr
                simp only [Option.some.injEq] at hr
                subst hr
                exact hwf
          | none =>
            dsimp only [Option.map_none']
            refine ⟨fun e1 h => ?_, fun h => ?_, fun res mem1 h => ?_⟩
            · cases h
            · cases h
            · simp only [Except.ok.injEq, Option.some.injEq, Prod.mk.injEq] at h
              obtain ⟨h1, h2⟩ := h
              subst h1
              subst h2
              refine ⟨rfl, List.prefix_refl _, ?_⟩
              intro r hr
              simp only [Option.some.injEq] at hr
              subst hr
              exact hwf
    · have hlenr := Slice.read_length hwf.2.1
      simp only [hlen, ne_eq, not_false_eq_true, if_true]
      cases hrd : irule.inputs.read m.mem with
      | nil =>
        dsimp only
        refine ⟨fun e h => ?_, fun h => ?_, fun res mem1 h => ?_⟩
        · cases h
          rfl
        · cases h
        · cases h
      | cons x xs =>
        cases xs with
        | nil =>
          rw [hrd] at hlenr
          exact absurd hlenr.symm hlen
        | cons y ys =>
          dsimp only
          refine ⟨fun e h => ?_, fun h => ?_, fun res mem1 h => ?_⟩
          · cases h
            rfl
          · cases h
          · cases h

theorem ext_cases (T : String) :
    (∃ sfx, (filepathExt T).data = '.' :: sfx) ∨ (∀ sfx, (filepathExt T).data ≠ '.' :: sfx) := by
  by_cases h : ∃ sfx, (filepathExt T).data = '.' :: sfx
  · exact Or.inl h
  · exact Or.inr fun sfx hs => h ⟨sfx, hs⟩

theorem mem_pickSuffixStep_dot (mw : Mem.World) (m : Mem.DepBuilder)
    (rule : Option Mem.Rule) (vars : Option VarList) (T : String) (sfx : List Char)
    (h : (filepathExt T).data = '.' :: sfx) :
    m.pickSuffixStep mw rule vars T =
      match m.suffixRules (String.mk sfx) with
      | none => .ok ((rule, vars, rule.isSome), m)
      | some rules =>
        match m.pickSuffix mw rule vars T rules with
        | .error e => .error e
        | .ok (some res) =>
          .ok (res.1, { m with pickSuffixRuleCnt := m.pickSuffixRuleCnt + 1, mem := res.2 })
        | .ok none => .ok ((rule, vars, rule.isSome), m) := by
  unfold Mem.DepBuilder.pickSuffixStep
  rw [h]
  rfl

theorem mem_pickSuffixStep_nodot (mw : Mem.World) (m : Mem.DepBuilder)
    (rule : Option Mem.Rule) (vars : Option VarList) (T : String)
    (h : ∀ sfx, (filepathExt T).data ≠ '.' :: sfx) :
    m.pickSuffixStep mw rule vars T = .ok ((rule, vars, rule.isSome), m) := by
  unfold Mem.DepBuilder.pickSuffixStep
  split
  · rename_i sfx hsfx
    exact absurd hsfx (h sfx)
  · rfl

theorem pickSuffixStep_dot (w : World) (db : DepBuilder)
    (rule : Option Rule) (vars : Option VarList) (T : String) (sfx : List Char)
    (h : (filepathExt T).data = '.' :: sfx) :
    db.pickSuffixStep w rule vars T =
      match db.suffixRules (String.mk sfx) with
      | none => .ok ((rule, vars, rule.isSome), db)
      | some rules =>
        match db.pickSuffix w rule vars T rules with
        | .error e => .error e
        | .ok (some res) =>
          .ok (res, { db with pickSuffixRuleCnt := db.pickSuffixRuleCnt + 1 })
        | .ok none => .ok ((rule, vars, rule.isSome), db) := by
  unfold DepBuilder.pickSuffixStep
  rw [h]
  rfl

theorem pickSuffixStep_nodot (w : World) (db : DepBuilder)
    (rule : Option Rule) (vars : Option VarList) (T : String)
    (h : ∀ sfx, (filepathExt T).data ≠ '.' :: sfx) :
    db.pickSuffixStep w rule vars T = .ok ((rule, vars, rule.isSome), db) := by
  unfold DepBuilder.pickSuffixStep
  split
  · rename_i sfx hsfx
    exact absurd hsfx (h sfx)
  · rfl

/-- The tail of `pickRule`: the memory model returns what the value model
returns on the builder as the memory shows it, and it only allocates. -/
theorem pickSuffixStep_view (mw : Mem.World) (m : Mem.DepBuilder)
    (rule : Option Mem.Rule) (vars : Option VarList) (T : String)
    (hwf : m.WF) (hrule : ∀ r, rule = some r → r.WF m.mem) :
    (∀ e, m.pickSuffixStep mw rule vars T = .error e →
      m.view.pickSuffixStep mw.toWorld (rule.map fun r => r.read m.mem) vars T = .error e) ∧
    (∀ res m1, m.pickSuffixStep mw rule vars T = .ok (res, m1) →
      m.view.pickSuffixStep mw.toWorld (rule.map fun r => r.read m.mem) vars T
        = .ok (Mem.readPick res m1.mem, m1.view) ∧
      m.mem <+: m1.mem ∧ m.sameTables m1 ∧ ∀ r, res.1 = some r → r.WF m1.mem) := by
  have hself : ∀ res m1, (Except.ok ((rule, vars, rule.isSome), m) :
        Except Err ((Option Mem.Rule × Option VarList × Bool) × Mem.DepBuilder))
        = .ok (res, m1) →
      (Except.ok ((rule.map fun r => r.read m.mem, vars,
          (rule.map fun r => r.read m.mem).isSome), m.view) :
        Except Err ((Option Rule × Option VarList × Bool) × DepBuilder))
        = .ok (Mem.readPick res m1.mem, m1.view) ∧
      m.mem <+: m1.mem ∧ m.sameTables m1 ∧ ∀ r, res.1 = some r → r.WF m1.mem := by
    intro res m1 h
    simp only [Except.ok.injEq, Prod.mk.injEq] at h
    obtain ⟨h1, h2⟩ := h
    subst h1
    subst h2
    refine ⟨?_, List.prefix_refl _, sameTables_refl _, hrule⟩
    simp [Mem.readPick]
  rcases ext_cases T with ⟨sfx, hsfx⟩ | hno
  · rw [mem_pickSuffixStep_dot mw m rule vars T sfx hsfx,
      pickSuffixStep_dot mw.toWorld m.view _ vars T sfx hsfx]
    have hsr : m.view.suffixRules (String.mk sfx)
        = (m.suffixRules (String.mk sfx)).map fun l => l.map fun r => r.read m.mem := rfl
    rw [hsr]
    cases hk : m.suffixRules (String.mk sfx) with
    | none =>
      dsimp only [Option.map_none']
      exact ⟨fun e h => (by cases h), hself⟩
    | some rules =>
      dsimp only [Option.map_some']
      obtain ⟨p1, p2, p3⟩ := pickSuffix_view mw m rule vars T hrule rules
        (fun r hr => hwf.2.2.1 _ rules hk r hr)
      cases hp : m.pickSuffix mw rule vars T rules with
      | error e =>
        rw [p1 e hp]
        dsimp only
        refine ⟨fun e1 h => ?_, fun res m1 h => ?_⟩
        · cases h
          rfl
        · cases h
      | ok r1 =>
        cases r1 with
        | none =>
          rw [p2 hp]
          dsimp only
          exact ⟨fun e h => (by cases h), hself⟩
        | some r2 =>
          obtain ⟨res0, mem0⟩ := r2
          obtain ⟨q1, q2, q3⟩ := p3 res0 mem0 hp
          rw [q1]
          dsimp only
          refine ⟨fun e h => (by cases h), fun res m1 h => ?_⟩
          simp only [Except.ok.injEq, Prod.mk.injEq] at h
          obtain ⟨h1, h2⟩ := h
          subst h1
          subst h2
          refine ⟨?_, q2, ⟨rfl, rfl, rfl, rfl, rfl, rfl, rfl, rfl, rfl, rfl⟩, q3⟩
          rw [view_of_grown m
            { m with pickSuffixRuleCnt := m.pickSuffixRuleCnt + 1, mem := mem0 }
            hwf q2 rfl rfl rfl rfl rfl]
          rfl
  · rw [mem_pickSuffixStep_nodot mw m rule vars T hno,
      pickSuffixStep_nodot mw.toWorld m.view _ vars T hno]
    exact ⟨fun e h => (by cases h), hself⟩

/-- The middle of `pickRule`, on pattern rules without spare capacity. -/
theorem pickImplicitStep_view (mw : Mem.World) (m : Mem.DepBuilder)
    (rule : Option Mem.Rule) (vars : Option VarList) (T : String)
    (hwf : m.WF) (ht : m.Tight) (hrule : ∀ r, rule = some r → r.WF m.mem) :
    (∀ e, m.pickImplicitStep mw rule vars T = .error e →
      m.view.pickImplicitStep mw.toWorld (rule.map fun r => r.read m.mem) vars T = .error e) ∧
    (∀ res m1, m.pickImplicitStep mw rule vars T = .ok (res, m1) →
      m.view.pickImplicitStep mw.toWorld (rule.map fun r => r.read m.mem) vars T
        = .ok (Mem.readPick res m1.mem, m1.view) ∧
      m.mem <+: m1.mem ∧ m.sameTables m1 ∧ ∀ r, res.1 = some r → r.WF m1.mem) := by
  unfold Mem.DepBuilder.pickImplicitStep DepBuilder.pickImplicitStep
  have hir : m.view.implicitRules = m.implicitRules.map fun r => r.read m.mem := rfl
  rw [hir]
  obtain ⟨p1, p2, p3⟩ := pickImplicit_view mw m rule vars T hrule m.implicitRules
    (fun r hr => ⟨hwf.2.1 r hr, ht r hr⟩)
  cases hp : m.pickImplicit mw rule vars T m.implicitRules with
  | error e =>
    rw [p1 e hp]
    dsimp only
    refine ⟨fun e1 h => ?_, fun res m1 h => ?_⟩
    · cases h
      rfl
    · cases h
  | ok r1 =>
    cases r1 with
    | none =>
      rw [p2 hp]
      dsimp only
      exact pickSuffixStep_view mw m rule vars T hwf hrule
    | some r2 =>
      obtain ⟨res0, mem0⟩ := r2
      obtain ⟨q1, q2, q3⟩ := p3 res0 mem0 hp
      rw [q1]
      dsimp only
      refine ⟨fun e h => (by cases h), fun res m1 h => ?_⟩
      simp only [Except.ok.injEq, Prod.mk.injEq] at h
      obtain ⟨h1, h2⟩ := h
      subst h1
      subst h2
      refine ⟨?_, q2, ⟨rfl, rfl, rfl, rfl, rfl, rfl, rfl, rfl, rfl, rfl⟩, q3⟩
      rw [view_of_grown m
        { m with pickImplicitRuleCnt := m.pickImplicitRuleCnt + 1, mem := mem0 }
        hwf q2 rfl rfl rfl rfl rfl]
      rfl

/-- The method `pickRule`, on a builder whose pattern rules have no spare
capacity: the memory model returns what the value model returns on the
builder as the memory shows it, the tables stay as they are, and the memory
only grows. -/
theorem pickRule_view (mw : Mem.World) (m : Mem.DepBuilder) (T : String)
    (hwf : m.WF) (ht : m.Tight) :
    (∀ e, m.pickRule mw T = .error e → m.view.pickRule mw.toWorld T = .error e) ∧
    (∀ res m1, m.pickRule mw T = .ok (res, m1) →
      m.view.pickRule mw.toWorld T = .ok (Mem.readPick res m1.mem, m1.view) ∧
      m.mem <+: m1.mem ∧ m.sameTables m1 ∧ ∀ r, res.1 = some r → r.WF m1.mem) := by
  have hrule : ∀ r, m.rules T = some r → r.WF m.mem := fun r hr => hwf.1 T r hr
  unfold Mem.DepBuilder.pickRule DepBuilder.pickRule
  have hvr : m.view.rules T = (m.rules T).map fun r => r.read m.mem := rfl
  have hvv : m.view.ruleVars T = m.ruleVars T := rfl
  simp only [hvr, hvv]
  rw [← hasCmds_view (m.rules T) m.mem hrule]
  by_cases hc : Mem.hasCmds (m.rules T) = true
  · simp only [hc, if_true]
    refine ⟨fun e h => (by cases h), fun res m1 h => ?_⟩
    simp only [Except.ok.injEq, Prod.mk.injEq] at h
    obtain ⟨h1, h2⟩ := h
    subst h1
    subst h2
    exact ⟨rfl, List.prefix_refl _, ⟨rfl, rfl, rfl, rfl, rfl, rfl, rfl, rfl, rfl, rfl⟩, hrule⟩
  · simp only [hc, Bool.false_eq_true, if_false, Option.isSome_map']
    by_cases hs : (m.rules T).isSome = true
    · simp only [hs, if_true]
      have hwf1 : ({ m with
          pickExplicitRuleCnt := m.pickExplicitRuleCnt + 1
          pickExplicitRuleWithoutCmdCnt := m.pickExplicitRuleWithoutCmdCnt + 1 } :
          Mem.DepBuilder).WF := hwf
      obtain ⟨p1, p2⟩ := pickImplicitStep_view mw
        { m with
          pickExplicitRuleCnt := m.pickExplicitRuleCnt + 1
          pickExplicitRuleWithoutCmdCnt := m.pickExplicitRuleWithoutCmdCnt + 1 }
        (m.rules T) (m.ruleVars T) T hwf1 ht hrule
      refine ⟨p1, fun res m1 h => ?_⟩
      obtain ⟨q1, q2, q3, q4⟩ := p2 res m1 h
      exact ⟨q1, q2, q3, q4⟩
    · simp only [hs, Bool.false_eq_true, if_false]
      exact pickImplicitStep_view mw m (m.rules T) (m.ruleVars T) T hwf ht hrule

theorem actualInput_view (rule : Mem.Rule) (mem : Memory) (output input : String)
    (h : rule.WF mem) :
    Mem.actualInput rule mem output input = actualInput (rule.read mem) output input := by
  unfold Mem.actualInput actualInput
  have hlen := Slice.read_length h.2.2.2.1
  have hop : (rule.read mem).outputPatterns = rule.outputPatterns.read mem := rfl
  have hsf : (rule.read mem).isSuffixRule = rule.isSuffixRule := rfl
  rw [hop, hsf]
  by_cases h0 : rule.outputPatterns.len = 0
  · rw [Slice.read_nil_of_len h0]
    simp only [h0, Nat.lt_irrefl, gt_iff_lt, if_false]
  · by_cases h1 : rule.outputPatterns.len = 1
    · rw [Slice.read_single h.2.2.2.1 h1]
      simp [h1]
    · cases hr : rule.outputPatterns.read mem with
      | nil => rw [hr] at hlen; exact absurd hlen.symm h0
      | cons x xs =>
        cases xs with
        | nil => rw [hr] at hlen; exact absurd hlen.symm h1
        | cons y ys =>
          have h2 : rule.outputPatterns.len > 1 := by omega
          have h3 : rule.outputPatterns.len > 0 := by omega
          simp only [h2, h3, if_true]

theorem mem_planInputs_succ (plan : String → Vars → Mem.DepBuilder → Mem.PlanResult)
    (rule : Mem.Rule) (output : String) (rounds i : Nat) (children : List Nat)
    (actualInputs : List String) (tsvs : Vars) (m : Mem.DepBuilder) :
    Mem.planInputs plan rule output (rounds + 1) i children actualInputs tsvs m =
      match Mem.actualInput rule m.mem output (rule.inputs.get m.mem i) with
      | .error e => .error e
      | .ok input1 =>
        match plan input1 tsvs { m with trace := m.trace ++ [input1] } with
        | .error e => .error e
        | .ok (n, tsvs1, m1) =>
          Mem.planInputs plan rule output rounds (i + 1) (children ++ [n])
            (actualInputs ++ [input1]) tsvs1 { m1 with trace := m1.trace.dropLast } := rfl

theorem mem_planOrderOnly_succ (plan : String → Vars → Mem.DepBuilder → Mem.PlanResult)
    (rule : Mem.Rule) (rounds i : Nat) (children : List Nat) (tsvs : Vars)
    (m : Mem.DepBuilder) :
    Mem.planOrderOnly plan rule (rounds + 1) i children tsvs m =
      match plan (rule.orderOnlyInputs.get m.mem i) tsvs
          { m with trace := m.trace ++ [rule.orderOnlyInputs.get m.mem i] } with
      | .error e => .error e
      | .ok (n, tsvs1, m1) =>
        Mem.planOrderOnly plan rule rounds (i + 1) (children ++ [n]) tsvs1
          (({ m1 with trace := m1.trace.dropLast } : Mem.DepBuilder).modifyNode n
            fun nd => { nd with IsOrderOnly := true }) := rfl

/-- The loop over the regular prerequisites, from round `i` on. -/
theorem planInputs_view (plan : String → Vars → Mem.DepBuilder → Mem.PlanResult)
    (planL : String → Vars → DepBuilder → PlanResult) (hsim : Mem.PlanSim plan planL)
    (rule : Mem.Rule) (output : String) (rounds : Nat) :
    ∀ (i : Nat) (children : List Nat) (actualInputs : List String) (tsvs : Vars)
      (m : Mem.DepBuilder), i + rounds = rule.inputs.len → rule.WF m.mem → m.WF → m.Tight →
      (∀ e, Mem.planInputs plan rule output rounds i children actualInputs tsvs m = .error e →
        planInputs planL (rule.read m.mem) output ((rule.inputs.read m.mem).drop i)
          children actualInputs tsvs m.view = .error e) ∧
      (∀ ch1 ais1 tsvs1 m1,
        Mem.planInputs plan rule output rounds i children actualInputs tsvs m
          = .ok (ch1, ais1, tsvs1, m1) →
        planInputs planL (rule.read m.mem) output ((rule.inputs.read m.mem).drop i)
          children actualInputs tsvs m.view = .ok (ch1, ais1, tsvs1, m1.view) ∧
        m1.WF ∧ m1.Tight ∧ m.mem <+: m1.mem) := by
  induction rounds with
  | zero =>
    intro i children actualInputs tsvs m hi hr hwf ht
    have hnil : (rule.inputs.read m.mem).drop i = [] := by
      apply List.drop_of_length_le
      rw [Slice.read_length hr.2.1]
      omega
    rw [hnil]
    refine ⟨fun e h => (by cases h), fun ch1 ais1 tsvs1 m1 h => ?_⟩
    cases h
    exact ⟨rfl, hwf, ht, List.prefix_refl _⟩
  | succ k ih =>
    intro i children actualInputs tsvs m hi hr hwf ht
    have hlt : i < rule.inputs.len := by omega
    rw [Slice.read_drop hr.2.1 hlt, planInputs_cons, mem_planInputs_succ,
      actualInput_view rule m.mem output _ hr]
    cases ha : actualInput (rule.read m.mem) output (rule.inputs.get m.mem i) with
    | error e =>
      dsimp only
      refine ⟨fun e1 h => ?_, fun ch1 ais1 tsvs1 m1 h => ?_⟩
      · cases h
        rfl
      · cases h
    | ok input1 =>
      dsimp only
      obtain ⟨s1, s2⟩ := hsim input1 tsvs { m with trace := m.trace ++ [input1] } hwf ht
      have hv : ({ m with trace := m.trace ++ [input1] } : Mem.DepBuilder).view
          = { m.view with trace := m.view.trace ++ [input1] } := rfl
      rw [hv] at s1 s2
      cases hp : plan input1 tsvs { m with trace := m.trace ++ [input1] } with
      | error e =>
        rw [s1 e hp]
        dsimp only
        refine ⟨fun e1 h => ?_, fun ch1 ais1 tsvs1 m1 h => ?_⟩
        · cases h
          rfl
        · cases h
      | ok r =>
        obtain ⟨n, tsvsA, mA⟩ := r
        obtain ⟨t1, t2, t3, t4⟩ := s2 n tsvsA mA hp
        have t4' : m.mem <+: mA.mem := t4
        rw [t1]
        dsimp only
        have hwfA : ({ mA with trace := mA.trace.dropLast } : Mem.DepBuilder).WF := t2
        obtain ⟨u1, u2⟩ := ih (i + 1) (children ++ [n]) (actualInputs ++ [input1]) tsvsA
          { mA with trace := mA.trace.dropLast } (by omega) (hr.grown t4') hwfA t3
        have hmem : ({ mA with trace := mA.trace.dropLast } : Mem.DepBuilder).mem = mA.mem := rfl
        rw [hmem, Mem.Rule.read_grown hr t4', Slice.read_mono hr.2.1 t4'] at u1 u2
        have hv2 : ({ mA with trace := mA.trace.dropLast } : Mem.DepBuilder).view
            = { mA.view with trace := mA.view.trace.dropLast } := rfl
        rw [hv2] at u1 u2
        refine ⟨u1, fun ch1 ais1 tsvs1 m1 h => ?_⟩
        obtain ⟨v1, v2, v3, v4⟩ := u2 ch1 ais1 tsvs1 m1 h
        exact ⟨v1, v2, v3, t4'.trans v4⟩

theorem map_modify_comm {α β : Type} (r : α → β) (f : α → α) (g : β → β)
    (h : ∀ a, r (f a) = g (r a)) (l : List α) (n : Nat) :
    (l.modify f n).map r = (l.map r).modify g n := by
  induction l generalizing n with
  | nil => cases n <;> rfl
  | cons x xs ih =>
    cases n with
    | zero =>
      show r (f x) :: xs.map r = g (r x) :: xs.map r
      rw [h]
    | succ k =>
      show r x :: (xs.modify f k).map r = r x :: (xs.map r).modify g k
      rw [ih]

theorem mem_modify {α : Type} (f : α → α) (l : List α) (n : Nat) (x : α)
    (hx : x ∈ l.modify f n) : x ∈ l ∨ ∃ y ∈ l, x = f y := by
  induction l generalizing n with
  | nil =>
    cases n <;> cases hx
  | cons a as ih =>
    cases n with
    | zero =>
      have hx1 : x ∈ f a :: as := hx
      rcases List.mem_cons.mp hx1 with h | h
      · exact Or.inr ⟨a, List.mem_cons_self _ _, h⟩
      · exact Or.inl (List.mem_cons_of_mem _ h)
    | succ k =>
      have hx1 : x ∈ a :: as.modify f k := hx
      rcases List.mem_cons.mp hx1 with h | h
      · exact Or.inl (h ▸ List.mem_cons_self _ _)
      · rcases ih k h with h1 | ⟨y, hy, hxy⟩
        · exact Or.inl (List.mem_cons_of_mem _ h1)
        · exact Or.inr ⟨y, List.mem_cons_of_mem _ hy, hxy⟩

theorem modifyNode_view (m : Mem.DepBuilder) (n : Nat) (f : Mem.DepNode → Mem.DepNode)
    (g : DepNode → DepNode) (h : ∀ nd, (f nd).read m.mem = g (nd.read m.mem)) :
    (m.modifyNode n f).view = m.view.modifyNode n g := by
  unfold Mem.DepBuilder.modifyNode DepBuilder.modifyNode Mem.DepBuilder.view
  simp only
  rw [map_modify_comm (fun nd => nd.read m.mem) f g h]

theorem modifyNode_wf (m : Mem.DepBuilder) (n : Nat) (f : Mem.DepNode → Mem.DepNode)
    (hwf : m.WF) (h : ∀ nd ∈ m.nodes, (f nd).Cmds.WF m.mem) : (m.modifyNode n f).WF := by
  obtain ⟨h1, h2, h3, h4, h5⟩ := hwf
  refine ⟨h1, h2, h3, h4, ?_⟩
  intro nd hnd
  rcases mem_modify f m.nodes n nd hnd with hm | ⟨y, hy, hxy⟩
  · exact h5 nd hm
  · rw [hxy]
    exact h y hy

/-- The loop over the order-only prerequisites, from round `i` on. -/
theorem planOrderOnly_view (plan : String → Vars → Mem.DepBuilder → Mem.PlanResult)
    (planL : String → Vars → DepBuilder → PlanResult) (hsim : Mem.PlanSim plan planL)
    (rule : Mem.Rule) (rounds : Nat) :
    ∀ (i : Nat) (children : List Nat) (tsvs : Vars) (m : Mem.DepBuilder),
      i + rounds = rule.orderOnlyInputs.len → rule.WF m.mem → m.WF → m.Tight →
      (∀ e, Mem.planOrderOnly plan rule rounds i children tsvs m = .error e →
        planOrderOnly planL ((rule.orderOnlyInputs.read m.mem).drop i)
          children tsvs m.view = .error e) ∧
      (∀ ch1 tsvs1 m1,
        Mem.planOrderOnly plan rule rounds i children tsvs m = .ok (ch1, tsvs1, m1) →
        planOrderOnly planL ((rule.orderOnlyInputs.read m.mem).drop i)
          children tsvs m.view = .ok (ch1, tsvs1, m1.view) ∧
        m1.WF ∧ m1.Tight ∧ m.mem <+: m1.mem) := by
  induction rounds with
  | zero =>
    intro i children tsvs m hi hr hwf ht
    have hnil : (rule.orderOnlyInputs.read m.mem).drop i = [] := by
      apply List.drop_of_length_le
      rw [Slice.read_length hr.2.2.1]
      omega
    rw [hnil]
    refine ⟨fun e h => (by cases h), fun ch1 tsvs1 m1 h => ?_⟩
    cases h
    exact ⟨rfl, hwf, ht, List.prefix_refl _⟩
  | succ k ih =>
    intro i children tsvs m hi hr hwf ht
    have hlt : i < rule.orderOnlyInputs.len := by omega
    rw [Slice.read_drop hr.2.2.1 hlt, planOrderOnly_cons, mem_planOrderOnly_succ]
    obtain ⟨s1, s2⟩ := hsim (rule.orderOnlyInputs.get m.mem i) tsvs
      { m with trace := m.trace ++ [rule.orderOnlyInputs.get m.mem i] } hwf ht
    have hv : ({ m with trace := m.trace ++ [rule.orderOnlyInputs.get m.mem i] } :
        Mem.DepBuilder).view
        = { m.view with trace := m.view.trace ++ [rule.orderOnlyInputs.get m.mem i] } := rfl
    rw [hv] at s1 s2
    cases hp : plan (rule.orderOnlyInputs.get m.mem i) tsvs
        { m with trace := m.trace ++ [rule.orderOnlyInputs.get m.mem i] } with
    | error e =>
      rw [s1 e hp]
      dsimp only
      refine ⟨fun e1 h => ?_, fun ch1 tsvs1 m1 h => ?_⟩
      · cases h
        rfl
      · cases h
    | ok r =>
      obtain ⟨n, tsvsA, mA⟩ := r
      obtain ⟨t1, t2, t3, t4⟩ := s2 n tsvsA mA hp
      have t4' : m.mem <+: mA.mem := t4
      rw [t1]
      dsimp only
      have hwfA : (({ mA with trace := mA.trace.dropLast } : Mem.DepBuilder).modifyNode n
          fun nd => { nd with IsOrderOnly := true }).WF :=
        modifyNode_wf _ n _ t2 (fun nd hnd => t2.2.2.2.2 nd hnd)
      obtain ⟨u1, u2⟩ := ih (i + 1) (children ++ [n]) tsvsA
        (({ mA with trace := mA.trace.dropLast } : Mem.DepBuilder).modifyNode n
          fun nd => { nd with IsOrderOnly := true }) (by omega) (hr.grown t4') hwfA t3
      have hmem : (({ mA with trace := mA.trace.dropLast } : Mem.DepBuilder).modifyNode n
          fun nd => { nd with IsOrderOnly := true }).mem = mA.mem := rfl
      rw [hmem, Slice.read_mono hr.2.2.1 t4'] at u1 u2
      have hv2 : (({ mA with trace := mA.trace.dropLast } : Mem.DepBuilder).modifyNode n
          fun nd => { nd with IsOrderOnly := true }).view
          = ({ mA.view with trace := mA.view.trace.dropLast } : DepBuilder).modifyNode n
              fun nd => { nd with IsOrderOnly := true } :=
        modifyNode_view _ n _ _ (fun _ => rfl)
      rw [hv2] at u1 u2
      refine ⟨u1, fun ch1 tsvs1 m1 h => ?_⟩
      obtain ⟨v1, v2, v3, v4⟩ := u2 ch1 tsvs1 m1 h
      exact ⟨v1, v2, v3, t4'.trans v4⟩

theorem finishNode_read (rule : Mem.Rule) (mem : Memory) (children : List Nat)
    (actualInputs : List String) (tsvs : Vars) (nd : Mem.DepNode) (h : rule.WF mem) :
    (Mem.finishNode rule children actualInputs tsvs nd).read mem
      = finishNode (rule.read mem) children actualInputs tsvs (nd.read mem) := by
  unfold Mem.finishNode finishNode Mem.DepNode.read
  have hlen := Slice.read_length h.2.2.2.2
  have hc : (rule.read mem).cmds = rule.cmds.read mem := rfl
  simp only [hc]
  congr 1
  cases hr : rule.cmds.read mem with
  | nil =>
    rw [hr] at hlen
    have h0 : rule.cmds.len = 0 := hlen.symm
    simp [h0]
  | cons x xs =>
    rw [hr] at hlen
    have h0 : rule.cmds.len > 0 := by rw [← hlen]; simp
    simp [h0]
    rfl

/-- The part of `buildPlan` after `pickRule` has returned a rule. -/
theorem planRule_view (mw : Mem.World)
    (plan : String → Vars → Mem.DepBuilder → Mem.PlanResult)
    (planL : String → Vars → DepBuilder → PlanResult) (hsim : Mem.PlanSim plan planL)
    (n : Nat) (rule : Mem.Rule) (vars : Option VarList) (output : String) (tsvs : Vars)
    (m : Mem.DepBuilder) (hr : rule.WF m.mem) (hwf : m.WF) (ht : m.Tight) :
    (∀ e, Mem.planRule mw plan n rule vars output tsvs m = .error e →
      planRule mw.toWorld planL n (rule.read m.mem) vars output tsvs m.view = .error e) ∧
    (∀ k tsvs1 m1, Mem.planRule mw plan n rule vars output tsvs m = .ok (k, tsvs1, m1) →
      planRule mw.toWorld planL n (rule.read m.mem) vars output tsvs m.view
        = .ok (k, tsvs1, m1.view) ∧
      m1.WF ∧ m1.Tight ∧ m.mem <+: m1.mem) := by
  unfold Mem.planRule planRule
  dsimp only
  have hvars : m.view.vars = m.vars := rfl
  rw [hvars]
  obtain ⟨p1, p2⟩ := planInputs_view plan planL hsim rule output rule.inputs.len 0 [] []
    (applyVars mw.toWorld (vars.getD []) (m.vars, tsvs) []).1.2
    { m with vars := (applyVars mw.toWorld (vars.getD []) (m.vars, tsvs) []).1.1 }
    (by omega) hr hwf ht
  have hv : ({ m with vars := (applyVars mw.toWorld (vars.getD []) (m.vars, tsvs) []).1.1 } :
      Mem.DepBuilder).view
      = { m.view with vars := (applyVars mw.toWorld (vars.getD []) (m.vars, tsvs) []).1.1 } :=
    rfl
  have hmem : ({ m with vars := (applyVars mw.toWorld (vars.getD []) (m.vars, tsvs) []).1.1 } :
      Mem.DepBuilder).mem = m.mem := rfl
  rw [hv, hmem, List.drop_zero] at p1 p2
  have hin : (rule.read m.mem).inputs = rule.inputs.read m.mem := rfl
  have hoo : (rule.read m.mem).orderOnlyInputs = rule.orderOnlyInputs.read m.mem := rfl
  rw [hin, hoo]
  cases hp : Mem.planInputs plan rule output rule.inputs.len 0 [] []
      (applyVars mw.toWorld (vars.getD []) (m.vars, tsvs) []).1.2
      { m with vars := (applyVars mw.toWorld (vars.getD []) (m.vars, tsvs) []).1.1 } with
  | error e =>
    rw [p1 e hp]
    dsimp only
    refine ⟨fun e1 h => ?_, fun k tsvs1 m1 h => ?_⟩
    · cases h
      rfl
    · cases h
  | ok r =>
    obtain ⟨children, actualInputs, tsvsA, mA⟩ := r
    obtain ⟨q1, q2, q3, q4⟩ := p2 children actualInputs tsvsA mA hp
    have q4' : m.mem <+: mA.mem := q4
    rw [q1]
    dsimp only
    obtain ⟨s1, s2⟩ := planOrderOnly_view plan planL hsim rule rule.orderOnlyInputs.len 0
      children tsvsA mA (by omega) (hr.grown q4') q2 q3
    rw [List.drop_zero, Slice.read_mono hr.2.2.1 q4'] at s1 s2
    cases hq : Mem.planOrderOnly plan rule rule.orderOnlyInputs.len 0 children tsvsA mA with
    | error e =>
      rw [s1 e hq]
      dsimp only
      refine ⟨fun e1 h => ?_, fun k tsvs1 m1 h => ?_⟩
      · cases h
        rfl
      · cases h
    | ok r2 =>
      obtain ⟨children2, tsvsB, mB⟩ := r2
      obtain ⟨u1, u2, u3, u4⟩ := s2 children2 tsvsB mB hq
      have hpre : m.mem <+: mB.mem := q4'.trans u4
      rw [u1]
      dsimp only
      refine ⟨fun e1 h => (by cases h), fun k tsvs1 m1 h => ?_⟩
      simp only [Except.ok.injEq, Prod.mk.injEq] at h
      obtain ⟨h1, h2, h3⟩ := h
      subst h1
      subst h2
      subst h3
      have hrB := hr.grown hpre
      have hm3 : (mB.modifyNode n (Mem.finishNode rule children2 actualInputs tsvsB)).view
          = mB.view.modifyNode n (finishNode (rule.read m.mem) children2 actualInputs tsvsB) := by
        apply modifyNode_view
        intro nd
        rw [finishNode_read rule mB.mem children2 actualInputs tsvsB nd hrB,
          Mem.Rule.read_grown hr hpre]
      have hwf3 : (mB.modifyNode n (Mem.finishNode rule children2 actualInputs tsvsB)).WF :=
        modifyNode_wf mB n _ u2 (fun _ _ => hrB.2.2.2.2)
      refine ⟨?_, hwf3, u3, hpre⟩
      have hv3 : ({ mB.modifyNode n (Mem.finishNode rule children2 actualInputs tsvsB) with
          vars := (runRestores (applyVars mw.toWorld (vars.getD []) (m.vars, tsvs) []).2
            ((mB.modifyNode n (Mem.finishNode rule children2 actualInputs tsvsB)).vars,
              tsvsB)).1 } : Mem.DepBuilder).view
          = { (mB.modifyNode n (Mem.finishNode rule children2 actualInputs tsvsB)).view with
              vars := (runRestores (applyVars mw.toWorld (vars.getD []) (m.vars, tsvs) []).2
                ((mB.modifyNode n (Mem.finishNode rule children2 actualInputs tsvsB)).vars,
                  tsvsB)).1 } := rfl
      rw [hv3, hm3]
      rfl

theorem mem_buildPlan_succ (mw : Mem.World) (fuel : Nat) (output : String) (tsvs : Vars)
    (m0 : Mem.DepBuilder) :
    Mem.DepBuilder.buildPlan mw (fuel + 1) output tsvs m0 =
      match ({ m0 with nodeCnt := m0.nodeCnt + 1 } : Mem.DepBuilder).done output with
      | some n => .ok (n, tsvs, { m0 with nodeCnt := m0.nodeCnt + 1 })
      | none =>
        match (({ m0 with nodeCnt := m0.nodeCnt + 1 } : Mem.DepBuilder).newNode
            output).pickRule mw output with
        | .error e => .error e
        | .ok ((_, _, false), m1) => .ok (m0.nodes.length, tsvs, m1)
        | .ok ((none, _, true), _) => .error .nilRule
        | .ok ((some rule, vars, true), m1) =>
          Mem.planRule mw (Mem.DepBuilder.buildPlan mw fuel) m0.nodes.length rule vars
            output tsvs m1 := rfl

theorem newNode_view (m : Mem.DepBuilder) (output : String) :
    (m.newNode output).view = m.view.newNode output := by
  unfold Mem.DepBuilder.newNode DepBuilder.newNode Mem.DepBuilder.view
  simp only [List.map_append, List.map_cons, List.map_nil, List.length_map]
  rfl

theorem newNode_wf (m : Mem.DepBuilder) (output : String) (hwf : m.WF) :
    (m.newNode output).WF := by
  obtain ⟨h1, h2, h3, h4, h5⟩ := hwf
  refine ⟨h1, h2, h3, h4, ?_⟩
  intro nd hnd
  have hnd1 : nd ∈ m.nodes ++ [({ Output := output } : Mem.DepNode)] := hnd
  rcases List.mem_append.mp hnd1 with h | h
  · exact h5 nd h
  · simp only [List.mem_singleton] at h
    subst h
    exact Slice.WF.of_cap_zero (Nat.le_refl _) rfl

theorem tight_of_sameTables {a b : Mem.DepBuilder} (h : a.sameTables b) (ht : a.Tight) :
    b.Tight := by
  intro r hr
  rw [h.2.2.1] at hr
  exact ht r hr

/-- The method `buildPlan`, on a builder whose pattern rules have no spare
capacity: the memory model fails as the value model does on the builder as
the memory shows it, or returns the same node and a builder that shows what
the value model returns. -/
theorem buildPlan_view (mw : Mem.World) (fuel : Nat) :
    Mem.PlanSim (Mem.DepBuilder.buildPlan mw fuel) (DepBuilder.buildPlan mw.toWorld fuel) := by
  induction fuel with
  | zero =>
    intro T tsvs m _ _
    refine ⟨fun e h => ?_, fun n tsvs1 m1 h => ?_⟩
    · cases h
      rfl
    · cases h
  | succ fuel ih =>
    intro T tsvs m hwf ht
    rw [mem_buildPlan_succ, buildPlan_succ]
    have hd : ({ m.view with nodeCnt := m.view.nodeCnt + 1 } : DepBuilder).done T
        = ({ m with nodeCnt := m.nodeCnt + 1 } : Mem.DepBuilder).done T := rfl
    rw [hd]
    cases hdone : ({ m with nodeCnt := m.nodeCnt + 1 } : Mem.DepBuilder).done T with
    | some n =>
      dsimp only
      refine ⟨fun e h => (by cases h), fun n1 tsvs1 m1 h => ?_⟩
      simp only [Except.ok.injEq, Prod.mk.injEq] at h
      obtain ⟨h1, h2, h3⟩ := h
      subst h1
      subst h2
      subst h3
      exact ⟨rfl, hwf, ht, List.prefix_refl _⟩
    | none =>
      dsimp only
      have hwf1 : (({ m with nodeCnt := m.nodeCnt + 1 } : Mem.DepBuilder).newNode T).WF :=
        newNode_wf _ T hwf
      have ht1 : (({ m with nodeCnt := m.nodeCnt + 1 } : Mem.DepBuilder).newNode T).Tight := ht
      obtain ⟨p1, p2⟩ := pickRule_view mw
        (({ m with nodeCnt := m.nodeCnt + 1 } : Mem.DepBuilder).newNode T) T hwf1 ht1
      have hv : (({ m with nodeCnt := m.nodeCnt + 1 } : Mem.DepBuilder).newNode T).view
          = ({ m.view with nodeCnt := m.view.nodeCnt + 1 } : DepBuilder).newNode T :=
        newNode_view _ T
      rw [hv] at p1 p2
      have hmem : (({ m with nodeCnt := m.nodeCnt + 1 } : Mem.DepBuilder).newNode T).mem
          = m.mem := rfl
      have hlen : m.view.nodes.length = m.nodes.length := by
        show (m.nodes.map fun nd => nd.read m.mem).length = _
        simp
      rw [hlen]
      cases hp : (({ m with nodeCnt := m.nodeCnt + 1 } : Mem.DepBuilder).newNode T).pickRule
          mw T with
      | error e =>
        rw [p1 e hp]
        dsimp only
        refine ⟨fun e1 h => ?_, fun n tsvs1 m1 h => ?_⟩
        · cases h
          rfl
        · cases h
      | ok r =>
        obtain ⟨⟨rule, vars, b⟩, mA⟩ := r
        obtain ⟨q1, q2, q3, q4⟩ := p2 _ mA hp
        rw [hmem] at q2
        have hwfA : mA.WF := wf_of_grown _ mA hwf1 (by rw [hmem]; exact q2)
          q3.1 q3.2.2.1 q3.2.2.2.1 q3.2.2.2.2.1 q3.2.2.2.2.2.2.2.1
        have htA : mA.Tight := tight_of_sameTables q3 ht1
        rw [q1]
        cases b with
        | false =>
          cases rule with
          | none =>
            dsimp only [Mem.readPick, Option.map_none']
            refine ⟨fun e1 h => (by cases h), fun n tsvs1 m1 h => ?_⟩
            simp only [Except.ok.injEq, Prod.mk.injEq] at h
            obtain ⟨h1, h2, h3⟩ := h
            subst h1
            subst h2
            subst h3
            exact ⟨rfl, hwfA, htA, q2⟩
          | some rule =>
            dsimp only [Mem.readPick, Option.map_some']
            refine ⟨fun e1 h => (by cases h), fun n tsvs1 m1 h => ?_⟩
            simp only [Except.ok.injEq, Prod.mk.injEq] at h
            obtain ⟨h1, h2, h3⟩ := h
            subst h1
            subst h2
            subst h3
            exact ⟨rfl, hwfA, htA, q2⟩
        | true =>
          cases rule with
          | none =>
            dsimp only [Mem.readPick, Option.map_none']
            refine ⟨fun e1 h => ?_, fun n tsvs1 m1 h => ?_⟩
            · cases h
              rfl
            · cases h
          | some rule =>
            dsimp only [Mem.readPick, Option.map_some']
            obtain ⟨s1, s2⟩ := planRule_view mw (Mem.DepBuilder.buildPlan mw fuel)
              (DepBuilder.buildPlan mw.toWorld fuel) ih m.nodes.length rule vars T tsvs mA
              (q4 rule rfl) hwfA htA
            refine ⟨s1, fun n tsvs1 m1 h => ?_⟩
            obtain ⟨t1, t2, t3, t4⟩ := s2 n tsvs1 m1 h
            exact ⟨t1, t2, t3, q2.trans t4⟩

theorem mem_evalLoop_cons (mw : Mem.World) (fuel : Nat) (target : String)
    (rest : List String) (nodes : List Nat) (m : Mem.DepBuilder) :
    Mem.DepBuilder.evalLoop mw fuel (target :: rest) nodes m =
      match Mem.DepBuilder.buildPlan mw fuel target Vars.empty { m with trace := [target] } with
      | .error e => .error e
      | .ok (n, _, m1) => Mem.DepBuilder.evalLoop mw fuel rest (nodes ++ [n]) m1 := rfl

theorem evalLoop_view (mw : Mem.World) (fuel : Nat) (targets : List String) :
    ∀ (nodes : List Nat) (m : Mem.DepBuilder), m.WF → m.Tight →
      (∀ e, Mem.DepBuilder.evalLoop mw fuel targets nodes m = .error e →
        DepBuilder.evalLoop mw.toWorld fuel targets nodes m.view = .error e) ∧
      (∀ roots m1, Mem.DepBuilder.evalLoop mw fuel targets nodes m = .ok (roots, m1) →
        DepBuilder.evalLoop mw.toWorld fuel targets nodes m.view = .ok (roots, m1.view) ∧
        m1.WF ∧ m1.Tight ∧ m.mem <+: m1.mem) := by
  induction targets with
  | nil =>
    intro nodes m hwf ht
    refine ⟨fun e h => (by cases h), fun roots m1 h => ?_⟩
    cases h
    exact ⟨rfl, hwf, ht, List.prefix_refl _⟩
  | cons t rest ih =>
    intro nodes m hwf ht
    rw [mem_evalLoop_cons, evalLoop_cons]
    obtain ⟨p1, p2⟩ := buildPlan_view mw fuel t Vars.empty { m with trace := [t] } hwf ht
    have hv : ({ m with trace := [t] } : Mem.DepBuilder).view
        = { m.view with trace := [t] } := rfl
    rw [hv] at p1 p2
    cases hp : Mem.DepBuilder.buildPlan mw fuel t Vars.empty { m with trace := [t] } with
    | error e =>
      rw [p1 e hp]
      dsimp only
      refine ⟨fun e1 h => ?_, fun roots m1 h => ?_⟩
      · cases h
        rfl
      · cases h
    | ok r =>
      obtain ⟨n, tsvsA, mA⟩ := r
      obtain ⟨q1, q2, q3, q4⟩ := p2 n tsvsA mA hp
      have q4' : m.mem <+: mA.mem := q4
      rw [q1]
      dsimp only
      obtain ⟨s1, s2⟩ := ih (nodes ++ [n]) mA q2 q3
      refine ⟨s1, fun roots m1 h => ?_⟩
      obtain ⟨t1, t2, t3, t4⟩ := s2 roots m1 h
      exact ⟨t1, t2, t3, q4'.trans t4⟩

theorem evalTargets_view (m : Mem.DepBuilder) (targets : List String) (hwf : m.WF) :
    m.evalTargets targets = m.view.evalTargets targets := by
  unfold Mem.DepBuilder.evalTargets DepBuilder.evalTargets
  by_cases ht : targets.isEmpty = true
  · simp only [ht, if_true]
    have hf : m.view.firstRule = m.firstRule.map fun r => r.read m.mem := rfl
    rw [hf]
    cases hr : m.firstRule with
    | none => rfl
    | some r =>
      dsimp only [Option.map_some']
      have hw := (hwf.2.2.2.1 r hr).1
      have ho : (r.read m.mem).outputs = r.outputs.read m.mem := rfl
      rw [ho]
      by_cases h0 : r.outputs.len = 0
      · rw [Slice.read_nil_of_len h0]
        simp [h0]
      · obtain ⟨rest, hrest⟩ := Slice.read_cons hw (Nat.pos_of_ne_zero h0)
        rw [hrest]
        simp [h0]
  · simp only [ht, Bool.false_eq_true, if_false]

/-- The method `Eval`, on a builder whose pattern rules have no spare
capacity: the memory model fails as the value model does on the builder as
the memory shows it, or returns the same roots and a builder that shows what
the value model returns. -/
theorem Eval_view (mw : Mem.World) (fuel : Nat) (m : Mem.DepBuilder)
    (targets : List String) (hwf : m.WF) (ht : m.Tight) :
    (∀ e, m.Eval mw fuel targets = .error e → m.view.Eval mw.toWorld fuel targets = .error e) ∧
    (∀ roots m1, m.Eval mw fuel targets = .ok (roots, m1) →
      m.view.Eval mw.toWorld fuel targets = .ok (roots, m1.view) ∧
      m1.WF ∧ m1.Tight ∧ m.mem <+: m1.mem) := by
  unfold Mem.DepBuilder.Eval DepBuilder.Eval
  rw [evalTargets_view m targets hwf]
  cases m.view.evalTargets targets with
  | error e =>
    dsimp only
    refine ⟨fun e1 h => ?_, fun roots m1 h => ?_⟩
    · cases h
      rfl
    · cases h
  | ok ts =>
    dsimp only
    exact evalLoop_view mw fuel ts [] m hwf ht



theorem edge_view (m : Mem.DepBuilder) (p c : Nat) (h : m.edge p c) : m.view.edge p c := by
  obtain ⟨nd, hnd, hc⟩ := h
  refine ⟨nd.read m.mem, ?_, hc⟩
  show (m.nodes.map fun nd => nd.read m.mem)[p]? = _
  rw [List.getElem?_map, hnd]
  rfl

/-- C6 (amended). For a builder that has planned nothing yet, whose slices
lie in its memory and whose pattern rules have no spare capacity behind
their prerequisites, and for every goal list: if no target is, under the
rules `pickRule` selects, a prerequisite of itself through one or more
steps, then the graph of plan nodes returned by `Eval`, with an edge from
each node to every node in its `Deps`, is acyclic. -/
theorem eval_acyclic (mw : Mem.World) (fuel : Nat) (m : Mem.DepBuilder)
    (goals : List String) (roots : List Nat) (m1 : Mem.DepBuilder)
    (hwf : m.WF) (htight : m.Tight)
    (hnodes : m.nodes = []) (hdone : ∀ name, m.done name = none)
    (hacyclic : ∀ T, ¬ Relation.TransGen (m.view.prereq mw.toWorld) T T)
    (h : m.Eval mw fuel goals = .ok (roots, m1)) :
    ∀ n, ¬ Relation.TransGen m1.edge n n := by
  obtain ⟨h1, -, -, -⟩ := (Eval_view mw fuel m goals hwf htight).2 roots m1 h
  have hn : m.view.nodes = [] := by
    show (m.nodes.map fun nd => nd.read m.mem) = []
    rw [hnodes]
    rfl
  intro n hcyc
  exact acyclic_plan_values mw.toWorld fuel m.view goals roots m1.view hn hdone hacyclic h1 n
    (hcyc.mono fun p c hpc => edge_view m1 p c hpc)

/-- C6, counterexample: for the rules `a: b` and `b: a` and the goal `a`,
`Eval` returns the root 0 and two nodes, `a` with `Deps = [1]` and `b` with
`Deps = [0]`: node 0 reaches itself along the edges 0 → 1 → 0. -/
theorem eval_acyclic_counterexample :
    Mem.cycleBuilder.nodes = [] ∧
    (valueOf (Mem.cycleBuilder.Eval (Mem.worldOf []) 10 ["a"])).map
      (fun r => (r.1, r.2.nodes.map fun nd => (nd.Output, nd.Deps)))
      = some ([0], [("a", [1]), ("b", [0])]) ∧
    ∃ roots m1, Mem.cycleBuilder.Eval (Mem.worldOf []) 10 ["a"] = .ok (roots, m1) ∧
      Relation.TransGen m1.edge 0 0 := by
  have hv : (valueOf (Mem.cycleBuilder.Eval (Mem.worldOf []) 10 ["a"])).map
      (fun r => (r.1, r.2.nodes.map fun nd => (nd.Output, nd.Deps)))
      = some ([0], [("a", [1]), ("b", [0])]) := by decide
  refine ⟨rfl, hv, ?_⟩
  obtain ⟨⟨roots, m1⟩, h⟩ := ok_of_errorOf_none
    (Mem.cycleBuilder.Eval (Mem.worldOf []) 10 ["a"]) (by decide)
  refine ⟨roots, m1, h, ?_⟩
  rw [h] at hv
  simp only [valueOf, Option.map_some', Option.some.injEq, Prod.mk.injEq] at hv
  obtain ⟨-, hnodes⟩ := hv
  have h0 : (m1.nodes.map fun nd => (nd.Output, nd.Deps))[0]? = some ("a", [1]) := by
    rw [hnodes]; rfl
  have h1 : (m1.nodes.map fun nd => (nd.Output, nd.Deps))[1]? = some ("b", [0]) := by
    rw [hnodes]; rfl
  rw [List.getElem?_map] at h0 h1
  cases hn0 : m1.nodes[0]? with
  | none => rw [hn0] at h0; cases h0
  | some nd0 =>
    cases hn1 : m1.nodes[1]? with
    | none => rw [hn1] at h1; cases h1
    | some nd1 =>
      rw [hn0] at h0
      rw [hn1] at h1
      simp only [Option.map_some', Option.some.injEq, Prod.mk.injEq] at h0 h1
      have e01 : m1.edge 0 1 := ⟨nd0, hn0, by rw [h0.2]; simp⟩
      have e10 : m1.edge 1 0 := ⟨nd1, hn1, by rw [h1.2]; simp⟩
      exact Relation.TransGen.tail (Relation.TransGen.single e01) e10

/-- C7, failing input: the rules `%.o: %.c %.h %.x ; cc`, `foo.o: e1`,
`bar.o: e2` and `foo.x: bar.o`, the three prerequisites of the pattern rule
lying in an array of four, the files `foo.c`, `foo.h`, `bar.c`, `bar.h` and
`bar.x` on disk, and the goal `foo.o`. The rule `pickRule` selects for
`foo.o` has the prerequisites `%.c`, `%.h`, `%.x`, `e1`: the explicit
prerequisite `e1` has been appended into the spare element of the array of
the pattern rule. While the third prerequisite `foo.x` is planned, `pickRule`
selects a rule for `bar.o` in the same way and writes `e2` over `e1`. The
fourth round of the loop of `foo.o` then reads `e2`: the node of `foo.o` has
the children `foo.c`, `foo.h`, `foo.x`, `e2`, and `e1`, a prerequisite of
the rule selected for `foo.o`, is not planned at all. -/
theorem deps_read_after_overwrite :
    errorOf (Mem.NewDepBuilder sharedWorld { rules := sharedRules, mem := sharedMemory }
      Vars.empty) = none ∧
    (valueOf (sharedBuilder.pickRule sharedWorld "foo.o")).map
      (fun r => r.1.1.map fun rule => (rule.read r.2.mem).inputs)
      = some (some ["%.c", "%.h", "%.x", "e1"]) ∧
    (valueOf (sharedBuilder.Eval sharedWorld 20 ["foo.o"])).map
      (fun r => r.2.nodes.map fun nd => (nd.Output, nd.ActualInputs, nd.Deps))
      = some [("foo.o", ["foo.c", "foo.h", "foo.x", "e2"], [1, 2, 3, 8]),
              ("foo.c", [], []), ("foo.h", [], []), ("foo.x", ["bar.o"], [4]),
              ("bar.o", ["bar.c", "bar.h", "bar.x", "e2"], [5, 6, 7, 8]),
              ("bar.c", [], []), ("bar.h", [], []), ("bar.x", [], []), ("e2", [], [])] := by
  refine ⟨by decide, by decide, by decide⟩

theorem implicitApplicable_view (mw : Mem.World) (m : Mem.DepBuilder) (T : String)
    (r : Mem.Rule) (hr : r.WF m.mem) :
    m.implicitApplicable mw T r = m.view.implicitApplicable mw.toWorld T (r.read m.mem) := by
  unfold Mem.DepBuilder.implicitApplicable DepBuilder.implicitApplicable
  rw [canPick_view mw m r T hr]

theorem find?_map_read {α β : Type} (f : α → β) (p : α → Bool) (q : β → Bool) (l : List α)
    (h : ∀ a ∈ l, p a = q (f a)) (a : α) (ha : l.find? p = some a) :
    (l.map f).find? q = some (f a) := by
  induction l with
  | nil => cases ha
  | cons x xs ih =>
    rw [List.map_cons, List.find?_cons]
    rw [List.find?_cons] at ha
    rw [← h x (List.mem_cons_self _ _)]
    cases hp : p x with
    | true =>
      rw [hp] at ha
      simp only [Option.some.injEq] at ha
      rw [ha]
    | false =>
      rw [hp] at ha
      exact ih (fun b hb => h b (List.mem_cons_of_mem _ hb)) ha

/-- C2 (amended). Let the slices of the builder lie in its memory and let no
pattern rule have spare capacity behind its prerequisites. When target `T`
has an explicit rule `E` without commands and `I` is the first applicable
implicit rule (every implicit rule having one output pattern), `pickRule(T)`
returns a synthetic rule whose commands are `I`'s, whose output patterns are
`I`'s, and whose inputs are `I`'s inputs followed by `E`'s inputs; the plan
node of a first request for `T` then has the commands of `I`, and its `Deps`
are the nodes of `I`'s inputs, of `E`'s inputs and of `E`'s order-only
inputs, in that order, where `%` is replaced by the stem in `I`'s inputs and
in `E`'s inputs alike; an input without `%` is left as it is. -/
theorem explicit_over_implicit (mw : Mem.World) (fuel : Nat) (T : String) (tsvs : Vars)
    (m : Mem.DepBuilder) (n : Nat) (tsvs1 : Vars) (m1 : Mem.DepBuilder) (E I : Mem.Rule)
    (hwf : m.WF) (htight : m.Tight)
    (hm : m.view.MemoOK) (hd : m.done T = none)
    (hI : ∀ r ∈ m.implicitRules, r.outputPatterns.len = 1)
    (hE : m.rules T = some E) (hcmds : E.cmds.len = 0)
    (hfirst : m.implicitRules.find? (m.implicitApplicable mw T) = some I)
    (h : m.buildPlan mw fuel T tsvs = .ok (n, tsvs1, m1)) :
    (∃ r mx, m.pickRule mw T = .ok ((some r, m.ruleVars T, true), mx) ∧
      r.read mx.mem = { E.read m.mem with
        outputPatterns := I.outputPatterns.read m.mem
        inputs := I.inputs.read m.mem ++ E.inputs.read m.mem
        cmds := I.cmds.read m.mem
        cmdLineno := I.cmdLineno }) ∧
    ∃ p nd, I.outputPatterns.read m.mem = [p] ∧ m1.nodes[n]? = some nd ∧
      nd.Cmds.read m1.mem = I.cmds.read m.mem ∧
      List.Forall₂ (fun name c => m1.done name = some c ∧
          ∃ cd, m1.nodes[c]? = some cd ∧ cd.Output = name)
        (((I.inputs.read m.mem).map fun i => substPattern p i T) ++
          ((E.inputs.read m.mem).map fun e => substPattern p e T) ++
          E.orderOnlyInputs.read m.mem)
        nd.Deps ∧
      ∀ e ∈ E.inputs.read m.mem, '%' ∉ e.data → substPattern p e T = e := by
  have hEwf := hwf.1 T E hE
  have hIwf := hwf.2.1 I (List.mem_of_find?_eq_some hfirst)
  -- the hypotheses, on the builder as the memory shows it
  have hIv : ∀ r ∈ m.view.implicitRules, r.outputPatterns.length = 1 := by
    intro r hr
    have hr1 : r ∈ m.implicitRules.map fun r => r.read m.mem := hr
    obtain ⟨r0, hr0, rfl⟩ := List.mem_map.mp hr1
    show (r0.outputPatterns.read m.mem).length = 1
    rw [Slice.read_length (hwf.2.1 r0 hr0).2.2.2.1]
    exact hI r0 hr0
  have hEv : m.view.rules T = some (E.read m.mem) := by
    show (m.rules T).map (fun r => r.read m.mem) = _
    rw [hE]
    rfl
  have hcv : (E.read m.mem).cmds = [] := Slice.read_nil_of_len hcmds
  have hfv : m.view.implicitRules.find? (m.view.implicitApplicable mw.toWorld T)
      = some (I.read m.mem) := by
    show (m.implicitRules.map fun r => r.read m.mem).find? _ = _
    exact find?_map_read _ _ _ _
      (fun a ha => implicitApplicable_view mw m T a (hwf.2.1 a ha)) I hfirst
  obtain ⟨s1, s2⟩ := buildPlan_view mw fuel T tsvs m hwf htight
  obtain ⟨hplan, hwf1, -, hpre⟩ := s2 n tsvs1 m1 h
  obtain ⟨⟨dbx, hpick⟩, p, nd, hp, hnd, hnc, hdeps, hsub⟩ :=
    synthetic_rule_values mw.toWorld fuel T tsvs m.view n tsvs1 m1.view
      (E.read m.mem) (I.read m.mem) hm hd hIv hEv hcv hfv hplan
  constructor
  · obtain ⟨q1, q2⟩ := pickRule_view mw m T hwf htight
    cases hq : m.pickRule mw T with
    | error e =>
      rw [q1 e hq] at hpick
      cases hpick
    | ok res =>
      obtain ⟨⟨rule, vars, b⟩, mx⟩ := res
      obtain ⟨t1, -, -, -⟩ := q2 _ mx hq
      rw [t1] at hpick
      simp only [Mem.readPick, Except.ok.injEq, Prod.mk.injEq] at hpick
      obtain ⟨⟨k1, k2, k3⟩, -⟩ := hpick
      cases rule with
      | none => cases k1
      | some rule =>
        simp only [Option.map_some', Option.some.injEq] at k1
        have hv : vars = m.ruleVars T := k2
        subst hv
        subst k3
        exact ⟨rule, mx, rfl, k1⟩
  · have hndm : ∃ nd0, m1.nodes[n]? = some nd0 ∧ nd0.read m1.mem = nd := by
      have hnd1 : (m1.nodes.map fun nd => nd.read m1.mem)[n]? = some nd := hnd
      rw [List.getElem?_map] at hnd1
      cases hn0 : m1.nodes[n]? with
      | none => rw [hn0] at hnd1; cases hnd1
      | some nd0 =>
        rw [hn0] at hnd1
        exact ⟨nd0, rfl, Option.some.inj hnd1⟩
    obtain ⟨nd0, hnd0, hrd⟩ := hndm
    subst hrd
    refine ⟨p, nd0, hp, hnd0, hnc, ?_, hsub⟩
    refine hdeps.imp fun {name c} hc => ?_
    obtain ⟨hc1, cd, hcd, hout⟩ := hc
    refine ⟨hc1, ?_⟩
    have hcd1 : (m1.nodes.map fun nd => nd.read m1.mem)[c]? = some cd := hcd
    rw [List.getElem?_map] at hcd1
    cases hn1 : m1.nodes[c]? with
    | none => rw [hn1] at hcd1; cases hcd1
    | some cd0 =>
      rw [hn1] at hcd1
      refine ⟨cd0, rfl, ?_⟩
      have := Option.some.inj hcd1
      rw [← this] at hout
      exact hout

/-- C2, counterexample: `foo.o` has the explicit rule `foo.o: x%y | gen`
without commands, and `%.o: %.c ; cc -c $<` is the first applicable implicit
rule; no slice has spare capacity. The claim gives the node of `foo.o` two
children, `foo.c` and `x%y`; it has three, `foo.c`, `xfooy` and `gen`. -/
theorem explicit_over_implicit_counterexample :
    (Mem.percentBuilder.rules "foo.o").map (fun r => (r.read Mem.percentBuilder.mem))
      = some { outputs := ["foo.o"], inputs := ["x%y"], orderOnlyInputs := ["gen"] } ∧
    (Mem.percentBuilder.implicitRules.find?
      (Mem.percentBuilder.implicitApplicable (Mem.worldOf ["foo.c"]) "foo.o")).map
        (fun r => r.read Mem.percentBuilder.mem) = some ruleFromC ∧
    (valueOf (Mem.percentBuilder.buildPlan (Mem.worldOf ["foo.c"]) 10 "foo.o"
        Vars.empty)).map
      (fun r => (r.1, r.2.2.nodes.map fun nd => (nd.Output, nd.Deps)))
      = some (0, [("foo.o", [1, 2, 3]), ("foo.c", []), ("xfooy", []), ("gen", [])]) := by
  decide

theorem s3Builder_wf : Mem.s3Builder.WF := by
  refine ⟨?_, by decide, ?_, ?_, ?_⟩
  · intro k r hr
    have hk : Mem.s3Builder.rules k = if k = "foo.o" then some Mem.s3Explicit else none := rfl
    rw [hk] at hr
    split at hr
    · cases hr
      decide
    · cases hr
  · intro k l hl
    have hk : Mem.s3Builder.suffixRules k = none := rfl
    rw [hk] at hl
    cases hl
  · intro r hr
    have hk : Mem.s3Builder.firstRule = some Mem.s3Explicit := rfl
    rw [hk] at hr
    cases hr
    decide
  · intro nd hnd
    cases hnd

/-- C2, witness: scenario S3, `foo.o: extra.h` and `%.o: %.c ; cc -c $<` with
`foo.c` and `extra.h` on disk, no slice having spare capacity: the node of
`foo.o` has the command of the pattern rule and the children `foo.c`,
`extra.h`, in this order. -/
theorem explicit_over_implicit_witness :
    Mem.s3Builder.WF ∧ Mem.s3Builder.Tight ∧
    Mem.s3Builder.view.MemoOK ∧ Mem.s3Builder.done "foo.o" = none ∧
    (∀ r ∈ Mem.s3Builder.implicitRules, r.outputPatterns.len = 1) ∧
    Mem.s3Builder.rules "foo.o" = some Mem.s3Explicit ∧ Mem.s3Explicit.cmds.len = 0 ∧
    (Mem.s3Builder.implicitRules.find? (Mem.s3Builder.implicitApplicable s3World "foo.o")).map
      (fun r => r.read Mem.s3Builder.mem) = some ruleFromC ∧
    ∃ n tsvs1 m1 nd,
      Mem.s3Builder.buildPlan s3World 10 "foo.o" Vars.empty = .ok (n, tsvs1, m1) ∧
      m1.nodes[n]? = some nd ∧ nd.Cmds.read m1.mem = ["cc -c $<"] ∧
      List.Forall₂ (fun name c => m1.done name = some c ∧
          ∃ cd, m1.nodes[c]? = some cd ∧ cd.Output = name)
        ["foo.c", "extra.h"] nd.Deps := by
  have hm : Mem.s3Builder.view.MemoOK := memoOK_fresh _ rfl (fun _ => rfl)
  obtain ⟨⟨n, tsvs1, m1⟩, h⟩ := ok_of_errorOf_none
    (Mem.s3Builder.buildPlan s3World 10 "foo.o" Vars.empty) (by decide)
  obtain ⟨I, hI⟩ : ∃ I, Mem.s3Builder.implicitRules.find?
      (Mem.s3Builder.implicitApplicable s3World "foo.o") = some I ∧
      I.read Mem.s3Builder.mem = ruleFromC := by
    refine ⟨{ Mem.s3Pattern with outputPatterns := ⟨5, 1, 1⟩ }, by decide, by decide⟩
  obtain ⟨-, p, nd, hp, k1, k2, k3, -⟩ :=
    explicit_over_implicit s3World 10 "foo.o" Vars.empty Mem.s3Builder
      n tsvs1 m1 Mem.s3Explicit I s3Builder_wf (by decide) hm rfl (by decide) rfl
      (by decide) hI.1 h
  have hpat : I.outputPatterns.read Mem.s3Builder.mem = ["%.o"] :=
    congrArg Rule.outputPatterns hI.2
  have hin : I.inputs.read Mem.s3Builder.mem = ["%.c"] := congrArg Rule.inputs hI.2
  have hcm : I.cmds.read Mem.s3Builder.mem = ["cc -c $<"] := congrArg Rule.cmds hI.2
  rw [hpat] at hp
  obtain rfl : "%.o" = p := by simpa using hp
  rw [hcm] at k2
  rw [hin] at k3
  refine ⟨s3Builder_wf, by decide, hm, rfl, by decide, rfl, by decide, ?_, n, tsvs1, m1, nd,
    h, k1, k2, k3⟩
  rw [hI.1]
  exact congrArg some hI.2

theorem s5Builder_wf : Mem.s5Builder.WF := by
  refine ⟨?_, by decide, ?_, ?_, ?_⟩
  · intro k r hr
    have hk : Mem.s5Builder.rules k = if k = "a" then some Mem.s5Rule else none := rfl
    rw [hk] at hr
    split at hr
    · cases hr
      decide
    · cases hr
  · intro k l hl
    have hk : Mem.s5Builder.suffixRules k = none := rfl
    rw [hk] at hl
    cases hl
  · intro r hr
    have hk : Mem.s5Builder.firstRule = some Mem.s5Rule := rfl
    rw [hk] at hr
    cases hr
    decide
  · intro nd hnd
    cases hnd

/-- C6, witness: scenario S5, `a: b | c ; run`, goal `a`: only `a` has
prerequisites, and they have none. -/
theorem eval_acyclic_witness :
    Mem.s5Builder.WF ∧ Mem.s5Builder.Tight ∧
    Mem.s5Builder.nodes = [] ∧ (∀ name, Mem.s5Builder.done name = none) ∧
    (∀ T, ¬ Relation.TransGen (Mem.s5Builder.view.prereq (Mem.worldOf []).toWorld) T T) ∧
    ∃ roots m1, Mem.s5Builder.Eval (Mem.worldOf []) 10 ["a"] = .ok (roots, m1) ∧
      ∀ n, ¬ Relation.TransGen m1.edge n n := by
  have hacyclic : ∀ T,
      ¬ Relation.TransGen (Mem.s5Builder.view.prereq (Mem.worldOf []).toWorld) T T := by
    apply acyclic_of_rank _ (fun T => if T = "a" then 1 else 0)
    intro T P hTP
    obtain ⟨rule, vars, hsel, hP⟩ := hTP
    by_cases hT : T = "a"
    · subst hT
      have hrule : rule = s5Rule := by
        have h2 : Mem.s5Builder.view.selected (Mem.worldOf []).toWorld "a"
            = (some s5Rule, none, true) := by decide
        rw [h2] at hsel
        cases hsel
        rfl
      subst hrule
      have hPa : P ≠ "a" := by
        rcases hP with ⟨i, hi, hia⟩ | hP
        · have hib : i = "b" := by simpa [s5Rule] using hi
          subst hib
          have h3 : actualInput s5Rule "a" "b" = .ok "b" := rfl
          rw [h3] at hia
          cases hia
          decide
        · have hPc : P = "c" := by simpa [s5Rule] using hP
          subst hPc
          decide
      simp [hPa]
    · have hr : Mem.s5Builder.view.rules T = none := by
        show ((if T = "a" then some Mem.s5Rule else none).map
          fun r => r.read Mem.s5Builder.mem) = none
        rw [if_neg hT]
        rfl
      rw [selected_of_no_rule (Mem.worldOf []).toWorld Mem.s5Builder.view T hr rfl
        (fun _ => rfl)] at hsel
      cases hsel
  obtain ⟨⟨roots, m1⟩, h⟩ := ok_of_errorOf_none
    (Mem.s5Builder.Eval (Mem.worldOf []) 10 ["a"]) (by decide)
  exact ⟨s5Builder_wf, by decide, rfl, fun _ => rfl, hacyclic, roots, m1, h,
    eval_acyclic (Mem.worldOf []) 10 Mem.s5Builder ["a"] roots m1 s5Builder_wf (by decide)
      rfl (fun _ => rfl) hacyclic h⟩

theorem Slice.apart.symm {s t : Slice} (h : s.apart t) : t.apart s := by
  unfold Slice.apart at *
  omega

theorem Grows.andThen {a b c : Memory} (h1 : Grows a b) (h2 : Grows b c) : Grows a c :=
  fun i => Nat.le_trans (h1 i) (h2 i)

theorem Slice.WF.grows {s : Slice} {mem mem1 : Memory} (h : s.WF mem)
    (hg : Grows mem mem1) : s.WF mem1 :=
  ⟨h.1, Nat.le_trans h.2 (hg s.arr)⟩

theorem Slice.WF.arr_lt {s : Slice} {mem : Memory} (h : s.WF mem) :
    s.cap = 0 ∨ s.arr < mem.length := by
  rcases h.cases with h0 | ⟨a, ha, -⟩
  · exact Or.inl h0
  · right
    by_contra hge
    rw [List.getElem?_eq_none (Nat.le_of_not_lt hge)] at ha
    cases ha

theorem Slice.WF.len_zero {s : Slice} {mem : Memory} (h : s.WF mem) (h0 : s.cap = 0) :
    s.len = 0 := Nat.eq_zero_of_le_zero (h0 ▸ h.1)

theorem grows_of_extension {mem mem1 : Memory} (hp : mem <+: mem1) : Grows mem mem1 := by
  obtain ⟨t, rfl⟩ := hp
  intro i
  unfold arrayLen
  by_cases hi : i < mem.length
  · rw [List.getElem?_append_left hi]
  · rw [List.getElem?_eq_none (Nat.le_of_not_lt hi)]
    exact Nat.zero_le _

theorem arrayLen_modify (f : List String → List String) (mem : Memory) (n : Nat)
    (hf : ∀ a, mem[n]? = some a → (f a).length = a.length) (i : Nat) :
    arrayLen (mem.modify f n) i = arrayLen mem i := by
  unfold arrayLen
  by_cases hi : n = i
  · subst hi
    rw [List.getElem?_modify_eq]
    cases ha : mem[n]? with
    | none => rfl
    | some a =>
      show (f a).length = a.length
      exact hf a ha
  · rw [List.getElem?_modify_ne _ _ hi]

theorem Slice.read_modify (t : Slice) (f : List String → List String) (mem : Memory)
    (n : Nat) (hne : t.arr ≠ n) : t.read (mem.modify f n) = t.read mem := by
  unfold Slice.read
  rw [List.getElem?_modify_ne _ _ (Ne.symm hne)]

/-- What `append` does to the memory: no array gets shorter, the result lies
in the memory and holds the old elements followed by the new ones, and a
slice that shares no array with the first argument reads as before and
shares no array with the result. -/
theorem appendSlice_spec (grow : Nat → Nat → Nat) (mem : Memory) (s : Slice)
    (xs : List String) (hs : s.WF mem) (s1 : Slice) (mem1 : Memory)
    (h : appendSlice grow mem s xs = (s1, mem1)) :
    Grows mem mem1 ∧ s1.WF mem1 ∧ s1.read mem1 = s.read mem ++ xs ∧
    ∀ t : Slice, t.WF mem → t.apart s → t.read mem1 = t.read mem ∧ t.apart s1 := by
  have hr := appendSlice_read grow mem s xs hs
  rw [h] at hr
  refine ⟨?_, hr.2, hr.1, ?_⟩
  · unfold appendSlice at h
    by_cases hfit : s.len + xs.length ≤ s.cap
    · simp only [hfit, if_true] at h
      cases h
      intro i
      rw [arrayLen_modify]
      intro a ha
      have h2 := hs.2
      rw [ha] at h2
      simp only [Option.getD_some] at h2
      simp only [List.length_append, List.length_take, List.length_drop]
      omega
    · simp only [hfit, if_false] at h
      cases h
      exact grows_of_extension (List.prefix_append _ _)
  · unfold appendSlice at h
    by_cases hfit : s.len + xs.length ≤ s.cap
    · simp only [hfit, if_true] at h
      cases h
      intro t ht hap
      refine ⟨?_, hap⟩
      rcases hap with h0 | h0 | hne
      · rw [Slice.read_nil_of_len (ht.len_zero h0), Slice.read_nil_of_len (ht.len_zero h0)]
      · have hl := hs.len_zero h0
        have hx : xs = [] := by
          apply List.eq_nil_of_length_eq_zero
          omega
        subst hx
        rw [modify_id_of]
        intro a _
        simp [hl]
      · exact Slice.read_modify t _ mem s.arr hne
    · simp only [hfit, if_false] at h
      cases h
      intro t ht _
      refine ⟨Slice.read_mono ht (List.prefix_append _ _), ?_⟩
      rcases ht.arr_lt with h0 | hlt
      · exact Or.inl h0
      · exact Or.inr (Or.inr (Nat.ne_of_lt hlt))

/-- Appending nothing to a slice changes nothing. -/
theorem appendSlice_nil (grow : Nat → Nat → Nat) (mem : Memory) (s : Slice)
    (hs : s.WF mem) : appendSlice grow mem s [] = (s, mem) := by
  unfold appendSlice
  have h1 := hs.1
  simp only [List.length_nil, Nat.add_zero, h1, if_true, List.append_nil]
  rw [modify_id_of]
  intro a _
  exact List.take_append_drop _ _

/-- What the loop `s[i] = f(s[i])` does to the memory. -/
theorem mapSlice_spec (f : String → String) (s : Slice) (mem : Memory) (hs : s.WF mem) :
    Grows mem (mapSlice f s mem) ∧
    ∀ t : Slice, t.WF mem → t.apart s → t.read (mapSlice f s mem) = t.read mem := by
  unfold mapSlice
  refine ⟨?_, ?_⟩
  · intro i
    rw [arrayLen_modify]
    intro a _
    simp only [List.length_append, List.length_map, List.length_take, List.length_drop]
    omega
  · intro t ht hap
    rcases hap with h0 | h0 | hne
    · rw [Slice.read_nil_of_len (ht.len_zero h0), Slice.read_nil_of_len (ht.len_zero h0)]
    · have hl := hs.len_zero h0
      rw [modify_id_of]
      intro a _
      simp [hl]
    · exact Slice.read_modify t _ mem s.arr hne

/-- The four calls of `append` in `mergeRules`, on four slices that share no
array: the results lie in the memory and share no array, the first holds its
old elements followed by the new ones when all four calls are done, and a
slice that shares no array with the four reads as before and shares no array
with the results. -/
theorem merge_core (grow : Nat → Nat → Nat) (mem : Memory) (sc si so sp : Slice)
    (xc xi xo xp : List String) (c1 i1 o1 p1 : Slice) (m1 m2 m3 m4 : Memory)
    (hsc : sc.WF mem) (hsi : si.WF mem) (hso : so.WF mem) (hsp : sp.WF mem)
    (a1 : sc.apart si) (a2 : sc.apart so) (a3 : sc.apart sp)
    (a4 : si.apart so) (a5 : si.apart sp) (a6 : so.apart sp)
    (hc : appendSlice grow mem sc xc = (c1, m1))
    (hi : appendSlice grow m1 si xi = (i1, m2))
    (ho : appendSlice grow m2 so xo = (o1, m3))
    (hp : appendSlice grow m3 sp xp = (p1, m4)) :
    Grows mem m4 ∧ c1.WF m4 ∧ i1.WF m4 ∧ o1.WF m4 ∧ p1.WF m4 ∧
    c1.read m4 = sc.read mem ++ xc ∧
    c1.apart i1 ∧ c1.apart o1 ∧ c1.apart p1 ∧ i1.apart o1 ∧ i1.apart p1 ∧ o1.apart p1 ∧
    ∀ t : Slice, t.WF mem → t.apart sc → t.apart si → t.apart so → t.apart sp →
      t.read m4 = t.read mem ∧ t.apart c1 ∧ t.apart i1 ∧ t.apart o1 ∧ t.apart p1 := by
  obtain ⟨g1, w1, r1, f1⟩ := appendSlice_spec grow mem sc xc hsc c1 m1 hc
  obtain ⟨g2, w2, -, f2⟩ := appendSlice_spec grow m1 si xi (hsi.grows g1) i1 m2 hi
  obtain ⟨g3, w3, -, f3⟩ :=
    appendSlice_spec grow m2 so xo ((hso.grows g1).grows g2) o1 m3 ho
  obtain ⟨g4, w4, -, f4⟩ :=
    appendSlice_spec grow m3 sp xp (((hsp.grows g1).grows g2).grows g3) p1 m4 hp
  have b1 : c1.apart si := (f1 si hsi a1.symm).2.symm
  have b2 : c1.apart so := (f1 so hso a2.symm).2.symm
  have b3 : c1.apart sp := (f1 sp hsp a3.symm).2.symm
  have b4 : i1.apart so := (f2 so (hso.grows g1) a4.symm).2.symm
  have b5 : i1.apart sp := (f2 sp (hsp.grows g1) a5.symm).2.symm
  have b6 : o1.apart sp := (f3 sp ((hsp.grows g1).grows g2) a6.symm).2.symm
  have c2 := f2 c1 w1 b1
  have c3 := f3 c1 (w1.grows g2) b2
  have c4 := f4 c1 ((w1.grows g2).grows g3) b3
  have i3 := f3 i1 w2 b4
  have i4 := f4 i1 (w2.grows g3) b5
  have o4 := f4 o1 w3 b6
  refine ⟨((g1.andThen g2).andThen g3).andThen g4, ((w1.grows g2).grows g3).grows g4,
    (w2.grows g3).grows g4, w3.grows g4, w4, ?_, c2.2, c3.2, c4.2, i3.2, i4.2, o4.2, ?_⟩
  · rw [c4.1, c3.1, c2.1, r1]
  · intro t ht t1 t2 t3 t4
    have u1 := f1 t ht t1
    have u2 := f2 t (ht.grows g1) t2
    have u3 := f3 t ((ht.grows g1).grows g2) t3
    have u4 := f4 t (((ht.grows g1).grows g2).grows g3) t4
    refine ⟨?_, u1.2, u2.2, u3.2, u4.2⟩
    rw [u4.1, u3.1, u2.1, u1.1]

theorem apart_get {l : List Slice} (h : l.Pairwise Slice.apart) (i j : Nat) {s t : Slice}
    (hi : l[i]? = some s) (hj : l[j]? = some t) (hne : i ≠ j) : s.apart t := by
  rcases Nat.lt_or_gt_of_ne hne with hlt | hgt
  · have hj1 : j < l.length := by
      by_contra hge
      rw [List.getElem?_eq_none (Nat.le_of_not_lt hge)] at hj
      cases hj
    have hi1 : i < l.length := Nat.lt_trans hlt hj1
    have := List.pairwise_iff_getElem.mp h i j hi1 hj1 hlt
    rw [List.getElem?_eq_getElem hi1] at hi
    rw [List.getElem?_eq_getElem hj1] at hj
    cases hi
    cases hj
    exact this
  · have hi1 : i < l.length := by
      by_contra hge
      rw [List.getElem?_eq_none (Nat.le_of_not_lt hge)] at hi
      cases hi
    have hj1 : j < l.length := Nat.lt_trans hgt hi1
    have := List.pairwise_iff_getElem.mp h j i hj1 hi1 hgt
    rw [List.getElem?_eq_getElem hi1] at hi
    rw [List.getElem?_eq_getElem hj1] at hj
    cases hi
    cases hj
    exact this.symm

theorem Mem.Rule.WF.slices {r : Mem.Rule} {mem : Memory} (h : r.WF mem) :
    ∀ s ∈ r.slices, s.WF mem := by
  intro s hs
  simp only [Mem.Rule.slices, List.mem_cons, List.mem_singleton, List.not_mem_nil,
    or_false] at hs
  rcases hs with rfl | rfl | rfl | rfl | rfl
  · exact h.1
  · exact h.2.1
  · exact h.2.2.1
  · exact h.2.2.2.1
  · exact h.2.2.2.2

/-- The merged rule `mergeRules` returns, given its four calls of `append`
on four slices `sc`, `si`, `so`, `sp` of the list `L`, which share no array
with each other and with the outputs of the new rule. -/
theorem merge_finish (grow : Nat → Nat → Nat) (mem : Memory) (x : Mem.Rule)
    (L : List Slice) (sc si so sp : Slice) (xc xi xo xp : List String)
    (c1 i1 o1 p1 : Slice) (m1 m2 m3 m4 : Memory)
    (hc : appendSlice grow mem sc xc = (c1, m1))
    (hi : appendSlice grow m1 si xi = (i1, m2))
    (ho : appendSlice grow m2 so xo = (o1, m3))
    (hp : appendSlice grow m3 sp xp = (p1, m4))
    (hL : ∀ s ∈ L, s.WF mem)
    (msc : sc ∈ L) (msi : si ∈ L) (mso : so ∈ L) (msp : sp ∈ L) (mxo : x.outputs ∈ L)
    (a1 : sc.apart si) (a2 : sc.apart so) (a3 : sc.apart sp)
    (a4 : si.apart so) (a5 : si.apart sp) (a6 : so.apart sp)
    (e1 : x.outputs.apart sc) (e2 : x.outputs.apart si) (e3 : x.outputs.apart so)
    (e4 : x.outputs.apart sp) :
    Grows mem m4 ∧
    Mem.Rule.WF { x with cmds := c1, inputs := i1, orderOnlyInputs := o1,
                         outputPatterns := p1 } m4 ∧
    c1.read m4 = sc.read mem ++ xc ∧
    (Mem.Rule.slices { x with cmds := c1, inputs := i1, orderOnlyInputs := o1,
                              outputPatterns := p1 }).Pairwise Slice.apart ∧
    ∀ t : Slice, t.WF mem → (∀ s ∈ L, t.apart s) →
      t.read m4 = t.read mem ∧
      ∀ s ∈ Mem.Rule.slices { x with cmds := c1, inputs := i1, orderOnlyInputs := o1,
                                     outputPatterns := p1 }, t.apart s := by
  obtain ⟨g, wc, wi, wo, wp, rc, b1, b2, b3, b4, b5, b6, f⟩ :=
    merge_core grow mem sc si so sp xc xi xo xp c1 i1 o1 p1 m1 m2 m3 m4
      (hL sc msc) (hL si msi) (hL so mso) (hL sp msp) a1 a2 a3 a4 a5 a6 hc hi ho hp
  obtain ⟨-, x1, x2, x3, x4⟩ := f x.outputs (hL _ mxo) e1 e2 e3 e4
  refine ⟨g, ⟨(hL _ mxo).grows g, wi, wo, wp, wc⟩, rc, ?_, ?_⟩
  · simp only [Mem.Rule.slices, List.pairwise_cons, List.mem_cons, List.mem_singleton,
      List.not_mem_nil, or_false, forall_eq_or_imp, forall_eq, false_imp_iff,
      implies_true, List.Pairwise.nil, and_true]
    exact ⟨⟨x2, x3, x4, x1⟩, ⟨b4, b5, b1.symm⟩, ⟨b6, b2.symm⟩, b3.symm⟩
  · intro t ht hap
    obtain ⟨r, t1, t2, t3, t4⟩ :=
      f t ht (hap sc msc) (hap si msi) (hap so mso) (hap sp msp)
    refine ⟨r, ?_⟩
    intro s hs
    simp only [Mem.Rule.slices, List.mem_cons, List.mem_singleton, List.not_mem_nil,
      or_false] at hs
    rcases hs with rfl | rfl | rfl | rfl | rfl
    · exact hap _ mxo
    · exact t2
    · exact t3
    · exact t4
    · exact t1

theorem apart_unpack (E x : Mem.Rule) (rest : List Mem.Rule)
    (hap : Mem.Apart (E :: x :: rest)) :
    (E.slices ++ x.slices).Pairwise Slice.apart ∧
    (rest.flatMap Mem.Rule.slices).Pairwise Slice.apart ∧
    ∀ a ∈ E.slices ++ x.slices, ∀ b ∈ rest.flatMap Mem.Rule.slices, a.apart b := by
  unfold Mem.Apart at hap
  rw [List.flatMap_cons, List.flatMap_cons, ← List.append_assoc, List.pairwise_append] at hap
  exact hap

/-- The commands `mergeRules` gives the merged rule, and what it leaves
alone, when no two slices of the rules share an array. -/
theorem mem_mergeRules_spec (grow : Nat → Nat → Nat) (mem : Memory) (E x : Mem.Rule)
    (out : String) (suf : Bool) (rest : List Mem.Rule)
    (hE : E.WF mem) (hx : x.WF mem) (hrest : ∀ y ∈ rest, y.WF mem)
    (hap : Mem.Apart (E :: x :: rest)) (hdc : E.isDoubleColon = x.isDoubleColon) :
    ∃ E1 mem1, Mem.mergeRules grow mem E x out suf = .ok (E1, mem1) ∧
      Grows mem mem1 ∧ E1.WF mem1 ∧ E1.isDoubleColon = x.isDoubleColon ∧
      E1.cmds.read mem1 = (if x.isDoubleColon then E.cmds.read mem ++ x.cmds.read mem
        else if (x.cmds.read mem).isEmpty then E.cmds.read mem else x.cmds.read mem) ∧
      Mem.Apart (E1 :: rest) ∧
      ∀ y ∈ rest, ∀ s ∈ y.slices, s.read mem1 = s.read mem := by
  obtain ⟨hp1, hp2, hp3⟩ := apart_unpack E x rest hap
  have hL : ∀ s ∈ E.slices ++ x.slices, s.WF mem := by
    intro s hs
    rcases List.mem_append.mp hs with h | h
    · exact hE.slices s h
    · exact hx.slices s h
  -- the four calls of `append`
  have key : ∃ (sc : Slice) (xc : List String) (c1 i1 o1 p1 : Slice) (m4 : Memory),
      Mem.mergeRules grow mem E x out suf
        = .ok ({ x with cmds := c1, inputs := i1, orderOnlyInputs := o1,
                        outputPatterns := p1 }, m4) ∧
      sc.read mem ++ xc = (if x.isDoubleColon then E.cmds.read mem ++ x.cmds.read mem
        else if (x.cmds.read mem).isEmpty then E.cmds.read mem else x.cmds.read mem) ∧
      Grows mem m4 ∧
      Mem.Rule.WF { x with cmds := c1, inputs := i1, orderOnlyInputs := o1,
                           outputPatterns := p1 } m4 ∧
      c1.read m4 = sc.read mem ++ xc ∧
      (Mem.Rule.slices { x with cmds := c1, inputs := i1, orderOnlyInputs := o1,
                                outputPatterns := p1 }).Pairwise Slice.apart ∧
      ∀ t : Slice, t.WF mem → (∀ s ∈ E.slices ++ x.slices, t.apart s) →
        t.read m4 = t.read mem ∧
        ∀ s ∈ Mem.Rule.slices { x with cmds := c1, inputs := i1, orderOnlyInputs := o1,
                                       outputPatterns := p1 }, t.apart s := by
    have hne : (E.isDoubleColon != x.isDoubleColon) = false := by rw [hdc]; simp
    have hlx := Slice.read_length hx.2.2.2.2
    have hlE := Slice.read_length hE.2.2.2.2
    by_cases hd : x.isDoubleColon = true
    · have hold : True := trivial
      have hexp : E.cmds.read mem ++ x.cmds.read mem = (if x.isDoubleColon then E.cmds.read mem ++ x.cmds.read mem
          else if (x.cmds.read mem).isEmpty then E.cmds.read mem else x.cmds.read mem) := by
        simp only [hd, if_true]
      cases hc : appendSlice grow mem E.cmds (x.cmds.read mem) with
      | mk c1 m1 =>
        by_cases hcm : x.cmds.len > 0
        · cases hi : appendSlice grow m1 x.inputs (E.inputs.read m1) with
          | mk i1 m2 =>
            cases ho : appendSlice grow m2 x.orderOnlyInputs (E.orderOnlyInputs.read m2) with
            | mk o1 m3 =>
              cases hp : appendSlice grow m3 x.outputPatterns (E.outputPatterns.read m3) with
              | mk p1 m4 =>
                refine ⟨E.cmds, (x.cmds.read mem), c1, i1, o1, p1, m4, ?_, hexp,
                  merge_finish grow mem x (E.slices ++ x.slices) E.cmds x.inputs x.orderOnlyInputs
                    x.outputPatterns _ _ _ _ c1 i1 o1 p1 m1 m2 m3 m4 hc hi ho hp hL
                    (by simp [Mem.Rule.slices]) (by simp [Mem.Rule.slices])
                    (by simp [Mem.Rule.slices]) (by simp [Mem.Rule.slices])
                    (by simp [Mem.Rule.slices])
                    (apart_get hp1 4 6 rfl rfl (by decide))
                    (apart_get hp1 4 7 rfl rfl (by decide))
                    (apart_get hp1 4 8 rfl rfl (by decide))
                    (apart_get hp1 6 7 rfl rfl (by decide))
                    (apart_get hp1 6 8 rfl rfl (by decide))
                    (apart_get hp1 7 8 rfl rfl (by decide))
                    (apart_get hp1 5 4 rfl rfl (by decide))
                    (apart_get hp1 5 6 rfl rfl (by decide))
                    (apart_get hp1 5 7 rfl rfl (by decide))
                    (apart_get hp1 5 8 rfl rfl (by decide))⟩
                unfold Mem.mergeRules
                simp only [hne, hdc, hd, hcm, hold, bne_self_eq_false, Bool.false_eq_true, if_true,
                  if_false, hc, hi, ho, hp, and_true, and_false, and_self, gt_iff_lt, lt_self_iff_false]
        · cases hi : appendSlice grow m1 E.inputs (x.inputs.read m1) with
          | mk i1 m2 =>
            cases ho : appendSlice grow m2 E.orderOnlyInputs (x.orderOnlyInputs.read m2) with
            | mk o1 m3 =>
              cases hp : appendSlice grow m3 x.outputPatterns (E.outputPatterns.read m3) with
              | mk p1 m4 =>
                refine ⟨E.cmds, (x.cmds.read mem), c1, i1, o1, p1, m4, ?_, hexp,
                  merge_finish grow mem x (E.slices ++ x.slices) E.cmds E.inputs E.orderOnlyInputs
                    x.outputPatterns _ _ _ _ c1 i1 o1 p1 m1 m2 m3 m4 hc hi ho hp hL
                    (by simp [Mem.Rule.slices]) (by simp [Mem.Rule.slices])
                    (by simp [Mem.Rule.slices]) (by simp [Mem.Rule.slices])
                    (by simp [Mem.Rule.slices])
                    (apart_get hp1 4 1 rfl rfl (by decide))
                    (apart_get hp1 4 2 rfl rfl (by decide))
                    (apart_get hp1 4 8 rfl rfl (by decide))
                    (apart_get hp1 1 2 rfl rfl (by decide))
                    (apart_get hp1 1 8 rfl rfl (by decide))
                    (apart_get hp1 2 8 rfl rfl (by decide))
                    (apart_get hp1 5 4 rfl rfl (by decide))
                    (apart_get hp1 5 1 rfl rfl (by decide))
                    (apart_get hp1 5 2 rfl rfl (by decide))
                    (apart_get hp1 5 8 rfl rfl (by decide))⟩
                unfold Mem.mergeRules
                simp only [hne, hdc, hd, hcm, hold, bne_self_eq_false, Bool.false_eq_true, if_true,
                  if_false, hc, hi, ho, hp, and_true, and_false, and_self, gt_iff_lt, lt_self_iff_false]
    · by_cases hold : E.cmds.len > 0 ∧ x.cmds.len = 0
      · have hcm : ¬ x.cmds.len > 0 := by omega
        have hc := appendSlice_nil grow mem E.cmds hE.2.2.2.2
        have hexp : E.cmds.read mem ++ [] = (if x.isDoubleColon then E.cmds.read mem ++ x.cmds.read mem
          else if (x.cmds.read mem).isEmpty then E.cmds.read mem else x.cmds.read mem) := by
          have hxe : x.cmds.read mem = [] := List.eq_nil_of_length_eq_zero (by omega)
          simp [hd, hxe]
        cases hi : appendSlice grow mem E.inputs (x.inputs.read mem) with
        | mk i1 m2 =>
          cases ho : appendSlice grow m2 E.orderOnlyInputs (x.orderOnlyInputs.read m2) with
          | mk o1 m3 =>
            cases hp : appendSlice grow m3 x.outputPatterns (E.outputPatterns.read m3) with
            | mk p1 m4 =>
              refine ⟨E.cmds, [], E.cmds, i1, o1, p1, m4, ?_, hexp,
                merge_finish grow mem x (E.slices ++ x.slices) E.cmds E.inputs E.orderOnlyInputs
                  x.outputPatterns _ _ _ _ E.cmds i1 o1 p1 mem m2 m3 m4 hc hi ho hp hL
                  (by simp [Mem.Rule.slices]) (by simp [Mem.Rule.slices])
                  (by simp [Mem.Rule.slices]) (by simp [Mem.Rule.slices])
                  (by simp [Mem.Rule.slices])
                  (apart_get hp1 4 1 rfl rfl (by decide))
                  (apart_get hp1 4 2 rfl rfl (by decide))
                  (apart_get hp1 4 8 rfl rfl (by decide))
                  (apart_get hp1 1 2 rfl rfl (by decide))
                  (apart_get hp1 1 8 rfl rfl (by decide))
                  (apart_get hp1 2 8 rfl rfl (by decide))
                  (apart_get hp1 5 4 rfl rfl (by decide))
                  (apart_get hp1 5 1 rfl rfl (by decide))
                  (apart_get hp1 5 2 rfl rfl (by decide))
                  (apart_get hp1 5 8 rfl rfl (by decide))⟩
              unfold Mem.mergeRules
              simp only [hne, hdc, hd, hcm, hold, bne_self_eq_false, Bool.false_eq_true, if_true,
                if_false, hc, hi, ho, hp, and_true, and_false, and_self, gt_iff_lt, lt_self_iff_false]
      · have hc := appendSlice_nil grow mem x.cmds hx.2.2.2.2
        by_cases hcm : x.cmds.len > 0
        · have hexp : x.cmds.read mem ++ [] = (if x.isDoubleColon then E.cmds.read mem ++ x.cmds.read mem
          else if (x.cmds.read mem).isEmpty then E.cmds.read mem else x.cmds.read mem) := by
            have hxe : (x.cmds.read mem).isEmpty = false := by
              cases hr : x.cmds.read mem with
              | nil => rw [hr] at hlx; simp at hlx; omega
              | cons a l => rfl
            simp [hd, hxe]
          cases hi : appendSlice grow mem x.inputs (E.inputs.read mem) with
          | mk i1 m2 =>
            cases ho : appendSlice grow m2 x.orderOnlyInputs (E.orderOnlyInputs.read m2) with
            | mk o1 m3 =>
              cases hp : appendSlice grow m3 x.outputPatterns (E.outputPatterns.read m3) with
              | mk p1 m4 =>
                refine ⟨x.cmds, [], x.cmds, i1, o1, p1, m4, ?_, hexp,
                  merge_finish grow mem x (E.slices ++ x.slices) x.cmds x.inputs x.orderOnlyInputs
                    x.outputPatterns _ _ _ _ x.cmds i1 o1 p1 mem m2 m3 m4 hc hi ho hp hL
                    (by simp [Mem.Rule.slices]) (by simp [Mem.Rule.slices])
                    (by simp [Mem.Rule.slices]) (by simp [Mem.Rule.slices])
                    (by simp [Mem.Rule.slices])
                    (apart_get hp1 9 6 rfl rfl (by decide))
                    (apart_get hp1 9 7 rfl rfl (by decide))
                    (apart_get hp1 9 8 rfl rfl (by decide))
                    (apart_get hp1 6 7 rfl rfl (by decide))
                    (apart_get hp1 6 8 rfl rfl (by decide))
                    (apart_get hp1 7 8 rfl rfl (by decide))
                    (apart_get hp1 5 9 rfl rfl (by decide))
                    (apart_get hp1 5 6 rfl rfl (by decide))
                    (apart_get hp1 5 7 rfl rfl (by decide))
                    (apart_get hp1 5 8 rfl rfl (by decide))⟩
                unfold Mem.mergeRules
                simp only [hne, hdc, hd, hcm, hold, bne_self_eq_false, Bool.false_eq_true, if_true,
                  if_false, hc, hi, ho, hp, and_true, and_false, and_self, gt_iff_lt, lt_self_iff_false]
        · have hexp : x.cmds.read mem ++ [] = (if x.isDoubleColon then E.cmds.read mem ++ x.cmds.read mem
          else if (x.cmds.read mem).isEmpty then E.cmds.read mem else x.cmds.read mem) := by
            have hxe : x.cmds.read mem = [] := List.eq_nil_of_length_eq_zero (by omega)
            have hEe : E.cmds.read mem = [] := List.eq_nil_of_length_eq_zero (by omega)
            simp [hd, hxe, hEe]
          cases hi : appendSlice grow mem E.inputs (x.inputs.read mem) with
          | mk i1 m2 =>
            cases ho : appendSlice grow m2 E.orderOnlyInputs (x.orderOnlyInputs.read m2) with
            | mk o1 m3 =>
              cases hp : appendSlice grow m3 x.outputPatterns (E.outputPatterns.read m3) with
              | mk p1 m4 =>
                refine ⟨x.cmds, [], x.cmds, i1, o1, p1, m4, ?_, hexp,
                  merge_finish grow mem x (E.slices ++ x.slices) x.cmds E.inputs E.orderOnlyInputs
                    x.outputPatterns _ _ _ _ x.cmds i1 o1 p1 mem m2 m3 m4 hc hi ho hp hL
                    (by simp [Mem.Rule.slices]) (by simp [Mem.Rule.slices])
                    (by simp [Mem.Rule.slices]) (by simp [Mem.Rule.slices])
                    (by simp [Mem.Rule.slices])
                    (apart_get hp1 9 1 rfl rfl (by decide))
                    (apart_get hp1 9 2 rfl rfl (by decide))
                    (apart_get hp1 9 8 rfl rfl (by decide))
                    (apart_get hp1 1 2 rfl rfl (by decide))
                    (apart_get hp1 1 8 rfl rfl (by decide))
                    (apart_get hp1 2 8 rfl rfl (by decide))
                    (apart_get hp1 5 9 rfl rfl (by decide))
                    (apart_get hp1 5 1 rfl rfl (by decide))
                    (apart_get hp1 5 2 rfl rfl (by decide))
                    (apart_get hp1 5 8 rfl rfl (by decide))⟩
                unfold Mem.mergeRules
                simp only [hne, hdc, hd, hcm, hold, bne_self_eq_false, Bool.false_eq_true, if_true,
                  if_false, hc, hi, ho, hp, and_true, and_false, and_self, gt_iff_lt, lt_self_iff_false]
  obtain ⟨sc, xc, c1, i1, o1, p1, m4, heq, hexp, g, wf, rc, pw, f⟩ := key
  refine ⟨_, m4, heq, g, wf, rfl, ?_, ?_, ?_⟩
  · show c1.read m4 = _
    rw [rc, hexp]
  · unfold Mem.Apart
    rw [List.flatMap_cons, List.pairwise_append]
    refine ⟨pw, hp2, ?_⟩
    intro a ha b hb
    obtain ⟨y, hy, hby⟩ := List.mem_flatMap.mp hb
    exact ((f b ((hrest y hy).slices b hby) (fun s hs => (hp3 s hs b hb).symm)).2 a ha).symm
  · intro y hy s hs
    exact (f s ((hrest y hy).slices s hs)
      (fun a ha => (hp3 a ha s (List.mem_flatMap.mpr ⟨y, hy, hs⟩)).symm)).1

theorem mem_populateSuffixRule_spec (m : Mem.DepBuilder) (rule : Mem.Rule) (output : String) :
    (m.populateSuffixRule rule output).2.rules = m.rules ∧
    m.mem <+: (m.populateSuffixRule rule output).2.mem := by
  unfold Mem.DepBuilder.populateSuffixRule
  split
  · split
    · exact ⟨rfl, List.prefix_refl _⟩
    · split
      · exact ⟨rfl, List.prefix_refl _⟩
      · exact ⟨rfl, List.prefix_append _ _⟩
  · exact ⟨rfl, List.prefix_refl _⟩

/-- The two loops that clean the prerequisites of a rule leave every slice
alone that shares no array with them. -/
theorem cleanRule_spec (mw : Mem.World) (x : Mem.Rule) (mem : Memory) (hx : x.WF mem) :
    Grows mem (Mem.cleanRule mw x mem) ∧
    ∀ t : Slice, t.WF mem → t.apart x.inputs → t.apart x.orderOnlyInputs →
      t.read (Mem.cleanRule mw x mem) = t.read mem := by
  unfold Mem.cleanRule
  obtain ⟨g1, f1⟩ := mapSlice_spec mw.clean x.inputs mem hx.2.1
  obtain ⟨g2, f2⟩ := mapSlice_spec mw.clean x.orderOnlyInputs
    (mapSlice mw.clean x.inputs mem) (hx.2.2.1.grows g1)
  refine ⟨g1.andThen g2, ?_⟩
  intro t ht t1 t2
  rw [f2 t (ht.grows g1) t2, f1 t ht t1]

theorem mem_populateRulesLoop_cons (mw : Mem.World) (rule : Mem.Rule)
    (rest : List Mem.Rule) (m : Mem.DepBuilder) :
    Mem.DepBuilder.populateRulesLoop mw (rule :: rest) m =
      match Mem.DepBuilder.populateExplicitRule mw
          { m with mem := Mem.cleanRule mw rule m.mem } rule with
      | .error e => .error e
      | .ok m1 =>
        Mem.DepBuilder.populateRulesLoop mw rest
          (if rule.outputs.len = 0 then m1.populateImplicitRule rule else m1) := rfl

theorem mem_populateExplicitRule_single (mw : Mem.World) (m : Mem.DepBuilder)
    (rule : Mem.Rule) (hl : rule.outputs.len = 1) :
    m.populateExplicitRule mw rule = m.populateOutput mw rule (rule.outputs.get m.mem 0) := by
  unfold Mem.DepBuilder.populateExplicitRule
  rw [hl]
  simp only [Nat.one_ne_zero, if_false]
  show (match m.populateOutput mw rule (rule.outputs.get m.mem 0) with
    | .error e => Except.error e
    | .ok m1 => Mem.DepBuilder.populateOutputs mw rule 0 (0 + 1) m1) = _
  cases m.populateOutput mw rule (rule.outputs.get m.mem 0) <;> rfl

theorem single_output_slice (mw : Mem.World) (x : Mem.Rule) (mem : Memory) (N : String)
    (hx : x.outputs.WF mem) (hout : (x.outputs.read mem).map mw.clean = [N]) :
    x.outputs.len = 1 ∧ mw.clean (x.outputs.get mem 0) = N := by
  have hl : x.outputs.len = 1 := by
    rw [← Slice.read_length hx]
    have := congrArg List.length hout
    simpa using this
  refine ⟨hl, ?_⟩
  rw [Slice.read_single hx hl] at hout
  simpa using hout

/-- One round of the loop of `populateExplicitRule`, for an output that is in
the table already, when no two slices of the rules share an array. -/
theorem mem_populateOutput_present (mw : Mem.World) (m : Mem.DepBuilder) (x E : Mem.Rule)
    (o : String) (rest : List Mem.Rule)
    (hN : m.rules (mw.clean o) = some E) (hE : E.WF m.mem) (hx : x.WF m.mem)
    (hrest : ∀ y ∈ rest, y.WF m.mem) (hap : Mem.Apart (E :: x :: rest))
    (hdc : E.isDoubleColon = x.isDoubleColon) :
    ∃ m1 E1, m.populateOutput mw x o = .ok m1 ∧ m1.rules (mw.clean o) = some E1 ∧
      Grows m.mem m1.mem ∧ E1.WF m1.mem ∧ E1.isDoubleColon = x.isDoubleColon ∧
      E1.cmds.read m1.mem = (if x.isDoubleColon then E.cmds.read m.mem ++ x.cmds.read m.mem
        else if (x.cmds.read m.mem).isEmpty then E.cmds.read m.mem
        else x.cmds.read m.mem) ∧
      Mem.Apart (E1 :: rest) ∧
      ∀ y ∈ rest, ∀ s ∈ y.slices, s.read m1.mem = s.read m.mem := by
  unfold Mem.DepBuilder.populateOutput
  simp only
  obtain ⟨h1, h2⟩ := mem_populateSuffixRule_spec m x (mw.clean o)
  rcases hp : m.populateSuffixRule x (mw.clean o) with ⟨b, ms⟩
  rw [hp] at h1 h2
  simp only at h1 h2 ⊢
  rw [h1, hN]
  simp only
  have hg := grows_of_extension h2
  obtain ⟨E1, mem1, hm, g, wf, hd, hc, ha, hf⟩ :=
    mem_mergeRules_spec mw.growCap ms.mem E x (mw.clean o) b rest (hE.grown h2)
      (hx.grown h2) (fun y hy => (hrest y hy).grown h2) hap hdc
  rw [hm]
  refine ⟨_, E1, rfl, by simp, hg.andThen g, wf, hd, ?_, ha, ?_⟩
  · show E1.cmds.read mem1 = _
    rw [hc, Slice.read_mono hE.2.2.2.2 h2, Slice.read_mono hx.2.2.2.2 h2]
  · intro y hy s hs
    show s.read mem1 = _
    rw [hf y hy s hs, Slice.read_mono ((hrest y hy).slices s hs) h2]

/-- One round of the loop of `populateExplicitRule`, for an output that is
not in the table yet. -/
theorem mem_populateOutput_absent (mw : Mem.World) (m : Mem.DepBuilder) (x : Mem.Rule)
    (o : String) (hN : m.rules (mw.clean o) = none) :
    ∃ m1, m.populateOutput mw x o = .ok m1 ∧ m1.rules (mw.clean o) = some x ∧
      m.mem <+: m1.mem := by
  unfold Mem.DepBuilder.populateOutput
  simp only
  obtain ⟨h1, h2⟩ := mem_populateSuffixRule_spec m x (mw.clean o)
  rcases hp : m.populateSuffixRule x (mw.clean o) with ⟨b, ms⟩
  rw [hp] at h1 h2
  simp only at h1 h2 ⊢
  rw [h1, hN]
  exact ⟨_, rfl, by simp, h2⟩

theorem apart_tail (E : Mem.Rule) (rest : List Mem.Rule) (hap : Mem.Apart (E :: rest)) :
    Mem.Apart rest := by
  unfold Mem.Apart at *
  rw [List.flatMap_cons, List.pairwise_append] at hap
  exact hap.2.1

/-- The reads of the slices of a rule that the cleaning of another rule and
one round for it leave alone. -/
theorem apart_cross (E x : Mem.Rule) (rest : List Mem.Rule)
    (hap : Mem.Apart (E :: x :: rest)) :
    E.cmds.apart x.inputs ∧ E.cmds.apart x.orderOnlyInputs ∧
    x.cmds.apart x.inputs ∧ x.cmds.apart x.orderOnlyInputs ∧
    x.outputs.apart x.inputs ∧ x.outputs.apart x.orderOnlyInputs ∧
    ∀ y ∈ rest, ∀ s ∈ y.slices, s.apart x.inputs ∧ s.apart x.orderOnlyInputs := by
  obtain ⟨hp1, -, hp3⟩ := apart_unpack E x rest hap
  refine ⟨apart_get hp1 4 6 rfl rfl (by decide), apart_get hp1 4 7 rfl rfl (by decide),
    apart_get hp1 9 6 rfl rfl (by decide), apart_get hp1 9 7 rfl rfl (by decide),
    apart_get hp1 5 6 rfl rfl (by decide), apart_get hp1 5 7 rfl rfl (by decide), ?_⟩
  intro y hy s hs
  have hm : s ∈ rest.flatMap Mem.Rule.slices := List.mem_flatMap.mpr ⟨y, hy, hs⟩
  exact ⟨(hp3 x.inputs (by simp [Mem.Rule.slices]) s hm).symm,
    (hp3 x.orderOnlyInputs (by simp [Mem.Rule.slices]) s hm).symm⟩

theorem Mem.Rule.WF.growsAll {r : Mem.Rule} {mem mem1 : Memory} (h : r.WF mem)
    (hg : Grows mem mem1) : r.WF mem1 :=
  ⟨h.1.grows hg, h.2.1.grows hg, h.2.2.1.grows hg, h.2.2.2.1.grows hg, h.2.2.2.2.grows hg⟩

theorem apart_cross_first (x : Mem.Rule) (rest : List Mem.Rule)
    (hap : Mem.Apart (x :: rest)) :
    x.cmds.apart x.inputs ∧ x.cmds.apart x.orderOnlyInputs ∧
    x.outputs.apart x.inputs ∧ x.outputs.apart x.orderOnlyInputs ∧
    ∀ y ∈ rest, ∀ s ∈ y.slices, s.apart x.inputs ∧ s.apart x.orderOnlyInputs := by
  unfold Mem.Apart at hap
  rw [List.flatMap_cons, List.pairwise_append] at hap
  obtain ⟨hp1, -, hp3⟩ := hap
  refine ⟨apart_get hp1 4 1 rfl rfl (by decide), apart_get hp1 4 2 rfl rfl (by decide),
    apart_get hp1 0 1 rfl rfl (by decide), apart_get hp1 0 2 rfl rfl (by decide), ?_⟩
  intro y hy s hs
  have hm : s ∈ rest.flatMap Mem.Rule.slices := List.mem_flatMap.mpr ⟨y, hy, hs⟩
  exact ⟨(hp3 x.inputs (by simp [Mem.Rule.slices]) s hm).symm,
    (hp3 x.orderOnlyInputs (by simp [Mem.Rule.slices]) s hm).symm⟩

/-- Ingesting one more rule for an output that is in the table already. -/
theorem mem_step_present (mw : Mem.World) (m : Mem.DepBuilder) (x : Mem.Rule)
    (rest : List Mem.Rule) (N : String) (E : Mem.Rule)
    (hN : m.rules N = some E) (hE : E.WF m.mem) (hx : x.WF m.mem)
    (hrest : ∀ y ∈ rest, y.WF m.mem) (hap : Mem.Apart (E :: x :: rest))
    (hout : (x.outputs.read m.mem).map mw.clean = [N])
    (hdc : E.isDoubleColon = x.isDoubleColon) :
    ∃ m1 E1, Mem.DepBuilder.populateRulesLoop mw (x :: rest) m =
        Mem.DepBuilder.populateRulesLoop mw rest m1 ∧
      m1.rules N = some E1 ∧ E1.WF m1.mem ∧ (∀ y ∈ rest, y.WF m1.mem) ∧
      Mem.Apart (E1 :: rest) ∧ E1.isDoubleColon = x.isDoubleColon ∧
      E1.cmds.read m1.mem = (if x.isDoubleColon then E.cmds.read m.mem ++ x.cmds.read m.mem
        else if (x.cmds.read m.mem).isEmpty then E.cmds.read m.mem
        else x.cmds.read m.mem) ∧
      ∀ y ∈ rest, y.outputs.read m1.mem = y.outputs.read m.mem ∧
        y.cmds.read m1.mem = y.cmds.read m.mem := by
  obtain ⟨gc, fc⟩ := cleanRule_spec mw x m.mem hx
  obtain ⟨c1, c2, c3, c4, c5, c6, c7⟩ := apart_cross E x rest hap
  have hxo : x.outputs.read (Mem.cleanRule mw x m.mem) = x.outputs.read m.mem :=
    fc _ hx.1 c5 c6
  obtain ⟨hl, hcl⟩ := single_output_slice mw x (Mem.cleanRule mw x m.mem) N
    (hx.1.grows gc) (by rw [hxo]; exact hout)
  subst hcl
  obtain ⟨m1, E1, k1, k2, k3, k4, k5, k6, k7, k8⟩ :=
    mem_populateOutput_present mw { m with mem := Mem.cleanRule mw x m.mem } x E
      (x.outputs.get (Mem.cleanRule mw x m.mem) 0) rest hN (hE.growsAll gc) (hx.growsAll gc)
      (fun y hy => (hrest y hy).growsAll gc) hap hdc
  refine ⟨m1, E1, ?_, k2, k4, fun y hy => ((hrest y hy).growsAll gc).growsAll k3, k7, k5, ?_, ?_⟩
  · rw [mem_populateRulesLoop_cons,
      mem_populateExplicitRule_single mw { m with mem := Mem.cleanRule mw x m.mem } x hl, k1]
    simp [hl]
  · rw [k6]
    show (if x.isDoubleColon then E.cmds.read (Mem.cleanRule mw x m.mem) ++
        x.cmds.read (Mem.cleanRule mw x m.mem)
      else if (x.cmds.read (Mem.cleanRule mw x m.mem)).isEmpty then
        E.cmds.read (Mem.cleanRule mw x m.mem)
      else x.cmds.read (Mem.cleanRule mw x m.mem)) = _
    rw [fc _ hE.2.2.2.2 c1 c2, fc _ hx.2.2.2.2 c3 c4]
  · intro y hy
    have hy1 := k8 y hy y.outputs (by simp [Mem.Rule.slices])
    have hy2 := k8 y hy y.cmds (by simp [Mem.Rule.slices])
    have hy3 := c7 y hy y.outputs (by simp [Mem.Rule.slices])
    have hy4 := c7 y hy y.cmds (by simp [Mem.Rule.slices])
    have hy5 : y.outputs.read (Mem.cleanRule mw x m.mem) = y.outputs.read m.mem :=
      fc _ (hrest y hy).1 hy3.1 hy3.2
    have hy6 : y.cmds.read (Mem.cleanRule mw x m.mem) = y.cmds.read m.mem :=
      fc _ (hrest y hy).2.2.2.2 hy4.1 hy4.2
    exact ⟨hy1.trans hy5, hy2.trans hy6⟩

/-- Ingesting the first rule for an output. -/
theorem mem_step_absent (mw : Mem.World) (m : Mem.DepBuilder) (x : Mem.Rule)
    (rest : List Mem.Rule) (N : String)
    (hN : m.rules N = none) (hx : x.WF m.mem)
    (hrest : ∀ y ∈ rest, y.WF m.mem) (hap : Mem.Apart (x :: rest))
    (hout : (x.outputs.read m.mem).map mw.clean = [N]) :
    ∃ m1, Mem.DepBuilder.populateRulesLoop mw (x :: rest) m =
        Mem.DepBuilder.populateRulesLoop mw rest m1 ∧
      m1.rules N = some x ∧ x.WF m1.mem ∧ (∀ y ∈ rest, y.WF m1.mem) ∧
      x.cmds.read m1.mem = x.cmds.read m.mem ∧
      ∀ y ∈ rest, y.outputs.read m1.mem = y.outputs.read m.mem ∧
        y.cmds.read m1.mem = y.cmds.read m.mem := by
  obtain ⟨gc, fc⟩ := cleanRule_spec mw x m.mem hx
  obtain ⟨c3, c4, c5, c6, c7⟩ := apart_cross_first x rest hap
  have hxo : x.outputs.read (Mem.cleanRule mw x m.mem) = x.outputs.read m.mem :=
    fc _ hx.1 c5 c6
  obtain ⟨hl, hcl⟩ := single_output_slice mw x (Mem.cleanRule mw x m.mem) N
    (hx.1.grows gc) (by rw [hxo]; exact hout)
  subst hcl
  obtain ⟨m1, k1, k2, k3⟩ :=
    mem_populateOutput_absent mw { m with mem := Mem.cleanRule mw x m.mem } x
      (x.outputs.get (Mem.cleanRule mw x m.mem) 0) hN
  have k3' : Mem.cleanRule mw x m.mem <+: m1.mem := k3
  refine ⟨m1, ?_, k2, (hx.growsAll gc).grown k3',
    fun y hy => ((hrest y hy).growsAll gc).grown k3', ?_, ?_⟩
  · rw [mem_populateRulesLoop_cons,
      mem_populateExplicitRule_single mw { m with mem := Mem.cleanRule mw x m.mem } x hl, k1]
    simp [hl]
  · rw [Slice.read_mono (hx.2.2.2.2.grows gc) k3', fc _ hx.2.2.2.2 c3 c4]
  · intro y hy
    have hy3 := c7 y hy y.outputs (by simp [Mem.Rule.slices])
    have hy4 := c7 y hy y.cmds (by simp [Mem.Rule.slices])
    rw [Slice.read_mono ((hrest y hy).1.grows gc) k3',
      Slice.read_mono ((hrest y hy).2.2.2.2.grows gc) k3']
    exact ⟨fc _ (hrest y hy).1 hy3.1 hy3.2, fc _ (hrest y hy).2.2.2.2 hy4.1 hy4.2⟩

theorem allCmds_read_congr (rest : List Mem.Rule) (mem mem1 : Memory)
    (h : ∀ y ∈ rest, y.cmds.read mem1 = y.cmds.read mem) :
    allCmds (rest.map fun y => y.read mem1) = allCmds (rest.map fun y => y.read mem) := by
  induction rest with
  | nil => rfl
  | cons a l ih =>
    simp only [List.map_cons, allCmds_cons]
    rw [ih (fun y hy => h y (List.mem_cons_of_mem _ hy))]
    show a.cmds.read mem1 ++ _ = a.cmds.read mem ++ _
    rw [h a (List.mem_cons_self _ _)]

theorem lastCmds_read_congr (rest : List Mem.Rule) (mem mem1 : Memory)
    (h : ∀ y ∈ rest, y.cmds.read mem1 = y.cmds.read mem) (c0 : List String) :
    lastCmds c0 (rest.map fun y => y.read mem1)
      = lastCmds c0 (rest.map fun y => y.read mem) := by
  induction rest generalizing c0 with
  | nil => rfl
  | cons a l ih =>
    simp only [List.map_cons, lastCmds_cons]
    have ha : (a.read mem1).cmds = (a.read mem).cmds := h a (List.mem_cons_self _ _)
    rw [ha]
    exact ih (fun y hy => h y (List.mem_cons_of_mem _ hy)) _

theorem mem_populateRulesLoop_same_output (mw : Mem.World) (N : String) (dc : Bool)
    (rs : List Mem.Rule) :
    ∀ (m : Mem.DepBuilder) (E : Mem.Rule), m.rules N = some E → E.isDoubleColon = dc →
      E.WF m.mem → (∀ y ∈ rs, y.WF m.mem) → Mem.Apart (E :: rs) →
      (∀ y ∈ rs, (y.outputs.read m.mem).map mw.clean = [N] ∧ y.isDoubleColon = dc) →
      ∃ m1 E1, Mem.DepBuilder.populateRulesLoop mw rs m = .ok m1 ∧
        m1.rules N = some E1 ∧
        E1.cmds.read m1.mem =
          (if dc then E.cmds.read m.mem ++ allCmds (rs.map fun y => y.read m.mem)
           else lastCmds (E.cmds.read m.mem) (rs.map fun y => y.read m.mem)) := by
  induction rs with
  | nil =>
    intro m E hN _ _ _ _ _
    refine ⟨m, E, rfl, hN, ?_⟩
    cases dc <;> simp [allCmds, lastCmds_nil]
  | cons x rest ih =>
    intro m E hN hEdc hE hrs hap hall
    obtain ⟨hout, hdc⟩ := hall x (List.mem_cons_self _ _)
    have hrest : ∀ y ∈ rest, y.WF m.mem := fun y hy => hrs y (List.mem_cons_of_mem _ hy)
    obtain ⟨m1, E1, h1, h2, h3, h4, h5, h6, h7, h8⟩ :=
      mem_step_present mw m x rest N E hN hE (hrs x (List.mem_cons_self _ _)) hrest hap hout
        (hEdc.trans hdc.symm)
    obtain ⟨m2, E2, g1, g2, g3⟩ := ih m1 E1 h2 (h6.trans hdc) h3 h4 h5
      (fun y hy => ⟨by rw [(h8 y hy).1]; exact (hall y (List.mem_cons_of_mem _ hy)).1,
        (hall y (List.mem_cons_of_mem _ hy)).2⟩)
    refine ⟨m2, E2, h1.trans g1, g2, ?_⟩
    rw [g3, h7, hdc, allCmds_read_congr rest m.mem m1.mem (fun y hy => (h8 y hy).2),
      lastCmds_read_congr rest m.mem m1.mem (fun y hy => (h8 y hy).2)]
    simp only [List.map_cons, allCmds_cons, lastCmds_cons]
    have hxc : (x.read m.mem).cmds = x.cmds.read m.mem := rfl
    rw [hxc]
    cases dc
    · simp
    · simp

/-- C10 (amended). Let `r :: rs` be a non-empty sequence of explicit rules
that lie in the memory of the builder, of which no two slices share an array,
each with one output, which cleans to the same name `N`, not yet in the
table, and let the rules agree on `isDoubleColon`. After ingesting them in
order the explicit-table entry for `N` has as commands: for double-colon
rules the concatenation of all the rules' command lists in definition order,
and for single-colon rules the command list of the last rule of the sequence
that has commands, or the empty list if none has. -/
theorem explicit_merge_cmds (mw : Mem.World) (m : Mem.DepBuilder) (N : String) (dc : Bool)
    (r : Mem.Rule) (rs : List Mem.Rule) (ruleVars : String → Option VarList)
    (hN : m.rules N = none)
    (hwf : ∀ x ∈ r :: rs, x.WF m.mem)
    (hapart : Mem.Apart (r :: rs))
    (hall : ∀ x ∈ r :: rs,
      (x.outputs.read m.mem).map mw.clean = [N] ∧ x.isDoubleColon = dc) :
    ∃ m1 E, m.populateRules mw { rules := r :: rs, ruleVars := ruleVars, mem := m.mem }
        = .ok m1 ∧
      m1.rules N = some E ∧
      E.cmds.read m1.mem =
        (if dc then allCmds ((r :: rs).map fun x => x.read m.mem)
         else lastCmds [] ((r :: rs).map fun x => x.read m.mem)) := by
  obtain ⟨hout, hdc⟩ := hall r (List.mem_cons_self _ _)
  have hrs : ∀ y ∈ rs, y.WF m.mem := fun y hy => hwf y (List.mem_cons_of_mem _ hy)
  obtain ⟨m1, h1, h2, h3, h4, h5, h6⟩ :=
    mem_step_absent mw m r rs N hN (hwf r (List.mem_cons_self _ _)) hrs hapart hout
  obtain ⟨m2, E2, g1, g2, g3⟩ := mem_populateRulesLoop_same_output mw N dc rs m1 r h2 hdc
    h3 h4 hapart
    (fun y hy => ⟨by rw [(h6 y hy).1]; exact (hall y (List.mem_cons_of_mem _ hy)).1,
      (hall y (List.mem_cons_of_mem _ hy)).2⟩)
  refine ⟨{ m2 with
      implicitRules := Mem.reverseLoop m2.implicitRules.length 0 m2.implicitRules },
    E2, ?_, g2, ?_⟩
  · unfold Mem.DepBuilder.populateRules
    simp only
    rw [h1, g1]
  · show E2.cmds.read m2.mem = _
    rw [g3, h5, allCmds_read_congr rs m.mem m1.mem (fun y hy => (h6 y hy).2),
      lastCmds_read_congr rs m.mem m1.mem (fun y hy => (h6 y hy).2)]
    simp only [List.map_cons, allCmds_cons, lastCmds_cons]
    have hxc : (r.read m.mem).cmds = r.cmds.read m.mem := rfl
    rw [hxc]
    by_cases he : (r.cmds.read m.mem).isEmpty = true
    · simp only [he, if_true]
      rw [List.isEmpty_iff] at he
      rw [he]
    · simp only [he, Bool.false_eq_true, if_false]

/-- C10, witness: scenario S4, `all:: ; echo A` then `all:: ; echo B`, each
slice in an array of its own: the entry of `all` has the commands `echo A`,
`echo B`. -/
theorem explicit_merge_cmds_witness :
    (∀ x ∈ [Mem.s4First, Mem.s4Second], x.WF s4Memory) ∧
    Mem.Apart [Mem.s4First, Mem.s4Second] ∧
    (∀ x ∈ [Mem.s4First, Mem.s4Second],
      (x.outputs.read s4Memory).map (Mem.worldOf []).clean = ["all"] ∧
      x.isDoubleColon = true) ∧
    ∃ m1 E, Mem.DepBuilder.populateRules (Mem.worldOf []) { mem := s4Memory }
        { rules := [Mem.s4First, Mem.s4Second], mem := s4Memory } = .ok m1 ∧
      m1.rules "all" = some E ∧ E.cmds.read m1.mem = ["echo A", "echo B"] :=
  ⟨by decide, by decide, by decide,
    explicit_merge_cmds (Mem.worldOf []) { mem := s4Memory } "all" true
      Mem.s4First [Mem.s4Second] (fun _ => none) rfl (by decide) (by decide) (by decide)⟩

/-- C10, counterexample: the one rule `x x:: ; A` is a sequence of explicit
rules for the output `x`, and its command list is `A`; after ingesting it the
entry of `x` has the commands `A`, `A`: the loop over the outputs stores the
rule for the first `x` and merges the rule with itself for the second. -/
theorem explicit_merge_cmds_counterexample :
    Mem.twiceRule.WF twiceMemory ∧ Mem.Apart [Mem.twiceRule] ∧
    Mem.twiceRule.isDoubleColon = true ∧
    (Mem.twiceRule.outputs.read twiceMemory).map (Mem.worldOf []).clean = ["x", "x"] ∧
    allCmds ([Mem.twiceRule].map fun x => x.read twiceMemory) = ["A"] ∧
    (valueOf (Mem.NewDepBuilder (Mem.worldOf [])
        { rules := [Mem.twiceRule], mem := twiceMemory } Vars.empty)).map
      (fun m => (m.rules "x").map fun E => E.cmds.read m.mem)
      = some (some ["A", "A"]) := by
  refine ⟨by decide, by decide, rfl, by decide, by decide, by decide⟩

/-- Example: with spare capacity behind the commands of a rule with two
outputs, a merge for one output rewrites the entry of the other. For
`x y:: ; A ; B ; C`, `x:: ; D`, `y:: ; E` the entry of `x` holds `A B C D`
after the second rule, in the array of the first rule; the merge for `y`
writes `E` over `D`, and both entries end with the commands `A B C E`. -/
theorem merge_rewrites_other_entry :
    (valueOf (Mem.NewDepBuilder (Mem.worldOf [])
        { rules := mergedRules.take 2, mem := mergedMemory } Vars.empty)).map
      (fun m => (m.rules "x").map fun E => E.cmds.read m.mem)
      = some (some ["A", "B", "C", "D"]) ∧
    (valueOf (Mem.NewDepBuilder (Mem.worldOf [])
        { rules := mergedRules, mem := mergedMemory } Vars.empty)).map
      (fun m => ((m.rules "x").map fun E => E.cmds.read m.mem,
        (m.rules "y").map fun E => E.cmds.read m.mem))
      = some (some ["A", "B", "C", "E"], some ["A", "B", "C", "E"]) := by
  refine ⟨by decide, by decide⟩

/-- Example: with spare capacity behind the prerequisites of a pattern rule
the plan can have a cycle the rules do not have. Read as lists, the rules of
`loopBuilder` give `foo.o` the children `foo.c`, `foo.h`, `foo.x`, `e1`. In
the memory the request for `bar.o`, made while `foo.x` is planned, writes
`x%y` over `e1`; the fourth round for `foo.o` reads it and plans `xfooy`,
whose rule requests `foo.o`: node 0 has the child 9 and node 9 the child
0. -/
theorem spare_capacity_closes_cycle :
    (valueOf (loopBuilder.view.Eval loopWorld.toWorld 30 ["foo.o"])).map
      (fun r => r.2.nodes.map fun nd => (nd.Output, nd.Deps))
      = some [("foo.o", [1, 2, 3, 9]), ("foo.c", []), ("foo.h", []), ("foo.x", [4]),
              ("bar.o", [5, 6, 7, 8]), ("bar.c", []), ("bar.h", []), ("bar.x", []),
              ("xbary", []), ("e1", [])] ∧
    (valueOf (loopBuilder.Eval loopWorld 30 ["foo.o"])).map
      (fun r => r.2.nodes.map fun nd => (nd.Output, nd.Deps))
      = some [("foo.o", [1, 2, 3, 9]), ("foo.c", []), ("foo.h", []), ("foo.x", [4]),
              ("bar.o", [5, 6, 7, 8]), ("bar.c", []), ("bar.h", []), ("bar.x", []),
              ("xbary", []), ("xfooy", [0])] := by
  refine ⟨by decide, by decide⟩

end Kati
